import Mathlib

/-!
snarl-mw21: alpha-entanglement core.

A shallow embedding of the index arithmetic, the entangler, the lattice and the
canonical Merkle indexing of `relab/snarl-mw21`, with the properties proved about them.

Conventions of the embedding.
* Go `int` values are `Int`; the indices that occur are far below `2^63`, so no wrap-around
  is modelled. Go `%` is the truncated remainder `Int.tmod`.
* A byte slice is a `List Nat`; `^` on bytes is `Nat.xor`.
* A Go run-time panic (slice index out of range) is `none`.
* Values sent on the result channel are returned as a list, in the order they are sent.
-/

namespace Snarl

/-! ## Index arithmetic (`entangler/entangler.go`) -/

/-- Result triple `(r, h, l)` of the neighbour functions. -/
abbrev Triple := Int × Int × Int

/-- Exponent of the float64 spacing at `n`: the least `e` with `n / 2 ^ e < 2 ^ 53`. -/
def spacingExp : Nat → Nat → Nat → Nat
  | 0, _, e => e
  | fuel + 1, n, e => if n / 2 ^ e < 2 ^ 53 then e else spacingExp fuel n (e + 1)

/-- Nearest float64 to a natural number below `2 ^ 1024`: a number below `2 ^ 53` is a
float64; above, the 53 leading bits are kept and the rest is rounded to nearest, a tie to
the even significand. It is the value of `float64(n)`, and of a float64 multiplication or
subtraction whose exact result is `n`. -/
def roundFloat64 (n : Nat) : Nat :=
  let e := spacingExp 1024 n 0
  let q := n / 2 ^ e
  let r := n % 2 ^ e
  if 2 * r < 2 ^ e ∨ (2 * r = 2 ^ e ∧ q % 2 = 0) then q * 2 ^ e else (q + 1) * 2 ^ e

/-- Source expression `int(math.Pow(float64(x), 2))`: the conversion rounds `x`; `math.Pow`
with the exponent 2 multiplies the value by itself once, in float64; the result is a whole
number, which `int` keeps while it is below `2 ^ 63`. -/
def powTwo (x : Int) : Int :=
  (roundFloat64 (roundFloat64 x.natAbs * roundFloat64 x.natAbs) : Nat)

/-- Source expression `int(math.Pow(float64(x), 2) - 1)`: the subtraction is rounded too. -/
def powTwoPred (x : Int) : Int :=
  if powTwo x = 0 then -1 else (roundFloat64 (powTwo x - 1).toNat : Nat)

/-- Source `GetForwardNeighbours`; Go `int` sums and products are taken without overflow. -/
def GetForwardNeighbours (index S P : Int) : Triple :=
  let nodePos := Int.tmod index S
  if nodePos = 1 ∨ nodePos = -4 then
    (index + S + 1, index + S, index + (S * P) - powTwo (S - 1))
  else if nodePos = 0 then
    (index + (S * P) - powTwoPred S, index + S, index + S - 1)
  else
    (index + S + 1, index + S, index + (S - 1))

/-- Source `GetBackwardNeighbours`. -/
def GetBackwardNeighbours (index S P : Int) : Triple :=
  let nodePos := Int.tmod index S
  if nodePos = 1 ∨ nodePos = -4 then
    (index - (S * P) + powTwoPred S, index - S, index - (S - 1))
  else if nodePos = 0 then
    (index - (S + 1), index - S, index - (S * P) + powTwo (S - 1))
  else
    (index - (S + 1), index - S, index - (S - 1))

/-- First `switch` of `GetMemoryPosition`; no case matches gives the zero value. -/
def memSlotR (indx : Int) : Int :=
  if indx = 0 ∨ indx = 1 ∨ indx = 7 ∨ indx = 13 ∨ indx = 19 then 0
  else if indx = 2 ∨ indx = 8 ∨ indx = 14 ∨ indx = 20 ∨ indx = 21 then 4
  else if indx = 3 ∨ indx = 9 ∨ indx = 15 ∨ indx = 16 ∨ indx = 22 then 3
  else if indx = 4 ∨ indx = 10 ∨ indx = 11 ∨ indx = 17 ∨ indx = 23 then 2
  else if indx = 5 ∨ indx = 6 ∨ indx = 12 ∨ indx = 18 ∨ indx = 24 then 1
  else 0

/-- Second `switch` of `GetMemoryPosition`. -/
def memSlotL (indx : Int) : Int :=
  if indx = 1 ∨ indx = 10 ∨ indx = 14 ∨ indx = 18 ∨ indx = 22 then 11
  else if indx = 2 ∨ indx = 6 ∨ indx = 15 ∨ indx = 19 ∨ indx = 23 then 12
  else if indx = 3 ∨ indx = 7 ∨ indx = 11 ∨ indx = 20 ∨ indx = 24 then 13
  else if indx = 0 ∨ indx = 4 ∨ indx = 8 ∨ indx = 12 ∨ indx = 16 then 14
  else if indx = 5 ∨ indx = 9 ∨ indx = 13 ∨ indx = 17 ∨ indx = 21 then 10
  else 0

/-- Source `GetMemoryPosition`. -/
def GetMemoryPosition (index S P : Int) : Triple :=
  let h := Int.tmod (index - 1) S + S
  let indx := Int.tmod index (S * P)
  (memSlotR indx, h, memSlotL indx)

/-- Loop `for ; r > S; r, _, _ = GetBackwardNeighbours(r, S, P) {}` of `GetWrapPosition`,
run for at most `fuel` iterations; `none` when the fuel does not suffice. -/
def wrapLoopR : Nat → Int → Int → Int → Option Int
  | 0, r, S, _ => if r > S then none else some r
  | fuel + 1, r, S, P =>
    if r > S then wrapLoopR fuel (GetBackwardNeighbours r S P).1 S P else some r

/-- Loop `for ; l > S; _, _, l = GetBackwardNeighbours(l, S, P) {}` of `GetWrapPosition`. -/
def wrapLoopL : Nat → Int → Int → Int → Option Int
  | 0, l, S, _ => if l > S then none else some l
  | fuel + 1, l, S, P =>
    if l > S then wrapLoopL fuel (GetBackwardNeighbours l S P).2.2 S P else some l

/-- Source `GetWrapPosition`. Each loop gets `indx` iterations of fuel, which suffices
whenever an iteration lowers the value (as it does for `S = P = 5`). -/
def GetWrapPosition (index S P : Int) : Option Triple :=
  let h0 := Int.tmod index S
  let h := if h0 = 0 then S else h0
  let indx0 := Int.tmod index (S * P)
  let indx := if indx0 = 0 then 25 else indx0
  match wrapLoopR indx.toNat indx S P, wrapLoopL indx.toNat indx S P with
  | some r, some l => some (r, h, l)
  | _, _ => none

/-- Source `GetWrapPositionMaxLen`. -/
def GetWrapPositionMaxLen (index S P maxIndex : Int) : Option Triple :=
  match GetWrapPosition index S P with
  | none => none
  | some (rWrap, hWrap, lWrap) =>
    let (rNext, hNext, lNext) := GetForwardNeighbours index S P
    some (if rNext > maxIndex then rWrap else rNext,
          if hNext > maxIndex then hWrap else hNext,
          if lNext > maxIndex then lWrap else lNext)

/-! ## Byte slices -/

/-- Source `PadByteSlices`: the shorter slice is extended to the length of the longer one,
with zeros, or with the tail of the longer slice when `zeros` is false. -/
def PadByteSlices (a b : List Nat) (zeros : Bool) : List Nat × List Nat :=
  let lenA := a.length
  let lenB := b.length
  if lenA = lenB then (a, b)
  else if lenA < lenB then
    (a ++ (if zeros then List.replicate (lenB - lenA) 0 else b.drop lenA), b)
  else
    (a, b ++ (if zeros then List.replicate (lenA - lenB) 0 else a.drop lenB))

/-- Source `XORByteSlice`. -/
def XORByteSlice (a b : List Nat) : List Nat :=
  let ab := if a.length ≠ b.length then PadByteSlices a b true else (a, b)
  List.zipWith (fun x y => x ^^^ y) ab.1 ab.2

/-! ## Slices indexed by a Go `int` -/

/-- Read `xs[i]`; `none` is the index-out-of-range panic. -/
def getI {α : Type} (xs : List α) (i : Int) : Option α :=
  if i < 0 then none else xs[i.toNat]?

/-- Write `xs[i] = v`; `none` is the index-out-of-range panic. -/
def setI {α : Type} (xs : List α) (i : Int) (v : α) : Option (List α) :=
  if i < 0 then none
  else if i.toNat < xs.length then some (xs.set i.toNat v) else none

/-! ## Entangler (`entangler/entangler.go`) -/

/-- Source `StrandClass`: `Horizontal = 0`, `Right = 1`, `Left = 2`. -/
inductive StrandClass where
  | Horizontal
  | Right
  | Left
  deriving DecidableEq, Repr

/-- The integer value of a strand class. -/
def StrandClass.idx : StrandClass → Nat
  | .Horizontal => 0
  | .Right => 1
  | .Left => 2

/-- Source `StrandClass(k)` for `k` in `0..2`. -/
def StrandClass.ofIdx : Nat → StrandClass
  | 0 => .Horizontal
  | 1 => .Right
  | _ => .Left

/-- Component of an `(r, h, l)` triple that belongs to a class. -/
def Triple.get (t : Triple) : StrandClass → Int
  | .Horizontal => t.2.1
  | .Right => t.1
  | .Left => t.2.2

/-- Source `EntangledBlock`. -/
structure EntangledBlock where
  Size : Nat
  Length : Int
  Data : List Nat
  LeftIndex : Int
  RightIndex : Int
  Class : StrandClass
  Replace : Bool
  deriving DecidableEq, Repr

/-- Source `Entangler`. -/
structure Entangler where
  RightStrands : Int
  P : Int
  LeftStrands : Int
  HorizontalStrands : Int
  S : Int
  Alpha : Int
  ParityMemory : List (List Nat)
  LeftExtremeMemory : List (List Nat)
  NumDataBlocks : Int
  RightExtremeIndex : List Int
  deriving DecidableEq, Repr

/-- Source `NewEntangler`. -/
def NewEntangler (rStrands lStrands hStrands alpha chunkSize : Nat) : Entangler :=
  let totStrands := rStrands + lStrands + hStrands
  let maxStrand := max rStrands hStrands
  { RightStrands := rStrands, P := rStrands, LeftStrands := lStrands,
    HorizontalStrands := hStrands, S := hStrands, Alpha := alpha,
    ParityMemory := List.replicate totStrands (List.replicate chunkSize 0),
    LeftExtremeMemory := List.replicate maxStrand (List.replicate chunkSize 0),
    NumDataBlocks := 0,
    RightExtremeIndex := [] }

/-- Block literal as the entangler writes it: `Size` and `Length` keep their zero value. -/
def mkBlock (data : List Nat) (left right : Int) (cls : StrandClass) (replace : Bool) :
    EntangledBlock :=
  { Size := 0, Length := 0, Data := data, LeftIndex := left, RightIndex := right,
    Class := cls, Replace := replace }

/-- Source `Entangler.Entangle`: the new state and the three blocks sent, in order. -/
def Entangle (e : Entangler) (datachunk : List Nat) (index : Int) :
    Option (Entangler × List EntangledBlock) :=
  let num := if index > e.NumDataBlocks then index else e.NumDataBlocks
  let lemO : Option (List (List Nat)) :=
    if index ≤ (e.LeftExtremeMemory.length : Int) then
      setI e.LeftExtremeMemory (index - 1) datachunk
    else some e.LeftExtremeMemory
  match lemO with
  | none => none
  | some lem =>
    let (r, h, l) := GetMemoryPosition index e.S e.P
    let (rBack, hBack, lBack) := GetBackwardNeighbours index e.S e.P
    match getI e.ParityMemory r, getI e.ParityMemory h, getI e.ParityMemory l with
    | some rParity, some hParity, some lParity =>
      let out := [mkBlock rParity rBack index .Right false,
                  mkBlock hParity hBack index .Horizontal false,
                  mkBlock lParity lBack index .Left false]
      match setI e.ParityMemory r (XORByteSlice datachunk rParity) with
      | none => none
      | some pm1 =>
        match setI pm1 h (XORByteSlice datachunk hParity) with
        | none => none
        | some pm2 =>
          match setI pm2 l (XORByteSlice datachunk lParity) with
          | none => none
          | some pm3 =>
            some ({ e with NumDataBlocks := num, LeftExtremeMemory := lem,
                           ParityMemory := pm3 }, out)
    | _, _, _ => none

/-! ## The default configuration `(S, P) = (5, 5)` -/

/-- Memory slot of class `k` at position `i`. -/
def slot (k : StrandClass) (i : Int) : Int := (GetMemoryPosition i 5 5).get k

/-- Forward neighbour of class `k`. -/
def fwd (k : StrandClass) (i : Int) : Int := (GetForwardNeighbours i 5 5).get k

/-- Backward neighbour of class `k`. -/
def bwd (k : StrandClass) (i : Int) : Int := (GetBackwardNeighbours i 5 5).get k

/-- Distance to the forward neighbour, by residue of the position. -/
def stepOf (k : StrandClass) (a : Int) : Int :=
  match k with
  | .Horizontal => 5
  | .Right => if a % 5 = 0 then 1 else 6
  | .Left => if a % 5 = 1 then 9 else 4

/-- Memory slot by residue of the position modulo 25. -/
def slotTab (k : StrandClass) (a : Int) : Int :=
  match k with
  | .Horizontal => (a + 4) % 5 + 5
  | .Right => memSlotR a
  | .Left => memSlotL a

/-- Position `m` folds its chunk into slot `s`. -/
def usesSlot (m : Int) (s : Int) : Bool :=
  decide (slot .Right m = s ∨ slot .Horizontal m = s ∨ slot .Left m = s)

/-- Content of parity-memory slot `s` after the chunks `d[0], ..., d[i-1]` were entangled
at the positions `1, ..., i`. -/
def pmSpec (c : Nat) (d : List (List Nat)) : Nat → Int → List Nat
  | 0, _ => List.replicate c 0
  | i + 1, s =>
    if usesSlot ((i : Int) + 1) s then XORByteSlice (d.getD i []) (pmSpec c d i s)
    else pmSpec c d i s

/-- The three blocks `Entangle` sends for position `m`. -/
def blocksAt (c : Nat) (d : List (List Nat)) (m : Nat) : List EntangledBlock :=
  [mkBlock (pmSpec c d (m - 1) (slot .Right m)) (bwd .Right m) m .Right false,
   mkBlock (pmSpec c d (m - 1) (slot .Horizontal m)) (bwd .Horizontal m) m .Horizontal false,
   mkBlock (pmSpec c d (m - 1) (slot .Left m)) (bwd .Left m) m .Left false]

/-- The test loop `for i := 0; i < len(input); i++ { Entangle(input[i], i+1, ch) }`,
started at position `index`. -/
def entangleFrom (e : Entangler) : List (List Nat) → Int →
    Option (Entangler × List EntangledBlock)
  | [], _ => some (e, [])
  | x :: xs, index =>
    match Entangle e x index with
    | none => none
    | some (e1, out1) =>
      match entangleFrom e1 xs (index + 1) with
      | none => none
      | some (e2, out2) => some (e2, out1 ++ out2)

/-- State of the entangler of the default configuration after `i` chunks of `d`. -/
def EntInv (c : Nat) (d : List (List Nat)) (i : Nat) (e : Entangler) : Prop :=
  e.S = 5 ∧ e.P = 5 ∧ e.Alpha = 3 ∧ e.ParityMemory.length = 15 ∧
  (∀ s : Nat, s < 15 → e.ParityMemory[s]? = some (pmSpec c d i s)) ∧
  e.LeftExtremeMemory.length = 5 ∧
  (∀ t : Nat, t < 5 → e.LeftExtremeMemory[t]? =
      some (if t < i then d.getD t [] else List.replicate c 0)) ∧
  e.NumDataBlocks = i ∧ e.RightExtremeIndex = []

/-- Blocks sent by the `Entangle` calls for the positions `i + 1, ..., i + k`. -/
def specOut (c : Nat) (d : List (List Nat)) : Nat → Nat → List EntangledBlock
  | _, 0 => []
  | i, k + 1 => blocksAt c d (i + 1) ++ specOut c d (i + 1) k

/-- Loop of `setDatablocksToClose`: `lastIndex` runs down from its start value while
`wraps < maxWraps && lastIndex > 0`; the first argument is `lastIndex`. -/
def closeLoop (e : Entangler) (maxWraps : Int) : Nat → Int → List Int → List Int
  | 0, _, acc => acc
  | last + 1, wraps, acc =>
    if wraps < maxWraps then
      let lastIndex : Int := ((last + 1 : Nat) : Int)
      let (r, h, l) := GetForwardNeighbours lastIndex e.S e.P
      let wraps1 := if r > e.NumDataBlocks then wraps + 1 else wraps
      let wraps2 := if h > e.NumDataBlocks then wraps1 + 1 else wraps1
      let wraps3 := if l > e.NumDataBlocks then wraps2 + 1 else wraps2
      let didWrap : Bool :=
        decide (r > e.NumDataBlocks) || decide (h > e.NumDataBlocks) ||
          decide (l > e.NumDataBlocks)
      let acc1 := if wraps3 > 0 ∧ didWrap = true then acc ++ [lastIndex] else acc
      closeLoop e maxWraps last wraps3 acc1
    else acc

/-- Source `setDatablocksToClose`; `sort.Ints` is an ascending sort. -/
def setDatablocksToClose (e : Entangler) : Entangler :=
  let maxWraps := max e.S e.P * e.Alpha
  { e with RightExtremeIndex :=
      List.insertionSort (fun a b => a ≤ b) (closeLoop e maxWraps e.NumDataBlocks.toNat 0 []) }

/-- Body of one `if xFront > e.NumDataBlocks` branch of `WrapLattice`: the closing parity
and the recomputed first parity of the strand. -/
def wrapOne (e : Entangler) (index slotIdx first second : Int) (cls : StrandClass) :
    Option (List EntangledBlock) :=
  match getI e.ParityMemory slotIdx, getI e.LeftExtremeMemory (first - 1) with
  | some parity, some leftData =>
    some [mkBlock parity index first cls false,
          mkBlock (XORByteSlice leftData parity) first second cls true]
  | _, _ => none

/-- Body of the loop of `WrapLattice` for one right-extreme index. -/
def wrapAt (e : Entangler) (index : Int) : Option (List EntangledBlock) :=
  let (r, h, l) := GetMemoryPosition index e.S e.P
  let (rFront, hFront, lFront) := GetForwardNeighbours index e.S e.P
  match GetWrapPosition index e.S e.P with
  | none => none
  | some (rFirst, hFirst, lFirst) =>
    let outR :=
      if rFront > e.NumDataBlocks then
        wrapOne e index r rFirst (GetForwardNeighbours rFirst e.S e.P).1 .Right
      else some []
    let outH :=
      if hFront > e.NumDataBlocks then
        wrapOne e index h hFirst (GetForwardNeighbours hFirst e.S e.P).2.1 .Horizontal
      else some []
    let outL :=
      if lFront > e.NumDataBlocks then
        wrapOne e index l lFirst (GetForwardNeighbours lFirst e.S e.P).2.2 .Left
      else some []
    match outR, outH, outL with
    | some a, some b, some c => some (a ++ b ++ c)
    | _, _, _ => none

/-- Loop of `WrapLattice` over the right-extreme indices. -/
def wrapAll (e : Entangler) : List Int → Option (List EntangledBlock)
  | [] => some []
  | index :: rest =>
    match wrapAt e index, wrapAll e rest with
    | some a, some b => some (a ++ b)
    | _, _ => none

/-- Source `Entangler.WrapLattice`: the new state and the blocks sent, in order. -/
def WrapLattice (e : Entangler) : Option (Entangler × List EntangledBlock) :=
  let e1 := if e.RightExtremeIndex.length = 0 then setDatablocksToClose e else e
  match wrapAll e1 e1.RightExtremeIndex with
  | none => none
  | some out => some (e1, out)

/-- Loop of `GetReplacedParityIndices`; the map used as a set is a list of its keys. -/
def replacedLoop (e : Entangler) : List Int → Option (List Int)
  | [] => some []
  | index :: rest =>
    let (rFront, hFront, lFront) := GetForwardNeighbours index e.S e.P
    match GetWrapPosition index e.S e.P, replacedLoop e rest with
    | some (rFirst, hFirst, lFirst), some more =>
      some ((if rFront > e.NumDataBlocks then [rFirst] else []) ++
            (if hFront > e.NumDataBlocks then [hFirst] else []) ++
            (if lFront > e.NumDataBlocks then [lFirst] else []) ++ more)
    | _, _ => none

/-- Source `Entangler.GetReplacedParityIndices`: the new state and the keys of the map. -/
def GetReplacedParityIndices (e : Entangler) : Option (Entangler × List Int) :=
  let e1 := if e.RightExtremeIndex.length = 0 then setDatablocksToClose e else e
  match replacedLoop e1 e1.RightExtremeIndex with
  | none => none
  | some keys => some (e1, keys)

/-- Receiver of `TestClosedEntanglement`, the `Replace` branch: the first collected block
with the same `(LeftIndex, RightIndex)` gets the new data and is marked `Replace`. -/
def replaceFirst : List EntangledBlock → EntangledBlock → List EntangledBlock
  | [], _ => []
  | x :: xs, b =>
    if x.LeftIndex = b.LeftIndex ∧ x.RightIndex = b.RightIndex then
      { x with Data := b.Data, Replace := true } :: xs
    else x :: replaceFirst xs b

/-- Receiver of `TestClosedEntanglement` for one block. -/
def collectStep (eb : List EntangledBlock) (b : EntangledBlock) : List EntangledBlock :=
  if b.Replace = true then replaceFirst eb b else eb ++ [b]

/-- `TestClosedEntanglement`: entangle all chunks, wrap the lattice, and collect the blocks
sent as the receiving goroutine does. -/
def closedRun (c : Nat) (d : List (List Nat)) : Option (List EntangledBlock) :=
  match entangleFrom (NewEntangler 5 5 5 3 c) d 1 with
  | none => none
  | some (e1, out1) =>
    match WrapLattice e1 with
    | none => none
    | some (_, out2) => some ((out1 ++ out2).foldl collectStep [])

/-- Wrap position of class `k`; `0` stands for a `GetWrapPosition` that does not return. -/
def wrapPos (k : StrandClass) (i : Int) : Int :=
  match GetWrapPosition i 5 5 with
  | some w => w.get k
  | none => 0

/-- Distance to the backward neighbour, by residue of the position. -/
def backStepOf (k : StrandClass) (a : Int) : Int :=
  match k with
  | .Horizontal => 5
  | .Right => if a % 5 = 1 then 1 else 6
  | .Left => if a % 5 = 0 then 9 else 4

/-- Check used on the 25 residues: `GetWrapPosition` returns a position in `1..5` on the
same strand, for each class. -/
def wrapOk (a : Int) : Bool :=
  match GetWrapPosition a 5 5 with
  | some w =>
    decide (1 ≤ w.1 ∧ w.1 ≤ 5 ∧ 1 ≤ w.2.1 ∧ w.2.1 ≤ 5 ∧ 1 ≤ w.2.2 ∧ w.2.2 ≤ 5 ∧
      slotTab .Right (w.1 % 25) = slotTab .Right (a % 25) ∧
      slotTab .Horizontal (w.2.1 % 25) = slotTab .Horizontal (a % 25) ∧
      slotTab .Left (w.2.2 % 25) = slotTab .Left (a % 25))
  | none => false

/-- One if forward neighbour `k` of position `i` lies beyond `n`, else zero. -/
def extCountK (n : Int) (k : StrandClass) (i : Int) : Int :=
  if fwd k i > n then 1 else 0

/-- Number of positions `1..l` whose forward neighbour of class `k` lies beyond `n`. -/
def extTotalK (n : Int) (k : StrandClass) : Nat → Int
  | 0 => 0
  | l + 1 => extCountK n k ((l + 1 : Nat) : Int) + extTotalK n k l

/-- Number of classes in which position `i` wraps. -/
def extCount (n : Int) (i : Int) : Int :=
  extCountK n .Right i + extCountK n .Horizontal i + extCountK n .Left i

/-- The positions `l, l-1, ..., 1` that wrap in at least one class, in this order. -/
def extList (n : Int) : Nat → List Int
  | 0 => []
  | l + 1 => if extCount n ((l + 1 : Nat) : Int) > 0 then ((l + 1 : Nat) : Int) :: extList n l
             else extList n l

/-- Closing parity that `WrapLattice` sends for the right-extreme position `x` of class `k`,
after `n` chunks. -/
def closingBlock (c : Nat) (d : List (List Nat)) (n : Nat) (k : StrandClass) (x : Int) :
    EntangledBlock :=
  mkBlock (pmSpec c d n (slot k x)) x (wrapPos k x) k false

/-- Recomputed first parity that `WrapLattice` sends together with the closing parity. -/
def replBlock (c : Nat) (d : List (List Nat)) (n : Nat) (k : StrandClass) (x : Int) :
    EntangledBlock :=
  mkBlock (XORByteSlice (d.getD (wrapPos k x - 1).toNat []) (pmSpec c d n (slot k x)))
    (wrapPos k x) (fwd k (wrapPos k x)) k true

/-- The (closing, recomputed) pairs that `WrapLattice` sends for position `x`. -/
def wrapEvents (c : Nat) (d : List (List Nat)) (n : Nat) (x : Int) :
    List (EntangledBlock × EntangledBlock) :=
  (if fwd .Right x > (n : Int) then
      [(closingBlock c d n .Right x, replBlock c d n .Right x)] else []) ++
  (if fwd .Horizontal x > (n : Int) then
      [(closingBlock c d n .Horizontal x, replBlock c d n .Horizontal x)] else []) ++
  (if fwd .Left x > (n : Int) then
      [(closingBlock c d n .Left x, replBlock c d n .Left x)] else [])

/-- The blocks of a list of pairs in the order they are sent. -/
def pairsOut : List (EntangledBlock × EntangledBlock) → List EntangledBlock
  | [] => []
  | p :: ps => p.1 :: p.2 :: pairsOut ps

/-- Two blocks have the same `(LeftIndex, RightIndex)`. -/
def sameKey (x b : EntangledBlock) : Prop :=
  x.LeftIndex = b.LeftIndex ∧ x.RightIndex = b.RightIndex

instance (x b : EntangledBlock) : Decidable (sameKey x b) := by
  unfold sameKey; infer_instance

/-- Overwrite of a collected block by a `Replace` block with the same key. -/
def updBlock (r x : EntangledBlock) : EntangledBlock :=
  if sameKey x r then { x with Data := r.Data, Replace := true } else x

/-- All overwrites of a list of (closing, recomputed) pairs applied to a block, in order. -/
def applyRepl (evs : List (EntangledBlock × EntangledBlock)) (x : EntangledBlock) :
    EntangledBlock :=
  evs.foldl (fun b p => updBlock p.2 b) x

/-- Parity that the closed lattice finally holds for left index `i` and class `k`, after `n`
chunks: the first five left indices carry the recomputed parity, the others the running
parity up to and including position `i`; the right index is the forward neighbour, or the
wrap position when the forward neighbour is beyond `n`. -/
def finalBlock (c : Nat) (d : List (List Nat)) (n : Nat) (k : StrandClass) (i : Nat) :
    EntangledBlock :=
  mkBlock
    (if i ≤ 5 then XORByteSlice (d.getD (i - 1) []) (pmSpec c d n (slot k i))
     else pmSpec c d i (slot k i))
    i
    (if fwd k i ≤ (n : Int) then fwd k i else wrapPos k i)
    k
    (decide (i ≤ 5))

/-- The blocks collected by the receiver of the closed-lattice test after `n` chunks. -/
def closedBlocks (c : Nat) (d : List (List Nat)) (e : Entangler) : List EntangledBlock :=
  (specOut c d 0 d.length).map
      (applyRepl ((setDatablocksToClose e).RightExtremeIndex.flatMap
        (wrapEvents c d d.length))) ++
    ((setDatablocksToClose e).RightExtremeIndex.flatMap (wrapEvents c d d.length)).map
      (fun p => p.1)

/-- Sample input: the 25 one-byte chunks `[1], [2], ..., [25]`. -/
def sampleChunks : List (List Nat) := (List.range 25).map (fun i => [i + 1])

/-! ## Lattice (`entangler/block.go`, `entangler/lattice.go`)

Blocks live in the slice `Lattice.Blocks` and are never removed or reordered, so a
`*Block` is the index of the block in that slice; `none` is the nil pointer. -/

/-- Source `swarmconnector.ChunkMetadata`. -/
structure ChunkMetadata where
  Size : Nat
  Length : Int
  Parent : Int
  Children : List Int
  deriving DecidableEq, Repr

/-- Source `DownloadStatus`. -/
inductive DownloadStatus where
  | NoDownload
  | DownloadPending
  | DownloadSuccess
  | DownloadFailed
  deriving DecidableEq, Repr

/-- Source `RepairStatus`. -/
inductive RepairStatus where
  | NoRepair
  | RepairPending
  | RepairSuccess
  | RepairFailed
  deriving DecidableEq, Repr

/-- Source `timePeriod`. -/
structure timePeriod where
  StartTime : Int
  EndTime : Int
  deriving DecidableEq, Repr

/-- Source `Block`: the embedded `EntangledBlock` fields first. The mutex, the listener
channels `ChangeStatus`, `Identifier` and the memo `RepairPairs` are left out. -/
structure Block where
  Size : Nat
  Length : Int
  Data : List Nat
  LeftIndex : Int
  RightIndex : Int
  Class : StrandClass
  Replace : Bool
  Left : List (Option Nat)
  Right : List (Option Nat)
  Position : Int
  IsParity : Bool
  DownloadStatus : DownloadStatus
  RepairStatus : RepairStatus
  IsUnavailable : Bool
  IsMending : Bool
  DownloadTime : timePeriod
  RepairTime : timePeriod
  Parent : Option Nat
  Children : List Nat
  deriving DecidableEq, Repr

/-- Source `RepairPair`. -/
structure RepairPair where
  Left : Option Nat
  Right : Option Nat
  deriving DecidableEq, Repr

/-- Source `Lattice`; the map `internalNodeShift` is an association list, newest first, and
`RecoverError` is `none` for the nil error. The getter, the context, `DataRootID`, the
locks and the download events are left out. -/
structure Lattice extends Entangler where
  Blocks : List Block
  MissingDataBlocks : Int
  didInit : Bool
  maxDatablockSize : Int
  Size : Nat
  internalNodeShift : List (Int × Int)
  ParityRootID : List (List Nat) := []
  RecoverError : Option String := none
  deriving Repr

/-- A block with every field at its zero value. -/
def zeroBlock : Block :=
  { Size := 0, Length := 0, Data := [], LeftIndex := 0, RightIndex := 0,
    Class := .Horizontal, Replace := false, Left := [], Right := [], Position := 0,
    IsParity := false, DownloadStatus := .NoDownload, RepairStatus := .NoRepair,
    IsUnavailable := false, IsMending := false,
    DownloadTime := { StartTime := 0, EndTime := 0 },
    RepairTime := { StartTime := 0, EndTime := 0 }, Parent := none, Children := [] }

/-- Source `NewLattice`. -/
def NewLattice (alpha s p numDataBlocks : Int) : Lattice :=
  { RightStrands := 0, P := p, LeftStrands := 0, HorizontalStrands := 0, S := s,
    Alpha := alpha, ParityMemory := [], LeftExtremeMemory := [],
    NumDataBlocks := numDataBlocks, RightExtremeIndex := [],
    Blocks := [], MissingDataBlocks := numDataBlocks, didInit := false,
    maxDatablockSize := 1048576, Size := numDataBlocks.toNat, internalNodeShift := [] }

/-- Lookup in the map `internalNodeShift`. -/
def shiftLookup (m : List (Int × Int)) (key : Int) : Option Int :=
  match m.find? (fun kv => kv.1 = key) with
  | some kv => some kv.2
  | none => none

/-- Source `Lattice.GetBlock`: the pointer to the block, `none` for the index panic. -/
def GetBlock (l : Lattice) (canonIndex : Int) : Option Nat :=
  let blockPos := match shiftLookup l.internalNodeShift canonIndex with
    | some shift => shift
    | none => canonIndex
  if 0 ≤ blockPos - 1 ∧ (blockPos - 1).toNat < l.Blocks.length then
    some (blockPos - 1).toNat
  else none

/-- Pointer to `blocks[i]` for a Go `int` index; `none` is the index panic. -/
def ptrI (blocks : List Block) (i : Int) : Option Nat :=
  if 0 ≤ i ∧ i.toNat < blocks.length then some i.toNat else none

/-- Pointers to `blocks[c - 1]` for every child index `c`. -/
def childPtrs (blocks : List Block) : List Int → Option (List Nat)
  | [] => some []
  | ch :: rest =>
    match ptrI blocks (ch - 1), childPtrs blocks rest with
    | some p, some ps => some (p :: ps)
    | _, _ => none

/-- First loop of `createInternalNodeShift`, from index `i` on: the blocks with parent,
children, size and length set, and `internalNodesOrder`. -/
def linkMetadata : List ChunkMetadata → Nat → List Block → Option (List Block × List Nat)
  | [], _, blocks => some (blocks, [])
  | s :: rest, i, blocks =>
    match blocks[i]? with
    | none => none
    | some b =>
      let parentO : Option (Option Nat) :=
        if s.Parent ≠ 0 then (ptrI blocks (s.Parent - 1)).map some else some b.Parent
      let childrenO : Option (List Nat) :=
        if s.Children.length > 0 then childPtrs blocks s.Children else some b.Children
      match parentO, childrenO with
      | some parent, some children =>
        let b1 := { b with Parent := parent, Children := children, Size := s.Size,
                           Length := s.Length }
        match linkMetadata rest (i + 1) (blocks.set i b1) with
        | none => none
        | some (blocks2, order) =>
          some (blocks2,
            if s.Children.length > 0 ∧ s.Parent ≠ 0 then i :: order else order)
      | _, _ => none

/-- Source `Lattice.translateBlocks`. -/
def translateBlocks (l : Lattice) (a b : Int) : Option Lattice :=
  match getI l.Blocks a, getI l.Blocks b with
  | some ba, some bb =>
    let ba1 := { ba with Size := bb.Size, Length := bb.Length, Parent := bb.Parent,
                         Children := bb.Children }
    let bb1 := { bb with Size := ba.Size, Length := ba.Length, Parent := ba.Parent,
                         Children := ba.Children }
    match setI l.Blocks a ba1 with
    | none => none
    | some bs1 =>
      match setI bs1 b bb1 with
      | none => none
      | some bs2 => some { l with Blocks := bs2 }
  | _, _ => none

/-- Inner loop `for j := windowSize; j < l.NumDataBlocks; j += windowSize + l.S` of
`createInternalNodeShift` for the internal node `canInd`, with at most `fuel` iterations
(`none`: a panic, or the fuel did not suffice). -/
def shiftScan (sizeList : List ChunkMetadata) (canInd : Int)
    (lowestChild highestChild windowSize : Int) : Nat → Int → Lattice → Option Lattice
  | 0, j, l => if j < l.NumDataBlocks then none else some l
  | fuel + 1, j, l =>
    if j < l.NumDataBlocks then
      let inWindow : Bool :=
        decide (j + 1 > lowestChild - windowSize ∧ j + 1 < highestChild + windowSize)
      if inWindow then
        shiftScan sizeList canInd lowestChild highestChild windowSize fuel
          (j + (windowSize + l.S)) l
      else
        match getI sizeList j with
        | none => none
        | some sj =>
          if sj.Children.length = 0 then
            if (shiftLookup l.internalNodeShift (canInd + 1)).isSome then
              shiftScan sizeList canInd lowestChild highestChild windowSize fuel
                (j + (windowSize + l.S)) l
            else if (shiftLookup l.internalNodeShift (j + 1)).isSome then
              shiftScan sizeList canInd lowestChild highestChild windowSize fuel
                (j + (windowSize + l.S)) l
            else
              translateBlocks
                { l with internalNodeShift :=
                    (j + 1, canInd + 1) :: (canInd + 1, j + 1) :: l.internalNodeShift }
                canInd j
          else
            shiftScan sizeList canInd lowestChild highestChild windowSize fuel
              (j + (windowSize + l.S)) l
    else some l

/-- Second loop of `createInternalNodeShift` over `internalNodesOrder`; the metadata of
the internal node `canInd` is `sizeList[canInd]`. -/
def shiftLoop (sizeList : List ChunkMetadata) : List Nat → Lattice → Option Lattice
  | [], l => some l
  | canInd :: rest, l =>
    match sizeList[canInd]? with
    | none => none
    | some im =>
      match im.Children.head?, im.Children.getLast? with
      | some lowestChild, some highestChild =>
        match shiftScan sizeList canInd lowestChild highestChild (l.S * l.P)
            l.NumDataBlocks.toNat (l.S * l.P) l with
        | none => none
        | some l1 => shiftLoop sizeList rest l1
      | _, _ => none

/-- Source `Lattice.createInternalNodeShift`. -/
def createInternalNodeShift (l : Lattice) (sizeList : List ChunkMetadata) : Option Lattice :=
  match linkMetadata sizeList 0 l.Blocks with
  | none => none
  | some (blocks, order) =>
    shiftLoop sizeList order { l with Blocks := blocks, internalNodeShift := [] }

/-- Data block created by `RunInit` for index `i`. -/
def newDataBlock (alpha : Int) (i : Nat) : Block :=
  { zeroBlock with Position := (i : Int) + 1, IsParity := false,
                   Left := List.replicate alpha.toNat none,
                   Right := List.replicate alpha.toNat none }

/-- Body of the loop over `k` in `RunInit` for the data block `i`: the parity block of
class `k` is created, linked and appended. The state carries `wrap` and `newWrap`. -/
def parityStep (replaced : List Int) (next : List Int) (i k : Nat)
    (st : Lattice × List Int × Bool) : Option (Lattice × List Int × Bool) :=
  let l := st.1
  let position : Int := (i : Int) + 1
  match l.Blocks[i]? with
  | none => none
  | some leftData =>
    let self := l.Blocks.length
    let b0 : Block :=
      { zeroBlock with Class := StrandClass.ofIdx k, Position := position, IsParity := true,
                       Replace := decide (position ∈ replaced),
                       Left := [some i], LeftIndex := leftData.Position }
    match setI leftData.Right (k : Int) (some self) with
    | none => none
    | some right1 =>
      let blocks1 := l.Blocks.set i { leftData with Right := right1 }
      match getI next (k : Int) with
      | none => none
      | some nxt0 =>
        let wrapO : Option (List Int × Bool) :=
          if nxt0 > l.NumDataBlocks then
            if st.2.2 = false then
              match GetWrapPosition position l.S l.P with
              | none => none
              | some (wr, wh, wl) =>
                match setI st.2.1 1 wr with
                | none => none
                | some w1 =>
                  match setI w1 0 wh with
                  | none => none
                  | some w2 => (setI w2 2 wl).map (fun w3 => (w3, true))
            else some (st.2.1, true)
          else some (st.2.1, st.2.2)
        match wrapO with
        | none => none
        | some (wrap, newWrap) =>
          let nxtO : Option Int := if nxt0 > l.NumDataBlocks then getI wrap (k : Int) else some nxt0
          match nxtO with
          | none => none
          | some nxt1 =>
            let nxt := nxt1 - 1
            if nxt ≥ (blocks1.length : Int) ∨ nxt < 0 then none
            else
              match blocks1[nxt.toNat]? with
              | none => none
              | some rightData =>
                match setI rightData.Left (k : Int) (some self) with
                | none => none
                | some left1 =>
                  let b : Block := { b0 with Right := [some nxt.toNat],
                                             RightIndex := rightData.Position }
                  let blocks2 := blocks1.set nxt.toNat { rightData with Left := left1 }
                  some ({ l with Blocks := blocks2 ++ [b] }, wrap, newWrap)

/-- Loop `for k := 0; k < l.Alpha; k++` of `RunInit`, from `k` on, `cnt` iterations. -/
def parityClasses (replaced : List Int) (next : List Int) (i : Nat) :
    Nat → Nat → Lattice × List Int × Bool → Option (Lattice × List Int × Bool)
  | 0, _, st => some st
  | cnt + 1, k, st =>
    match parityStep replaced next i k st with
    | none => none
    | some st1 => parityClasses replaced next i cnt (k + 1) st1

/-- Loop `for i := 0; i < l.NumDataBlocks; i++` of `RunInit`, from `i` on, `cnt`
iterations; the state carries `next` and `wrap`. -/
def parityLoop (replaced : List Int) :
    Nat → Nat → Lattice × List Int × List Int → Option (Lattice × List Int × List Int)
  | 0, _, st => some st
  | cnt + 1, i, (l, next, wrap) =>
    let (fr, fh, fl) := GetForwardNeighbours ((i : Int) + 1) l.S l.P
    match setI next 1 fr with
    | none => none
    | some n1 =>
      match setI n1 0 fh with
      | none => none
      | some n2 =>
        match setI n2 2 fl with
        | none => none
        | some n3 =>
          match parityClasses replaced n3 i l.Alpha.toNat 0 (l, wrap, false) with
          | none => none
          | some (l1, wrap1, _) => parityLoop replaced cnt (i + 1) (l1, n3, wrap1)

/-- Source `Lattice.RunInit`. The result of `swarmconnector.GenerateChunkMetadata(l.Size)`
is the argument `sizeList`; `none` is a panic or a `log.Fatal`. -/
def RunInit (l : Lattice) (sizeList : List ChunkMetadata) : Option Lattice :=
  if l.didInit then some l
  else
    let num : Int := if l.NumDataBlocks = 0 then (sizeList.length : Int) else l.NumDataBlocks
    if num * l.Alpha < 0 then none
    else
      let l1 : Lattice :=
        { l with NumDataBlocks := num, MissingDataBlocks := num,
                 Blocks := (List.range num.toNat).map (newDataBlock l.Alpha) }
      match createInternalNodeShift l1 sizeList with
      | none => none
      | some l2 =>
        match GetReplacedParityIndices l2.toEntangler with
        | none => none
        | some (e3, replaced) =>
          let l3 : Lattice := { l2 with toEntangler := e3 }
          if l3.Alpha < 0 then none
          else
            match parityLoop replaced l3.NumDataBlocks.toNat 0
                (l3, List.replicate l3.Alpha.toNat 0, List.replicate l3.Alpha.toNat 0) with
            | none => none
            | some (l4, _, _) => some { l4 with didInit := true }

/-- Dereference of a block pointer; `none` is the nil-pointer panic. -/
def deref (l : Lattice) (p : Option Nat) : Option Block :=
  match p with
  | none => none
  | some i => l.Blocks[i]?

/-- Step `if l.Replace { l = l.Left[0] }` of `GetRepairPairs`. -/
def skipReplaced (l : Lattice) (p : Option Nat) : Option (Option Nat) :=
  match deref l p with
  | none => none
  | some lb => if lb.Replace then lb.Left[0]? else some p

/-- Loop over the classes of a data block in `GetRepairPairs`, from class `i` on: the
pairs of the first `len(b.Left)` slots and the appended pairs. -/
def dataPairs (l : Lattice) (b : Block) : Nat → Nat → Option (List RepairPair × List RepairPair)
  | 0, _ => some ([], [])
  | cnt + 1, i =>
    match b.Left[i]?, b.Right[i]? with
    | some lp, some rp =>
      match skipReplaced l lp, deref l rp, dataPairs l b cnt (i + 1) with
      | some lp1, some rb, some (main, extra) =>
        if rb.Replace then
          match rb.Right[0]? with
          | none => none
          | some rr =>
            match deref l rr with
            | none => none
            | some rrb =>
              match rrb.Right[i]? with
              | none => none
              | some rrr =>
                some ({ Left := lp1, Right := rp } :: main,
                      { Left := rr, Right := rrr } :: extra)
        else some ({ Left := lp1, Right := rp } :: main, extra)
      | _, _, _ => none
    | _, _ => none

/-- Source `Block.GetRepairPairs` for the block at pointer `bi` (the memo field
`RepairPairs` holds this same value once computed). -/
def GetRepairPairs (l : Lattice) (bi : Nat) : Option (List RepairPair) :=
  match l.Blocks[bi]? with
  | none => none
  | some b =>
    if b.IsParity then
      match b.Left[0]? with
      | none => none
      | some left0 =>
        match deref l left0 with
        | none => none
        | some lb =>
          match lb.Left[b.Class.idx]? with
          | none => none
          | some lp =>
            match skipReplaced l lp with
            | none => none
            | some lp1 =>
              if b.Replace = false then
                match b.Right[0]? with
                | none => none
                | some right0 =>
                  match deref l right0 with
                  | none => none
                  | some rb =>
                    match rb.Right[b.Class.idx]? with
                    | none => none
                    | some rr =>
                      some [{ Left := lp1, Right := left0 }, { Left := right0, Right := rr }]
              else some [{ Left := lp1, Right := left0 }]
    else
      match dataPairs l b b.Left.length 0 with
      | none => none
      | some (main, extra) => some (main ++ extra)

/-- A block without the Merkle metadata that `createInternalNodeShift` writes. -/
def linkView (b : Block) : Block :=
  { b with Size := 0, Length := 0, Parent := none, Children := [] }

/-- Metadata that `createInternalNodeShift` accepts for `n` data blocks: at most `n`
entries, parent and child indices within `1..n`, and one entry per data block unless no
entry is a non-root internal node. -/
def MetaWF (n : Nat) (sizeList : List ChunkMetadata) : Prop :=
  sizeList.length ≤ n ∧
  (∀ s ∈ sizeList, (s.Parent = 0 ∨ (1 ≤ s.Parent ∧ s.Parent ≤ (n : Int))) ∧
    ∀ ch ∈ s.Children, 1 ≤ ch ∧ ch ≤ (n : Int)) ∧
  (sizeList.length = n ∨ ∀ s ∈ sizeList, ¬ (s.Children.length > 0 ∧ s.Parent ≠ 0))

/-- Right neighbour of position `p` in class `k` for `n` data blocks: the forward
neighbour, or the wrap position when the forward neighbour is beyond `n`. -/
def nextPos (n : Nat) (k : StrandClass) (p : Int) : Int :=
  if fwd k p ≤ (n : Int) then fwd k p else wrapPos k p

/-- Parity block that `RunInit` creates for the data block `j` and class `k`. -/
def parityBlockSpec (n : Nat) (replaced : List Int) (j k : Nat) : Block :=
  { zeroBlock with
      Class := StrandClass.ofIdx k, Position := (j : Int) + 1, IsParity := true,
      Replace := decide ((j : Int) + 1 ∈ replaced),
      Left := [some j], LeftIndex := (j : Int) + 1,
      Right := [some (nextPos n (StrandClass.ofIdx k) ((j : Int) + 1) - 1).toNat],
      RightIndex := nextPos n (StrandClass.ofIdx k) ((j : Int) + 1) }

/-- State of the blocks of `RunInit` after `t` parity blocks were appended: the parity of
data block `j` and class `k` is the block number `3 * j + k`. -/
def LInv (n t : Nat) (replaced : List Int) (blocks : List Block) : Prop :=
  blocks.length = n + t ∧
  (∀ idx, idx < n → ∃ b, blocks[idx]? = some b ∧ b.IsParity = false ∧
      b.Position = (idx : Int) + 1 ∧ b.Left.length = 3 ∧ b.Right.length = 3 ∧
      (∀ k, k < 3 → b.Right[k]? =
        some (if 3 * idx + k < t then some (n + 3 * idx + k) else none)) ∧
      (∀ k p, k < 3 → b.Left[k]? = some (some p) →
        ∃ j, j < n ∧ p = n + 3 * j + k ∧ 3 * j + k < t ∧
          nextPos n (StrandClass.ofIdx k) ((j : Int) + 1) = (idx : Int) + 1) ∧
      (∀ k j, k < 3 → j < n → 3 * j + k < t →
        nextPos n (StrandClass.ofIdx k) ((j : Int) + 1) = (idx : Int) + 1 →
        ∃ p, b.Left[k]? = some (some p))) ∧
  (∀ j k, k < 3 → 3 * j + k < t →
    blocks[n + 3 * j + k]? = some (parityBlockSpec n replaced j k))

/-- Payload that the collected blocks `eb` hold for class `k` and left index `i`: the data
of the last collected block with that class and left index (what step 6 of
`TestSwarmEntanglerWithLattice` writes at offset `i - 1` of the file of class `k`). -/
def payloadOf (eb : List EntangledBlock) (k : StrandClass) (i : Int) : List Nat :=
  match (eb.filter (fun b => decide (b.Class = k ∧ b.LeftIndex = i))).getLast? with
  | some b => b.Data
  | none => []

/-- A lattice block loaded with its payload: data block `i` holds the chunk `d[i - 1]`, the
parity at position `i` of class `k` holds the payload of left index `i` of class `k`. -/
def loadBlock (d : List (List Nat)) (eb : List EntangledBlock) (b : Block) : Block :=
  { b with Data := if b.IsParity then payloadOf eb b.Class b.Position
                   else d.getD (b.Position - 1).toNat [] }

/-- The lattice with every block loaded. -/
def loadLattice (d : List (List Nat)) (eb : List EntangledBlock) (l : Lattice) : Lattice :=
  { l with Blocks := l.Blocks.map (loadBlock d eb) }

/-! ## Block state (`entangler/block.go`)

`time.Now().UnixNano()` is the argument `now`. A `none` result is a run-time panic. -/

/-- Source `binary.LittleEndian.PutUint64(buf, v)`: the first eight bytes are overwritten;
`none` is the panic on a buffer shorter than eight bytes. -/
def putUint64 (buf : List Nat) (v : Nat) : Option (List Nat) :=
  if buf.length < 8 then none
  else some ((List.range 8).map (fun i => (v / 256 ^ i) % 256) ++ buf.drop 8)

/-- Source `Block.HasData` on a non-nil block: `len(b.Data) > ChunkSizeOffset`. -/
def Block.HasData (b : Block) : Bool := decide (b.Data.length > 8)

/-- Source `Block.HasData` through a pointer: `false` on nil. -/
def ptrHasData (p : Option Block) : Bool :=
  match p with
  | none => false
  | some b => b.HasData

/-- Source `Block.SetData`; `data = none` is the nil slice. The result is the block and the
returned flag. -/
def Block.SetData (b : Block) (data : Option (List Nat)) (start endT : Int)
    (retrieveStatus : Snarl.DownloadStatus) (repairStatus : Snarl.RepairStatus) :
    Option (Block × Bool) :=
  if b.HasData then some (b, false)
  else
    let dataO : Option (List Nat) :=
      match data with
      | none => some b.Data
      | some dt =>
        if b.Length ≠ 0 then
          match putUint64 dt b.Size with
          | none => none
          | some d1 =>
            if 0 ≤ b.Length ∧ b.Length.toNat ≤ d1.length then some (d1.take b.Length.toNat)
            else none
        else some dt
    match dataO with
    | none => none
    | some d2 =>
      let b1 : Block := { b with Data := d2 }
      let b2 : Block :=
        if retrieveStatus ≠ .NoDownload then
          { b1 with
              DownloadStatus := retrieveStatus,
              DownloadTime :=
                { StartTime := if start ≠ 0 then start else b1.DownloadTime.StartTime,
                  EndTime := if endT ≠ 0 then endT else b1.DownloadTime.EndTime } }
        else b1
      let b3 : Block :=
        if repairStatus ≠ .NoRepair then
          { b2 with
              RepairStatus := repairStatus,
              RepairTime :=
                { StartTime := if start ≠ 0 then start else b2.RepairTime.StartTime,
                  EndTime := if endT ≠ 0 then endT else b2.RepairTime.EndTime } }
        else b2
      some (b3, true)

/-- Source `Block.DownloadPending`. -/
def Block.DownloadPending (b : Block) (now : Int) : Option (Block × Bool) :=
  b.SetData none now 0 .DownloadPending .NoRepair

/-- Source `Block.DownloadFailed`. -/
def Block.DownloadFailed (b : Block) (now : Int) : Option (Block × Bool) :=
  b.SetData none 0 now .DownloadFailed .NoRepair

/-- Source `Block.DownloadSuccess`. -/
def Block.DownloadSuccess (b : Block) (data : Option (List Nat)) (now : Int) :
    Option (Block × Bool) :=
  b.SetData data 0 now .DownloadSuccess .NoRepair

/-- Source `Block.RepairPending`. -/
def Block.RepairPending (b : Block) (now : Int) : Option (Block × Bool) :=
  if b.RepairStatus = .RepairPending then some (b, false)
  else b.SetData none now 0 .NoDownload .RepairPending

/-- Source `Block.RepairFailed`. -/
def Block.RepairFailed (b : Block) (now : Int) : Option (Block × Bool) :=
  b.SetData none 0 now .NoDownload .RepairFailed

/-- Source `Block.RepairSuccess`. -/
def Block.RepairSuccess (b : Block) (data : Option (List Nat)) (now : Int) :
    Option (Block × Bool) :=
  b.SetData data 0 now .NoDownload .RepairSuccess

/-- Source `Block.Repair`: the block afterwards and the returned error (`none` is `nil`). -/
def Block.Repair (b : Block) (v w : Option Block) (now : Int) :
    Option (Block × Option String) :=
  if (!ptrHasData v || !ptrHasData w) = true then some (b, some "Missing data")
  else
    match v, w with
    | some vb, some wb =>
      match b.RepairSuccess (some (XORByteSlice vb.Data wb.Data)) now with
      | none => none
      | some (b1, ok) =>
        if ok = false then some (b1, some "Block already have data") else some (b1, none)
    | _, _ => none

/-- Body of the loop of `Lattice.ResetRepairStatus` for one block. -/
def resetRepairStatus (b : Block) : Block :=
  if b.RepairStatus = .RepairFailed ∨ b.RepairStatus = .RepairPending then
    { b with RepairStatus := .NoRepair }
  else b

/-- The integer value of a `DownloadStatus`. -/
def DownloadStatus.toNat : DownloadStatus → Nat
  | .NoDownload => 0
  | .DownloadPending => 1
  | .DownloadSuccess => 2
  | .DownloadFailed => 3

/-- The integer value of a `RepairStatus`. -/
def RepairStatus.toNat : RepairStatus → Nat
  | .NoRepair => 0
  | .RepairPending => 1
  | .RepairSuccess => 2
  | .RepairFailed => 3

/-- Source `BlockStatus`, a `uint8`. -/
abbrev BlockStatus := Nat

/-- Source `Set`: `BlockStatus(rs)<<2 + BlockStatus(ds)` in `uint8` arithmetic. -/
def Set (ds : DownloadStatus) (rs : RepairStatus) : BlockStatus :=
  (((rs.toNat % 256) <<< 2) % 256 + ds.toNat % 256) % 256

/-- Source `BlockStatus.HasData`. -/
def BlockStatus.HasData (bs : BlockStatus) : Bool :=
  let ds := bs &&& 3
  let rs := (bs &&& 12) >>> 2
  decide (ds = DownloadStatus.DownloadSuccess.toNat ∨ rs = RepairStatus.RepairSuccess.toNat)

/-- Receiver of `handleEntangleBlocks` (`cmd/entangle.go`) for one block: blocks with
`LeftIndex < 1` are skipped, a `Replace` block overwrites the first collected block with
the same `(LeftIndex, RightIndex)`, any other block is appended. -/
def handleStep (eb : List EntangledBlock) (b : EntangledBlock) : List EntangledBlock :=
  if b.LeftIndex < 1 then eb
  else if b.Replace = true then replaceFirst eb b
  else eb ++ [b]

/-- `handleEntangleBlocks` up to the files: entangle all chunks, wrap the lattice, and
collect the blocks. -/
def handleRun (c : Nat) (d : List (List Nat)) : Option (List EntangledBlock) :=
  match entangleFrom (NewEntangler 5 5 5 3 c) d 1 with
  | none => none
  | some (e1, out1) =>
    match WrapLattice e1 with
    | none => none
    | some (_, out2) => some ((out1 ++ out2).foldl handleStep [])

/-- The blocks `handleRun` keeps after the chunks of `d`. -/
def keptBlocks (c : Nat) (d : List (List Nat)) (e : Entangler) : List EntangledBlock :=
  ((specOut c d 0 d.length).filter (fun b => decide (1 ≤ b.LeftIndex))).map
      (applyRepl ((setDatablocksToClose e).RightExtremeIndex.flatMap
        (wrapEvents c d d.length))) ++
    ((setDatablocksToClose e).RightExtremeIndex.flatMap (wrapEvents c d d.length)).map
      (fun p => p.1)

/-! ## Canonical index of the root (`swarmconnector/treesize_funcs.go`, `chunkwalker.go`)

`chunk.DefaultSize` is 4096 and `chunk.AddressLength` is 32, so `ChunkMaxBranch` is 128.
`treeDepth(leaves)` is `log(leaves) / log(128)` as a float together with its integer part;
the logarithm is taken as exact, and a depth is represented by the number of leaves it is
the logarithm of: `depth >= 1` is `leaves >= 128`, `depth < 0` is `leaves = 0` and
`depth == float64(floorDepth)` says that `leaves` is a power of 128. -/

/-- Source constant `chunk.DefaultSize`. -/
def ChunkSize : Nat := 4096

/-- Source constant `ChunkMaxBranch`. -/
def ChunkMaxBranch : Int := 128

/-- Source `leavesAt`. -/
def leavesAt (depth : Int) : Int :=
  if depth = 1 then 128
  else if depth = 2 then 128 ^ 2
  else if depth = 3 then 128 ^ 3
  else if depth = 4 then 128 ^ 4
  else if depth = 5 then 128 ^ 5
  else if depth = 6 then 128 ^ 6
  else 0

/-- Source `indexAt`: `Index_d = 1 + 128 + ... + 128^d`. -/
def indexAt (depth : Int) : Int :=
  if depth = 1 then 1 + 128
  else if depth = 2 then 1 + 128 + 128 ^ 2
  else if depth = 3 then 1 + 128 + 128 ^ 2 + 128 ^ 3
  else if depth = 4 then 1 + 128 + 128 ^ 2 + 128 ^ 3 + 128 ^ 4
  else if depth = 5 then 1 + 128 + 128 ^ 2 + 128 ^ 3 + 128 ^ 4 + 128 ^ 5
  else if depth = 6 then 1 + 128 + 128 ^ 2 + 128 ^ 3 + 128 ^ 4 + 128 ^ 5 + 128 ^ 6
  else 0

/-- Integer part of `treeDepth(leaves)` for a Go `int` number of leaves; the conversion of
`-Inf` for `leaves = 0` is the smallest `int`. -/
def floorDepth (leaves : Int) : Int :=
  if leaves ≤ 0 then -9223372036854775808
  else if leaves < 128 then 0
  else if leaves < 128 ^ 2 then 1
  else if leaves < 128 ^ 3 then 2
  else if leaves < 128 ^ 4 then 3
  else if leaves < 128 ^ 5 then 4
  else if leaves < 128 ^ 6 then 5
  else if leaves < 128 ^ 7 then 6
  else if leaves < 128 ^ 8 then 7
  else 8

/-- `depth == float64(floorDepth)` for the depth of `leaves`. -/
def depthIsWhole (leaves : Int) : Bool :=
  decide (0 < leaves ∧ leaves = 128 ^ (floorDepth leaves).toNat)

/-- Source `hasSiblingsAtSameHeight`; `depthOf` and `maxDepthOf` are the numbers of leaves
whose depths are passed. -/
def hasSiblingsAtSameHeight (depthOf maxDepthOf numLeaves prevDepthCounter : Int)
    (unevenTree : Bool) : Bool :=
  if depthOf ≤ 0 then
    decide (prevDepthCounter > 1) ||
      (decide (prevDepthCounter = 1) && decide (numLeaves = 0) && unevenTree)
  else if depthOf < 128 then decide (numLeaves > 0)
  else if maxDepthOf ≥ 128 ^ 2 then decide (numLeaves < ChunkMaxBranch)
  else false

/-- Loop `for prevDepthCtr := 0; depth >= 1; { ... }` of `GetTreeIndexBySize` with at most
`fuel` iterations; the state is `(index, leaves, prevDepth, prevDepthCtr)`, the result
`(index, leaves)`, and `none` says that the fuel did not suffice. -/
def treeIndexLoop (maxLeaves : Int) : Nat → Int × Int × Int × Int → Option (Int × Int)
  | 0, (index, leaves, _, _) => if leaves ≥ 128 then none else some (index, leaves)
  | fuel + 1, (index, leaves, prevDepth, prevDepthCtr) =>
    if leaves ≥ 128 then
      let fd := floorDepth leaves
      let index1 := index + indexAt fd
      let leaves1 := leaves - leavesAt fd
      let hasUnevenTree : Bool := decide (prevDepth ≠ fd)
      let index2 := if hasUnevenTree then index1 + 1 else index1
      let ctr1 := if hasUnevenTree then prevDepthCtr else prevDepthCtr + 1
      let index3 :=
        if hasSiblingsAtSameHeight leaves1 maxLeaves leaves1 ctr1 hasUnevenTree then index2 + 1
        else index2
      treeIndexLoop maxLeaves fuel (index3, leaves1, fd, ctr1)
    else some (index, leaves)

/-- Source `GetTreeIndexBySize` for a `uint64` size, with `fuel` iterations for its loop. -/
def GetTreeIndexBySize (fuel : Nat) (size : Nat) : Option Int :=
  if size ≤ ChunkSize then some 1
  else
    let leaves : Int := ((size / ChunkSize : Nat) : Int)
    let index : Int :=
      if size % ChunkSize ≠ 0 then
        if leaves > 1 ∧ depthIsWhole leaves = true then 3 else 2
      else 1
    match treeIndexLoop leaves fuel (index, leaves, floorDepth leaves, 0) with
    | none => none
    | some (index1, leaves1) =>
      if leaves1 = 0 then some (index1 - 1) else some (index1 + leaves1)

/-! ## Repair through a pair of blocks (`entangler/repair.go`) -/

/-- The block a pointer refers to, after `RepairSuccess(bytedata)` was called on it; the
returned flag is dropped as in the source. `none` is a nil-pointer or slice panic. -/
def repairAt (l : Lattice) (p : Option Nat) (bytedata : List Nat) (now : Int) : Option Lattice :=
  match p with
  | none => none
  | some i =>
    match l.Blocks[i]? with
    | none => none
    | some blk =>
      match blk.RepairSuccess (some bytedata) now with
      | none => none
      | some (blk1, _) => some { l with Blocks := l.Blocks.set i blk1 }

/-- Source `Lattice.XORBlocks` for the blocks at the pointers `a` and `b`: the lattice
afterwards, the returned block pointer and the returned error. -/
def XORBlocks (l : Lattice) (a b : Option Nat) (now : Int) :
    Option (Lattice × Option Nat × Option String) :=
  if (!ptrHasData (deref l a) || !ptrHasData (deref l b)) = true then
    some (l, none, some "missing data")
  else
    match deref l a, deref l b with
    | some ab, some bb =>
      if ab.IsParity = false ∧ bb.IsParity = false then
        some (l, none, some "at least one block must be parity")
      else if ab.IsParity = true ∧ bb.IsParity = true then
        match ab.Right[0]?, bb.Left[0]? with
        | some ar0, some bl0 =>
          if ar0 = bl0 ∧ ab.Replace = false then
            match repairAt l ar0 (XORByteSlice ab.Data bb.Data) now with
            | none => none
            | some l1 => some (l1, ar0, none)
          else
            match ab.Left[0]?, bb.Right[0]? with
            | some al0, some br0 =>
              if al0 = br0 ∧ bb.Replace = false then
                match repairAt l al0 (XORByteSlice ab.Data bb.Data) now with
                | none => none
                | some l1 => some (l1, al0, none)
              else some (l, none, some "blocks are not connected")
            | _, _ => none
        | _, _ => none
      else
        let data : Block := if ab.IsParity = false then ab else bb
        let parity : Block := if ab.IsParity = false then bb else ab
        let parityPtr : Option Nat := if ab.IsParity = false then b else a
        let cls := parity.Class.idx
        if data.Right.length > cls ∧ data.Right[cls]? = some parityPtr then
          match data.Left[cls]? with
          | none => none
          | some tgt =>
            match repairAt l tgt (XORByteSlice data.Data parity.Data) now with
            | none => none
            | some l1 => some (l1, tgt, none)
        else if data.Left.length > cls ∧ data.Left[cls]? = some parityPtr then
          match data.Right[cls]? with
          | none => none
          | some tgt =>
            match repairAt l tgt (XORByteSlice data.Data parity.Data) now with
            | none => none
            | some l1 => some (l1, tgt, none)
        else if data.Right.length > cls then
          match data.Right[cls]? with
          | none => none
          | some rp =>
            match deref l rp with
            | none => none
            | some rb =>
              if rb.Replace = true then
                match rb.Right[0]?, parity.Left[0]? with
                | some rr0, some pl0 =>
                  if rr0 = pl0 then
                    match repairAt l pl0 (XORByteSlice data.Data parity.Data) now with
                    | none => none
                    | some l1 => some (l1, pl0, none)
                  else some (l, none, some "blocks are not connected")
                | _, _ => none
              else some (l, none, some "blocks are not connected")
        else some (l, none, some "blocks are not connected")
    | _, _ => none

/-- Sample input: 25 chunks of nine bytes, chunk `i` filled with the byte `i + 1`. -/
def sampleChunks9 : List (List Nat) := (List.range 25).map (fun i => List.replicate 9 (i + 1))

/-- Metadata of a file of one chunk. -/
def sampleMeta : List ChunkMetadata := [{ Size := 25, Length := 25, Parent := 0, Children := [] }]

/-- The lattice of the sample input: `RunInit` on 25 data blocks, every block loaded with
its payload, and then the data of the block at pointer `miss` removed. -/
def sampleLattice (miss : Nat) : Option Lattice :=
  match RunInit (NewLattice 3 5 5 25) sampleMeta, closedRun 9 sampleChunks9 with
  | some l, some eb =>
    let l1 := loadLattice sampleChunks9 eb l
    match l1.Blocks[miss]? with
    | none => none
    | some blk => some { l1 with Blocks := l1.Blocks.set miss { blk with Data := [] } }
  | _, _ => none

/-- Data that the block at pointer `c` holds after `XORBlocks(a, b)` on the sample lattice
in which `c` has no data, with the block pointer and the error returned. -/
def sampleXORBlocks (a b c : Nat) : Option (List Nat × Option Nat × Option String) :=
  match sampleLattice c with
  | none => none
  | some l =>
    match XORBlocks l (some a) (some b) 1 with
    | none => none
    | some (l1, ptr, err) =>
      match l1.Blocks[c]? with
      | none => none
      | some blk => some (blk.Data, ptr, err)

/-- Result of `d.Repair(d.Left[k], d.Right[k])` on the sample lattice for the data block `d`
at pointer `idx`, which has lost its data: the data of `d` afterwards, the returned error,
and whether the two parities have data. -/
def sampleRepair (idx k : Nat) : Option (List Nat × Option String × Bool × Bool) :=
  match sampleLattice idx with
  | none => none
  | some l =>
    match l.Blocks[idx]? with
    | none => none
    | some db =>
      match db.Left[k]?, db.Right[k]? with
      | some lp, some rp =>
        match db.Repair (deref l lp) (deref l rp) 1 with
        | none => none
        | some (b1, err) => some (b1.Data, err, ptrHasData (deref l lp), ptrHasData (deref l rp))
      | _, _ => none

/-! ## The Merkle tree of a file (`swarmconnector/chunkwalker.go`, `treechunk.go`)

The getter serves a chunk as its data: the span in the first eight bytes and the payload
after them; the payload of an intermediate chunk is the list of the references of its
children, each `chunk.AddressLength = 32` bytes long (`len(tc.Key)` for a plain reference).
The repairer is the mock repairer of the tests and of `GenerateChunkMetadata`:
`GetRootIndex` is -1 and `GetChunk` asks the getter. The goroutines of `walkTreeChunk`
write to distinct slots of `tc.Children` and share nothing else, so they are run in the
order of their child numbers. -/

/-- Source constant `ChunkSizeOffset`. -/
def ChunkSizeOffset : Nat := 8

/-- Source constant `chunk.AddressLength`. -/
def AddressLength : Nat := 32

/-- A chunk in the store: the span, the number of bytes after the span, and the chunks that
the references in its payload resolve to, in order; a reference beyond the end of the list
is one the getter finds no chunk for. -/
inductive Chunk where
  | mk (span : Nat) (payload : Nat) (refs : List Chunk)

/-- Source `TreeChunk` with the fields `Index`, `SubtreeSize`, `len(Data)` and `Children`;
`Depth`, `Key`, `Length`, `BranchCount`, the bytes of `Data` and the pointer `Parent` are
left out. -/
inductive TreeChunk where
  | mk (Index : Int) (SubtreeSize : Nat) (dataLen : Nat) (Children : List TreeChunk)

/-- Field `Index`. -/
def TreeChunk.Index : TreeChunk → Int
  | .mk i _ _ _ => i

/-- Field `SubtreeSize`. -/
def TreeChunk.SubtreeSize : TreeChunk → Nat
  | .mk _ s _ _ => s

/-- Length `len(tc.Data)`. -/
def TreeChunk.dataLen : TreeChunk → Nat
  | .mk _ _ l _ => l

/-- Field `Children`. -/
def TreeChunk.Children : TreeChunk → List TreeChunk
  | .mk _ _ _ cs => cs

/-- Source `GetChildOffsetByStandardSize`. -/
def GetChildOffsetByStandardSize (size : Nat) : Int :=
  if size ≤ 4096 then 0
  else if size ≤ 4096 * 128 then 1
  else if size ≤ 4096 * 128 ^ 2 then 1 + 128
  else if size ≤ 4096 * 128 ^ 3 then 1 + 128 + 128 ^ 2
  else if size ≤ 4096 * 128 ^ 4 then 1 + 128 + 128 ^ 2 + 128 ^ 3
  else if size ≤ 4096 * 128 ^ 5 then 1 + 128 + 128 ^ 2 + 128 ^ 3 + 128 ^ 4
  else if size ≤ 4096 * 128 ^ 6 then 1 + 128 + 128 ^ 2 + 128 ^ 3 + 128 ^ 4 + 128 ^ 5
  else 1 + 128 + 128 ^ 2 + 128 ^ 3 + 128 ^ 4 + 128 ^ 5 + 128 ^ 6

/-- Source `TreeChunk.childOffset` for a chunk with `numChildren` child slots; `none` when
`GetTreeIndexBySize` does not return within `fuel` iterations. -/
def childOffset (fuel : Nat) (subtreeSize numChildren : Nat) : Option Int :=
  if numChildren > 1 then some (GetChildOffsetByStandardSize subtreeSize)
  else GetTreeIndexBySize fuel subtreeSize

/-- Source `TreeChunk.childIndex`. -/
def childIndex (tcIndex : Int) (lastChild : Bool) (parentOffset offset childNum : Int) : Int :=
  if lastChild then tcIndex - 1 else parentOffset + offset * childNum

/-- Source `nextParentOffset`. -/
def nextParentOffset (lastChild hasChildren : Bool) (lastOffset childIndex offset : Int) : Int :=
  let lastChildOffset : Int :=
    if lastChild && hasChildren then (if lastOffset < offset then offset - lastOffset else 0)
    else 0
  childIndex - offset + lastChildOffset

mutual
/-- Source `NewTreeChunk(_, index, _, data, _)` followed by `walkTreeChunk(parentOffset)` on
the new chunk: the chunk with its subtree, or the error returned; `none` when a call of
`GetTreeIndexBySize` does not return within `fuel` iterations. -/
def walkTreeChunk (fuel : Nat) (emptyLeaves : Bool) (index parentOffset : Int) :
    Chunk → Option (Except String TreeChunk)
  | .mk span payload refs =>
    if span ≤ ChunkSizeOffset + payload then
      some (.ok (.mk index span (ChunkSizeOffset + payload) []))
    else
      match childOffset fuel span (payload / AddressLength) with
      | none => none
      | some offset =>
        match walkChildren fuel emptyLeaves index parentOffset offset payload 1
            (payload / AddressLength) refs with
        | none => none
        | some (.error e) => some (.error e)
        | some (.ok cs) => some (.ok (.mk index span (ChunkSizeOffset + payload) cs))
/-- Loop over the children of `walkTreeChunk` from child number `childNum` on, with `cnt`
children to go. -/
def walkChildren (fuel : Nat) (emptyLeaves : Bool) (index parentOffset offset : Int)
    (payload : Nat) (childNum : Nat) (cnt : Nat) :
    List Chunk → Option (Except String (List TreeChunk))
  | [] => if cnt = 0 then some (.ok []) else some (.error "empty child")
  | .mk cspan cpayload crefs :: rest =>
    if cnt = 0 then some (.ok [])
    else
      let lastChild : Bool :=
        decide (ChunkSizeOffset + payload = ChunkSizeOffset + childNum * AddressLength)
      let ci := childIndex index lastChild parentOffset offset (childNum : Int)
      let hasChildren : Bool := decide (cspan > ChunkSizeOffset + cpayload)
      match GetTreeIndexBySize fuel cspan with
      | none => none
      | some lastOffset =>
        let nextParent := nextParentOffset lastChild hasChildren lastOffset ci offset
        let child : Option (Except String TreeChunk) :=
          if hasChildren then
            walkTreeChunk fuel emptyLeaves ci nextParent (.mk cspan cpayload crefs)
          else
            some (.ok (.mk ci cspan
              (if emptyLeaves then 0 else ChunkSizeOffset + cpayload) []))
        match child with
        | none => none
        | some (.error e) => some (.error e)
        | some (.ok c) =>
          match walkChildren fuel emptyLeaves index parentOffset offset payload
              (childNum + 1) (cnt - 1) rest with
          | none => none
          | some (.error e) => some (.error e)
          | some (.ok cs) => some (.ok (c :: cs))
end

/-- Source `BuildCompleteTree` on the root chunk that the getter serves for `rootAddr`. -/
def BuildCompleteTree (fuel : Nat) (emptyLeaves : Bool) (root : Chunk) :
    Option (Except String TreeChunk) :=
  match root with
  | .mk span _ _ =>
    match GetTreeIndexBySize fuel span with
    | none => none
    | some rootIndex => walkTreeChunk fuel emptyLeaves rootIndex 0 root

mutual
/-- The closure `walker` of `FlattenTree`: the nodes in the order in which they are written
to `out`. -/
def postOrder : TreeChunk → List TreeChunk
  | .mk i s l cs => postOrderList cs ++ [.mk i s l cs]
/-- The loop `for j := range parent.Children` of `walker`. -/
def postOrderList : List TreeChunk → List TreeChunk
  | [] => []
  | c :: cs => postOrder c ++ postOrderList cs
end

/-- The slice `make([]*TreeChunk, n)` after the nodes `w` were written to its first slots;
`none` is the panic on a negative length or on a write beyond the end. -/
def fillOut (n : Int) (w : List TreeChunk) : Option (List (Option TreeChunk)) :=
  if n < 0 then none
  else if w.length ≤ n.toNat then some (w.map some ++ List.replicate (n.toNat - w.length) none)
  else none

/-- Source `TreeChunk.FlattenTree`. -/
def FlattenTree (tc : TreeChunk) : Option (List (Option TreeChunk)) :=
  fillOut tc.Index (postOrder tc)

mutual
/-- The closure `walker` of `FlattenTreeWindow` for the root index `rootIndex`: the nodes
in the order in which they are written to `out`, and the nodes appended to
`internalNodes`. -/
def windowWalker (rootIndex : Int) : TreeChunk → List TreeChunk × List TreeChunk
  | .mk i s l cs =>
    if cs.length > 0 then
      let r := windowWalkerList rootIndex cs
      (r.1 ++ [.mk i s l cs], if i ≠ rootIndex then r.2 ++ [.mk i s l cs] else r.2)
    else ([.mk i s l cs], [])
/-- The loop `for j := range parent.Children` of that `walker`. -/
def windowWalkerList (rootIndex : Int) : List TreeChunk → List TreeChunk × List TreeChunk
  | [] => ([], [])
  | c :: cs =>
    let a := windowWalker rootIndex c
    let b := windowWalkerList rootIndex cs
    (a.1 ++ b.1, a.2 ++ b.2)
end

/-- The loop `for j := windowSize; j < tc.Index; j += windowSize + s` of
`FlattenTreeWindow` for the internal node `im`, from `j` on, with at most `fuel`
iterations; `none` is a panic or the end of the fuel. -/
def scanWindow (tcIndex windowSize s : Int) (im : TreeChunk) :
    Nat → Int → List (Option TreeChunk) → Option (List (Option TreeChunk))
  | 0, j, out => if j < tcIndex then none else some out
  | fuel + 1, j, out =>
    if j < tcIndex then
      match im.Children.head?, im.Children.getLast?, getI out j with
      | some lowest, some highest, some (some x) =>
        let inWindow : Bool :=
          decide (x.Index > lowest.Index - windowSize) &&
            decide (x.Index < highest.Index + windowSize)
        if !inWindow && decide (x.Children.length = 0) then
          match getI out (im.Index - 1) with
          | none => none
          | some y =>
            match setI out j y with
            | none => none
            | some out1 => setI out1 (im.Index - 1) (some x)
        else scanWindow tcIndex windowSize s im fuel (j + (windowSize + s)) out
      | _, _, _ => none
    else some out

/-- The loop over `internalNodes` of `FlattenTreeWindow`. -/
def shiftNodes (fuel : Nat) (tcIndex windowSize s : Int) :
    List TreeChunk → List (Option TreeChunk) → Option (List (Option TreeChunk))
  | [], out => some out
  | im :: rest, out =>
    match im.Children.head?, im.Children.getLast? with
    | some _, some _ =>
      match scanWindow tcIndex windowSize s im fuel windowSize out with
      | none => none
      | some out1 => shiftNodes fuel tcIndex windowSize s rest out1
    | _, _ => none

/-- Source `TreeChunk.FlattenTreeWindow`, with at most `fuel` iterations for each scan. -/
def FlattenTreeWindow (fuel : Nat) (tc : TreeChunk) (s p : Int) :
    Option (List (Option TreeChunk)) :=
  let w := windowWalker tc.Index tc
  match fillOut tc.Index w.1 with
  | none => none
  | some out => shiftNodes fuel tc.Index (s * p) s w.2 out

mutual
/-- Source `TreeChunk.getChildFromMem`; `none` is the nil result. The index and the leaf
counts are `float64` values in the source, whole numbers that are exact below `2^53`. -/
def getChildFromMem (index : Int) : TreeChunk → Option TreeChunk
  | .mk i s l cs =>
    if l = 0 ∨ index = 0 ∨ l = (s + ChunkSizeOffset) % 2 ^ 64 then some (.mk i s l cs)
    else getChildLoop index 0 cs
/-- The loop over the children of `getChildFromMem`, with `subChildren` leaves passed. -/
def getChildLoop (index : Int) (subChildren : Int) : List TreeChunk → Option TreeChunk
  | [] => none
  | c :: cs =>
    let subSize : Int := ((c.SubtreeSize + (ChunkSize - 1)) / ChunkSize : Nat)
    if index ≤ subChildren + subSize then getChildFromMem (index - subChildren) c
    else getChildLoop index (subChildren + subSize) cs
end

/-- Source `TreeChunk.GetChildFromMem`. -/
def GetChildFromMem (tc : TreeChunk) (index : Int) : Except String TreeChunk :=
  match getChildFromMem index tc with
  | none => .error "could not find child"
  | some child => .ok child

/-- The tree of a file of `128 * 4096 + 1` bytes in the store: the root with an
intermediate chunk over 128 full chunks and the chunk of the last byte. -/
def sampleFile : Chunk :=
  .mk 524289 64
    [.mk 524288 4096 (List.replicate 128 (.mk 4096 4096 [])), .mk 1 1 []]

/-- The intermediate chunk of the sample tree: index 129, over the 128 full chunks with the
indices 1 to 128. -/
def sampleInner : TreeChunk :=
  .mk 129 524288 4104 ((List.range 128).map (fun (i : Nat) => .mk ((i : Int) + 1) 4096 0 []))

/-- The tree that `BuildCompleteTree` returns for the sample file: the intermediate chunk,
the chunk of the last byte with index 130, and the root with index 131. -/
def sampleTree : TreeChunk :=
  .mk 131 524289 72 [sampleInner, .mk 130 1 0 []]

/-- The indices of the nodes of a tree are the post-order numbering: the walk of
`FlattenTree` meets the nodes with `Index` 1, 2, 3, ... in that order. -/
def PostOrdered (tc : TreeChunk) : Prop :=
  (postOrder tc).map TreeChunk.Index =
    (List.range (postOrder tc).length).map (fun (i : Nat) => (i : Int) + 1)

/-- The indices of the nodes in a flattened tree, in order; a nil entry gives 0. -/
def indicesOf (out : List (Option TreeChunk)) : List Int :=
  out.map (fun x => match x with
    | some t => t.Index
    | none => 0)

mutual
/-- The leaves of a tree, from left to right. -/
def leavesOf : TreeChunk → List TreeChunk
  | .mk i s l cs => if cs.length = 0 then [.mk i s l cs] else leavesOfList cs
/-- The leaves under a list of children, from left to right. -/
def leavesOfList : List TreeChunk → List TreeChunk
  | [] => []
  | c :: cs => leavesOf c ++ leavesOfList cs
end

mutual
/-- A tree as `BuildCompleteTree` builds it for a file: a leaf has no data in memory or
holds `SubtreeSize` bytes after the span; an intermediate chunk holds data of another
length; and every child has `ceil(SubtreeSize / 4096)` leaves. -/
def fileTree : TreeChunk → Bool
  | .mk _ s l cs =>
    if cs.length = 0 then decide (l = 0 ∨ l = (s + ChunkSizeOffset) % 2 ^ 64)
    else decide (l ≠ 0 ∧ l ≠ (s + ChunkSizeOffset) % 2 ^ 64) && fileTreeList cs
/-- The condition `fileTree` on the children of a chunk. -/
def fileTreeList : List TreeChunk → Bool
  | [] => true
  | c :: cs =>
    fileTree c &&
      decide ((leavesOf c).length = (c.SubtreeSize + (ChunkSize - 1)) / ChunkSize) &&
      fileTreeList cs
end

/-- Test of the closure `walker` of `FlattenTreeWindow` for appending a node to
`internalNodes`: the node has children and not the index of the root. -/
def isInternal (rootIndex : Int) (n : TreeChunk) : Bool :=
  decide (n.Children.length > 0 ∧ n.Index ≠ rootIndex)

/-- Where `FlattenTreeWindow` puts an internal node `x` that it moves, once the nodes `done`
were handled: the 1-based position `q + 1` is not inside the open window around the
children of `x`, or it is the post-order position of another node of `done`. -/
def Placed (ws : Int) (done : List TreeChunk) (x : TreeChunk) (q : Nat) : Prop :=
  ∀ lo hi, x.Children.head? = some lo → x.Children.getLast? = some hi →
    ((q : Int) + 1 ≤ lo.Index - ws ∨ hi.Index + ws ≤ (q : Int) + 1 ∨
      ∃ y ∈ done, y.Index ≠ x.Index ∧ y.Index = (q : Int) + 1)

/-- State of the slice `out` of `FlattenTreeWindow` when the internal nodes `done` were
handled and the nodes `todo` are still to come: `out` is a rearrangement of the post-order
walk with the root last, every node of `todo` is at its post-order position, and every
position holds its post-order node, or a leaf at the post-order position of a node of
`done`, or a node of `done` that was moved there. -/
def WindowInv (tc : TreeChunk) (ws : Int) (done todo : List TreeChunk)
    (out : List (Option TreeChunk)) : Prop :=
  out.Perm ((postOrder tc).map some) ∧
  out[(postOrder tc).length - 1]? = some (some tc) ∧
  (∀ im ∈ todo, ∃ k : Nat, im.Index = (k : Int) + 1 ∧ out[k]? = some (some im)) ∧
  (∀ (q : Nat) (x : TreeChunk), out[q]? = some (some x) →
    x.Index = (q : Int) + 1 ∨
    (x.Children.length = 0 ∧ ∃ im ∈ done, im.Index = (q : Int) + 1) ∨
    (x ∈ done ∧ Placed ws done x q))

/-- The scan `for j := windowSize; j < tc.Index; j += windowSize + s` of `FlattenTreeWindow`
for an internal node with the children `lo .. hi` finds no place in `out`: each of the
positions `ws`, `ws + (ws + s)`, `ws + 2 * (ws + s)`, ... below `tcIndex` holds a node whose
index is inside the open window `(lo.Index - ws, hi.Index + ws)` or a node with children. -/
def NoFreePlace (tcIndex ws s : Int) (lo hi : TreeChunk)
    (out : List (Option TreeChunk)) : Prop :=
  ∀ (t j : Nat), (j : Int) = ws + (t : Int) * (ws + s) → (j : Int) < tcIndex →
    ∀ x, out[j]? = some (some x) →
      (x.Index > lo.Index - ws ∧ x.Index < hi.Index + ws) ∨ 0 < x.Children.length

/-! ## Chunk data, depth and leaves of the canonical index (`swarmconnector/entangler.go`) -/

/-- Source `RawChunkSize`, which is also `storage.ChunkData.Size`:
`binary.LittleEndian.Uint64(data[:8])`; `none` is the panic on fewer than eight bytes. -/
def RawChunkSize (data : List Nat) : Option Nat :=
  if data.length < 8 then none
  else some (((List.range 8).map (fun i => data.getD i 0 * 256 ^ i)).sum)

/-- Source `IsChunkLeaf`. -/
def IsChunkLeaf (chunk : List Nat) : Option Bool :=
  match RawChunkSize chunk with
  | none => none
  | some size => some (decide (size ≤ chunk.length))

/-- Loop `for maxNodes < maxIndex` of `GetDepthCanonicalIndex`, with at most `fuel`
iterations. -/
def depthLoop (maxIndex : Int) : Nat → Int → Int → Option Int
  | 0, depth, maxNodes => if maxNodes < maxIndex then none else some depth
  | fuel + 1, depth, maxNodes =>
    if maxNodes < maxIndex then
      depthLoop maxIndex fuel (depth + 1) (maxNodes + 128 ^ (depth + 1).toNat)
    else some depth

/-- Source `GetDepthCanonicalIndex`. In the last branch `math.Pow(ChunkMaxBranch, depth)` is
taken as the exact power; the branches before it are integer comparisons. -/
def GetDepthCanonicalIndex (fuel : Nat) (maxIndex : Int) : Option Int :=
  if maxIndex ≤ 1 then some 1
  else if maxIndex ≤ 129 then some 2
  else if maxIndex ≤ 16513 then some 3
  else if maxIndex ≤ 2113665 then some 4
  else if maxIndex ≤ 270549121 then some 5
  else if maxIndex ≤ 34361852033 then some 6
  else if maxIndex ≤ 4432408363137 then some 7
  else depthLoop maxIndex fuel 8 (4432408363137 + 128 ^ 8)

/-- The number `Index_d = 1 + 128 + ... + 128^(d-1)` of nodes of the saturated tree of
depth `d`, as the specification defines it. -/
def specIndexOfDepth (d : Nat) : Int :=
  ((List.range d).map (fun j => (128 : Int) ^ j)).sum

/-- The closure `calc` of `GetLeavesCanonIndex` at `level`, on the state `(levelCtr,
leaves)`, with `fuel` levels above it; `none` is the index-out-of-range panic. -/
def calcLevel : Nat → Int → List Int × Int → Option (List Int × Int)
  | 0, _, _ => none
  | fuel + 1, level, (levelCtr, leaves) =>
    match getI levelCtr level with
    | none => none
    | some c =>
      if c = 128 then calcLevel fuel (level + 1) (levelCtr, leaves)
      else
        match setI levelCtr level (c + 1) with
        | none => none
        | some ctr1 =>
          if level = 0 then some (ctr1, leaves + 1)
          else if c + 1 ≠ 128 then
            some (List.replicate level.toNat 0 ++ ctr1.drop level.toNat, leaves)
          else some (ctr1, leaves)

/-- Loop `for i := 0; i < maxIndex; i++ { calc(i, 0) }` of `GetLeavesCanonIndex`. -/
def calcLoop (depth : Nat) : Nat → List Int × Int → Option (List Int × Int)
  | 0, st => some st
  | n + 1, st =>
    match calcLevel (depth + 1) 0 st with
    | none => none
    | some st1 => calcLoop depth n st1

/-- Loop `for i := depth - 2; i > 1; i--` of `GetLeavesCanonIndex`, from `i` down. -/
def fixLoop (depth : Nat) : Nat → List Int × Int → Option (List Int × Int)
  | 0, st => some st
  | i + 1, st =>
    if i + 1 > 1 then
      match getI st.1 ((i : Int) + 1), getI st.1 (i : Int) with
      | some a, some b =>
        if a ≠ 0 ∧ b = 0 then
          match calcLevel (depth + 1) 0 st with
          | none => none
          | some st1 => fixLoop depth i st1
        else fixLoop depth i st
      | _, _ => none
    else some st

/-- Source `GetLeavesCanonIndex`. -/
def GetLeavesCanonIndex (fuel : Nat) (maxIndex : Int) : Option Int :=
  match GetDepthCanonicalIndex fuel maxIndex with
  | none => none
  | some depth =>
    if depth < 2 then some 1
    else
      match calcLoop depth.toNat (maxIndex - depth).toNat
          (List.replicate depth.toNat 0, 0) with
      | none => none
      | some (ctr, leaves) =>
        match getI ctr 0 with
        | none => none
        | some c0 =>
          match setI ctr 0 (c0 + 1) with
          | none => none
          | some ctr1 =>
            match fixLoop depth.toNat (depth - 2).toNat (ctr1, leaves + 1) with
            | none => none
            | some (_, leaves2) => some leaves2

/-- The entangler after the 25 chunks of the sample were entangled. -/
def sampleEntangler : Entangler :=
  match entangleFrom (NewEntangler 5 5 5 3 1) sampleChunks 1 with
  | some (e, _) => e
  | none => NewEntangler 5 5 5 3 1

/-- The block at pointer `bi` of the lattice that `RunInit` builds for `n` data blocks:
whether it is a parity, its `Replace` flag, class, left and right index. -/
def sampleParity (n : Int) (bi : Nat) : Option (Bool × Bool × StrandClass × Int × Int) :=
  match RunInit (NewLattice 3 5 5 n) [] with
  | none => none
  | some l =>
    match l.Blocks[bi]? with
    | none => none
    | some b => some (b.IsParity, b.Replace, b.Class, b.LeftIndex, b.RightIndex)

/-! ## Repair entry points (`entangler/repair.go`)

The calls are run one at a time: no other goroutine touches the lattice during a call, and
no download is pending. For `RepairChunk`, `repairBlock` is an argument: a function from
the lattice and the pointer of the block to the lattice afterwards, the data and the error
returned. -/

/-- Source `Lattice.ResetMendingStatus`; `none` is the index panic when `NumDataBlocks`
exceeds `len(l.Blocks)`. -/
def ResetMendingStatus (l : Lattice) : Option Lattice :=
  if l.NumDataBlocks.toNat ≤ l.Blocks.length then
    let reset : Block → Block := fun b => if b.IsMending then { b with IsMending := false } else b
    let blocks := (l.Blocks.take l.NumDataBlocks.toNat).map reset ++
      l.Blocks.drop l.NumDataBlocks.toNat
    some { l with Blocks := blocks }
  else none

/-- Source `Lattice.RepairChunk`: the lattice afterwards, the data and the error returned
(`none` for nil). With nothing else running, the first goroutine wins the race exactly
when the block has data. An outer `none` is the index panic of `GetBlock`. -/
def RepairChunk (repairBlock : Lattice → Nat → Lattice × Option (List Nat) × Option String)
    (now : Int) (l : Lattice) (index : Int) :
    Option (Lattice × Option (List Nat) × Option String) :=
  if (l.ParityRootID.length : Int) < l.Alpha then
    some (l, none, some ("Missing parity root ID. Can not repair. " ++
      "Supply the same ID multiple time if this is intended."))
  else
    match GetBlock l index with
    | none => none
    | some bi =>
      match l.Blocks[bi]? with
      | none => none
      | some b =>
        if b.HasData then some (l, some b.Data, none)
        else
          match l.RecoverError with
          | some e => some (l, none, some e)
          | none =>
            match repairBlock l bi with
            | (l1, data, none) =>
              match ResetMendingStatus l1 with
              | none => none
              | some l2 => some (l2, data, none)
            | (l1, data, some err) =>
              match l1.Blocks[bi]? with
              | none => none
              | some b1 =>
                match b1.RepairFailed now with
                | none => none
                | some (b2, _) =>
                  match ResetMendingStatus
                      { l1 with Blocks := l1.Blocks.set bi b2, RecoverError := some err } with
                  | none => none
                  | some l2 => some (l2, data, some err)

/-- A `repairBlock` that finds no repair pair: `chunk.ErrChunkNotFound`. -/
def failingRepairBlock (l : Lattice) (_ : Nat) : Lattice × Option (List Nat) × Option String :=
  (l, none, some "chunk not found")

/-- The lattice of 25 data blocks in which only the data block of position 2 has data,
with three parity root IDs. -/
def sampleDamaged : Option Lattice :=
  match RunInit (NewLattice 3 5 5 25) sampleMeta with
  | none => none
  | some l =>
    match l.Blocks[1]? with
    | none => none
    | some blk =>
      let blocks := l.Blocks.set 1 { blk with Data := List.replicate 9 2 }
      some { l with Blocks := blocks, ParityRootID := [[1], [2], [3]] }

/-- The first call on the damaged sample, `RepairChunk(1)` with a failing `repairBlock`. -/
def sampleFirstCall : Option (Lattice × Option (List Nat) × Option String) :=
  match sampleDamaged with
  | none => none
  | some l => RepairChunk failingRepairBlock 1 l 1

/-- The data and the error that `RepairChunk(j)` returns when it is called after the first
call on the damaged sample, with `RecoverError` as it is before the call. -/
def sampleSecondCall (j : Int) : Option (Option String × Option (List Nat) × Option String) :=
  match sampleFirstCall with
  | none => none
  | some (l1, _) =>
    match RepairChunk failingRepairBlock 2 l1 j with
    | none => none
    | some (_, r2) => some (l1.RecoverError, r2)

/-! ## Repair of the whole lattice (`entangler/repair.go`)

The calls are run one at a time, as under `l.lock`: no other goroutine touches the lattice,
and no download of `GetChunk` is pending, so `WaitForNoPendingDL` returns false. The two
goroutines `go l.downloadBlock(...)` of a repair pair are run one after the other, the left
block first; `Repair` reads the two blocks after both have finished. The network is the
argument `getter`; the state carries the number of calls made to it. -/

/-- Outcome of a call of the repair code: a value, a run-time panic, a wait on a channel that
nothing running will serve, or the fuel of the model used up. -/
inductive Outcome (α : Type) where
  | done : α → Outcome α
  | crash : Outcome α
  | blocked : Outcome α
  | noFuel : Outcome α
  deriving DecidableEq, Repr

/-- Sequencing: the second call runs on the value of the first. -/
def Outcome.bind {α β : Type} (o : Outcome α) (f : α → Outcome β) : Outcome β :=
  match o with
  | .done a => f a
  | .crash => .crash
  | .blocked => .blocked
  | .noFuel => .noFuel

/-- A Go value whose absence is a panic (nil pointer, index out of range). -/
def orCrash {α : Type} (o : Option α) : Outcome α :=
  match o with
  | some a => .done a
  | none => .crash

/-- Source `storage.Getter` as `GetParity` calls it: the answer to the call number `calls`
for the leaf chunk id `position` under the root address `root`; `none` is an error,
`some none` the nil slice without error. -/
abbrev Getter := Nat → Int → List Nat → Option (Option (List Nat))

/-- The lattice with the block at pointer `i` replaced. -/
def setBlock (l : Lattice) (i : Nat) (b : Block) : Lattice :=
  { l with Blocks := l.Blocks.set i b }

/-- Source `Block.ParityShouldRepair`. -/
def Block.ParityShouldRepair (b : Block) : Bool :=
  !(b.HasData || decide (b.RepairStatus = .RepairFailed) ||
    decide (b.RepairStatus = .RepairPending))

/-- Source `Block.InternalNodePendingRepair`. -/
def Block.InternalNodePendingRepair (b : Block) : Bool :=
  decide (b.DownloadStatus = .DownloadFailed) && decide (b.RepairStatus = .NoRepair) &&
    !b.IsMending && decide (b.Children.length > 0) && !b.IsParity

/-- Source `Lattice.ResetRepairStatus`. -/
def ResetRepairStatus (l : Lattice) : Lattice :=
  { l with Blocks := l.Blocks.map resetRepairStatus }

/-- Loop of `replacedParityRepair` for the parity at position `bPosition` of class number
`bClass`, with at most `fuel` iterations, from the block pointer `right` and the sum
`rightDat`: `some dat` when the walk is back at `bPosition` with the sum `dat`, `none` when
it meets a block without data (`return false`). No download is pending. -/
def replacedWalk (l : Lattice) (bPosition : Int) (bClass : Nat) :
    Nat → Option Nat → List Nat → Outcome (Option (List Nat))
  | 0, _, _ => .noFuel
  | fuel + 1, right, rightDat =>
    (orCrash (deref l right)).bind fun rb =>
    if rb.Position = bPosition then .done (some rightDat)
    else if rb.HasData = false then .done none
    else
      (orCrash rb.Right[bClass]?).bind fun rp =>
      (orCrash (deref l rp)).bind fun pb =>
      (orCrash pb.Right[0]?).bind fun next =>
      replacedWalk l bPosition bClass fuel next (XORByteSlice rightDat rb.Data)

/-- Source `Lattice.replacedParityRepair` for the block at pointer `bp`: the lattice
afterwards and the returned flag. -/
def replacedParityRepair (fuel : Nat) (now : Int) (l : Lattice) (bp : Nat) :
    Outcome (Lattice × Bool) :=
  (orCrash l.Blocks[bp]?).bind fun b =>
  (orCrash b.Right[0]?).bind fun right =>
  (replacedWalk l b.Position b.Class.idx fuel right (List.replicate ChunkSize 0)).bind fun w =>
  match w with
  | none => .done (l, false)
  | some rightDat =>
    (orCrash (b.RepairSuccess (some rightDat) now)).bind fun r =>
    .done (setBlock l bp r.1, r.2)

/-- Source `Lattice.GetParity` for the block at pointer `bp`: the state afterwards and
whether the returned error is nil. A block whose download is pending makes the call wait
for the status change of that block. -/
def GetParity (getter : Getter) (now : Int) (s : Lattice × Nat) (bp : Nat) :
    Outcome ((Lattice × Nat) × Bool) :=
  (orCrash s.1.Blocks[bp]?).bind fun b =>
  if b.HasData then .done (s, true)
  else if b.DownloadStatus = .DownloadPending then .blocked
  else
    (orCrash (b.DownloadPending now)).bind fun r1 =>
    (orCrash s.1.ParityRootID[b.Class.idx]?).bind fun root =>
    match getter s.2 b.Position root with
    | none =>
      (orCrash (r1.1.DownloadFailed now)).bind fun r2 =>
      .done ((setBlock s.1 bp r2.1, s.2 + 1), false)
    | some data =>
      (orCrash (r1.1.DownloadSuccess data now)).bind fun r2 =>
      .done ((setBlock s.1 bp r2.1, s.2 + 1), true)

/-- Source `Lattice.downloadBlock` up to the send on the result channel. -/
def downloadBlock (getter : Getter) (now : Int) (s : Lattice × Nat) (p : Option Nat) :
    Outcome (Lattice × Nat) :=
  match p with
  | none => .crash
  | some bp =>
    (orCrash s.1.Blocks[bp]?).bind fun b =>
    if b.HasData then .done s
    else if b.IsParity then (GetParity getter now s bp).bind fun r => .done r.1
    else .done s

/-- The call `block.Repair(left, right)` for the block at pointer `bp` and the blocks of the
pair `pr`: the state afterwards and whether the returned error is nil. -/
def repairFrom (now : Int) (s : Lattice × Nat) (bp : Nat) (pr : RepairPair) :
    Outcome ((Lattice × Nat) × Bool) :=
  (orCrash s.1.Blocks[bp]?).bind fun b =>
  (orCrash (b.Repair (deref s.1 pr.Left) (deref s.1 pr.Right) now)).bind fun r =>
  .done ((setBlock s.1 bp r.1, s.2), r.2.isNone)

/-- The two `go l.downloadBlock` of a pair and `block.Repair(<-blockChan, <-blockChan)`. -/
def downloadRepair (getter : Getter) (now : Int) (s : Lattice × Nat) (bp : Nat)
    (pr : RepairPair) : Outcome ((Lattice × Nat) × Bool) :=
  (downloadBlock getter now s pr.Left).bind fun s1 =>
  (downloadBlock getter now s1 pr.Right).bind fun s2 =>
  repairFrom now s2 bp pr

/-- Loop over the pairs of `repairDataDLAdjacent`. -/
def dlAdjacentLoop (getter : Getter) (now : Int) (bp : Nat) :
    List RepairPair → Lattice × Nat → Outcome ((Lattice × Nat) × Bool)
  | [], s => .done (s, false)
  | pr :: rest, s =>
    (downloadRepair getter now s bp pr).bind fun r =>
    if r.2 then .done (r.1, true) else dlAdjacentLoop getter now bp rest r.1

/-- Source `Lattice.repairDataDLAdjacent` for the block at pointer `bp`. -/
def repairDataDLAdjacent (getter : Getter) (now : Int) (s : Lattice × Nat) (bp : Nat) :
    Outcome ((Lattice × Nat) × Bool) :=
  (orCrash s.1.Blocks[bp]?).bind fun b =>
  if b.HasData then .done (s, true)
  else (orCrash (GetRepairPairs s.1 bp)).bind fun pairs => dlAdjacentLoop getter now bp pairs s

/-- Loop over the pairs of `repairDataRepAdjacent`; `rp` is `repairParity`. The flag is
whether the returned error is nil. -/
def repAdjacentLoop (rp : Lattice × Nat → Option Nat → Bool → Outcome (Lattice × Nat))
    (now : Int) (bp : Nat) :
    List RepairPair → Lattice × Nat → Outcome ((Lattice × Nat) × Bool)
  | [], s => (orCrash s.1.Blocks[bp]?).bind fun b => .done (s, b.HasData)
  | pr :: rest, s =>
    (orCrash s.1.Blocks[bp]?).bind fun b =>
    if b.HasData then .done (s, true)
    else
      (rp s pr.Right true).bind fun s1 =>
      (rp s1 pr.Left false).bind fun s2 =>
      (repairFrom now s2 bp pr).bind fun r =>
      if r.2 then .done (r.1, true) else repAdjacentLoop rp now bp rest r.1

/-- Source `Lattice.repairDataRepAdjacent` for the block at pointer `bp`. -/
def repairDataRepAdjacent (rp : Lattice × Nat → Option Nat → Bool → Outcome (Lattice × Nat))
    (now : Int) (s : Lattice × Nat) (bp : Nat) : Outcome ((Lattice × Nat) × Bool) :=
  (orCrash (GetRepairPairs s.1 bp)).bind fun pairs => repAdjacentLoop rp now bp pairs s

/-- Source `Lattice.repairParity`, with at most `fuel` nested calls; `wf` is the fuel of the
loop of `replacedParityRepair`. -/
def repairParity (getter : Getter) (now : Int) (wf : Nat) :
    Nat → Lattice × Nat → Option Nat → Bool → Outcome (Lattice × Nat)
  | 0, _, _, _ => .noFuel
  | fuel + 1, s, p, goRight =>
    match p with
    | none => .crash
    | some bp =>
      (orCrash s.1.Blocks[bp]?).bind fun b =>
      if b.IsParity = false then
        (orCrash (b.RepairPending now)).bind fun r =>
        if r.2 then
          (repairDataDLAdjacent getter now (setBlock s.1 bp r.1, s.2) bp).bind fun r1 =>
          if r1.2 then .done r1.1
          else
            (repairDataRepAdjacent (fun s0 p0 g0 => repairParity getter now wf fuel s0 p0 g0)
              now r1.1 bp).bind fun r2 => .done r2.1
        else .done s
      else if b.ParityShouldRepair = false then .done s
      else
        (orCrash (b.RepairPending now)).bind fun r =>
        (if b.Replace then
            (replacedParityRepair wf now (setBlock s.1 bp r.1) bp).bind fun q =>
              .done ((q.1, s.2), q.2)
          else .done ((setBlock s.1 bp r.1, s.2), false)).bind fun q =>
        if q.2 then .done q.1
        else
          (orCrash (GetRepairPairs q.1.1 bp)).bind fun allRepPair =>
          (orCrash (if goRight ∧ b.Replace = false then allRepPair[1]?
            else allRepPair[0]?)).bind fun repPair =>
          (downloadRepair getter now q.1 bp repPair).bind fun r1 =>
          if r1.2 then .done r1.1
          else
            (repairParity getter now wf fuel r1.1 repPair.Right true).bind fun s2 =>
            (repairParity getter now wf fuel s2 repPair.Left false).bind fun s3 =>
            (repairFrom now s3 bp repPair).bind fun r2 =>
            if r2.2 then .done r2.1
            else
              (orCrash r2.1.1.Blocks[bp]?).bind fun b2 =>
              (orCrash (b2.RepairFailed now)).bind fun r3 =>
              .done (setBlock r2.1.1 bp r3.1, r2.1.2)

/-- Loop `for j := 0; j < len(l.Blocks); j++` of `repairBlock`, from the count `cnt`; `rb` is
`repairBlock` and `old` is `oldHasDataCnt`. The state and the count afterwards. -/
def countLoop (rb : Lattice × Nat → Nat → Outcome ((Lattice × Nat) × Bool)) (old : Int) :
    List Nat → Lattice × Nat → Int → Outcome ((Lattice × Nat) × Int)
  | [], s, cnt => .done (s, cnt)
  | j :: rest, s, cnt =>
    (orCrash s.1.Blocks[j]?).bind fun tb =>
    if tb.HasData then countLoop rb old rest s (cnt + 1)
    else if tb.IsParity = false ∧ tb.InternalNodePendingRepair = true then
      (rb s j).bind fun r =>
      if r.2 then .done (r.1, old - 1) else countLoop rb old rest r.1 cnt
    else countLoop rb old rest s cnt

/-- Loop `for { ... }` of `repairBlock`, with at most `fuel` iterations; `rp` is
`repairParity` and `rb` is `repairBlock`. The flag is whether the returned error is nil. -/
def repairBlockLoop (rp : Lattice × Nat → Option Nat → Bool → Outcome (Lattice × Nat))
    (rb : Lattice × Nat → Nat → Outcome ((Lattice × Nat) × Bool)) (now : Int) (bp : Nat) :
    Nat → Lattice × Nat → Int → Outcome ((Lattice × Nat) × Bool)
  | 0, _, _ => .noFuel
  | fuel + 1, s, old =>
    (repairDataRepAdjacent rp now s bp).bind fun r =>
    if r.2 then .done ((ResetRepairStatus r.1.1, r.1.2), true)
    else
      (countLoop rb old (List.range r.1.1.Blocks.length)
        (ResetRepairStatus r.1.1, r.1.2) 0).bind fun c =>
      if c.2 = old then (orCrash c.1.1.Blocks[bp]?).bind fun b => .done (c.1, b.HasData)
      else repairBlockLoop rp rb now bp fuel c.1 c.2

/-- Source `Lattice.repairBlock` for the block at pointer `bp`, with at most `fuel` nested
calls; `wf` is the fuel of the inner loops. The flag is whether the returned error is nil. -/
def repairBlock (getter : Getter) (now : Int) (wf : Nat) :
    Nat → Lattice × Nat → Nat → Outcome ((Lattice × Nat) × Bool)
  | 0, _, _ => .noFuel
  | fuel + 1, s, bp =>
    (orCrash s.1.Blocks[bp]?).bind fun b =>
    if b.IsMending then .done (s, false)
    else
      (repairDataDLAdjacent getter now
        (setBlock s.1 bp { b with IsMending := true }, s.2) bp).bind fun r =>
      if r.2 then .done (r.1, true)
      else
        repairBlockLoop (repairParity getter now wf wf)
          (fun s0 j0 => repairBlock getter now wf fuel s0 j0) now bp wf r.1 (-1)

/-- One pass of the loop of `RepairAll` over the block pointers `is`, from the count
`hasDataCnt`: the state and the count afterwards. -/
def repairAllPass (getter : Getter) (now : Int) (fuel : Nat) :
    List Nat → Lattice × Nat → Int → Outcome ((Lattice × Nat) × Int)
  | [], s, hasDataCnt => .done (s, hasDataCnt)
  | i :: rest, s, hasDataCnt =>
    (orCrash s.1.Blocks[i]?).bind fun b =>
    if b.HasData then repairAllPass getter now fuel rest s (hasDataCnt + 1)
    else
      (if b.IsParity then repairParity getter now fuel fuel s (some i) true
        else (repairBlock getter now fuel fuel s i).bind fun r => .done r.1).bind fun s1 =>
      (orCrash s1.1.Blocks[i]?).bind fun b1 =>
      repairAllPass getter now fuel rest s1 (if b1.HasData then hasDataCnt + 1 else hasDataCnt)

/-- Outer loop of `RepairAll`, with at most `k` passes: the state afterwards and the counts
`hasDataCnt` of the passes made, in order. -/
def repairAllLoop (getter : Getter) (now : Int) (fuel : Nat) :
    Nat → Lattice × Nat → Int → List Int → Outcome ((Lattice × Nat) × List Int)
  | 0, _, _, _ => .noFuel
  | k + 1, s, oldHasDataCnt, counts =>
    (repairAllPass getter now fuel (List.range s.1.Blocks.length) s 0).bind fun r =>
    if oldHasDataCnt = r.2 then .done (r.1, counts ++ [r.2])
    else repairAllLoop getter now fuel k r.1 r.2 (counts ++ [r.2])

/-- Source `Lattice.RepairAll`: every loop and every nesting of calls of the model has the
fuel `fuel`. -/
def RepairAll (getter : Getter) (now : Int) (fuel : Nat) (s : Lattice × Nat) :
    Outcome ((Lattice × Nat) × List Int) :=
  repairAllLoop getter now fuel fuel s (-1) []

/-- The step from `l` to `l1` keeps the number of blocks and clears no data. -/
structure KeepsData (l l1 : Lattice) : Prop where
  length_eq : l1.Blocks.length = l.Blocks.length
  data : ∀ j : Nat, ptrHasData l.Blocks[j]? = true → ptrHasData l1.Blocks[j]? = true

/-- A block without the fields that the repair code writes: the data, the two statuses with
their times, and the mending flag. -/
def Block.frame (b : Block) : Block :=
  { b with Data := [], DownloadStatus := .NoDownload, RepairStatus := .NoRepair,
           IsMending := false, DownloadTime := { StartTime := 0, EndTime := 0 },
           RepairTime := { StartTime := 0, EndTime := 0 } }

/-- What the repair code may have done to a block between two states: the frame is kept, the
data of a block that has data are kept, a mending block stays mending, and no download is
left pending. -/
structure BlockStep (b b' : Block) : Prop where
  frame : b'.frame = b.frame
  data : b.HasData = true → b'.Data = b.Data
  mending : b.IsMending = true → b'.IsMending = true
  download : b'.DownloadStatus = .DownloadPending → b.DownloadStatus = .DownloadPending

/-- What the repair code may have done to a lattice between two states: every block made a
`BlockStep`, and the blocks at the pointers `keep` that were `RepairPending` still are. -/
structure LatticeStep (keep : Nat → Prop) (l l' : Lattice) : Prop where
  length_eq : l'.Blocks.length = l.Blocks.length
  blocks : ∀ (j : Nat) (b b' : Block), l.Blocks[j]? = some b → l'.Blocks[j]? = some b' →
    BlockStep b b' ∧
    (keep j → b.RepairStatus = .RepairPending → b'.RepairStatus = .RepairPending)

/-- The call returned, or ended in a panic; a value returned satisfies `Q`. The call neither
waits for ever nor outruns the fuel of the model. -/
def Outcome.Returns {α : Type} (o : Outcome α) (Q : α → Prop) : Prop :=
  match o with
  | .done a => Q a
  | .crash => True
  | .blocked => False
  | .noFuel => False

/-- The walk of `replacedParityRepair` on the frames of the blocks: whether, from the pointer
`right`, it is back at `bPosition` or at a nil pointer within `fuel` steps, whatever data
the blocks hold. -/
def walkReturns (frames : List Block) (bPosition : Int) (bClass : Nat) :
    Nat → Option Nat → Bool
  | 0, _ => false
  | fuel + 1, right =>
    match right with
    | none => true
    | some ri =>
      match frames[ri]? with
      | none => true
      | some rb =>
        if rb.Position = bPosition then true
        else
          match rb.Right[bClass]? with
          | none => true
          | some none => true
          | some (some pi) =>
            match frames[pi]? with
            | none => true
            | some pb =>
              match pb.Right[0]? with
              | none => true
              | some next => walkReturns frames bPosition bClass fuel next

/-- The walk of `replacedParityRepair` comes back, within `fuel` steps, for every parity
marked `Replace`. -/
def walkOK (frames : List Block) (fuel : Nat) : Bool :=
  frames.all fun b =>
    !(b.IsParity && b.Replace) ||
      match b.Right[0]? with
      | none => true
      | some right => walkReturns frames b.Position b.Class.idx fuel right

/-- State in which `RepairAll` may be called: no download is pending on any block, and the
strands of the replaced parities are closed. -/
def Ready (wf : Nat) (l : Lattice) : Prop :=
  (∀ b ∈ l.Blocks, b.DownloadStatus ≠ .DownloadPending) ∧
    walkOK (l.Blocks.map Block.frame) wf = true

/-- Number of blocks that are not `RepairPending`. -/
def notPending (l : Lattice) : Nat :=
  (List.range l.Blocks.length).countP fun j =>
    decide ((l.Blocks[j]?).map Block.RepairStatus ≠ some .RepairPending)

/-- Number of blocks that are not mending. -/
def notMending (l : Lattice) : Nat :=
  (List.range l.Blocks.length).countP fun j =>
    decide ((l.Blocks[j]?).map Block.IsMending ≠ some true)

/-- Number of blocks with data. -/
def withData (l : Lattice) : Nat :=
  (List.range l.Blocks.length).countP fun j => ptrHasData l.Blocks[j]?

/-- A `Repair` of the block at pointer `bp`: only that block can change, and when an error
is returned nothing changes. -/
def RepairPost (bp : Nat) (l : Lattice) (r : (Lattice × Nat) × Bool) : Prop :=
  LatticeStep (fun j => j ≠ bp) l r.1.1 ∧ (r.2 = false → LatticeStep (fun _ => True) l r.1.1)

/-- What the nested `repairBlock` of the count loop is known to do. -/
def BlockPost (j : Nat) (l : Lattice) (r : (Lattice × Nat) × Bool) : Prop :=
  LatticeStep (fun _ => False) l r.1.1 ∧
    ∀ b', r.1.1.Blocks[j]? = some b' → b'.IsMending = true

/-- The lattice in which the blocks at the pointers `miss` have no data. -/
def dropData (miss : List Nat) (l : Lattice) : Lattice :=
  let blocks := List.zipWith (fun i b => if i ∈ miss then { b with Data := [] } else b)
    (List.range l.Blocks.length) l.Blocks
  { l with Blocks := blocks }

/-- The positions of the strand of class `k` from `x` on, up to the last data block `n`. -/
def strandFrom (n : Nat) (k : StrandClass) : Nat → Int → List Int
  | 0, _ => []
  | f + 1, x => if x ≤ (n : Int) then x :: strandFrom n k f (fwd k x) else []

/-- Sample input with spans: 25 chunks of nine bytes, the span 9 in the first eight bytes and
then the byte `i + 1`. -/
def sampleSpanChunks : List (List Nat) :=
  (List.range 25).map (fun i => [9, 0, 0, 0, 0, 0, 0, 0, i + 1])

/-- Metadata of the chunks of `sampleSpanChunks`: size 9 and length 9, no parent, no child. -/
def sampleSpanMeta : List ChunkMetadata :=
  List.replicate 25 { Size := 9, Length := 9, Parent := 0, Children := [] }

/-- A parity of nine bytes followed by the zero bytes that make it a parity of `ChunkSize`
bytes; a data block is left as it is. -/
def padParity (b : Block) : Block :=
  if b.IsParity then { b with Data := b.Data ++ List.replicate (ChunkSize - 9) 0 } else b

/-- The closed lattice of the 25 sample chunks that begin with their span: every data block
holds its chunk of nine bytes, every parity the sum that `closedRun 9` gives it, followed by
zero bytes up to 4096 bytes; with three parity root ids. -/
def sampleFull : Option Lattice :=
  match RunInit (NewLattice 3 5 5 25) sampleSpanMeta, closedRun 9 sampleSpanChunks with
  | some l, some eb =>
    some { l with Blocks := (loadLattice sampleSpanChunks eb l).Blocks.map padParity,
                  ParityRootID := [[1], [2], [3]] }
  | _, _ => none

/-- The lattice in which the blocks at the pointers `is` have the flag `IsMending`, as
`RepairAll` leaves it on a block it has called `repairBlock` for (`RepairChunk` resets the
flag, `RepairAll` does not). -/
def markMending (is : List Nat) (l : Lattice) : Lattice :=
  let blocks := List.zipWith (fun i b => if i ∈ is then { b with IsMending := true } else b)
    (List.range l.Blocks.length) l.Blocks
  { l with Blocks := blocks }

/-- The sample lattice after a loss: the data block at position 11 (pointer 10), which an
earlier `RepairAll` has left mending, and the parity at pointer 40, which joins the
positions 6 and 11 on the horizontal strand, hold no data. -/
def sampleLost (full : Lattice) : Lattice := markMending [10] (dropData [10, 40] full)

/-- A network that is down: every call returns an error. -/
def noNetwork : Getter := fun _ _ _ => none

/-- `RepairAll` on the sample lattice after the loss, with the network down: the number of
blocks, whether the blocks have the links of the lattice of `RunInit` and no download is
pending, the counts of the passes, and whether the two blocks that were lost end with the data
they had before the loss. -/
def sampleRepairAll : Option (Nat × Bool × Outcome (List Int × Bool)) :=
  match RunInit (NewLattice 3 5 5 25) sampleSpanMeta, sampleFull with
  | some l0, some full =>
    some ((sampleLost full).Blocks.length,
      decide ((sampleLost full).Blocks.map Block.frame = l0.Blocks.map Block.frame) &&
        decide (∀ b ∈ (sampleLost full).Blocks, b.DownloadStatus ≠ .DownloadPending),
      (RepairAll noNetwork 1 400 (sampleLost full, 0)).bind fun r =>
        .done (r.2, decide ([10, 40].map (fun i => r.1.1.Blocks[i]?.map Block.Data) =
          [10, 40].map (fun i => full.Blocks[i]?.map Block.Data))))
  | _, _ => none

/-! ## Neighbours in the lattice (`Lattice.GetNeighbours`) -/

/-- Loop `for i := 0; i < len(src); i++` of the closure `iter` of `GetNeighbours` on the
state `(neighbours, added)`, the map `added` being the list of its keys: the state
afterwards and the calls deferred so far, the latest first. `none` is a nil-pointer or
index panic. -/
def iterScan (l : Lattice) (dir : Bool) :
    List (Option Nat) → List Nat × List Int → List (List (Option Nat) × Bool) →
      Option ((List Nat × List Int) × List (List (Option Nat) × Bool))
  | [], st, defs => some (st, defs)
  | p :: rest, st, defs =>
    match deref l p with
    | none => none
    | some sb =>
      match (if dir then sb.Right[0]? else sb.Left[0]?) with
      | some (some ni) =>
        match l.Blocks[ni]? with
        | none => none
        | some n =>
          if n.Position ∈ st.2 then iterScan l dir rest st defs
          else
            iterScan l dir rest (st.1 ++ [ni], n.Position :: st.2)
              ((if dir then n.Left else n.Right, !dir) :: defs)
      | _ => none

/-- The calls of `iter` that are still to run, as a stack: a call scans its `src`, and the
calls it deferred run, last in first out, when it returns, before the calls deferred by its
callers. At most `fuel` calls are run; `none` when the fuel does not suffice. -/
def iterStack (l : Lattice) :
    Nat → List (List (Option Nat) × Bool) → List Nat × List Int → Option (List Nat × List Int)
  | _, [], st => some st
  | 0, _ :: _, _ => none
  | fuel + 1, (src, dir) :: rest, st =>
    match iterScan l dir src st [] with
    | none => none
    | some (st1, defs) => iterStack l fuel (defs ++ rest) st1

/-- Source `Lattice.GetNeighbours` for the block at pointer `block`: the pointers of the
blocks returned, in order. -/
def GetNeighbours (fuel : Nat) (l : Lattice) (block : Nat) (direction : Bool) :
    Option (List Nat) :=
  match l.Blocks[block]? with
  | none => none
  | some b =>
    match iterStack l fuel [(if direction then b.Right else b.Left, direction)]
        ([block], [b.Position]) with
    | none => none
    | some st => some st.1

/-- The scan of `iter` on positions, for the data block at position `x` and the classes
`ks`: the neighbour of class `k` is the forward neighbour (to the right) or the backward
neighbour (to the left), and has to lie in the window of the positions `1..10`. -/
def scanW (dir : Bool) (x : Int) :
    List Nat → List Int × List Int → List (Int × Bool) →
      Option ((List Int × List Int) × List (Int × Bool))
  | [], st, defs => some (st, defs)
  | k :: ks, st, defs =>
    if 0 < (if dir then fwd (StrandClass.ofIdx k) x else bwd (StrandClass.ofIdx k) x) ∧
        (if dir then fwd (StrandClass.ofIdx k) x else bwd (StrandClass.ofIdx k) x) ≤ 10 then
      if (if dir then fwd (StrandClass.ofIdx k) x else bwd (StrandClass.ofIdx k) x) ∈ st.2 then
        scanW dir x ks st defs
      else
        scanW dir x ks
          (st.1 ++ [if dir then fwd (StrandClass.ofIdx k) x else bwd (StrandClass.ofIdx k) x],
            (if dir then fwd (StrandClass.ofIdx k) x else bwd (StrandClass.ofIdx k) x) :: st.2)
          (((if dir then fwd (StrandClass.ofIdx k) x else bwd (StrandClass.ofIdx k) x),
            !dir) :: defs)
    else none

/-- The stack of calls of `iter` on the positions of the first two columns. -/
def walkW : Nat → List (Int × Bool) → List Int × List Int → Option (List Int × List Int)
  | _, [], st => some st
  | 0, _ :: _, _ => none
  | fuel + 1, (x, dir) :: rest, st =>
    match scanW dir x [0, 1, 2] st [] with
    | none => none
    | some (st1, defs) => walkW fuel (defs ++ rest) st1

/-! # Theorems -/

/-! ### The float64 squares of the neighbour functions -/

theorem roundFloat64_exact (n : Nat) (h : n < 2 ^ 53) : roundFloat64 n = n := by
  have he : spacingExp 1024 n 0 = 0 := by
    show (if n / 2 ^ 0 < 2 ^ 53 then 0 else spacingExp 1023 n (0 + 1)) = 0
    rw [if_pos (by simpa using h)]
  simp only [roundFloat64, he]
  simp [Nat.mod_one]

/-- The square is exact for an argument of absolute value up to 94906265, the largest whose
square is below `2 ^ 53`. -/
theorem powTwo_exact (x : Int) (h : x.natAbs ≤ 94906265) : powTwo x = x * x := by
  have h1 : x.natAbs < 2 ^ 53 := by
    have : (94906265 : Nat) < 2 ^ 53 := by norm_num
    omega
  have h2 : x.natAbs * x.natAbs < 2 ^ 53 := by
    have : x.natAbs * x.natAbs ≤ 94906265 * 94906265 := Nat.mul_le_mul h h
    have : (94906265 * 94906265 : Nat) < 2 ^ 53 := by norm_num
    omega
  simp only [powTwo, roundFloat64_exact _ h1, roundFloat64_exact _ h2]
  push_cast
  exact abs_mul_abs_self x

theorem powTwoPred_exact (x : Int) (h : x.natAbs ≤ 94906265) :
    powTwoPred x = x * x - 1 := by
  have hp := powTwo_exact x h
  have h2 : x.natAbs * x.natAbs < 2 ^ 53 := by
    have : x.natAbs * x.natAbs ≤ 94906265 * 94906265 := Nat.mul_le_mul h h
    have : (94906265 * 94906265 : Nat) < 2 ^ 53 := by norm_num
    omega
  have hxx : x * x = ((x.natAbs * x.natAbs : Nat) : Int) := by
    push_cast
    exact (abs_mul_abs_self x).symm
  simp only [powTwoPred, hp]
  by_cases h0 : x * x = 0
  · rw [if_pos h0, h0]; rfl
  · rw [if_neg h0]
    have hpos : 0 < x * x := by
      rw [hxx] at h0 ⊢
      omega
    have hlt : (x * x - 1).toNat < 2 ^ 53 := by
      rw [hxx]
      omega
    rw [roundFloat64_exact _ hlt]
    omega

theorem powTwo_four : powTwo (5 - 1) = 16 := by decide

theorem powTwoPred_five : powTwoPred 5 = 24 := by decide

/-! ### Index arithmetic of the default configuration -/

theorem stepOf_pos (k : StrandClass) (a : Int) : 1 ≤ stepOf k a ∧ stepOf k a ≤ 9 := by
  cases k <;> simp only [stepOf] <;> (try split_ifs) <;> omega

theorem fwd_eq (k : StrandClass) (i : Int) (hi : 1 ≤ i) : fwd k i = i + stepOf k (i % 25) := by
  have h5 : Int.tmod i 5 = i % 5 := Int.tmod_eq_emod (by omega) (by omega)
  have e : i % 25 % 5 = i % 5 := by omega
  cases k <;> simp only [fwd, GetForwardNeighbours, Triple.get, h5, stepOf, e, powTwo_four,
      powTwoPred_five] <;>
    split_ifs <;> dsimp only <;> omega

theorem slot_eq (k : StrandClass) (i : Int) (hi : 1 ≤ i) : slot k i = slotTab k (i % 25) := by
  have h25 : Int.tmod i (5*5) = i % 25 := Int.tmod_eq_emod (by omega) (by omega)
  have h51 : Int.tmod (i-1) 5 = (i-1) % 5 := Int.tmod_eq_emod (by omega) (by omega)
  cases k <;> simp only [slot, GetMemoryPosition, Triple.get, h25, h51, slotTab]
  omega

theorem residue_fin (i : Int) : ∃ a : Fin 25, (a.val : Int) = i % 25 :=
  ⟨⟨(i % 25).toNat, by omega⟩, by simp; omega⟩

theorem tab_fwd : ∀ k : StrandClass, ∀ a : Fin 25,
    slotTab k (((a.val : Int) + stepOf k a.val) % 25) = slotTab k a.val := by
  intro k; cases k <;> decide

theorem tab_between : ∀ k : StrandClass, ∀ a : Fin 25, ∀ u : Fin 9,
    0 < u.val → (u.val : Int) < stepOf k a.val →
    slotTab k (((a.val : Int) + u.val) % 25) ≠ slotTab k a.val := by
  intro k; cases k <;> decide

theorem tab_range : ∀ a : Fin 25,
    (0 ≤ slotTab .Right a.val ∧ slotTab .Right a.val ≤ 4) ∧
    (5 ≤ slotTab .Horizontal a.val ∧ slotTab .Horizontal a.val ≤ 9) ∧
    (10 ≤ slotTab .Left a.val ∧ slotTab .Left a.val ≤ 14) := by
  decide

theorem fwd_gt (k : StrandClass) (i : Int) (hi : 1 ≤ i) : i < fwd k i ∧ fwd k i ≤ i + 9 := by
  rw [fwd_eq k i hi]; have := stepOf_pos k (i % 25); omega

theorem slot_fwd (k : StrandClass) (i : Int) (hi : 1 ≤ i) : slot k (fwd k i) = slot k i := by
  have hs := stepOf_pos k (i % 25)
  rw [slot_eq k _ (by rw [fwd_eq k i hi]; omega), slot_eq k i hi, fwd_eq k i hi]
  obtain ⟨a, h⟩ := residue_fin i
  have := tab_fwd k a
  rw [h] at this
  rw [← this]
  congr 1
  omega

theorem slot_between (k : StrandClass) (i t : Int) (hi : 1 ≤ i) (h1 : i < t)
    (h2 : t < fwd k i) : slot k t ≠ slot k i := by
  have hs := stepOf_pos k (i % 25)
  rw [fwd_eq k i hi] at h2
  rw [slot_eq k t (by omega), slot_eq k i hi]
  obtain ⟨a, h⟩ := residue_fin i
  obtain ⟨u, hu⟩ : ∃ u : Fin 9, (u.val : Int) = t - i :=
    ⟨⟨(t - i).toNat, by omega⟩, by simp; omega⟩
  have := tab_between k a u (by omega) (by rw [h, hu]; omega)
  rw [h, hu] at this
  intro hh
  apply this
  rw [← hh]
  congr 1
  omega

theorem slot_range (i : Int) (hi : 1 ≤ i) :
    (0 ≤ slot .Right i ∧ slot .Right i ≤ 4) ∧
    (5 ≤ slot .Horizontal i ∧ slot .Horizontal i ≤ 9) ∧
    (10 ≤ slot .Left i ∧ slot .Left i ≤ 14) := by
  rw [slot_eq _ i hi, slot_eq _ i hi, slot_eq _ i hi]
  obtain ⟨a, h⟩ := residue_fin i
  rw [← h]
  exact tab_range a

/-! ### XOR of byte slices of equal length -/

theorem XORByteSlice_eq {a b : List Nat} (h : a.length = b.length) :
    XORByteSlice a b = List.zipWith (fun x y => x ^^^ y) a b := by
  simp [XORByteSlice, h]

theorem XORByteSlice_length {a b : List Nat} (h : a.length = b.length) :
    (XORByteSlice a b).length = a.length := by
  rw [XORByteSlice_eq h]; simp [h]

theorem zipXor_comm : ∀ (a b : List Nat),
    List.zipWith (fun x y => x ^^^ y) a b = List.zipWith (fun x y => x ^^^ y) b a
  | [], [] => rfl
  | [], _ :: _ => rfl
  | _ :: _, [] => rfl
  | x :: a, y :: b => by
    simp only [List.zipWith_cons_cons, zipXor_comm a b, Nat.xor_comm x y]

theorem zipXor_cancel : ∀ (a b : List Nat), a.length = b.length →
    List.zipWith (fun x y => x ^^^ y) a (List.zipWith (fun x y => x ^^^ y) a b) = b
  | [], [], _ => rfl
  | [], _ :: _, h => by simp at h
  | _ :: _, [], h => by simp at h
  | x :: a, y :: b, h => by
    simp only [List.zipWith_cons_cons, Nat.xor_cancel_left]
    rw [zipXor_cancel a b (by simpa using h)]

theorem zipXor_assoc : ∀ (a b c : List Nat),
    List.zipWith (fun x y => x ^^^ y) (List.zipWith (fun x y => x ^^^ y) a b) c =
      List.zipWith (fun x y => x ^^^ y) a (List.zipWith (fun x y => x ^^^ y) b c)
  | [], _, _ => by simp
  | _ :: _, [], _ => by simp
  | _ :: _, _ :: _, [] => by simp
  | x :: a, y :: b, z :: c => by
    simp only [List.zipWith_cons_cons, zipXor_assoc a b c, Nat.xor_assoc]

theorem XORByteSlice_comm {a b : List Nat} (h : a.length = b.length) :
    XORByteSlice a b = XORByteSlice b a := by
  rw [XORByteSlice_eq h, XORByteSlice_eq h.symm, zipXor_comm]

theorem XORByteSlice_cancel {a b : List Nat} (h : a.length = b.length) :
    XORByteSlice a (XORByteSlice a b) = b := by
  rw [XORByteSlice_eq h, XORByteSlice_eq (by simp [h]), zipXor_cancel a b h]

theorem XORByteSlice_cancel' {a b : List Nat} (h : a.length = b.length) :
    XORByteSlice a (XORByteSlice b a) = b := by
  rw [XORByteSlice_comm h.symm, XORByteSlice_cancel h]

/-! ### XOR of byte slices of any length -/

theorem XORByteSlice_zero (a : List Nat) :
    XORByteSlice a (List.replicate a.length 0) = a := by
  rw [XORByteSlice_eq (by simp)]
  induction a with
  | nil => rfl
  | cons x xs ih => simp [List.replicate_succ, ih]

theorem zipXor_cancel_right (a b : List Nat) (h : a.length = b.length) :
    List.zipWith (fun x y => x ^^^ y) (List.zipWith (fun x y => x ^^^ y) a b) b = a := by
  rw [zipXor_comm (List.zipWith (fun x y => x ^^^ y) a b) b, zipXor_comm a b]
  exact zipXor_cancel b a h.symm

theorem zipXor_zero_right : ∀ (a : List Nat),
    List.zipWith (fun x y => x ^^^ y) a (List.replicate a.length 0) = a
  | [] => rfl
  | x :: a => by
    simp only [List.length_cons, List.replicate_succ, List.zipWith_cons_cons, Nat.xor_zero,
      zipXor_zero_right a]

theorem zipXor_append (a b c e : List Nat) (h : a.length = b.length) :
    List.zipWith (fun x y => x ^^^ y) (a ++ c) (b ++ e) =
      List.zipWith (fun x y => x ^^^ y) a b ++ List.zipWith (fun x y => x ^^^ y) c e :=
  List.zipWith_append _ _ _ _ _ h

/-- What `XORByteSlice` returns: both slices padded with zeros to the longer length. -/
theorem XORByteSlice_pad (a b : List Nat) :
    XORByteSlice a b = List.zipWith (fun x y => x ^^^ y)
      (a ++ List.replicate (b.length - a.length) 0)
      (b ++ List.replicate (a.length - b.length) 0) := by
  unfold XORByteSlice PadByteSlices
  by_cases h : a.length = b.length
  · simp [h]
  · by_cases hlt : a.length < b.length
    · have : a.length - b.length = 0 := by omega
      simp [h, hlt, this]
    · have : b.length - a.length = 0 := by omega
      simp [h, hlt, this]

theorem XORByteSlice_length_max (a b : List Nat) :
    (XORByteSlice a b).length = max a.length b.length := by
  rw [XORByteSlice_pad]
  simp only [List.length_zipWith, List.length_append, List.length_replicate]
  omega

theorem getElem?_pad (a : List Nat) (k i : Nat) (h : i < a.length + k) :
    (a ++ List.replicate k 0)[i]? = some (a.getD i 0) := by
  by_cases hi : i < a.length
  · rw [List.getElem?_append_left hi, List.getD_eq_getElem?_getD, List.getElem?_eq_getElem hi]
    rfl
  · rw [List.getElem?_append_right (by omega), List.getElem?_replicate,
      if_pos (by omega), List.getD_eq_getElem?_getD, List.getElem?_eq_none (by omega)]
    rfl

theorem XORByteSlice_getElem? (a b : List Nat) (i : Nat) (h : i < max a.length b.length) :
    (XORByteSlice a b)[i]? = some (a.getD i 0 ^^^ b.getD i 0) := by
  rw [XORByteSlice_pad, List.getElem?_zipWith, getElem?_pad a _ i (by omega),
    getElem?_pad b _ i (by omega)]

theorem XORByteSlice_comm_pad (a b : List Nat) : XORByteSlice a b = XORByteSlice b a := by
  apply List.ext_getElem?
  intro i
  by_cases h : i < max a.length b.length
  · rw [XORByteSlice_getElem? a b i h, XORByteSlice_getElem? b a i (by omega), Nat.xor_comm]
  · rw [List.getElem?_eq_none (by rw [XORByteSlice_length_max]; omega),
      List.getElem?_eq_none (by rw [XORByteSlice_length_max]; omega)]

theorem XORByteSlice_getD (a b : List Nat) (i : Nat) :
    (XORByteSlice a b).getD i 0 = a.getD i 0 ^^^ b.getD i 0 := by
  by_cases h : i < max a.length b.length
  · rw [List.getD_eq_getElem?_getD, XORByteSlice_getElem? a b i h]
    rfl
  · have ha : a.length ≤ i := by omega
    have hb : b.length ≤ i := by omega
    rw [List.getD_eq_getElem?_getD,
      List.getElem?_eq_none (by rw [XORByteSlice_length_max]; omega),
      List.getD_eq_getElem?_getD, List.getElem?_eq_none ha, List.getD_eq_getElem?_getD,
      List.getElem?_eq_none hb]
    rfl

/-- `XORByteSlice` is associative, whatever the lengths. -/
theorem XORByteSlice_assoc_pad (a b c : List Nat) :
    XORByteSlice (XORByteSlice a b) c = XORByteSlice a (XORByteSlice b c) := by
  apply List.ext_getElem?
  intro i
  by_cases h : i < max (max a.length b.length) c.length
  · rw [XORByteSlice_getElem? _ _ i (by rw [XORByteSlice_length_max]; exact h),
      XORByteSlice_getElem? _ _ i (by rw [XORByteSlice_length_max]; omega),
      XORByteSlice_getD, XORByteSlice_getD, Nat.xor_assoc]
  · rw [List.getElem?_eq_none (by simp only [XORByteSlice_length_max]; omega),
      List.getElem?_eq_none (by simp only [XORByteSlice_length_max]; omega)]

theorem replicate_zero_getD (z i : Nat) : (List.replicate z 0).getD i 0 = 0 := by
  rw [List.getD_eq_getElem?_getD, List.getElem?_replicate]
  split <;> rfl

/-- The XOR with a block of zeros starts with the other block, and is the other block when
the zeros are not longer. -/
theorem XORByteSlice_zeros (z : Nat) (a : List Nat) :
    (XORByteSlice (List.replicate z 0) a).take a.length = a ∧
    (z ≤ a.length → XORByteSlice (List.replicate z 0) a = a) := by
  have key : (XORByteSlice (List.replicate z 0) a).take a.length = a := by
    apply List.ext_getElem?
    intro i
    rw [List.getElem?_take]
    by_cases hi : i < a.length
    · rw [if_pos hi, XORByteSlice_getElem? _ _ i (by simp; omega), replicate_zero_getD,
        Nat.zero_xor, List.getD_eq_getElem?_getD, List.getElem?_eq_getElem hi]
      rfl
    · rw [if_neg hi, List.getElem?_eq_none (by omega)]
  refine ⟨key, fun hz => ?_⟩
  have hl : (XORByteSlice (List.replicate z 0) a).length = a.length := by
    rw [XORByteSlice_length_max, List.length_replicate]
    omega
  rw [← hl, List.take_length] at key
  exact key

/-! ### XOR of byte slices of any length: equality up to trailing zeros -/

theorem getD_pad (a : List Nat) (n i : Nat) :
    (a ++ List.replicate n 0).getD i 0 = a.getD i 0 := by
  by_cases hi : i < a.length
  · rw [List.getD_eq_getElem?_getD, List.getD_eq_getElem?_getD, List.getElem?_append_left hi]
  · rw [List.getD_eq_getElem?_getD, List.getD_eq_getElem?_getD,
      List.getElem?_append_right (by omega), List.getElem?_replicate,
      List.getElem?_eq_none (by omega)]
    split <;> rfl

theorem eq_of_getD {x y : List Nat} (hl : x.length = y.length)
    (h : ∀ i, x.getD i 0 = y.getD i 0) : x = y := by
  apply List.ext_getElem hl
  intro i h1 h2
  have := h i
  rw [List.getD_eq_getElem _ _ h1, List.getD_eq_getElem _ _ h2] at this
  exact this

/-- A slice that agrees with a shorter one up to trailing zeros is the shorter one followed
by zeros. -/
theorem eq_pad_of_getD {x b : List Nat} (hlen : b.length ≤ x.length)
    (h : ∀ i, x.getD i 0 = b.getD i 0) :
    x = b ++ List.replicate (x.length - b.length) 0 := by
  apply eq_of_getD
  · rw [List.length_append, List.length_replicate]
    omega
  · intro i
    rw [getD_pad]
    exact h i

theorem xor_getD_back (a b : List Nat) (i : Nat) :
    (XORByteSlice a (XORByteSlice b a)).getD i 0 = b.getD i 0 := by
  rw [XORByteSlice_getD, XORByteSlice_getD, Nat.xor_comm (b.getD i 0), ← Nat.xor_assoc,
    Nat.xor_self, Nat.zero_xor]

/-- XOR-ing a parity with the parity that follows it on the strand gives the chunk between
them, followed by zeros up to the length of the second parity. -/
theorem xor_back (a b : List Nat) :
    XORByteSlice a (XORByteSlice b a) =
      b ++ List.replicate ((XORByteSlice b a).length - b.length) 0 := by
  have h := eq_pad_of_getD (x := XORByteSlice a (XORByteSlice b a)) (b := b)
    (by rw [XORByteSlice_length_max, XORByteSlice_length_max]; omega) (xor_getD_back a b)
  rw [XORByteSlice_length_max a, XORByteSlice_length_max b a] at h
  rw [XORByteSlice_length_max b a]
  have e : max a.length (max b.length a.length) = max b.length a.length := by omega
  rw [e] at h
  exact h

theorem xor_getD_first (a b : List Nat) (c i : Nat) :
    (XORByteSlice a (XORByteSlice b (XORByteSlice a (List.replicate c 0)))).getD i 0 =
      b.getD i 0 := by
  rw [XORByteSlice_getD, XORByteSlice_getD, XORByteSlice_getD, replicate_zero_getD,
    Nat.xor_zero, Nat.xor_comm (b.getD i 0), ← Nat.xor_assoc, Nat.xor_self, Nat.zero_xor]

/-- The same for a strand that starts at the first block of the pair: the first parity of
the strand is the chunk XOR-ed with the zero block of the entangler. -/
theorem xor_back_first (a b : List Nat) (c : Nat) :
    XORByteSlice a (XORByteSlice b (XORByteSlice a (List.replicate c 0))) =
      b ++ List.replicate
        ((XORByteSlice b (XORByteSlice a (List.replicate c 0))).length - b.length) 0 := by
  have h := eq_pad_of_getD
    (x := XORByteSlice a (XORByteSlice b (XORByteSlice a (List.replicate c 0)))) (b := b)
    (by simp only [XORByteSlice_length_max]; omega) (xor_getD_first a b c)
  have e : (XORByteSlice a (XORByteSlice b (XORByteSlice a (List.replicate c 0)))).length =
      (XORByteSlice b (XORByteSlice a (List.replicate c 0))).length := by
    simp only [XORByteSlice_length_max]
    omega
  rw [e] at h
  exact h

theorem xor_getD_second (a b : List Nat) (c i : Nat) :
    (XORByteSlice b (XORByteSlice b (XORByteSlice a (List.replicate c 0)))).getD i 0 =
      a.getD i 0 := by
  rw [XORByteSlice_getD, XORByteSlice_getD, XORByteSlice_getD, replicate_zero_getD,
    Nat.xor_zero, ← Nat.xor_assoc, Nat.xor_self, Nat.zero_xor]

theorem xor_back_second (a b : List Nat) (c : Nat) :
    XORByteSlice b (XORByteSlice b (XORByteSlice a (List.replicate c 0))) =
      a ++ List.replicate
        ((XORByteSlice b (XORByteSlice a (List.replicate c 0))).length - a.length) 0 := by
  have h := eq_pad_of_getD
    (x := XORByteSlice b (XORByteSlice b (XORByteSlice a (List.replicate c 0)))) (b := a)
    (by simp only [XORByteSlice_length_max]; omega) (xor_getD_second a b c)
  have e : (XORByteSlice b (XORByteSlice b (XORByteSlice a (List.replicate c 0)))).length =
      (XORByteSlice b (XORByteSlice a (List.replicate c 0))).length := by
    simp only [XORByteSlice_length_max]
    omega
  rw [e] at h
  exact h

/-- Two slices agree up to trailing zeros exactly when `PadByteSlices` with zeros makes
them equal. -/
theorem PadByteSlices_eq_iff (x y : List Nat) :
    (PadByteSlices x y true).1 = (PadByteSlices x y true).2 ↔
      ∀ i, x.getD i 0 = y.getD i 0 := by
  unfold PadByteSlices
  simp only []
  by_cases h : x.length = y.length
  · rw [if_pos h]
    constructor
    · intro e i; rw [show x = y from e]
    · intro e; exact eq_of_getD h e
  · rw [if_neg h]
    by_cases hlt : x.length < y.length
    · rw [if_pos hlt]
      simp only [if_true]
      constructor
      · intro e i
        rw [← e, getD_pad]
      · intro e
        apply eq_of_getD
        · rw [List.length_append, List.length_replicate]; omega
        · intro i; rw [getD_pad]; exact e i
    · rw [if_neg hlt]
      simp only [if_true]
      constructor
      · intro e i
        rw [e, getD_pad]
      · intro e
        apply eq_of_getD
        · rw [List.length_append, List.length_replicate]; omega
        · intro i; rw [getD_pad]; exact e i

/-! ### The running parities -/

theorem pmSpec_length (c : Nat) (d : List (List Nat)) (hc : ∀ x ∈ d, x.length = c) :
    ∀ (i : Nat) (s : Int), i ≤ d.length → (pmSpec c d i s).length = c
  | 0, _, _ => by simp [pmSpec]
  | i + 1, s, h => by
    have ih := pmSpec_length c d hc i s (by omega)
    have hd : (d.getD i []).length = c := by
      rw [List.getD_eq_getElem _ _ (by omega)]
      exact hc _ (List.getElem_mem _)
    simp only [pmSpec]
    split
    · rw [XORByteSlice_length (by rw [hd, ih]), hd]
    · exact ih

theorem pmSpec_stable (c : Nat) (d : List (List Nat)) (s : Int) (i : Nat) :
    ∀ (u : Nat), (∀ m : Nat, i < m → m ≤ i + u → usesSlot m s = false) →
      pmSpec c d (i + u) s = pmSpec c d i s
  | 0, _ => rfl
  | u + 1, h => by
    have ih := pmSpec_stable c d s i u (fun m h1 h2 => h m h1 (by omega))
    have hu := h (i + u + 1) (by omega) (by omega)
    rw [← Nat.add_assoc]
    simp only [pmSpec]
    have : ((i + u : Nat) : Int) + 1 = ((i + u + 1 : Nat) : Int) := by push_cast; ring
    rw [this, hu]
    simpa using ih

/-! ### One `Entangle` call -/

theorem getI_natCast {α : Type} (xs : List α) (n : Nat) : getI xs (n : Int) = xs[n]? := by
  simp [getI]

theorem setI_natCast {α : Type} (xs : List α) (n : Nat) (v : α) (h : n < xs.length) :
    setI xs (n : Int) v = some (xs.set n v) := by
  simp [setI, h]

theorem usesSlot_iff (m s : Int) :
    usesSlot m s = true ↔ s = slot .Right m ∨ s = slot .Horizontal m ∨ s = slot .Left m := by
  simp only [usesSlot, decide_eq_true_eq]
  constructor <;> (rintro (h | h | h) <;> simp [h])

theorem Entangle_step (c : Nat) (d : List (List Nat)) (i : Nat) (e : Entangler)
    (hinv : EntInv c d i e) :
    ∃ e', Entangle e (d.getD i []) ((i : Int) + 1) = some (e', blocksAt c d (i + 1)) ∧
      EntInv c d (i + 1) e' := by
  obtain ⟨hS, hP, hA, hlen, hpm, hllen, hlem, hnum, hrei⟩ := hinv
  have hpos : (1 : Int) ≤ (i : Int) + 1 := by omega
  obtain ⟨⟨hr0, hr1⟩, ⟨hh0, hh1⟩, ⟨hl0, hl1⟩⟩ := slot_range ((i : Int) + 1) hpos
  obtain ⟨rn, hrn⟩ : ∃ rn : Nat, (rn : Int) = slot .Right ((i : Int) + 1) :=
    ⟨(slot .Right ((i : Int) + 1)).toNat, by omega⟩
  obtain ⟨hn, hhn⟩ : ∃ hn : Nat, (hn : Int) = slot .Horizontal ((i : Int) + 1) :=
    ⟨(slot .Horizontal ((i : Int) + 1)).toNat, by omega⟩
  obtain ⟨ln, hln⟩ : ∃ ln : Nat, (ln : Int) = slot .Left ((i : Int) + 1) :=
    ⟨(slot .Left ((i : Int) + 1)).toNat, by omega⟩
  have hrb : rn < 5 := by omega
  have hhb : 5 ≤ hn ∧ hn < 10 := by omega
  have hlb : 10 ≤ ln ∧ ln < 15 := by omega
  have hmem : GetMemoryPosition ((i : Int) + 1) 5 5 = ((rn : Int), (hn : Int), (ln : Int)) := by
    rw [hrn, hhn, hln]; rfl
  have hbwd : GetBackwardNeighbours ((i : Int) + 1) 5 5 =
      (bwd .Right ((i : Int) + 1), bwd .Horizontal ((i : Int) + 1), bwd .Left ((i : Int) + 1)) :=
    rfl
  have hlemO : (if (i : Int) + 1 ≤ (e.LeftExtremeMemory.length : Int) then
      setI e.LeftExtremeMemory ((i : Int) + 1 - 1) (d.getD i []) else some e.LeftExtremeMemory) =
      some (if i < 5 then e.LeftExtremeMemory.set i (d.getD i []) else e.LeftExtremeMemory) := by
    rw [hllen]
    by_cases h5 : i < 5
    · have : (i : Int) + 1 ≤ ((5 : Nat) : Int) := by omega
      rw [if_pos this, if_pos h5]
      have : (i : Int) + 1 - 1 = (i : Int) := by omega
      rw [this, setI_natCast _ _ _ (by omega)]
    · have : ¬ ((i : Int) + 1 ≤ ((5 : Nat) : Int)) := by omega
      rw [if_neg this, if_neg h5]
  have hnum' : (if (i : Int) + 1 > e.NumDataBlocks then (i : Int) + 1 else e.NumDataBlocks) =
      ((i + 1 : Nat) : Int) := by
    rw [hnum, if_pos (by omega)]; push_cast; rfl
  refine ⟨{ e with
      NumDataBlocks := ((i + 1 : Nat) : Int),
      LeftExtremeMemory :=
        if i < 5 then e.LeftExtremeMemory.set i (d.getD i []) else e.LeftExtremeMemory,
      ParityMemory :=
        ((e.ParityMemory.set rn (XORByteSlice (d.getD i []) (pmSpec c d i rn))).set hn
          (XORByteSlice (d.getD i []) (pmSpec c d i hn))).set ln
          (XORByteSlice (d.getD i []) (pmSpec c d i ln)) }, ?_, ?_⟩
  · unfold Entangle
    simp only [hS, hP, hlemO, hmem, hbwd, getI_natCast, hpm rn (by omega), hpm hn (by omega),
      hpm ln (by omega), hnum']
    rw [setI_natCast _ _ _ (by omega)]
    simp only []
    rw [setI_natCast _ _ _ (by simp; omega)]
    simp only []
    rw [setI_natCast _ _ _ (by simp; omega)]
    simp only [blocksAt, Nat.add_sub_cancel, Nat.cast_add, Nat.cast_one, hrn, hhn, hln]
  · refine ⟨hS, hP, hA, by simp [hlen], ?_, ?_, ?_, rfl, hrei⟩
    · intro s hs
      have hu : usesSlot ((i : Int) + 1) (s : Int) = true ↔ (s = rn ∨ s = hn ∨ s = ln) := by
        rw [usesSlot_iff, ← hrn, ← hhn, ← hln]
        omega
      simp only [pmSpec, List.getElem?_set, List.length_set, hlen]
      by_cases h1 : s = ln
      · subst h1
        rw [if_pos rfl, if_pos (by omega), if_pos (hu.2 (by simp))]
      · rw [if_neg (Ne.symm h1)]
        by_cases h2 : s = hn
        · subst h2
          rw [if_pos rfl, if_pos (by omega), if_pos (hu.2 (by simp))]
        · rw [if_neg (Ne.symm h2)]
          by_cases h3 : s = rn
          · subst h3
            rw [if_pos rfl, if_pos (by omega), if_pos (hu.2 (by simp))]
          · rw [if_neg (Ne.symm h3), hpm s hs]
            have : ¬ (usesSlot ((i : Int) + 1) (s : Int) = true) := by
              rw [hu]; omega
            rw [if_neg this]
    · show (if i < 5 then e.LeftExtremeMemory.set i (d.getD i []) else e.LeftExtremeMemory).length = 5
      split <;> simp [hllen]
    · intro t ht
      show (if i < 5 then e.LeftExtremeMemory.set i (d.getD i []) else e.LeftExtremeMemory)[t]? = _
      by_cases h5 : i < 5
      · rw [if_pos h5, List.getElem?_set]
        by_cases hti : i = t
        · subst hti
          rw [if_pos rfl, if_pos (by omega), if_pos (by omega)]
        · rw [if_neg hti, hlem t ht]
          by_cases hlt : t < i
          · rw [if_pos hlt, if_pos (by omega)]
          · rw [if_neg hlt, if_neg (by omega)]
      · rw [if_neg h5, hlem t ht, if_pos (by omega), if_pos (by omega)]

/-! ### The whole `Entangle` loop -/

theorem NewEntangler_inv (c : Nat) (d : List (List Nat)) :
    EntInv c d 0 (NewEntangler 5 5 5 3 c) := by
  refine ⟨rfl, rfl, rfl, by simp [NewEntangler], ?_, by simp [NewEntangler], ?_, rfl, rfl⟩
  · intro s hs
    show (List.replicate (5 + 5 + 5) (List.replicate c 0))[s]? = some (pmSpec c d 0 s)
    rw [List.getElem?_replicate, if_pos (by omega)]
    rfl
  · intro t ht
    show (List.replicate (max 5 5) (List.replicate c 0))[t]? = _
    rw [List.getElem?_replicate, if_pos (by simpa using ht), if_neg (by omega)]

theorem entangleFrom_spec (c : Nat) (d : List (List Nat)) :
    ∀ (k i : Nat) (e : Entangler), i + k = d.length → EntInv c d i e →
      ∃ e', entangleFrom e (d.drop i) ((i : Int) + 1) = some (e', specOut c d i k) ∧
        EntInv c d d.length e'
  | 0, i, e, hik, hinv => by
    have : i = d.length := by omega
    subst this
    exact ⟨e, by simp [entangleFrom, specOut], hinv⟩
  | k + 1, i, e, hik, hinv => by
    have hi : i < d.length := by omega
    obtain ⟨e1, h1, hinv1⟩ := Entangle_step c d i e hinv
    obtain ⟨e2, h2, hinv2⟩ := entangleFrom_spec c d k (i + 1) e1 (by omega) hinv1
    refine ⟨e2, ?_, hinv2⟩
    rw [List.drop_eq_getElem_cons hi]
    rw [List.getD_eq_getElem _ _ hi] at h1
    simp only [entangleFrom, h1]
    have : ((i : Int) + 1 + 1) = ((i + 1 : Nat) : Int) + 1 := by push_cast; ring
    rw [this, h2]
    rfl

theorem mem_specOut (c : Nat) (d : List (List Nat)) (b : EntangledBlock) :
    ∀ (k i : Nat), b ∈ specOut c d i k ↔ ∃ m, i < m ∧ m ≤ i + k ∧ b ∈ blocksAt c d m
  | 0, i => by
    simp only [specOut, List.not_mem_nil, false_iff]
    rintro ⟨m, h1, h2, _⟩
    omega
  | k + 1, i => by
    simp only [specOut, List.mem_append, mem_specOut c d b k (i + 1)]
    constructor
    · rintro (h | ⟨m, h1, h2, h3⟩)
      · exact ⟨i + 1, by omega, by omega, h⟩
      · exact ⟨m, by omega, by omega, h3⟩
    · rintro ⟨m, h1, h2, h3⟩
      by_cases hm : m = i + 1
      · subst hm; exact Or.inl h3
      · exact Or.inr ⟨m, by omega, by omega, h3⟩

theorem mem_blocksAt (c : Nat) (d : List (List Nat)) (m : Nat) (b : EntangledBlock) :
    b ∈ blocksAt c d m ↔
      ∃ k : StrandClass, b = mkBlock (pmSpec c d (m - 1) (slot k m)) (bwd k m) m k false := by
  simp only [blocksAt, List.mem_cons, List.mem_singleton, List.not_mem_nil, or_false]
  constructor
  · rintro (h | h | h)
    · exact ⟨.Right, h⟩
    · exact ⟨.Horizontal, h⟩
    · exact ⟨.Left, h⟩
  · rintro ⟨k, h⟩
    cases k
    · exact Or.inr (Or.inl h)
    · exact Or.inl h
    · exact Or.inr (Or.inr h)

/-- Data of the block of class `k` sent by `Entangle` with right index `j`. -/
theorem specOut_data (c : Nat) (d : List (List Nat)) (n j : Nat) (k : StrandClass)
    (b : EntangledBlock) (hb : b ∈ specOut c d 0 n) (hk : b.Class = k)
    (hj : b.RightIndex = (j : Int)) :
    b.Data = pmSpec c d (j - 1) (slot k j) ∧ 1 ≤ j ∧ j ≤ n := by
  obtain ⟨m, h1, h2, h3⟩ := (mem_specOut c d b n 0).1 hb
  obtain ⟨k', rfl⟩ := (mem_blocksAt c d m _).1 h3
  simp only [mkBlock] at hk hj
  have : m = j := by exact_mod_cast hj
  subst this; subst hk
  exact ⟨rfl, by omega, by omega⟩

theorem specOut_exists (c : Nat) (d : List (List Nat)) (n j : Nat) (k : StrandClass)
    (h1 : 1 ≤ j) (h2 : j ≤ n) :
    ∃ b ∈ specOut c d 0 n, b.Class = k ∧ b.RightIndex = (j : Int) :=
  ⟨mkBlock (pmSpec c d (j - 1) (slot k j)) (bwd k j) j k false,
    (mem_specOut c d _ n 0).2 ⟨j, by omega, by omega, (mem_blocksAt c d j _).2 ⟨k, rfl⟩⟩,
    rfl, rfl⟩

/-- Between a position and its forward neighbour nothing else touches the slot. -/
theorem pmSpec_fwd (c : Nat) (d : List (List Nat)) (j f : Nat) (k : StrandClass)
    (hf : fwd k ((j : Int) + 1) = (f : Int) + 1) :
    pmSpec c d f (slot k ((f : Int) + 1)) =
      XORByteSlice (d.getD j []) (pmSpec c d j (slot k ((j : Int) + 1))) := by
  have hpos : (1 : Int) ≤ (j : Int) + 1 := by omega
  have hgt := fwd_gt k _ hpos
  have hslot := slot_fwd k _ hpos
  rw [hf] at hgt hslot
  rw [hslot]
  obtain ⟨u, rfl⟩ : ∃ u, f = (j + 1) + u := ⟨f - (j + 1), by omega⟩
  rw [pmSpec_stable c d _ (j + 1) u]
  · simp only [pmSpec]
    rw [if_pos]
    rw [usesSlot_iff]
    cases k <;> simp
  · intro m hm1 hm2
    have hne := slot_between k ((j : Int) + 1) (m : Int) hpos (by omega) (by rw [hf]; omega)
    have hr := slot_range (m : Int) (by omega)
    have hr' := slot_range ((j : Int) + 1) hpos
    cases hu : usesSlot (m : Int) (slot k ((j : Int) + 1)) with
    | false => rfl
    | true =>
      exfalso
      rw [usesSlot_iff] at hu
      cases k <;> omega

/-- C1 (open-lattice entanglement). For `(alpha, S, P) = (3, 5, 5)` and chunks `d` that all
have length `c`, the loop `Entangle(d[i], i+1)` on a fresh entangler returns, and for every
position `j + 1` and class `k` whose forward neighbour `f` is at most `n = len(d)`, a block
of class `k` is sent with right index `j + 1`, one with right index `f`, and the XOR of the
data of any two such blocks is the chunk `d[j]` fed at position `j + 1`. -/
theorem open_lattice_xor (c : Nat) (d : List (List Nat)) (hc : ∀ x ∈ d, x.length = c) :
    ∃ e' out, entangleFrom (NewEntangler 5 5 5 3 c) d 1 = some (e', out) ∧
      ∀ (j : Nat) (hj : j < d.length) (k : StrandClass),
        (GetForwardNeighbours ((j : Int) + 1) 5 5).get k ≤ (d.length : Int) →
        (∃ b ∈ out, b.Class = k ∧ b.RightIndex = (j : Int) + 1) ∧
        (∃ b ∈ out, b.Class = k ∧
          b.RightIndex = (GetForwardNeighbours ((j : Int) + 1) 5 5).get k) ∧
        ∀ b ∈ out, ∀ b' ∈ out, b.Class = k → b.RightIndex = (j : Int) + 1 →
          b'.Class = k → b'.RightIndex = (GetForwardNeighbours ((j : Int) + 1) 5 5).get k →
          XORByteSlice b.Data b'.Data = d[j] := by
  obtain ⟨e', hrun, -⟩ :=
    entangleFrom_spec c d d.length 0 (NewEntangler 5 5 5 3 c) (by omega) (NewEntangler_inv c d)
  refine ⟨e', specOut c d 0 d.length, by simpa using hrun, ?_⟩
  intro j hj k hf
  have hfd : (GetForwardNeighbours ((j : Int) + 1) 5 5).get k = fwd k ((j : Int) + 1) := rfl
  rw [hfd] at hf ⊢
  have hgt := fwd_gt k ((j : Int) + 1) (by omega)
  obtain ⟨f, hfe⟩ : ∃ f : Nat, fwd k ((j : Int) + 1) = (f : Int) + 1 :=
    ⟨(fwd k ((j : Int) + 1) - 1).toNat, by omega⟩
  rw [hfe] at hf hgt ⊢
  have hcast : ∀ m : Nat, ((m : Int) + 1) = ((m + 1 : Nat) : Int) := fun m => by push_cast; rfl
  refine ⟨?_, ?_, ?_⟩
  · rw [hcast]; exact specOut_exists c d d.length (j + 1) k (by omega) (by omega)
  · rw [hcast]; exact specOut_exists c d d.length (f + 1) k (by omega) (by omega)
  · intro b hb b' hb' hk hr hk' hr'
    rw [hcast] at hr hr'
    obtain ⟨hd1, -, -⟩ := specOut_data c d d.length (j + 1) k b hb hk hr
    obtain ⟨hd2, -, -⟩ := specOut_data c d d.length (f + 1) k b' hb' hk' hr'
    rw [← hcast] at hd1 hd2
    simp only [Nat.add_sub_cancel] at hd1 hd2
    rw [hd1, hd2, pmSpec_fwd c d j f k hfe, List.getD_eq_getElem _ _ hj]
    have hl1 : (pmSpec c d j (slot k ((j : Int) + 1))).length = c :=
      pmSpec_length c d hc j _ (by omega)
    have hl2 : (d[j]).length = c := hc _ (List.getElem_mem _)
    exact XORByteSlice_cancel' (by rw [hl1, hl2])

/-- Witness for C1: seven one-byte chunks. -/
theorem open_lattice_xor_witness :
    (∀ x ∈ [[1], [2], [3], [4], [5], [6], [7]], x.length = 1) ∧
    ∃ e' out, entangleFrom (NewEntangler 5 5 5 3 1) [[1], [2], [3], [4], [5], [6], [7]] 1
        = some (e', out) ∧
      ∀ (j : Nat) (hj : j < [[1], [2], [3], [4], [5], [6], [(7 : Nat)]].length)
        (k : StrandClass),
        (GetForwardNeighbours ((j : Int) + 1) 5 5).get k ≤
          (([[1], [2], [3], [4], [5], [6], [(7 : Nat)]].length : Nat) : Int) →
        (∃ b ∈ out, b.Class = k ∧ b.RightIndex = (j : Int) + 1) ∧
        (∃ b ∈ out, b.Class = k ∧
          b.RightIndex = (GetForwardNeighbours ((j : Int) + 1) 5 5).get k) ∧
        ∀ b ∈ out, ∀ b' ∈ out, b.Class = k → b.RightIndex = (j : Int) + 1 →
          b'.Class = k → b'.RightIndex = (GetForwardNeighbours ((j : Int) + 1) 5 5).get k →
          XORByteSlice b.Data b'.Data = [[1], [2], [3], [4], [5], [6], [7]][j] :=
  ⟨by decide, open_lattice_xor 1 [[1], [2], [3], [4], [5], [6], [7]] (by decide)⟩

/-! ### Backward neighbours and wrap positions -/

theorem bwd_eq (k : StrandClass) (i : Int) (hi : 1 ≤ i) :
    bwd k i = i - backStepOf k (i % 25) := by
  have h5 : Int.tmod i 5 = i % 5 := Int.tmod_eq_emod (by omega) (by omega)
  have e : i % 25 % 5 = i % 5 := by omega
  cases k <;> simp only [bwd, GetBackwardNeighbours, Triple.get, h5, backStepOf, e,
      powTwo_four, powTwoPred_five] <;>
    split_ifs <;> dsimp only <;> omega

theorem bwd_fwd (k : StrandClass) (i : Int) (hi : 1 ≤ i) : bwd k (fwd k i) = i := by
  have hf := fwd_gt k i hi
  rw [bwd_eq k _ (by omega), fwd_eq k i hi]
  cases k <;> simp only [stepOf, backStepOf] <;> (try split_ifs) <;> omega

theorem fwd_bwd (k : StrandClass) (i : Int) (hi : 6 ≤ i) :
    1 ≤ bwd k i ∧ bwd k i < i ∧ fwd k (bwd k i) = i := by
  have hb : 1 ≤ bwd k i ∧ bwd k i < i := by
    rw [bwd_eq k i (by omega)]
    cases k <;> simp only [backStepOf] <;> (try split_ifs) <;> omega
  refine ⟨hb.1, hb.2, ?_⟩
  rw [fwd_eq k _ hb.1, bwd_eq k i (by omega)]
  cases k <;> simp only [stepOf, backStepOf] <;> (try split_ifs) <;> omega

theorem bwd_nonpos (k : StrandClass) (i : Int) (h1 : 1 ≤ i) (h5 : i ≤ 5) : bwd k i ≤ 0 := by
  rw [bwd_eq k i h1]
  cases k <;> simp only [backStepOf] <;> (try split_ifs) <;> omega

theorem wrapOk_all : ∀ a : Fin 25, wrapOk ((a.val : Int) + 1) = true := by decide

theorem GetWrapPosition_residue (i : Int) (hi : 1 ≤ i) :
    GetWrapPosition i 5 5 = GetWrapPosition ((i - 1) % 25 + 1) 5 5 := by
  have h1 : Int.tmod i 5 = i % 5 := Int.tmod_eq_emod (by omega) (by omega)
  have h2 : Int.tmod i (5 * 5) = i % 25 := Int.tmod_eq_emod (by omega) (by omega)
  have h3 : Int.tmod ((i - 1) % 25 + 1) 5 = i % 5 := by
    rw [Int.tmod_eq_emod (by omega) (by omega)]; omega
  have h4 : Int.tmod ((i - 1) % 25 + 1) (5 * 5) = i % 25 := by
    rw [Int.tmod_eq_emod (by omega) (by omega)]; omega
  unfold GetWrapPosition
  simp only [h1, h2, h3, h4]

theorem wrapPos_spec (k : StrandClass) (i : Int) (hi : 1 ≤ i) :
    ∃ w, GetWrapPosition i 5 5 = some w ∧ wrapPos k i = w.get k ∧
      1 ≤ wrapPos k i ∧ wrapPos k i ≤ 5 ∧ slot k (wrapPos k i) = slot k i := by
  obtain ⟨a, ha⟩ : ∃ a : Fin 25, (a.val : Int) = (i - 1) % 25 :=
    ⟨⟨((i - 1) % 25).toNat, by omega⟩, by simp; omega⟩
  have hok := wrapOk_all a
  have hres := GetWrapPosition_residue i hi
  rw [← ha] at hres
  unfold wrapOk at hok
  unfold wrapPos
  rw [hres]
  split at hok
  · rename_i w hw
    rw [hw]
    simp only [decide_eq_true_eq] at hok
    obtain ⟨h1, h2, h3, h4, h5, h6, h7, h8, h9⟩ := hok
    have hmod : ((a.val : Int) + 1) % 25 = i % 25 := by omega
    rw [hmod] at h7 h8 h9
    refine ⟨w, rfl, rfl, ?_⟩
    cases k
    · exact ⟨h3, h4, by
        show slot .Horizontal w.2.1 = _
        rw [slot_eq _ _ h3, slot_eq _ _ hi]; exact h8⟩
    · exact ⟨h1, h2, by
        show slot .Right w.1 = _
        rw [slot_eq _ _ h1, slot_eq _ _ hi]; exact h7⟩
    · exact ⟨h5, h6, by
        show slot .Left w.2.2 = _
        rw [slot_eq _ _ h5, slot_eq _ _ hi]; exact h9⟩
  · exact absurd hok (by simp)

theorem slot_inj_first : ∀ k : StrandClass, ∀ a b : Fin 5,
    slotTab k ((a.val : Int) + 1) = slotTab k ((b.val : Int) + 1) → a = b := by
  intro k; cases k <;> decide

theorem slot_first_inj (k : StrandClass) (a b : Int) (ha : 1 ≤ a) (ha' : a ≤ 5) (hb : 1 ≤ b)
    (hb' : b ≤ 5) (h : slot k a = slot k b) : a = b := by
  rw [slot_eq k a ha, slot_eq k b hb] at h
  obtain ⟨x, hx⟩ : ∃ x : Fin 5, (x.val : Int) = a - 1 := ⟨⟨(a - 1).toNat, by omega⟩, by simp; omega⟩
  obtain ⟨y, hy⟩ : ∃ y : Fin 5, (y.val : Int) = b - 1 := ⟨⟨(b - 1).toNat, by omega⟩, by simp; omega⟩
  have e1 : a % 25 = (x.val : Int) + 1 := by omega
  have e2 : b % 25 = (y.val : Int) + 1 := by omega
  rw [e1, e2] at h
  have := slot_inj_first k x y h
  subst this
  omega

/-! ### The right-extreme positions -/

theorem extCountK_eq (n : Int) (k : StrandClass) (i : Int) (hi : 1 ≤ i) :
    extCountK n k i = if i + stepOf k (i % 5) > n then 1 else 0 := by
  have e : stepOf k (i % 25) = stepOf k (i % 5) := by
    have : i % 25 % 5 = i % 5 := by omega
    cases k <;> simp only [stepOf, this] <;> simp
  rw [extCountK, fwd_eq k i hi, e]

theorem extTotalK_low (n : Int) (k : StrandClass) : ∀ l : Nat, (l : Int) + 9 ≤ n →
    extTotalK n k l = 0
  | 0, _ => rfl
  | l + 1, h => by
    have ih := extTotalK_low n k l (by omega)
    have hs := stepOf_pos k (((l + 1 : Nat) : Int) % 5)
    rw [extTotalK, ih, extCountK_eq _ _ _ (by omega), if_neg (by omega)]
    rfl

theorem extTotalK_nonneg (n : Int) (k : StrandClass) : ∀ l : Nat, 0 ≤ extTotalK n k l
  | 0 => by simp [extTotalK]
  | l + 1 => by
    have ih := extTotalK_nonneg n k l
    rw [extTotalK, extCountK]
    split_ifs <;> omega

theorem extTotalK_H (n : Int) : ∀ l : Nat, (l : Int) ≤ n →
    extTotalK n .Horizontal l ≤ 5 ∧ extTotalK n .Horizontal l ≤ (l : Int) + 5 - n ∨
      (extTotalK n .Horizontal l = 0 ∧ (l : Int) + 5 ≤ n)
  | 0, _ => by simp [extTotalK]; omega
  | l + 1, h => by
    have ih := extTotalK_H n l (by omega)
    rw [extTotalK, extCountK_eq _ _ _ (by omega)]
    simp only [stepOf]
    push_cast
    split_ifs <;> omega

theorem extTotalK_R_low (n : Int) : ∀ l : Nat, (l : Int) + 6 ≤ n →
    extTotalK n .Right l = 0
  | 0, _ => rfl
  | l + 1, h => by
    have ih := extTotalK_R_low n l (by omega)
    rw [extTotalK, ih, extCountK_eq _ _ _ (by omega)]
    simp only [stepOf]
    push_cast
    split_ifs <;> omega

theorem extTotalK_R (n : Int) : ∀ l : Nat, (l : Int) ≤ n → n ≤ (l : Int) + 6 →
    extTotalK n .Right l + (n - l) + (if n % 5 = 0 ∧ (l : Int) < n then 1 else 0)
      ≤ 5 + (n / 5 - (l : Int) / 5)
  | 0, h, h' => by
    simp only [extTotalK]
    split_ifs <;> omega
  | l + 1, h, h' => by
    by_cases hc : ((l + 1 : Nat) : Int) + 6 ≤ n
    · rw [extTotalK_R_low n (l + 1) hc]
      split_ifs <;> omega
    · have ih := extTotalK_R n l (by omega) (by omega)
      rw [extTotalK, extCountK_eq _ _ _ (by omega)]
      simp only [stepOf]
      push_cast at hc ih ⊢
      split_ifs at ih ⊢ <;> omega

theorem extTotalK_L_low (n : Int) : ∀ l : Nat, (l : Int) + 9 ≤ n →
    extTotalK n .Left l = 0 := extTotalK_low n .Left

theorem extTotalK_L (n : Int) : ∀ l : Nat, (l : Int) ≤ n → n ≤ (l : Int) + 9 →
    extTotalK n .Left l + (n - max (l : Int) (n - 4)) + (max (l : Int) (n - 4) + 4) / 5
      ≤ 5 + ((l : Int) + 4) / 5
  | 0, h, h' => by
    simp only [extTotalK]
    omega
  | l + 1, h, h' => by
    by_cases hc : ((l + 1 : Nat) : Int) + 9 ≤ n
    · rw [extTotalK_L_low n (l + 1) hc]
      omega
    · have ih := extTotalK_L n l (by omega) (by omega)
      rw [extTotalK, extCountK_eq _ _ _ (by omega)]
      simp only [stepOf]
      push_cast at hc ih ⊢
      split_ifs <;> omega

theorem extTotalK_le (n : Int) (l : Nat) (hl : (l : Int) ≤ n) (k : StrandClass) :
    extTotalK n k l ≤ 5 := by
  by_cases h9 : (l : Int) + 9 ≤ n
  · rw [extTotalK_low n k l h9]; omega
  · cases k
    · have := extTotalK_H n l hl; omega
    · by_cases h6 : (l : Int) + 6 ≤ n
      · rw [extTotalK_R_low n l h6]; omega
      · have := extTotalK_R n l hl (by omega)
        split_ifs at this <;> omega
    · have := extTotalK_L n l hl (by omega)
      omega

theorem extCountK_nonneg (n : Int) (k : StrandClass) (i : Int) :
    0 ≤ extCountK n k i ∧ extCountK n k i ≤ 1 := by
  unfold extCountK; split_ifs <;> omega

theorem extCount_pos_iff (n i : Int) :
    extCount n i > 0 ↔ ∃ k : StrandClass, fwd k i > n := by
  unfold extCount extCountK
  constructor
  · intro h
    by_contra hne
    have h1 : ¬ fwd .Right i > n := fun hh => hne ⟨_, hh⟩
    have h2 : ¬ fwd .Horizontal i > n := fun hh => hne ⟨_, hh⟩
    have h3 : ¬ fwd .Left i > n := fun hh => hne ⟨_, hh⟩
    rw [if_neg h1, if_neg h2, if_neg h3] at h
    omega
  · rintro ⟨k, hk⟩
    cases k
    · rw [if_pos hk]; split_ifs <;> omega
    · rw [if_pos hk]; split_ifs <;> omega
    · rw [if_pos hk]; split_ifs <;> omega

theorem mem_extList (n : Int) (x : Int) : ∀ l : Nat,
    x ∈ extList n l ↔ 1 ≤ x ∧ x ≤ (l : Int) ∧ extCount n x > 0
  | 0 => by simp [extList]; omega
  | l + 1 => by
    have ih := mem_extList n x l
    unfold extList
    split_ifs with h
    · rw [List.mem_cons, ih]
      constructor
      · rintro (rfl | ⟨h1, h2, h3⟩)
        · exact ⟨by omega, by omega, h⟩
        · exact ⟨h1, by omega, h3⟩
      · rintro ⟨h1, h2, h3⟩
        by_cases hx : x = ((l + 1 : Nat) : Int)
        · exact Or.inl hx
        · exact Or.inr ⟨h1, by omega, h3⟩
    · rw [ih]
      constructor
      · rintro ⟨h1, h2, h3⟩
        exact ⟨h1, by omega, h3⟩
      · rintro ⟨h1, h2, h3⟩
        by_cases hx : x = ((l + 1 : Nat) : Int)
        · subst hx; exact absurd h3 h
        · exact ⟨h1, by omega, h3⟩

theorem extList_nil (n : Int) : ∀ l : Nat,
    extTotalK n .Right l + extTotalK n .Horizontal l + extTotalK n .Left l ≤ 0 →
    extList n l = []
  | 0, _ => rfl
  | l + 1, h => by
    have h1 := extTotalK_nonneg n .Right l
    have h2 := extTotalK_nonneg n .Horizontal l
    have h3 := extTotalK_nonneg n .Left l
    have c1 := extCountK_nonneg n .Right ((l + 1 : Nat) : Int)
    have c2 := extCountK_nonneg n .Horizontal ((l + 1 : Nat) : Int)
    have c3 := extCountK_nonneg n .Left ((l + 1 : Nat) : Int)
    simp only [extTotalK] at h
    have ih := extList_nil n l (by omega)
    unfold extList
    rw [ih, if_neg]
    unfold extCount
    omega

theorem closeLoop_eq (e : Entangler) (hS : e.S = 5) (hP : e.P = 5) :
    ∀ (last : Nat) (wraps : Int) (acc : List Int), 0 ≤ wraps →
      wraps + (extTotalK e.NumDataBlocks .Right last + extTotalK e.NumDataBlocks .Horizontal last
        + extTotalK e.NumDataBlocks .Left last) ≤ 15 →
      closeLoop e 15 last wraps acc = acc ++ extList e.NumDataBlocks last
  | 0, _, acc, _, _ => by simp [closeLoop, extList]
  | last + 1, wraps, acc, h0, hT => by
    have c1 := extCountK_nonneg e.NumDataBlocks .Right ((last + 1 : Nat) : Int)
    have c2 := extCountK_nonneg e.NumDataBlocks .Horizontal ((last + 1 : Nat) : Int)
    have c3 := extCountK_nonneg e.NumDataBlocks .Left ((last + 1 : Nat) : Int)
    by_cases hw : wraps < 15
    · have hfw : GetForwardNeighbours ((last + 1 : Nat) : Int) 5 5 =
          (fwd .Right ((last + 1 : Nat) : Int), fwd .Horizontal ((last + 1 : Nat) : Int),
            fwd .Left ((last + 1 : Nat) : Int)) := rfl
      unfold closeLoop
      rw [if_pos hw]
      simp only [hS, hP, hfw]
      have hw3 : (if fwd .Left ((last + 1 : Nat) : Int) > e.NumDataBlocks then
            (if fwd .Horizontal ((last + 1 : Nat) : Int) > e.NumDataBlocks then
              (if fwd .Right ((last + 1 : Nat) : Int) > e.NumDataBlocks then wraps + 1
                else wraps) + 1
              else (if fwd .Right ((last + 1 : Nat) : Int) > e.NumDataBlocks then wraps + 1
                else wraps)) + 1
          else (if fwd .Horizontal ((last + 1 : Nat) : Int) > e.NumDataBlocks then
              (if fwd .Right ((last + 1 : Nat) : Int) > e.NumDataBlocks then wraps + 1
                else wraps) + 1
              else (if fwd .Right ((last + 1 : Nat) : Int) > e.NumDataBlocks then wraps + 1
                else wraps))) = wraps + extCount e.NumDataBlocks ((last + 1 : Nat) : Int) := by
        unfold extCount extCountK
        split_ifs <;> omega
      rw [hw3]
      have hcond : (wraps + extCount e.NumDataBlocks ((last + 1 : Nat) : Int) > 0 ∧
          (decide (fwd .Right ((last + 1 : Nat) : Int) > e.NumDataBlocks) ||
            decide (fwd .Horizontal ((last + 1 : Nat) : Int) > e.NumDataBlocks) ||
            decide (fwd .Left ((last + 1 : Nat) : Int) > e.NumDataBlocks)) = true) ↔
          extCount e.NumDataBlocks ((last + 1 : Nat) : Int) > 0 := by
        rw [extCount_pos_iff]
        simp only [Bool.or_eq_true, decide_eq_true_eq]
        constructor
        · rintro ⟨-, (h | h) | h⟩
          · exact ⟨_, h⟩
          · exact ⟨_, h⟩
          · exact ⟨_, h⟩
        · rintro ⟨k, hk⟩
          have hp : extCount e.NumDataBlocks ((last + 1 : Nat) : Int) > 0 :=
            (extCount_pos_iff _ _).2 ⟨k, hk⟩
          refine ⟨by omega, ?_⟩
          cases k
          · exact Or.inl (Or.inr hk)
          · exact Or.inl (Or.inl hk)
          · exact Or.inr hk
      have hT' : wraps + extCount e.NumDataBlocks ((last + 1 : Nat) : Int) +
          (extTotalK e.NumDataBlocks .Right last + extTotalK e.NumDataBlocks .Horizontal last
            + extTotalK e.NumDataBlocks .Left last) ≤ 15 := by
        simp only [extTotalK] at hT
        unfold extCount
        omega
      have hnn : 0 ≤ wraps + extCount e.NumDataBlocks ((last + 1 : Nat) : Int) := by
        unfold extCount; omega
      by_cases hpos : extCount e.NumDataBlocks ((last + 1 : Nat) : Int) > 0
      · rw [if_pos (hcond.2 hpos), closeLoop_eq e hS hP last _ _ hnn hT']
        simp only [extList, if_pos hpos, List.append_assoc, List.singleton_append]
      · rw [if_neg (fun h => hpos (hcond.1 h)), closeLoop_eq e hS hP last _ _ hnn hT']
        simp only [extList, if_neg hpos]
    · unfold closeLoop
      rw [if_neg hw, extList_nil _ _ (by omega)]
      simp

theorem mem_RightExtremeIndex (e : Entangler) (hS : e.S = 5) (hP : e.P = 5) (hA : e.Alpha = 3)
    (hn : 0 ≤ e.NumDataBlocks) (x : Int) :
    x ∈ (setDatablocksToClose e).RightExtremeIndex ↔
      1 ≤ x ∧ x ≤ e.NumDataBlocks ∧ ∃ k : StrandClass, fwd k x > e.NumDataBlocks := by
  have hmax : max e.S e.P * e.Alpha = 15 := by rw [hS, hP, hA]; rfl
  have hl : ((e.NumDataBlocks.toNat : Nat) : Int) ≤ e.NumDataBlocks := by omega
  have h1 := extTotalK_le e.NumDataBlocks _ hl .Right
  have h2 := extTotalK_le e.NumDataBlocks _ hl .Horizontal
  have h3 := extTotalK_le e.NumDataBlocks _ hl .Left
  unfold setDatablocksToClose
  simp only [hmax]
  rw [closeLoop_eq e hS hP _ 0 [] (le_refl 0) (by omega)]
  rw [(List.perm_insertionSort _ _).mem_iff, List.nil_append, mem_extList, extCount_pos_iff]
  constructor
  · rintro ⟨a, b, c⟩; exact ⟨a, by omega, c⟩
  · rintro ⟨a, b, c⟩; exact ⟨a, by omega, c⟩

/-- Last position of a strand: from any position up to `n` the forward chain reaches a
position whose forward neighbour is beyond `n`. -/
theorem extreme_exists (k : StrandClass) (n : Int) :
    ∀ (t : Nat) (j : Int), 1 ≤ j → j ≤ n → n - j ≤ (t : Int) →
      ∃ x, j ≤ x ∧ x ≤ n ∧ fwd k x > n ∧ slot k x = slot k j
  | 0, j, h1, h2, h3 => by
    have := fwd_gt k j h1
    exact ⟨j, le_refl _, h2, by omega, rfl⟩
  | t + 1, j, h1, h2, h3 => by
    have hg := fwd_gt k j h1
    by_cases hf : fwd k j > n
    · exact ⟨j, le_refl _, h2, hf, rfl⟩
    · obtain ⟨x, hx1, hx2, hx3, hx4⟩ :=
        extreme_exists k n t (fwd k j) (by omega) (by omega) (by omega)
      exact ⟨x, by omega, hx2, hx3, by rw [hx4, slot_fwd k j h1]⟩

theorem extreme_unique (k : StrandClass) (n x y : Int) (hx : 1 ≤ x) (hy : 1 ≤ y)
    (hxn : x ≤ n) (hyn : y ≤ n) (hfx : fwd k x > n) (hfy : fwd k y > n)
    (hs : slot k x = slot k y) : x = y := by
  rcases lt_trichotomy x y with h | h | h
  · exact absurd hs.symm (slot_between k x y hx h (by omega))
  · exact h
  · exact absurd hs (slot_between k y x hy h (by omega))

/-- After a right-extreme position nothing touches its slot any more. -/
theorem pmSpec_extreme (c : Nat) (d : List (List Nat)) (k : StrandClass) (x n : Nat)
    (hx : 1 ≤ x) (hxn : x ≤ n) (hf : fwd k (x : Int) > (n : Int)) :
    pmSpec c d n (slot k x) = pmSpec c d x (slot k x) := by
  obtain ⟨u, rfl⟩ : ∃ u, n = x + u := ⟨n - x, by omega⟩
  apply pmSpec_stable
  intro m hm1 hm2
  have hne := slot_between k (x : Int) (m : Int) (by omega) (by omega) (by omega)
  have hr := slot_range (m : Int) (by omega)
  have hr' := slot_range (x : Int) (by omega)
  cases hu : usesSlot (m : Int) (slot k (x : Int)) with
  | false => rfl
  | true =>
    exfalso
    rw [usesSlot_iff] at hu
    cases k <;> omega

/-- Before one of the first five positions nothing has touched its slot. -/
theorem pmSpec_first (c : Nat) (d : List (List Nat)) (k : StrandClass) (a : Nat)
    (ha : a + 1 ≤ 5) : pmSpec c d a (slot k ((a : Int) + 1)) = List.replicate c 0 := by
  have := pmSpec_stable c d (slot k ((a : Int) + 1)) 0 a (by
    intro m hm1 hm2
    have hne : slot k (m : Int) ≠ slot k ((a : Int) + 1) := fun h => by
      have := slot_first_inj k (m : Int) ((a : Int) + 1) (by omega) (by omega) (by omega)
        (by omega) h
      omega
    have hr := slot_range (m : Int) (by omega)
    have hr' := slot_range ((a : Int) + 1) (by omega)
    cases hu : usesSlot (m : Int) (slot k ((a : Int) + 1)) with
    | false => rfl
    | true =>
      exfalso
      rw [usesSlot_iff] at hu
      cases k <;> omega)
  simpa [pmSpec] using this

/-! ### The blocks sent by `WrapLattice` -/

theorem pairsOut_append (a b : List (EntangledBlock × EntangledBlock)) :
    pairsOut (a ++ b) = pairsOut a ++ pairsOut b := by
  induction a with
  | nil => rfl
  | cons p ps ih => simp [pairsOut, ih]

theorem wrapOne_eq (c : Nat) (d : List (List Nat)) (e : Entangler)
    (hinv : EntInv c d d.length e) (hn : 5 ≤ d.length) (k : StrandClass) (x : Int)
    (hx : 1 ≤ x) :
    wrapOne e x (slot k x) (wrapPos k x) (fwd k (wrapPos k x)) k =
      some [closingBlock c d d.length k x, replBlock c d d.length k x] := by
  obtain ⟨hS, hP, hA, hlen, hpm, hllen, hlem, hnum, hrei⟩ := hinv
  obtain ⟨w, -, -, hw1, hw5, -⟩ := wrapPos_spec k x hx
  obtain ⟨⟨hr0, hr1⟩, ⟨hh0, hh1⟩, ⟨hl0, hl1⟩⟩ := slot_range x hx
  obtain ⟨sn, hsn⟩ : ∃ sn : Nat, (sn : Int) = slot k x :=
    ⟨(slot k x).toNat, by cases k <;> omega⟩
  have hsb : sn < 15 := by cases k <;> omega
  obtain ⟨t, ht⟩ : ∃ t : Nat, (t : Int) = wrapPos k x - 1 := ⟨(wrapPos k x - 1).toNat, by omega⟩
  have htb : t < 5 := by omega
  unfold wrapOne
  rw [← hsn, ← ht, getI_natCast, getI_natCast, hpm sn hsb, hlem t htb, if_pos (by omega)]
  simp only [closingBlock, replBlock, ← hsn, ← ht, Int.toNat_ofNat]

theorem wrapAt_eq (c : Nat) (d : List (List Nat)) (e : Entangler)
    (hinv : EntInv c d d.length e) (hn : 5 ≤ d.length) (x : Int) (hx : 1 ≤ x) :
    wrapAt e x = some (pairsOut (wrapEvents c d d.length x)) := by
  have hR := wrapOne_eq c d e hinv hn .Right x hx
  have hH := wrapOne_eq c d e hinv hn .Horizontal x hx
  have hL := wrapOne_eq c d e hinv hn .Left x hx
  obtain ⟨hS, hP, hA, hlen, hpm, hllen, hlem, hnum, hrei⟩ := hinv
  obtain ⟨w, hw, hwR, -⟩ := wrapPos_spec .Right x hx
  obtain ⟨w', hw', hwH, -⟩ := wrapPos_spec .Horizontal x hx
  obtain ⟨w'', hw'', hwL, -⟩ := wrapPos_spec .Left x hx
  have e1 : w' = w := Option.some.inj (hw'.symm.trans hw)
  have e2 : w'' = w := Option.some.inj (hw''.symm.trans hw)
  subst e1; subst e2
  have hmem : GetMemoryPosition x 5 5 = (slot .Right x, slot .Horizontal x, slot .Left x) := rfl
  have hfw : GetForwardNeighbours x 5 5 =
      (fwd .Right x, fwd .Horizontal x, fwd .Left x) := rfl
  have hwe : GetWrapPosition x 5 5 =
      some (wrapPos .Right x, wrapPos .Horizontal x, wrapPos .Left x) := by
    rw [hw, hwR, hwH, hwL]; rfl
  have f1 : (GetForwardNeighbours (wrapPos .Right x) 5 5).1 = fwd .Right (wrapPos .Right x) :=
    rfl
  have f2 : (GetForwardNeighbours (wrapPos .Horizontal x) 5 5).2.1 =
      fwd .Horizontal (wrapPos .Horizontal x) := rfl
  have f3 : (GetForwardNeighbours (wrapPos .Left x) 5 5).2.2 = fwd .Left (wrapPos .Left x) :=
    rfl
  unfold wrapAt
  simp only [hS, hP, hmem, hfw, hwe, f1, f2, f3, hnum, hR, hH, hL]
  unfold wrapEvents
  by_cases c1 : fwd .Right x > (d.length : Int) <;>
    by_cases c2 : fwd .Horizontal x > (d.length : Int) <;>
    by_cases c3 : fwd .Left x > (d.length : Int) <;>
    simp [c1, c2, c3, pairsOut]

theorem wrapAll_eq (c : Nat) (d : List (List Nat)) (e : Entangler)
    (hinv : EntInv c d d.length e) (hn : 5 ≤ d.length) :
    ∀ xs : List Int, (∀ x ∈ xs, 1 ≤ x) →
      wrapAll e xs = some (pairsOut (xs.flatMap (wrapEvents c d d.length)))
  | [], _ => rfl
  | x :: xs, h => by
    have ih := wrapAll_eq c d e hinv hn xs (fun y hy => h y (List.mem_cons_of_mem _ hy))
    unfold wrapAll
    rw [wrapAt_eq c d e hinv hn x (h x (List.mem_cons_self _ _)), ih]
    simp [pairsOut_append]

/-! ### The receiver of the closed-lattice test -/

theorem updBlock_key (r x : EntangledBlock) :
    (updBlock r x).LeftIndex = x.LeftIndex ∧ (updBlock r x).RightIndex = x.RightIndex ∧
      (updBlock r x).Class = x.Class := by
  unfold updBlock; split <;> simp

theorem sameKey_updBlock (r x y : EntangledBlock) : sameKey (updBlock r x) y ↔ sameKey x y := by
  obtain ⟨h1, h2, -⟩ := updBlock_key r x
  simp only [sameKey, h1, h2]

theorem applyRepl_key (evs : List (EntangledBlock × EntangledBlock)) :
    ∀ x : EntangledBlock, (applyRepl evs x).LeftIndex = x.LeftIndex ∧
      (applyRepl evs x).RightIndex = x.RightIndex ∧ (applyRepl evs x).Class = x.Class := by
  induction evs with
  | nil => intro x; exact ⟨rfl, rfl, rfl⟩
  | cons p ps ih =>
    intro x
    obtain ⟨h1, h2, h3⟩ := ih (updBlock p.2 x)
    obtain ⟨g1, g2, g3⟩ := updBlock_key p.2 x
    exact ⟨h1.trans g1, h2.trans g2, h3.trans g3⟩

theorem replaceFirst_noMatch (r : EntangledBlock) :
    ∀ xs : List EntangledBlock, (∀ x ∈ xs, ¬ sameKey x r) → replaceFirst xs r = xs
  | [], _ => rfl
  | x :: xs, h => by
    have hx : ¬ (x.LeftIndex = r.LeftIndex ∧ x.RightIndex = r.RightIndex) :=
      h x (List.mem_cons_self _ _)
    rw [replaceFirst, if_neg hx,
      replaceFirst_noMatch r xs (fun y hy => h y (List.mem_cons_of_mem _ hy))]

theorem map_updBlock_noMatch (r : EntangledBlock) (xs : List EntangledBlock)
    (h : ∀ x ∈ xs, ¬ sameKey x r) : xs.map (updBlock r) = xs := by
  conv_rhs => rw [← List.map_id xs]
  apply List.map_congr_left
  intro x hx
  simp [updBlock, h x hx]

/-- With at most one block of each key, overwriting the first match overwrites all. -/
theorem replaceFirst_eq_map (r : EntangledBlock) :
    ∀ xs : List EntangledBlock, xs.Pairwise (fun a b => ¬ sameKey a b) →
      replaceFirst xs r = xs.map (updBlock r)
  | [], _ => rfl
  | x :: xs, h => by
    rw [List.pairwise_cons] at h
    by_cases hx : sameKey x r
    · have hrest : ∀ y ∈ xs, ¬ sameKey y r := by
        intro y hy hyr
        exact h.1 y hy ⟨hx.1.trans hyr.1.symm, hx.2.trans hyr.2.symm⟩
      have hx' : x.LeftIndex = r.LeftIndex ∧ x.RightIndex = r.RightIndex := hx
      rw [replaceFirst, if_pos hx', List.map_cons, map_updBlock_noMatch r xs hrest]
      simp [updBlock, hx]
    · have hx' : ¬ (x.LeftIndex = r.LeftIndex ∧ x.RightIndex = r.RightIndex) := hx
      rw [replaceFirst, if_neg hx', List.map_cons, replaceFirst_eq_map r xs h.2]
      simp [updBlock, hx]

theorem replaceFirst_append (r : EntangledBlock) (xs ys : List EntangledBlock)
    (hx : xs.Pairwise (fun a b => ¬ sameKey a b)) (hy : ∀ y ∈ ys, ¬ sameKey y r) :
    replaceFirst (xs ++ ys) r = xs.map (updBlock r) ++ ys := by
  induction xs with
  | nil => simpa using replaceFirst_noMatch r ys hy
  | cons x xs ih =>
    rw [List.pairwise_cons] at hx
    by_cases hxr : sameKey x r
    · have hrest : ∀ y ∈ xs, ¬ sameKey y r := by
        intro y hy' hyr
        exact hx.1 y hy' ⟨hxr.1.trans hyr.1.symm, hxr.2.trans hyr.2.symm⟩
      have hx' : x.LeftIndex = r.LeftIndex ∧ x.RightIndex = r.RightIndex := hxr
      rw [List.cons_append, replaceFirst, if_pos hx', List.map_cons,
        map_updBlock_noMatch r xs hrest]
      simp [updBlock, hxr]
    · have hx' : ¬ (x.LeftIndex = r.LeftIndex ∧ x.RightIndex = r.RightIndex) := hxr
      rw [List.cons_append, replaceFirst, if_neg hx', List.map_cons, ih hx.2]
      simp [updBlock, hxr]

theorem collectStep_false (eb : List EntangledBlock) (b : EntangledBlock)
    (h : b.Replace = false) : collectStep eb b = eb ++ [b] := by
  simp [collectStep, h]

theorem collectStep_true (eb : List EntangledBlock) (b : EntangledBlock)
    (h : b.Replace = true) : collectStep eb b = replaceFirst eb b := by
  simp [collectStep, h]

theorem foldl_collect_plain : ∀ (xs acc : List EntangledBlock),
    (∀ x ∈ xs, x.Replace = false) → xs.foldl collectStep acc = acc ++ xs
  | [], acc, _ => by simp
  | x :: xs, acc, h => by
    have hx : x.Replace = false := h x (List.mem_cons_self _ _)
    rw [List.foldl_cons, collectStep_false _ _ hx,
      foldl_collect_plain xs _ (fun y hy => h y (List.mem_cons_of_mem _ hy))]
    simp

/-- The receiver on a run of (closing, recomputed) pairs. -/
theorem foldl_collect_pairs : ∀ (evs : List (EntangledBlock × EntangledBlock))
    (xs ys : List EntangledBlock),
    xs.Pairwise (fun a b => ¬ sameKey a b) →
    (∀ p ∈ evs, p.1.Replace = false ∧ p.2.Replace = true) →
    (∀ y ∈ ys, ∀ q ∈ evs, ¬ sameKey y q.2) →
    (∀ p ∈ evs, ∀ q ∈ evs, ¬ sameKey p.1 q.2) →
    (pairsOut evs).foldl collectStep (xs ++ ys) =
      xs.map (applyRepl evs) ++ ys ++ evs.map (fun p => p.1)
  | [], xs, ys, _, _, _, _ => by
    have : applyRepl [] = id := funext fun _ => rfl
    simp [pairsOut, this]
  | p :: evs, xs, ys, hxs, hrep, hys, hcl => by
    have hp := hrep p (List.mem_cons_self _ _)
    have hpw : (xs.map (updBlock p.2)).Pairwise (fun a b => ¬ sameKey a b) := by
      rw [List.pairwise_map]
      refine hxs.imp ?_
      intro a b hab h
      apply hab
      obtain ⟨a1, a2, -⟩ := updBlock_key p.2 a
      obtain ⟨b1, b2, -⟩ := updBlock_key p.2 b
      exact ⟨by rw [← a1, ← b1]; exact h.1, by rw [← a2, ← b2]; exact h.2⟩
    have ih := foldl_collect_pairs evs (xs.map (updBlock p.2)) (ys ++ [p.1]) hpw
      (fun q hq => hrep q (List.mem_cons_of_mem _ hq))
      (by
        intro y hy q hq
        rw [List.mem_append, List.mem_singleton] at hy
        rcases hy with hy | rfl
        · exact hys y hy q (List.mem_cons_of_mem _ hq)
        · exact hcl p (List.mem_cons_self _ _) q (List.mem_cons_of_mem _ hq))
      (fun a ha b hb => hcl a (List.mem_cons_of_mem _ ha) b (List.mem_cons_of_mem _ hb))
    have hstep : replaceFirst (xs ++ ys ++ [p.1]) p.2 = xs.map (updBlock p.2) ++ (ys ++ [p.1]) := by
      rw [List.append_assoc]
      apply replaceFirst_append _ _ _ hxs
      intro y hy
      rw [List.mem_append, List.mem_singleton] at hy
      rcases hy with hy | rfl
      · exact hys y hy p (List.mem_cons_self _ _)
      · exact hcl p (List.mem_cons_self _ _) p (List.mem_cons_self _ _)
    simp only [pairsOut, List.foldl_cons]
    rw [collectStep_false _ _ hp.1, collectStep_true _ _ hp.2, hstep, ih]
    simp [applyRepl, List.map_map, Function.comp_def]

theorem applyRepl_noMatch : ∀ (evs : List (EntangledBlock × EntangledBlock))
    (x : EntangledBlock), (∀ q ∈ evs, ¬ sameKey x q.2) → applyRepl evs x = x
  | [], _, _ => rfl
  | p :: evs, x, h => by
    have hx : updBlock p.2 x = x := by simp [updBlock, h p (List.mem_cons_self _ _)]
    show applyRepl evs (updBlock p.2 x) = x
    rw [hx]
    exact applyRepl_noMatch evs x (fun q hq => h q (List.mem_cons_of_mem _ hq))

theorem applyRepl_fixed : ∀ (evs : List (EntangledBlock × EntangledBlock))
    (x : EntangledBlock) (D : List Nat),
    (∀ q ∈ evs, sameKey x q.2 → q.2.Data = D) →
    applyRepl evs { x with Data := D, Replace := true } = { x with Data := D, Replace := true }
  | [], _, _, _ => rfl
  | p :: evs, x, D, h => by
    have hx : updBlock p.2 { x with Data := D, Replace := true } =
        { x with Data := D, Replace := true } := by
      unfold updBlock
      split
      · rename_i hk
        rw [h p (List.mem_cons_self _ _) hk]
      · rfl
    show applyRepl evs (updBlock p.2 _) = _
    rw [hx]
    exact applyRepl_fixed evs x D (fun q hq => h q (List.mem_cons_of_mem _ hq))

theorem applyRepl_match : ∀ (evs : List (EntangledBlock × EntangledBlock))
    (x : EntangledBlock) (D : List Nat),
    (∀ q ∈ evs, sameKey x q.2 → q.2.Data = D) → (∃ q ∈ evs, sameKey x q.2) →
    applyRepl evs x = { x with Data := D, Replace := true }
  | [], _, _, _, h => by simp at h
  | p :: evs, x, D, h, hex => by
    show applyRepl evs (updBlock p.2 x) = _
    by_cases hk : sameKey x p.2
    · have : updBlock p.2 x = { x with Data := D, Replace := true } := by
        simp [updBlock, hk, h p (List.mem_cons_self _ _) hk]
      rw [this]
      exact applyRepl_fixed evs x D (fun q hq => h q (List.mem_cons_of_mem _ hq))
    · have : updBlock p.2 x = x := by simp [updBlock, hk]
      rw [this]
      apply applyRepl_match evs x D (fun q hq => h q (List.mem_cons_of_mem _ hq))
      obtain ⟨q, hq, hqk⟩ := hex
      rw [List.mem_cons] at hq
      rcases hq with rfl | hq
      · exact absurd hqk hk
      · exact ⟨q, hq, hqk⟩

/-! ### The closed lattice -/

theorem bwd_ne (i : Int) (hi : 1 ≤ i) :
    bwd .Right i ≠ bwd .Horizontal i ∧ bwd .Right i ≠ bwd .Left i ∧
      bwd .Horizontal i ≠ bwd .Left i := by
  rw [bwd_eq _ i hi, bwd_eq _ i hi, bwd_eq _ i hi]
  simp only [backStepOf]
  split_ifs <;> omega

theorem fwd_class_inj (k k' : StrandClass) (i : Int) (hi : 1 ≤ i) (h : fwd k i = fwd k' i) :
    k = k' := by
  rw [fwd_eq _ i hi, fwd_eq _ i hi] at h
  cases k <;> cases k' <;> simp only [stepOf] at h <;> (try rfl) <;>
    (exfalso; split_ifs at h <;> omega)

theorem blocksAt_pairwise (c : Nat) (d : List (List Nat)) (m : Nat) (hm : 1 ≤ m) :
    (blocksAt c d m).Pairwise (fun a b => ¬ sameKey a b) := by
  obtain ⟨h1, h2, h3⟩ := bwd_ne (m : Int) (by omega)
  simp only [blocksAt, List.pairwise_cons, List.mem_cons, List.mem_singleton,
    List.not_mem_nil, forall_eq_or_imp, forall_eq, sameKey, mkBlock]
  simp [h1, h2, h3]

theorem specOut_pairwise (c : Nat) (d : List (List Nat)) : ∀ (k i : Nat),
    (specOut c d i k).Pairwise (fun a b => ¬ sameKey a b)
  | 0, _ => by simp [specOut]
  | k + 1, i => by
    rw [specOut, List.pairwise_append]
    refine ⟨blocksAt_pairwise c d (i + 1) (by omega), specOut_pairwise c d k (i + 1), ?_⟩
    intro a ha b hb hab
    obtain ⟨ka, rfl⟩ := (mem_blocksAt c d _ a).1 ha
    obtain ⟨m, hm1, hm2, hm3⟩ := (mem_specOut c d b k (i + 1)).1 hb
    obtain ⟨kb, rfl⟩ := (mem_blocksAt c d _ b).1 hm3
    have := hab.2
    simp only [mkBlock] at this
    have : (i + 1 : Nat) = m := by exact_mod_cast this
    omega

theorem mem_wrapEvents (c : Nat) (d : List (List Nat)) (n : Nat) (x : Int)
    (p : EntangledBlock × EntangledBlock) :
    p ∈ wrapEvents c d n x ↔
      ∃ k : StrandClass, fwd k x > (n : Int) ∧ p = (closingBlock c d n k x, replBlock c d n k x) := by
  unfold wrapEvents
  constructor
  · intro h
    simp only [List.mem_append] at h
    rcases h with (h | h) | h
    · split_ifs at h with hc
      · exact ⟨.Right, hc, by simpa using h⟩
      · simp at h
    · split_ifs at h with hc
      · exact ⟨.Horizontal, hc, by simpa using h⟩
      · simp at h
    · split_ifs at h with hc
      · exact ⟨.Left, hc, by simpa using h⟩
      · simp at h
  · rintro ⟨k, hk, rfl⟩
    simp only [List.mem_append]
    cases k
    · exact Or.inl (Or.inr (by simp [hk]))
    · exact Or.inl (Or.inl (by simp [hk]))
    · exact Or.inr (by simp [hk])

theorem wrapAt_setClose (e : Entangler) (x : Int) :
    wrapAt (setDatablocksToClose e) x = wrapAt e x := rfl

theorem wrapAll_setClose (e : Entangler) : ∀ xs : List Int,
    wrapAll (setDatablocksToClose e) xs = wrapAll e xs
  | [] => rfl
  | x :: xs => by
    unfold wrapAll
    rw [wrapAt_setClose, wrapAll_setClose e xs]

/-- The closed-lattice run returns, and what it collects. -/
theorem closedRun_eq (c : Nat) (d : List (List Nat)) (hn : 25 ≤ d.length) :
    ∃ e, EntInv c d d.length e ∧ closedRun c d = some (closedBlocks c d e) := by
  obtain ⟨e, hrun, hinv⟩ :=
    entangleFrom_spec c d d.length 0 (NewEntangler 5 5 5 3 c) (by omega) (NewEntangler_inv c d)
  refine ⟨e, hinv, ?_⟩
  have hinv' := hinv
  obtain ⟨hS, hP, hA, hlen, hpm, hllen, hlem, hnum, hrei⟩ := hinv
  have hmemR := mem_RightExtremeIndex e hS hP hA (by omega)
  have hwrap : WrapLattice e = some (setDatablocksToClose e,
      pairsOut ((setDatablocksToClose e).RightExtremeIndex.flatMap (wrapEvents c d d.length))) := by
    unfold WrapLattice
    rw [hrei]
    simp only [List.length_nil, if_true]
    rw [wrapAll_setClose, wrapAll_eq c d e hinv' (by omega) _ (fun x hx => ((hmemR x).1 hx).1)]
  have hrun' : entangleFrom (NewEntangler 5 5 5 3 c) d 1 = some (e, specOut c d 0 d.length) := by
    simpa using hrun
  unfold closedRun
  rw [hrun']
  simp only [hwrap]
  have hplain : (specOut c d 0 d.length).foldl collectStep [] = specOut c d 0 d.length := by
    rw [foldl_collect_plain _ _ (by
      intro b hb
      obtain ⟨m, -, -, hm⟩ := (mem_specOut c d b _ _).1 hb
      obtain ⟨k, rfl⟩ := (mem_blocksAt c d m b).1 hm
      rfl)]
    simp
  rw [List.foldl_append, hplain]
  have hev : ∀ p ∈ (setDatablocksToClose e).RightExtremeIndex.flatMap (wrapEvents c d d.length),
      ∃ (x : Int) (k : StrandClass), 1 ≤ x ∧ x ≤ (d.length : Int) ∧ fwd k x > (d.length : Int) ∧
        p = (closingBlock c d d.length k x, replBlock c d d.length k x) := by
    intro p hp
    rw [List.mem_flatMap] at hp
    obtain ⟨x, hx, hp⟩ := hp
    obtain ⟨k, hk, rfl⟩ := (mem_wrapEvents c d _ x p).1 hp
    obtain ⟨h1, h2, -⟩ := (hmemR x).1 hx
    rw [hnum] at h2
    exact ⟨x, k, h1, h2, hk, rfl⟩
  have := foldl_collect_pairs
    ((setDatablocksToClose e).RightExtremeIndex.flatMap (wrapEvents c d d.length))
    (specOut c d 0 d.length) [] (specOut_pairwise c d _ _)
    (by
      intro p hp
      obtain ⟨x, k, -, -, -, rfl⟩ := hev p hp
      exact ⟨rfl, rfl⟩)
    (by simp)
    (by
      intro p hp q hq hk
      obtain ⟨x, k, hx1, hx2, hx3, rfl⟩ := hev p hp
      obtain ⟨y, k', hy1, hy2, hy3, rfl⟩ := hev q hq
      have hk1 := hk.1
      simp only [closingBlock, replBlock, mkBlock] at hk1
      obtain ⟨-, -, -, -, hw5, -⟩ := wrapPos_spec k' y hy1
      have := fwd_gt k x hx1
      omega)
  simp only [List.nil_append, List.append_nil] at this
  rw [this]
  rfl

theorem mem_closeEvents (c : Nat) (d : List (List Nat)) (e : Entangler)
    (hinv : EntInv c d d.length e) (p : EntangledBlock × EntangledBlock) :
    p ∈ (setDatablocksToClose e).RightExtremeIndex.flatMap (wrapEvents c d d.length) ↔
      ∃ (x : Int) (k : StrandClass), 1 ≤ x ∧ x ≤ (d.length : Int) ∧ fwd k x > (d.length : Int) ∧
        p = (closingBlock c d d.length k x, replBlock c d d.length k x) := by
  obtain ⟨hS, hP, hA, hlen, hpm, hllen, hlem, hnum, hrei⟩ := hinv
  have hmemR := mem_RightExtremeIndex e hS hP hA (by omega)
  rw [List.mem_flatMap]
  constructor
  · rintro ⟨x, hx, hp⟩
    obtain ⟨k, hk, rfl⟩ := (mem_wrapEvents c d _ x p).1 hp
    obtain ⟨h1, h2, -⟩ := (hmemR x).1 hx
    rw [hnum] at h2
    exact ⟨x, k, h1, h2, hk, rfl⟩
  · rintro ⟨x, k, h1, h2, h3, rfl⟩
    refine ⟨x, (hmemR x).2 ⟨h1, by rw [hnum]; exact h2, k, by rw [hnum]; exact h3⟩, ?_⟩
    exact (mem_wrapEvents c d _ x _).2 ⟨k, h3, rfl⟩

theorem pmSpec_self (c : Nat) (d : List (List Nat)) (k : StrandClass) (i : Nat) :
    pmSpec c d (i + 1) (slot k ((i : Int) + 1)) =
      XORByteSlice (d.getD i []) (pmSpec c d i (slot k ((i : Int) + 1))) := by
  simp only [pmSpec]
  rw [if_pos]
  rw [usesSlot_iff]
  cases k <;> simp

/-- The entangle block at position `m >= 6`, after all overwrites, is the final block of
its left index. -/
theorem applyRepl_block (c : Nat) (d : List (List Nat)) (e : Entangler)
    (hinv : EntInv c d d.length e) (k : StrandClass) (i m : Nat)
    (hi : 1 ≤ i) (hm : m ≤ d.length) (hf : fwd k (i : Int) = (m : Int)) :
    applyRepl ((setDatablocksToClose e).RightExtremeIndex.flatMap (wrapEvents c d d.length))
      (mkBlock (pmSpec c d (m - 1) (slot k m)) (bwd k m) m k false) =
      finalBlock c d d.length k i := by
  have hgt := fwd_gt k (i : Int) (by omega)
  have hbw : bwd k (m : Int) = (i : Int) := by rw [← hf]; exact bwd_fwd k _ (by omega)
  have hsl : slot k (m : Int) = slot k (i : Int) := by rw [← hf]; exact slot_fwd k _ (by omega)
  have hfin : (if fwd k (i : Int) ≤ (d.length : Int) then fwd k (i : Int) else wrapPos k i)
      = (m : Int) := by rw [if_pos (by omega), hf]
  by_cases h5 : i ≤ 5
  · rw [applyRepl_match _ _ (XORByteSlice (d.getD (i - 1) [])
        (pmSpec c d d.length (slot k i)))]
    · simp only [finalBlock, mkBlock, hbw, hfin, if_pos h5, decide_eq_true h5]
    · intro q hq hk
      obtain ⟨x, k', hx1, hx2, hx3, rfl⟩ := (mem_closeEvents c d e hinv q).1 hq
      obtain ⟨-, -, -, hw1, hw5, hws⟩ := wrapPos_spec k' x hx1
      have hk1 := hk.1
      have hk2 := hk.2
      simp only [replBlock, mkBlock, hbw] at hk1 hk2
      rw [← hk1, ← hf] at hk2
      have hkk : k = k' := fwd_class_inj k k' _ (by omega) hk2
      subst hkk
      simp only [replBlock, mkBlock]
      rw [← hk1, ← hws, ← hk1]
      congr 2
      omega
    · obtain ⟨x, hx1, hx2, hx3, hx4⟩ :=
        extreme_exists k (d.length : Int) (d.length - i) (i : Int) (by omega) (by omega)
          (by omega)
      refine ⟨_, (mem_closeEvents c d e hinv _).2 ⟨x, k, by omega, hx2, hx3, rfl⟩, ?_⟩
      obtain ⟨-, -, -, hw1, hw5, hws⟩ := wrapPos_spec k x (by omega)
      have hwi : wrapPos k x = (i : Int) :=
        slot_first_inj k _ _ hw1 hw5 (by omega) (by omega) (by rw [hws, hx4])
      simp only [sameKey, replBlock, mkBlock, hbw, hwi, hf, and_self]
  · rw [applyRepl_noMatch]
    · simp only [finalBlock, mkBlock, hbw, hfin, if_neg h5, decide_eq_false h5, hsl]
      obtain ⟨i', rfl⟩ : ∃ i', i = i' + 1 := ⟨i - 1, by omega⟩
      obtain ⟨m', rfl⟩ : ∃ m', m = m' + 1 := ⟨m - 1, by omega⟩
      have := pmSpec_fwd c d i' m' k (by push_cast at hf ⊢; exact hf)
      have hs2 := pmSpec_self c d k i'
      push_cast at hsl this hs2 ⊢
      rw [hsl] at this
      rw [this, hs2]
    · intro q hq hk
      obtain ⟨x, k', hx1, hx2, hx3, rfl⟩ := (mem_closeEvents c d e hinv q).1 hq
      obtain ⟨-, -, -, hw1, hw5, hws⟩ := wrapPos_spec k' x hx1
      have hk1 := hk.1
      simp only [replBlock, mkBlock, hbw] at hk1
      omega

theorem closingBlock_final (c : Nat) (d : List (List Nat)) (hn : 25 ≤ d.length)
    (k : StrandClass) (i : Nat) (hi : 1 ≤ i) (hin : i ≤ d.length)
    (hf : fwd k (i : Int) > (d.length : Int)) :
    closingBlock c d d.length k (i : Int) = finalBlock c d d.length k i := by
  have hgt := fwd_gt k (i : Int) (by omega)
  have h5 : ¬ i ≤ 5 := by omega
  simp only [closingBlock, finalBlock, if_neg h5, decide_eq_false h5, if_neg (not_le.2 hf)]
  rw [pmSpec_extreme c d k i d.length hi hin hf]

/-- Every left index `1..n` and class has its final block among the collected blocks. -/
theorem finalBlock_mem (c : Nat) (d : List (List Nat)) (e : Entangler)
    (hinv : EntInv c d d.length e) (hn : 25 ≤ d.length) (k : StrandClass) (i : Nat)
    (hi : 1 ≤ i) (hin : i ≤ d.length) :
    finalBlock c d d.length k i ∈ closedBlocks c d e := by
  have hgt := fwd_gt k (i : Int) (by omega)
  unfold closedBlocks
  rw [List.mem_append]
  by_cases hf : fwd k (i : Int) ≤ (d.length : Int)
  · left
    obtain ⟨m, hm⟩ : ∃ m : Nat, fwd k (i : Int) = (m : Int) := ⟨(fwd k i).toNat, by omega⟩
    rw [List.mem_map]
    refine ⟨mkBlock (pmSpec c d (m - 1) (slot k m)) (bwd k m) m k false, ?_, ?_⟩
    · exact (mem_specOut c d _ _ 0).2 ⟨m, by omega, by omega, (mem_blocksAt c d m _).2 ⟨k, rfl⟩⟩
    · exact applyRepl_block c d e hinv k i m hi (by omega) hm
  · right
    rw [List.mem_map]
    refine ⟨(closingBlock c d d.length k i, replBlock c d d.length k i), ?_, ?_⟩
    · exact (mem_closeEvents c d e hinv _).2 ⟨i, k, by omega, by omega, by omega, rfl⟩
    · exact closingBlock_final c d hn k i hi hin (by omega)

/-- Every collected block with a positive left index is the final block of its left index
and class. -/
theorem closedBlocks_char (c : Nat) (d : List (List Nat)) (e : Entangler)
    (hinv : EntInv c d d.length e) (hn : 25 ≤ d.length) (b : EntangledBlock)
    (hb : b ∈ closedBlocks c d e) (hpos : 0 < b.LeftIndex) :
    ∃ i : Nat, 1 ≤ i ∧ i ≤ d.length ∧ b.LeftIndex = (i : Int) ∧
      b = finalBlock c d d.length b.Class i := by
  unfold closedBlocks at hb
  rw [List.mem_append, List.mem_map, List.mem_map] at hb
  rcases hb with ⟨b0, hb0, rfl⟩ | ⟨p, hp, rfl⟩
  · obtain ⟨m, hm1, hm2, hm3⟩ := (mem_specOut c d b0 _ 0).1 hb0
    obtain ⟨k, rfl⟩ := (mem_blocksAt c d m b0).1 hm3
    obtain ⟨kl, -, kc⟩ := applyRepl_key
      ((setDatablocksToClose e).RightExtremeIndex.flatMap (wrapEvents c d d.length))
      (mkBlock (pmSpec c d (m - 1) (slot k m)) (bwd k m) m k false)
    rw [kl] at hpos
    rw [kl, kc]
    simp only [mkBlock] at hpos ⊢
    have hm6 : 6 ≤ m := by
      by_contra hlt
      have := bwd_nonpos k (m : Int) (by omega) (by omega)
      omega
    obtain ⟨hb1, hb2, hb3⟩ := fwd_bwd k (m : Int) (by omega)
    obtain ⟨i, hi⟩ : ∃ i : Nat, bwd k (m : Int) = (i : Int) := ⟨(bwd k m).toNat, by omega⟩
    refine ⟨i, by omega, by omega, hi, ?_⟩
    exact applyRepl_block c d e hinv k i m (by omega) (by omega) (by rw [← hi]; exact hb3)
  · obtain ⟨x, k, hx1, hx2, hx3, rfl⟩ := (mem_closeEvents c d e hinv p).1 hp
    obtain ⟨i, rfl⟩ : ∃ i : Nat, x = (i : Int) := ⟨x.toNat, by omega⟩
    refine ⟨i, by omega, by omega, rfl, ?_⟩
    exact closingBlock_final c d hn k i (by omega) (by omega) hx3

/-! ### `createInternalNodeShift` leaves the links alone -/

theorem map_linkView_set (blocks : List Block) (i : Nat) (b b' : Block)
    (h : blocks[i]? = some b) (hv : linkView b' = linkView b) :
    (blocks.set i b').map linkView = blocks.map linkView := by
  rw [List.map_set, hv]
  apply List.ext_getElem?
  intro x
  rw [List.getElem?_set]
  split
  · rename_i hx
    subst hx
    simp only [List.length_map, List.getElem?_map, h, Option.map_some']
    split
    · rfl
    · rename_i hlt
      have := (List.getElem?_eq_some_iff.1 h).1
      omega
  · rfl

theorem set_map_self {α β : Type} (l : List α) (f : α → β) (a : Nat) (h : a < l.length) :
    (l.map f).set a (f l[a]) = l.map f := by
  apply List.ext_getElem?
  intro x
  rw [List.getElem?_set]
  split
  · rename_i hx
    subst hx
    simp [h]
  · rfl

theorem ptrI_some (blocks : List Block) (i : Int) (h0 : 0 ≤ i) (h1 : i < (blocks.length : Int)) :
    ptrI blocks i = some i.toNat := by
  unfold ptrI
  rw [if_pos ⟨h0, by omega⟩]

theorem childPtrs_some (blocks : List Block) : ∀ chs : List Int,
    (∀ ch ∈ chs, 1 ≤ ch ∧ ch ≤ (blocks.length : Int)) → ∃ ps, childPtrs blocks chs = some ps
  | [], _ => ⟨[], rfl⟩
  | ch :: rest, h => by
    obtain ⟨ps, hps⟩ := childPtrs_some blocks rest (fun x hx => h x (List.mem_cons_of_mem _ hx))
    have hc := h ch (List.mem_cons_self _ _)
    refine ⟨(ch - 1).toNat :: ps, ?_⟩
    unfold childPtrs
    rw [ptrI_some blocks (ch - 1) (by omega) (by omega), hps]

theorem linkMetadata_spec (n : Nat) : ∀ (sl : List ChunkMetadata) (i : Nat) (blocks : List Block),
    blocks.length = n → i + sl.length ≤ n →
    (∀ s ∈ sl, (s.Parent = 0 ∨ (1 ≤ s.Parent ∧ s.Parent ≤ (n : Int))) ∧
      ∀ ch ∈ s.Children, 1 ≤ ch ∧ ch ≤ (n : Int)) →
    ∃ blocks2 order, linkMetadata sl i blocks = some (blocks2, order) ∧
      blocks2.map linkView = blocks.map linkView ∧
      ∀ x ∈ order, i ≤ x ∧ ∃ s, sl[x - i]? = some s ∧ s.Children.length > 0 ∧ s.Parent ≠ 0
  | [], i, blocks, _, _, _ => ⟨blocks, [], rfl, rfl, by simp⟩
  | s :: rest, i, blocks, hlen, hi, hwf => by
    have hs := hwf s (List.mem_cons_self _ _)
    simp only [List.length_cons] at hi
    have hib : i < blocks.length := by omega
    obtain ⟨b, hb⟩ : ∃ b, blocks[i]? = some b := ⟨blocks[i], List.getElem?_eq_getElem hib⟩
    have hpar : ∃ parent, (if s.Parent ≠ 0 then (ptrI blocks (s.Parent - 1)).map some
        else some b.Parent) = some parent := by
      by_cases hp : s.Parent = 0
      · exact ⟨b.Parent, by simp [hp]⟩
      · rcases hs.1 with h0 | ⟨h1, h2⟩
        · exact absurd h0 hp
        · refine ⟨some (s.Parent - 1).toNat, ?_⟩
          rw [if_pos hp, ptrI_some blocks _ (by omega) (by omega)]
          rfl
    have hch : ∃ children, (if s.Children.length > 0 then childPtrs blocks s.Children
        else some b.Children) = some children := by
      by_cases hc : s.Children.length > 0
      · obtain ⟨ps, hps⟩ := childPtrs_some blocks s.Children (by rw [hlen]; exact hs.2)
        exact ⟨ps, by rw [if_pos hc, hps]⟩
      · exact ⟨b.Children, by rw [if_neg hc]⟩
    obtain ⟨parent, hparent⟩ := hpar
    obtain ⟨children, hchildren⟩ := hch
    obtain ⟨blocks2, order, hrec, hview, hord⟩ :=
      linkMetadata_spec n rest (i + 1)
        (blocks.set i { b with Parent := parent, Children := children, Size := s.Size,
                               Length := s.Length })
        (by simp [hlen]) (by omega) (fun x hx => hwf x (List.mem_cons_of_mem _ hx))
    refine ⟨blocks2, if s.Children.length > 0 ∧ s.Parent ≠ 0 then i :: order else order, ?_, ?_, ?_⟩
    · unfold linkMetadata
      simp only [hb, hparent, hchildren, hrec]
    · rw [hview]
      exact map_linkView_set blocks i b _ hb rfl
    · intro x hx
      have hrest : x ∈ order → i ≤ x ∧ ∃ s', (s :: rest)[x - i]? = some s' ∧
          s'.Children.length > 0 ∧ s'.Parent ≠ 0 := by
        intro hxo
        obtain ⟨h1, s', h2, h3⟩ := hord x hxo
        refine ⟨by omega, s', ?_, h3⟩
        have : x - i = (x - (i + 1)) + 1 := by omega
        rw [this, List.getElem?_cons_succ]
        exact h2
      split at hx
      · rename_i hcond
        rw [List.mem_cons] at hx
        rcases hx with rfl | hx
        · exact ⟨le_refl _, s, by simp, hcond⟩
        · exact hrest hx
      · exact hrest hx

theorem translateBlocks_spec (l : Lattice) (a b : Nat) (ha : a < l.Blocks.length)
    (hb : b < l.Blocks.length) :
    ∃ l', translateBlocks l (a : Int) (b : Int) = some l' ∧
      l'.Blocks.map linkView = l.Blocks.map linkView ∧ l'.toEntangler = l.toEntangler ∧
      l'.didInit = l.didInit := by
  unfold translateBlocks
  rw [getI_natCast, getI_natCast, List.getElem?_eq_getElem ha, List.getElem?_eq_getElem hb]
  simp only []
  rw [setI_natCast _ _ _ ha]
  simp only []
  rw [setI_natCast _ _ _ (by simpa using hb)]
  refine ⟨_, rfl, ?_, rfl, rfl⟩
  simp only [List.map_set]
  have hA : ∀ (x y : Block),
      linkView { x with Size := y.Size, Length := y.Length,
                        Parent := y.Parent, Children := y.Children } = linkView x :=
    fun _ _ => rfl
  rw [hA l.Blocks[a] l.Blocks[b], set_map_self _ _ _ ha, hA l.Blocks[b] l.Blocks[a],
    set_map_self _ _ _ hb]

theorem shiftScan_spec (sizeList : List ChunkMetadata) (n canInd : Nat) (lo hi : Int)
    (hsl : sizeList.length = n) (hcan : canInd < n) :
    ∀ (fuel : Nat) (j : Int) (l : Lattice), l.S = 5 → l.NumDataBlocks = (n : Int) →
      l.Blocks.length = n → 0 ≤ j → (n : Int) - j ≤ 30 * (fuel : Int) →
      ∃ l', shiftScan sizeList (canInd : Int) lo hi 25 fuel j l = some l' ∧
        l'.Blocks.map linkView = l.Blocks.map linkView ∧ l'.toEntangler = l.toEntangler ∧
        l'.didInit = l.didInit
  | 0, j, l, hS, hN, hB, hj, hf => by
    refine ⟨l, ?_, rfl, rfl, rfl⟩
    unfold shiftScan
    rw [if_neg (by omega)]
  | fuel + 1, j, l, hS, hN, hB, hj, hf => by
    have ih := shiftScan_spec sizeList n canInd lo hi hsl hcan fuel (j + (25 + l.S)) l hS hN hB
      (by omega) (by push_cast at hf; omega)
    unfold shiftScan
    by_cases hjn : j < l.NumDataBlocks
    · rw [if_pos hjn]
      simp only []
      split
      · exact ih
      · obtain ⟨jn, rfl⟩ : ∃ jn : Nat, j = (jn : Int) := ⟨j.toNat, by omega⟩
        have hjlt : jn < n := by omega
        rw [getI_natCast, List.getElem?_eq_getElem (by omega)]
        simp only []
        split
        · split
          · exact ih
          · split
            · exact ih
            · obtain ⟨l', h1, h2, h3, h4⟩ := translateBlocks_spec
                { l with internalNodeShift :=
                    ((jn : Int) + 1, (canInd : Int) + 1) ::
                      ((canInd : Int) + 1, (jn : Int) + 1) :: l.internalNodeShift }
                canInd jn (by simp only []; omega) (by simp only []; omega)
              exact ⟨l', h1, h2, h3, h4⟩
        · exact ih
    · rw [if_neg hjn]
      exact ⟨l, rfl, rfl, rfl, rfl⟩

theorem shiftLoop_spec (sizeList : List ChunkMetadata) (n : Nat) (hsl : sizeList.length = n) :
    ∀ (order : List Nat) (l : Lattice), l.S = 5 → l.P = 5 → l.NumDataBlocks = (n : Int) →
      l.Blocks.length = n →
      (∀ x ∈ order, ∃ s, sizeList[x]? = some s ∧ s.Children.length > 0) →
      ∃ l', shiftLoop sizeList order l = some l' ∧
        l'.Blocks.map linkView = l.Blocks.map linkView ∧ l'.toEntangler = l.toEntangler ∧
        l'.didInit = l.didInit
  | [], l, _, _, _, _, _ => ⟨l, rfl, rfl, rfl, rfl⟩
  | x :: rest, l, hS, hP, hN, hB, hord => by
    obtain ⟨s, hs, hc⟩ := hord x (List.mem_cons_self _ _)
    have hxn : x < n := by
      have := (List.getElem?_eq_some_iff.1 hs).1
      omega
    obtain ⟨lo, hlo⟩ : ∃ lo, s.Children.head? = some lo := by
      cases hch : s.Children with
      | nil => rw [hch] at hc; simp at hc
      | cons a _ => exact ⟨a, rfl⟩
    obtain ⟨hi, hhi⟩ : ∃ hi, s.Children.getLast? = some hi := by
      cases hch : s.Children.getLast? with
      | none =>
        rw [List.getLast?_eq_none_iff] at hch
        rw [hch] at hc; simp at hc
      | some a => exact ⟨a, rfl⟩
    obtain ⟨l1, h1, h2, h3, h4⟩ := shiftScan_spec sizeList n x lo hi hsl hxn n 25 l hS hN hB
      (by omega) (by omega)
    have hB1 : l1.Blocks.length = n := by
      have := congrArg List.length h2
      simpa [hB] using this
    obtain ⟨l2, g1, g2, g3, g4⟩ := shiftLoop_spec sizeList n hsl rest l1
      (by rw [show l1.S = l1.toEntangler.S from rfl, h3]; exact hS)
      (by rw [show l1.P = l1.toEntangler.P from rfl, h3]; exact hP)
      (by rw [show l1.NumDataBlocks = l1.toEntangler.NumDataBlocks from rfl, h3]; exact hN)
      hB1 (fun y hy => hord y (List.mem_cons_of_mem _ hy))
    refine ⟨l2, ?_, g2.trans h2, g3.trans h3, g4.trans h4⟩
    unfold shiftLoop
    have hwin : l.S * l.P = 25 := by rw [hS, hP]; rfl
    have hfuel : l.NumDataBlocks.toNat = n := by rw [hN]; simp
    simp only [hs, hlo, hhi, hwin, hfuel]
    rw [h1]
    exact g1

/-- With well-formed metadata `createInternalNodeShift` returns and changes none of the
fields the lattice links are made of. -/
theorem createInternalNodeShift_spec (n : Nat) (l : Lattice) (sizeList : List ChunkMetadata)
    (hS : l.S = 5) (hP : l.P = 5) (hN : l.NumDataBlocks = (n : Int))
    (hB : l.Blocks.length = n) (hwf : MetaWF n sizeList) :
    ∃ l', createInternalNodeShift l sizeList = some l' ∧
      l'.Blocks.map linkView = l.Blocks.map linkView ∧ l'.toEntangler = l.toEntangler ∧
      l'.didInit = l.didInit := by
  obtain ⟨hle, hrange, hcase⟩ := hwf
  obtain ⟨blocks, order, h1, h2, h3⟩ :=
    linkMetadata_spec n sizeList 0 l.Blocks hB (by omega) hrange
  have hB2 : blocks.length = n := by
    have := congrArg List.length h2
    simpa [hB] using this
  unfold createInternalNodeShift
  rw [h1]
  simp only []
  rcases hcase with hfull | hnone
  · obtain ⟨l', g1, g2, g3, g4⟩ := shiftLoop_spec sizeList n hfull order
      { l with Blocks := blocks, internalNodeShift := [] } hS hP hN hB2
      (by
        intro x hx
        obtain ⟨-, s, hs, hc, -⟩ := h3 x hx
        exact ⟨s, by simpa using hs, hc⟩)
    exact ⟨l', g1, g2.trans h2, g3, g4⟩
  · have hord : order = [] := by
      cases order with
      | nil => rfl
      | cons x rest =>
        obtain ⟨-, s, hs, hc, hp⟩ := h3 x (List.mem_cons_self _ _)
        exact absurd ⟨hc, hp⟩ (hnone s (List.getElem?_mem hs))
    rw [hord]
    exact ⟨_, rfl, h2, rfl, rfl⟩

/-! ### The parity loop of `RunInit` -/

theorem wrapPos_first (k : StrandClass) (p : Int) (h1 : 1 ≤ p) (h5 : p ≤ 5) :
    wrapPos k p = p := by
  obtain ⟨-, -, -, hw1, hw5, hws⟩ := wrapPos_spec k p h1
  exact slot_first_inj k _ _ hw1 hw5 h1 h5 hws

theorem nextPos_range (n : Nat) (k : StrandClass) (p : Int) (h1 : 1 ≤ p) (hn : p ≤ (n : Int)) :
    1 ≤ nextPos n k p ∧ nextPos n k p ≤ (n : Int) := by
  have hg := fwd_gt k p h1
  unfold nextPos
  split
  · omega
  · obtain ⟨-, -, -, hw1, hw5, -⟩ := wrapPos_spec k p h1
    by_cases h5 : p ≤ 5
    · rw [wrapPos_first k p h1 h5]; omega
    · omega

theorem ofIdx_cases (k : Nat) (hk : k < 3) :
    (k = 0 ∧ StrandClass.ofIdx k = .Horizontal) ∨ (k = 1 ∧ StrandClass.ofIdx k = .Right) ∨
      (k = 2 ∧ StrandClass.ofIdx k = .Left) := by
  rcases k with _ | _ | _ | k
  · exact Or.inl ⟨rfl, rfl⟩
  · exact Or.inr (Or.inl ⟨rfl, rfl⟩)
  · exact Or.inr (Or.inr ⟨rfl, rfl⟩)
  · omega

/-- The `wrap` bookkeeping of one parity step. -/
theorem wrapState_spec (n : Nat) (i k : Nat) (wrap : List Int) (newWrap : Bool)
    (hwl : wrap.length = 3)
    (hw : newWrap = true → ∀ k', k' < 3 →
      wrap[k']? = some (wrapPos (StrandClass.ofIdx k') ((i : Int) + 1))) :
    ∃ wrap' newWrap',
      (if fwd (StrandClass.ofIdx k) ((i : Int) + 1) > (n : Int) then
          if newWrap = false then
            match GetWrapPosition ((i : Int) + 1) 5 5 with
            | none => none
            | some (wr, wh, wl) =>
              match setI wrap 1 wr with
              | none => none
              | some w1 =>
                match setI w1 0 wh with
                | none => none
                | some w2 => (setI w2 2 wl).map (fun w3 => (w3, true))
          else some (wrap, true)
        else some (wrap, newWrap)) = some (wrap', newWrap') ∧
      wrap'.length = 3 ∧
      (newWrap' = true → ∀ k', k' < 3 →
        wrap'[k']? = some (wrapPos (StrandClass.ofIdx k') ((i : Int) + 1))) ∧
      (fwd (StrandClass.ofIdx k) ((i : Int) + 1) > (n : Int) → newWrap' = true) := by
  by_cases hf : fwd (StrandClass.ofIdx k) ((i : Int) + 1) > (n : Int)
  · rw [if_pos hf]
    cases hnw : newWrap with
    | true =>
      refine ⟨wrap, true, by simp, hwl, fun _ => hw hnw, fun _ => rfl⟩
    | false =>
      obtain ⟨w, hwp, e1, -⟩ := wrapPos_spec .Right ((i : Int) + 1) (by omega)
      obtain ⟨w', hwp', e2, -⟩ := wrapPos_spec .Horizontal ((i : Int) + 1) (by omega)
      obtain ⟨w'', hwp'', e3, -⟩ := wrapPos_spec .Left ((i : Int) + 1) (by omega)
      have q1 : w' = w := Option.some.inj (hwp'.symm.trans hwp)
      have q2 : w'' = w := Option.some.inj (hwp''.symm.trans hwp)
      subst q1; subst q2
      have hwe : GetWrapPosition ((i : Int) + 1) 5 5 =
          some (wrapPos .Right ((i : Int) + 1), wrapPos .Horizontal ((i : Int) + 1),
            wrapPos .Left ((i : Int) + 1)) := by
        rw [hwp, e1, e2, e3]; rfl
      refine ⟨((wrap.set 1 (wrapPos .Right ((i : Int) + 1))).set 0
          (wrapPos .Horizontal ((i : Int) + 1))).set 2 (wrapPos .Left ((i : Int) + 1)), true,
        ?_, by simp [hwl], ?_, fun _ => rfl⟩
      · rw [hwe]
        simp only [if_true]
        have s1 := setI_natCast wrap 1 (wrapPos .Right ((i : Int) + 1)) (by omega)
        have s2 := setI_natCast (wrap.set 1 (wrapPos .Right ((i : Int) + 1))) 0
          (wrapPos .Horizontal ((i : Int) + 1)) (by simp; omega)
        have s3 := setI_natCast ((wrap.set 1 (wrapPos .Right ((i : Int) + 1))).set 0
          (wrapPos .Horizontal ((i : Int) + 1))) 2 (wrapPos .Left ((i : Int) + 1))
          (by simp; omega)
        simp only [Nat.cast_one, Nat.cast_zero, Nat.cast_ofNat] at s1 s2 s3
        rw [s1]
        simp only []
        rw [s2]
        simp only []
        rw [s3]
        rfl
      · intro _ k' hk'
        rcases ofIdx_cases k' hk' with ⟨rfl, h⟩ | ⟨rfl, h⟩ | ⟨rfl, h⟩ <;>
          simp [h, List.getElem?_set, hwl]
  · rw [if_neg hf]
    exact ⟨wrap, newWrap, rfl, hwl, hw, fun h => absurd h hf⟩

theorem getI_next (i k : Nat) (hk : k < 3) :
    getI [fwd .Horizontal ((i : Int) + 1), fwd .Right ((i : Int) + 1),
        fwd .Left ((i : Int) + 1)] (k : Int) =
      some (fwd (StrandClass.ofIdx k) ((i : Int) + 1)) := by
  rw [getI_natCast]
  rcases ofIdx_cases k hk with ⟨rfl, h⟩ | ⟨rfl, h⟩ | ⟨rfl, h⟩ <;> rw [h] <;> rfl

/-- One parity step on a state that satisfies the invariant: it returns, and the
invariant holds with one more parity block. -/
theorem parityStep_spec (n : Nat) (replaced : List Int) (i k : Nat) (hi : i < n) (hk : k < 3)
    (l : Lattice) (wrap : List Int) (newWrap : Bool)
    (hS : l.S = 5) (hP : l.P = 5) (hN : l.NumDataBlocks = (n : Int))
    (hinv : LInv n (3 * i + k) replaced l.Blocks)
    (hwl : wrap.length = 3)
    (hw : newWrap = true → ∀ k', k' < 3 →
      wrap[k']? = some (wrapPos (StrandClass.ofIdx k') ((i : Int) + 1))) :
    ∃ l' wrap' newWrap',
      parityStep replaced
        [fwd .Horizontal ((i : Int) + 1), fwd .Right ((i : Int) + 1), fwd .Left ((i : Int) + 1)]
        i k (l, wrap, newWrap) = some (l', wrap', newWrap') ∧
      LInv n (3 * i + k + 1) replaced l'.Blocks ∧
      l'.toEntangler = l.toEntangler ∧ l'.internalNodeShift = l.internalNodeShift ∧
      wrap'.length = 3 ∧
      (newWrap' = true → ∀ k', k' < 3 →
        wrap'[k']? = some (wrapPos (StrandClass.ofIdx k') ((i : Int) + 1))) := by
  obtain ⟨hlen, hdata, hpar⟩ := hinv
  obtain ⟨ld, hld, ldp, ldpos, ldL, ldR, ldRk, ldLk, ldLn⟩ := hdata i hi
  obtain ⟨wrap', newWrap', hwrap, hwl', hw', hwf⟩ := wrapState_spec n i k wrap newWrap hwl hw
  have hnp := nextPos_range n (StrandClass.ofIdx k) ((i : Int) + 1) (by omega) (by omega)
  obtain ⟨nn, hnn⟩ : ∃ nn : Nat, nextPos n (StrandClass.ofIdx k) ((i : Int) + 1) = (nn : Int) + 1 :=
    ⟨(nextPos n (StrandClass.ofIdx k) ((i : Int) + 1) - 1).toNat, by omega⟩
  have hnnlt : nn < n := by omega
  -- the block the right pointer goes to, read after the left data block was updated
  obtain ⟨rd0, hrd0, rdp, rdpos, rdL, rdR, rdRk, rdLk, rdLn⟩ := hdata nn hnnlt
  let ld' : Block := { ld with Right := ld.Right.set k (some l.Blocks.length) }
  let rd : Block := if i = nn then ld' else rd0
  have hrd : (l.Blocks.set i ld')[nn]? = some rd := by
    rw [List.getElem?_set]
    by_cases h : i = nn
    · rw [if_pos h, if_pos (by omega)]
      show some ld' = some (if i = nn then ld' else rd0)
      rw [if_pos h]
    · rw [if_neg h, hrd0]
      show some rd0 = some (if i = nn then ld' else rd0)
      rw [if_neg h]
  have hrdL : rd.Left.length = 3 := by
    show (if i = nn then ld' else rd0).Left.length = 3
    split
    · exact ldL
    · exact rdL
  have hrdpos : rd.Position = (nn : Int) + 1 := by
    show (if i = nn then ld' else rd0).Position = _
    split
    · rename_i h; subst h; exact ldpos
    · exact rdpos
  have hnxt1 : (if fwd (StrandClass.ofIdx k) ((i : Int) + 1) > (n : Int) then
        getI wrap' (k : Int) else some (fwd (StrandClass.ofIdx k) ((i : Int) + 1))) =
      some ((nn : Int) + 1) := by
    rw [← hnn]
    unfold nextPos
    by_cases hf : fwd (StrandClass.ofIdx k) ((i : Int) + 1) > (n : Int)
    · rw [if_pos hf, if_neg (by omega), getI_natCast, hw' (hwf hf) k hk]
    · rw [if_neg hf, if_pos (by omega)]
  let b : Block :=
    { zeroBlock with
        Class := StrandClass.ofIdx k, Position := (i : Int) + 1, IsParity := true,
        Replace := decide ((i : Int) + 1 ∈ replaced),
        Left := [some i], LeftIndex := ld.Position,
        Right := [some nn], RightIndex := rd.Position }
  refine ⟨{ l with
      Blocks := (l.Blocks.set i ld').set nn
                  { rd with Left := rd.Left.set k (some l.Blocks.length) } ++ [b] },
    wrap', newWrap', ?_, ?_, rfl, rfl, hwl', hw'⟩
  · unfold parityStep
    simp only [hld, hS, hP, hN]
    rw [setI_natCast _ _ _ (by omega)]
    simp only []
    rw [getI_next i k hk]
    simp only []
    rw [hwrap]
    simp only []
    rw [hnxt1]
    simp only []
    have hcond : ¬ ((nn : Int) + 1 - 1 ≥ ((l.Blocks.set i ld').length : Int) ∨
        (nn : Int) + 1 - 1 < 0) := by
      simp only [List.length_set]
      omega
    rw [if_neg hcond]
    have htn : ((nn : Int) + 1 - 1).toNat = nn := by omega
    rw [htn, hrd]
    simp only []
    rw [setI_natCast _ _ _ (by omega)]
  · have hself : l.Blocks.length = n + (3 * i + k) := hlen
    have hget : ∀ x : Nat, x < n + (3 * i + k) →
        ((l.Blocks.set i ld').set nn { rd with Left := rd.Left.set k (some l.Blocks.length) }
          ++ [b])[x]? =
        if nn = x then some { rd with Left := rd.Left.set k (some l.Blocks.length) }
        else if i = x then some ld' else l.Blocks[x]? := by
      intro x hx
      rw [List.getElem?_append_left (by simp; omega), List.getElem?_set, List.getElem?_set]
      simp only [List.length_set]
      by_cases h1 : nn = x
      · rw [if_pos h1, if_pos h1, if_pos (by omega)]
      · rw [if_neg h1, if_neg h1]
        by_cases h2 : i = x
        · rw [if_pos h2, if_pos h2, if_pos (by omega)]
        · rw [if_neg h2, if_neg h2]
    refine ⟨by simp [hself]; omega, ?_, ?_⟩
    · intro idx hidx
      obtain ⟨b0, hb0, b0p, b0pos, b0L, b0R, b0Rk, b0Lk, b0Ln⟩ := hdata idx hidx
      -- the block at `idx` after the step
      have hcases : ∃ b1, ((l.Blocks.set i ld').set nn
          { rd with Left := rd.Left.set k (some l.Blocks.length) } ++ [b])[idx]? = some b1 ∧
          b1.IsParity = false ∧ b1.Position = (idx : Int) + 1 ∧
          b1.Right = (if i = idx then b0.Right.set k (some l.Blocks.length) else b0.Right) ∧
          b1.Left = (if nn = idx then b0.Left.set k (some l.Blocks.length) else b0.Left) := by
        rw [hget idx (by omega)]
        by_cases h1 : nn = idx
        · subst h1
          rw [if_pos rfl]
          have hb0rd : b0 = rd0 := Option.some.inj (hb0.symm.trans hrd0)
          subst hb0rd
          by_cases h2 : i = nn
          · subst h2
            have hb0ld : b0 = ld := Option.some.inj (hb0.symm.trans hld)
            subst hb0ld
            refine ⟨_, rfl, ?_, ?_, ?_, ?_⟩
            · show (if i = i then ld' else b0).IsParity = false
              rw [if_pos rfl]; exact b0p
            · show (if i = i then ld' else b0).Position = _
              rw [if_pos rfl]; exact b0pos
            · show (if i = i then ld' else b0).Right = _
              rw [if_pos rfl, if_pos rfl]
            · show (if i = i then ld' else b0).Left.set k _ = _
              rw [if_pos rfl, if_pos rfl]
          · refine ⟨_, rfl, ?_, ?_, ?_, ?_⟩
            · show (if i = nn then ld' else b0).IsParity = false
              rw [if_neg h2]; exact b0p
            · show (if i = nn then ld' else b0).Position = _
              rw [if_neg h2]; exact b0pos
            · show (if i = nn then ld' else b0).Right = _
              rw [if_neg h2, if_neg h2]
            · show (if i = nn then ld' else b0).Left.set k _ = _
              rw [if_neg h2, if_pos rfl]
        · rw [if_neg h1]
          by_cases h2 : i = idx
          · subst h2
            have hb0ld : b0 = ld := Option.some.inj (hb0.symm.trans hld)
            subst hb0ld
            rw [if_pos rfl]
            exact ⟨_, rfl, b0p, b0pos, by rw [if_pos rfl], by rw [if_neg h1]⟩
          · rw [if_neg h2, hb0]
            exact ⟨_, rfl, b0p, b0pos, by rw [if_neg h2], by rw [if_neg h1]⟩
      obtain ⟨b1, hb1, b1p, b1pos, b1R, b1L⟩ := hcases
      refine ⟨b1, hb1, b1p, b1pos, ?_, ?_, ?_, ?_, ?_⟩
      · rw [b1L]; split <;> simp [b0L]
      · rw [b1R]; split <;> simp [b0R]
      · intro k' hk'
        rw [b1R]
        by_cases h2 : i = idx
        · subst h2
          rw [if_pos rfl, List.getElem?_set]
          by_cases hkk : k = k'
          · subst hkk
            rw [if_pos rfl, if_pos (by omega), if_pos (by omega), hself, Nat.add_assoc]
          · rw [if_neg hkk, b0Rk k' hk']
            congr 1
            by_cases hlt : 3 * i + k' < 3 * i + k
            · rw [if_pos hlt, if_pos (by omega)]
            · rw [if_neg hlt, if_neg (by omega)]
        · rw [if_neg h2, b0Rk k' hk']
          congr 1
          by_cases hlt : 3 * idx + k' < 3 * i + k
          · rw [if_pos hlt, if_pos (by omega)]
          · rw [if_neg hlt, if_neg (by omega)]
      · intro k' p hk' hp
        rw [b1L] at hp
        by_cases h1 : nn = idx
        · subst h1
          rw [if_pos rfl, List.getElem?_set] at hp
          by_cases hkk : k = k'
          · subst hkk
            rw [if_pos rfl, if_pos (by omega)] at hp
            have : l.Blocks.length = p := by simpa using hp
            exact ⟨i, hi, by omega, by omega, hnn⟩
          · rw [if_neg hkk] at hp
            obtain ⟨j, hj1, hj2, hj3, hj4⟩ := b0Lk k' p hk' hp
            exact ⟨j, hj1, hj2, by omega, hj4⟩
        · rw [if_neg h1] at hp
          obtain ⟨j, hj1, hj2, hj3, hj4⟩ := b0Lk k' p hk' hp
          exact ⟨j, hj1, hj2, by omega, hj4⟩
      · intro k' j hk' hj hlt hnext
        rw [b1L]
        by_cases hnew : 3 * j + k' < 3 * i + k
        · obtain ⟨p, hp⟩ := b0Ln k' j hk' hj hnew hnext
          by_cases h1 : nn = idx
          · rw [if_pos h1, List.getElem?_set]
            by_cases hkk : k = k'
            · rw [if_pos hkk, if_pos (by omega)]
              exact ⟨_, rfl⟩
            · rw [if_neg hkk]; exact ⟨p, hp⟩
          · rw [if_neg h1]; exact ⟨p, hp⟩
        · have hji : j = i := by omega
          have hkk : k' = k := by omega
          subst hji; subst hkk
          have : nn = idx := by
            rw [hnn] at hnext
            omega
          rw [if_pos this, List.getElem?_set, if_pos rfl, if_pos (by omega)]
          exact ⟨_, rfl⟩
    · intro j k' hk' hlt
      by_cases hnew : 3 * j + k' < 3 * i + k
      · rw [List.getElem?_append_left (by simp; omega), List.getElem?_set_ne (by omega),
          List.getElem?_set_ne (by omega)]
        exact hpar j k' hk' hnew
      · have hji : j = i := by omega
        have hkk : k' = k := by omega
        subst hji; subst hkk
        rw [List.getElem?_append_right (by simp; omega)]
        have : n + 3 * j + k' - ((l.Blocks.set j ld').set nn
            { rd with Left := rd.Left.set k' (some l.Blocks.length) }).length = 0 := by
          simp [hself]; omega
        rw [this]
        show some b = _
        congr 1
        show ({ zeroBlock with
            Class := StrandClass.ofIdx k', Position := (j : Int) + 1, IsParity := true,
            Replace := decide ((j : Int) + 1 ∈ replaced),
            Left := [some j], LeftIndex := ld.Position,
            Right := [some nn], RightIndex := rd.Position } : Block) = parityBlockSpec n replaced j k'
        unfold parityBlockSpec
        rw [ldpos, hrdpos, hnn]
        have : ((nn : Int) + 1 - 1).toNat = nn := by omega
        rw [this]

/-- The loop over the classes of one data block keeps the invariant. -/
theorem parityClasses_spec (n : Nat) (replaced : List Int) (i : Nat) (hi : i < n) :
    ∀ (cnt k : Nat) (l : Lattice) (wrap : List Int) (newWrap : Bool), cnt + k = 3 →
      l.S = 5 → l.P = 5 → l.NumDataBlocks = (n : Int) →
      LInv n (3 * i + k) replaced l.Blocks → wrap.length = 3 →
      (newWrap = true → ∀ k', k' < 3 →
        wrap[k']? = some (wrapPos (StrandClass.ofIdx k') ((i : Int) + 1))) →
      ∃ l' wrap' newWrap',
        parityClasses replaced
          [fwd .Horizontal ((i : Int) + 1), fwd .Right ((i : Int) + 1),
            fwd .Left ((i : Int) + 1)] i cnt k (l, wrap, newWrap) =
          some (l', wrap', newWrap') ∧
        LInv n (3 * (i + 1)) replaced l'.Blocks ∧
        l'.toEntangler = l.toEntangler ∧ l'.internalNodeShift = l.internalNodeShift ∧
        wrap'.length = 3 := by
  intro cnt
  induction cnt with
  | zero =>
    intro k l wrap newWrap hck hS hP hN hinv hwl _
    have hk3 : k = 3 := by omega
    subst hk3
    exact ⟨l, wrap, newWrap, rfl, hinv, rfl, rfl, hwl⟩
  | succ cnt ih =>
    intro k l wrap newWrap hck hS hP hN hinv hwl hw
    obtain ⟨l1, wrap1, nw1, hstep, hinv1, hent, hshift, hwl1, hw1⟩ :=
      parityStep_spec n replaced i k hi (by omega) l wrap newWrap hS hP hN hinv hwl hw
    have hS1 : l1.S = 5 := by rw [show l1.S = l1.toEntangler.S from rfl, hent]; exact hS
    have hP1 : l1.P = 5 := by rw [show l1.P = l1.toEntangler.P from rfl, hent]; exact hP
    have hN1 : l1.NumDataBlocks = (n : Int) := by
      rw [show l1.NumDataBlocks = l1.toEntangler.NumDataBlocks from rfl, hent]; exact hN
    obtain ⟨l2, wrap2, nw2, hrest, hinv2, hent2, hshift2, hwl2⟩ :=
      ih (k + 1) l1 wrap1 nw1 (by omega) hS1 hP1 hN1 hinv1 hwl1 hw1
    refine ⟨l2, wrap2, nw2, ?_, hinv2, hent2.trans hent, hshift2.trans hshift, hwl2⟩
    rw [parityClasses, hstep]
    exact hrest

/-- The loop over the data blocks keeps the invariant: it returns, with every parity
block in place. -/
theorem parityLoop_spec (n : Nat) (replaced : List Int) :
    ∀ (cnt i : Nat) (l : Lattice) (next wrap : List Int), cnt + i = n →
      l.S = 5 → l.P = 5 → l.Alpha = 3 → l.NumDataBlocks = (n : Int) →
      LInv n (3 * i) replaced l.Blocks → next.length = 3 → wrap.length = 3 →
      ∃ l' next' wrap',
        parityLoop replaced cnt i (l, next, wrap) = some (l', next', wrap') ∧
        LInv n (3 * n) replaced l'.Blocks ∧
        l'.toEntangler = l.toEntangler ∧ l'.internalNodeShift = l.internalNodeShift := by
  intro cnt
  induction cnt with
  | zero =>
    intro i l next wrap hci _ _ _ _ hinv _ _
    have : i = n := by omega
    subst this
    exact ⟨l, next, wrap, rfl, hinv, rfl, rfl⟩
  | succ cnt ih =>
    intro i l next wrap hci hS hP hA hN hinv hnl hwl
    obtain ⟨a, b, c, hnext⟩ : ∃ a b c, next = [a, b, c] := by
      match next, hnl with
      | [a, b, c], _ => exact ⟨a, b, c, rfl⟩
    subst hnext
    obtain ⟨l1, wrap1, nw1, hcls, hinv1, hent, hshift, hwl1⟩ :=
      parityClasses_spec n replaced i (by omega) 3 0 l wrap false rfl hS hP hN hinv hwl
        (by intro h; cases h)
    have hS1 : l1.S = 5 := by rw [show l1.S = l1.toEntangler.S from rfl, hent]; exact hS
    have hP1 : l1.P = 5 := by rw [show l1.P = l1.toEntangler.P from rfl, hent]; exact hP
    have hA1 : l1.Alpha = 3 := by
      rw [show l1.Alpha = l1.toEntangler.Alpha from rfl, hent]; exact hA
    have hN1 : l1.NumDataBlocks = (n : Int) := by
      rw [show l1.NumDataBlocks = l1.toEntangler.NumDataBlocks from rfl, hent]; exact hN
    obtain ⟨l2, next2, wrap2, hrest, hinv2, hent2, hshift2⟩ :=
      ih (i + 1) l1
        [fwd .Horizontal ((i : Int) + 1), fwd .Right ((i : Int) + 1), fwd .Left ((i : Int) + 1)]
        wrap1 (by omega) hS1 hP1 hA1 hN1 hinv1 rfl hwl1
    refine ⟨l2, next2, wrap2, ?_, hinv2, hent2.trans hent, hshift2.trans hshift⟩
    rw [parityLoop]
    simp only [hS, hP, hA]
    have hfn : GetForwardNeighbours ((i : Int) + 1) 5 5 =
        (fwd .Right ((i : Int) + 1), fwd .Horizontal ((i : Int) + 1),
          fwd .Left ((i : Int) + 1)) := rfl
    rw [hfn]
    simp only []
    have h1 : setI [a, b, c] 1 (fwd .Right ((i : Int) + 1)) =
        some [a, fwd .Right ((i : Int) + 1), c] := rfl
    have h2 : setI [a, fwd .Right ((i : Int) + 1), c] 0 (fwd .Horizontal ((i : Int) + 1)) =
        some [fwd .Horizontal ((i : Int) + 1), fwd .Right ((i : Int) + 1), c] := rfl
    have h3 : setI [fwd .Horizontal ((i : Int) + 1), fwd .Right ((i : Int) + 1), c] 2
          (fwd .Left ((i : Int) + 1)) =
        some [fwd .Horizontal ((i : Int) + 1), fwd .Right ((i : Int) + 1),
          fwd .Left ((i : Int) + 1)] := rfl
    rw [h1]
    simp only []
    rw [h2]
    simp only []
    rw [h3]
    simp only []
    have h3n : (3 : Int).toNat = 3 := rfl
    rw [h3n, hcls]
    exact hrest

theorem replacedLoop_spec (e : Entangler) (hS : e.S = 5) (hP : e.P = 5) :
    ∀ xs : List Int, (∀ x ∈ xs, 1 ≤ x) →
      ∃ keys, replacedLoop e xs = some keys ∧
        ∀ y, y ∈ keys ↔ ∃ x ∈ xs, ∃ k : StrandClass, fwd k x > e.NumDataBlocks ∧ y = wrapPos k x
  | [], _ => ⟨[], rfl, by simp⟩
  | x :: rest, hx => by
    obtain ⟨more, hmore, hmem⟩ := replacedLoop_spec e hS hP rest
      (fun y hy => hx y (List.mem_cons_of_mem _ hy))
    have hx1 : 1 ≤ x := hx x (List.mem_cons_self _ _)
    obtain ⟨w, hw, hwR, -⟩ := wrapPos_spec .Right x hx1
    obtain ⟨w', hw', hwH, -⟩ := wrapPos_spec .Horizontal x hx1
    obtain ⟨w'', hw'', hwL, -⟩ := wrapPos_spec .Left x hx1
    have e1 : w' = w := Option.some.inj (hw'.symm.trans hw)
    have e2 : w'' = w := Option.some.inj (hw''.symm.trans hw)
    rw [e1] at hwH
    rw [e2] at hwL
    obtain ⟨wr, wh, wl⟩ := w
    have hfn : GetForwardNeighbours x 5 5 = (fwd .Right x, fwd .Horizontal x, fwd .Left x) := rfl
    refine ⟨(if fwd .Right x > e.NumDataBlocks then [wr] else []) ++
        (if fwd .Horizontal x > e.NumDataBlocks then [wh] else []) ++
        (if fwd .Left x > e.NumDataBlocks then [wl] else []) ++ more, ?_, ?_⟩
    · rw [replacedLoop]
      simp only [hS, hP, hfn, hw, hmore]
    · intro y
      have rR : wrapPos .Right x = wr := hwR
      have rH : wrapPos .Horizontal x = wh := hwH
      have rL : wrapPos .Left x = wl := hwL
      simp only [List.mem_append, hmem, List.mem_cons, exists_eq_or_imp]
      constructor
      · rintro (((h | h) | h) | h)
        · split_ifs at h with hc
          · exact Or.inl ⟨.Right, hc, by rw [rR]; simpa using h⟩
          · simp at h
        · split_ifs at h with hc
          · exact Or.inl ⟨.Horizontal, hc, by rw [rH]; simpa using h⟩
          · simp at h
        · split_ifs at h with hc
          · exact Or.inl ⟨.Left, hc, by rw [rL]; simpa using h⟩
          · simp at h
        · exact Or.inr h
      · rintro (⟨k, hk, rfl⟩ | h)
        · cases k
          · exact Or.inl (Or.inl (Or.inr (by rw [if_pos hk, rH]; simp)))
          · exact Or.inl (Or.inl (Or.inl (by rw [if_pos hk, rR]; simp)))
          · exact Or.inl (Or.inr (by rw [if_pos hk, rL]; simp))
        · exact Or.inr h

theorem GetReplacedParityIndices_spec (e : Entangler) (hS : e.S = 5) (hP : e.P = 5)
    (hA : e.Alpha = 3) (hn : 0 ≤ e.NumDataBlocks) (hR : e.RightExtremeIndex = []) :
    ∃ keys, GetReplacedParityIndices e = some (setDatablocksToClose e, keys) ∧
      ∀ y, y ∈ keys ↔ ∃ x, 1 ≤ x ∧ x ≤ e.NumDataBlocks ∧
        ∃ k : StrandClass, fwd k x > e.NumDataBlocks ∧ y = wrapPos k x := by
  have hmemR := mem_RightExtremeIndex e hS hP hA hn
  obtain ⟨keys, hk, hmem⟩ := replacedLoop_spec (setDatablocksToClose e) hS hP
    (setDatablocksToClose e).RightExtremeIndex (fun x hx => ((hmemR x).1 hx).1)
  refine ⟨keys, ?_, ?_⟩
  · unfold GetReplacedParityIndices
    simp only [hR, List.length_nil, if_true]
    rw [hk]
  · intro y
    rw [hmem]
    constructor
    · rintro ⟨x, hx, k, hf, rfl⟩
      obtain ⟨h1, h2, -⟩ := (hmemR x).1 hx
      exact ⟨x, h1, h2, k, hf, rfl⟩
    · rintro ⟨x, h1, h2, k, hf, rfl⟩
      exact ⟨x, (hmemR x).2 ⟨h1, h2, k, hf⟩, k, hf, rfl⟩

/-- Every position is the right neighbour of some position on each strand class. -/
theorem nextPos_surj (n : Nat) (k : StrandClass) (q : Int) (h1 : 1 ≤ q) (hn : q ≤ (n : Int)) :
    ∃ j : Nat, j < n ∧ nextPos n k ((j : Int) + 1) = q := by
  by_cases h6 : 6 ≤ q
  · obtain ⟨hb1, hb2, hb3⟩ := fwd_bwd k q h6
    refine ⟨(bwd k q - 1).toNat, by omega, ?_⟩
    have : (((bwd k q - 1).toNat : Nat) : Int) + 1 = bwd k q := by omega
    rw [this]
    unfold nextPos
    rw [hb3, if_pos hn]
  · obtain ⟨x, hx1, hx2, hx3, hx4⟩ := extreme_exists k n (n - q).toNat q h1 hn (by omega)
    refine ⟨(x - 1).toNat, by omega, ?_⟩
    have : (((x - 1).toNat : Nat) : Int) + 1 = x := by omega
    rw [this]
    unfold nextPos
    rw [if_neg (by omega)]
    obtain ⟨-, -, -, hw1, hw5, hws⟩ := wrapPos_spec k x (by omega)
    exact slot_first_inj k _ _ hw1 hw5 h1 (by omega) (hws.trans hx4)

/-- The invariant holds before the first parity is created, whatever Merkle metadata the
data blocks carry. -/
theorem LInv_init (n : Nat) (replaced : List Int) (blocks : List Block)
    (h : blocks.map linkView = (List.range n).map (fun i => linkView (newDataBlock 3 i))) :
    LInv n 0 replaced blocks := by
  have hlen : blocks.length = n := by
    have := congrArg List.length h
    simpa using this
  refine ⟨by omega, ?_, ?_⟩
  · intro idx hidx
    have hb : idx < blocks.length := by omega
    have hv : linkView blocks[idx] = linkView (newDataBlock 3 idx) := by
      have := congrArg (fun l => l[idx]?) h
      simp only [List.getElem?_map, List.getElem?_eq_getElem hb, Option.map_some,
        List.getElem?_range hidx] at this
      exact Option.some.inj this
    have hp : blocks[idx].IsParity = false := congrArg Block.IsParity hv
    have hpos : blocks[idx].Position = (idx : Int) + 1 := congrArg Block.Position hv
    have hL : blocks[idx].Left = [none, none, none] := congrArg Block.Left hv
    have hR : blocks[idx].Right = [none, none, none] := congrArg Block.Right hv
    refine ⟨blocks[idx], List.getElem?_eq_getElem hb, hp, hpos, by rw [hL]; rfl, by rw [hR]; rfl,
      ?_, ?_, ?_⟩
    · intro k hk
      rw [hR, if_neg (by omega)]
      rcases k with _ | _ | _ | k
      · rfl
      · rfl
      · rfl
      · omega
    · intro k p hk hp'
      rw [hL] at hp'
      rcases k with _ | _ | _ | k
      · cases hp'
      · cases hp'
      · cases hp'
      · omega
    · intro k j _ _ hlt
      omega
  · intro j k _ hlt
    omega

/-- `RunInit` returns on a fresh lattice, and the blocks it leaves satisfy the invariant
with all `3 * n` parity blocks in place. -/
theorem RunInit_spec (n : Nat) (m : Int) (sizeList : List ChunkMetadata)
    (hm : m = (n : Int) ∨ (m = 0 ∧ sizeList.length = n)) (hwf : MetaWF n sizeList) :
    ∃ l' replaced, RunInit (NewLattice 3 5 5 m) sizeList = some l' ∧
      LInv n (3 * n) replaced l'.Blocks ∧ l'.didInit = true ∧
      l'.NumDataBlocks = (n : Int) ∧
      ∀ y, y ∈ replaced ↔ ∃ x, 1 ≤ x ∧ x ≤ (n : Int) ∧
        ∃ k : StrandClass, fwd k x > (n : Int) ∧ y = wrapPos k x := by
  have hnum : (if m = 0 then (sizeList.length : Int) else m) = (n : Int) := by
    rcases hm with h | ⟨h, h'⟩
    · by_cases h0 : m = 0
      · rw [if_pos h0]
        obtain ⟨hle, -, -⟩ := hwf
        omega
      · rw [if_neg h0]; exact h
    · rw [if_pos h, h']
  obtain ⟨l2, hc, hview, hent, -⟩ := createInternalNodeShift_spec n
    { NewLattice 3 5 5 m with
        NumDataBlocks := (n : Int), MissingDataBlocks := (n : Int),
        Blocks := (List.range n).map (newDataBlock 3) }
    sizeList rfl rfl rfl (by simp) hwf
  have hS2 : l2.toEntangler.S = 5 := by rw [hent]; rfl
  have hP2 : l2.toEntangler.P = 5 := by rw [hent]; rfl
  have hA2 : l2.toEntangler.Alpha = 3 := by rw [hent]; rfl
  have hN2 : l2.toEntangler.NumDataBlocks = (n : Int) := by rw [hent]
  have hR2 : l2.toEntangler.RightExtremeIndex = [] := by rw [hent]; rfl
  obtain ⟨replaced, hrep, hmem⟩ :=
    GetReplacedParityIndices_spec l2.toEntangler hS2 hP2 hA2 (by have := hN2; omega) hR2
  rw [hN2] at hmem
  have hinit : LInv n (3 * 0) replaced l2.Blocks := by
    apply LInv_init
    rw [hview]
    simp only [List.map_map]
    rfl
  obtain ⟨l4, next4, wrap4, hloop, hinv4, hent4, -⟩ :=
    parityLoop_spec n replaced n 0
      { l2 with toEntangler := setDatablocksToClose l2.toEntangler }
      [0, 0, 0] [0, 0, 0] rfl hS2 hP2 hA2 hN2 hinit rfl rfl
  refine ⟨{ l4 with didInit := true }, replaced, ?_, hinv4, rfl, ?_, hmem⟩
  · unfold RunInit
    have hd : (NewLattice 3 5 5 m).didInit = false := rfl
    have hNm : (NewLattice 3 5 5 m).NumDataBlocks = m := rfl
    have hAm : (NewLattice 3 5 5 m).Alpha = 3 := rfl
    simp only [hd, hNm, hAm, hnum, Bool.false_eq_true, if_false]
    rw [if_neg (by omega)]
    have htn : ((n : Int)).toNat = n := by omega
    simp only [htn]
    erw [hc]
    simp only []
    rw [hrep]
    simp only []
    have hA3 : (setDatablocksToClose l2.toEntangler).Alpha = 3 := hA2
    have hN3 : (setDatablocksToClose l2.toEntangler).NumDataBlocks = (n : Int) := hN2
    simp only [hA3, hN3, htn]
    rw [if_neg (by omega)]
    have h3 : (3 : Int).toNat = 3 := rfl
    rw [h3]
    show (match parityLoop replaced n 0
        ({ l2 with toEntangler := setDatablocksToClose l2.toEntangler }, [0, 0, 0], [0, 0, 0]) with
      | none => none
      | some (l4, _, _) => some { l4 with didInit := true }) = _
    rw [hloop]
  · show l4.toEntangler.NumDataBlocks = _
    rw [hent4]
    exact hN2

/-- Links of a finished lattice: every block that is not a parity is one of the first `n`,
and for each class its left and right parities point back to it. -/
theorem LInv_links (n : Nat) (replaced : List Int) (blocks : List Block)
    (hinv : LInv n (3 * n) replaced blocks) (d : Nat) (db : Block)
    (hd : blocks[d]? = some db) (hp : db.IsParity = false) (k : Nat) (hk : k < 3) :
    d < n ∧ db.Position = (d : Int) + 1 ∧
    ∃ j, j < n ∧ nextPos n (StrandClass.ofIdx k) ((j : Int) + 1) = (d : Int) + 1 ∧
      db.Left[k]? = some (some (n + 3 * j + k)) ∧
      db.Right[k]? = some (some (n + 3 * d + k)) ∧
      blocks[n + 3 * j + k]? = some (parityBlockSpec n replaced j k) ∧
      blocks[n + 3 * d + k]? = some (parityBlockSpec n replaced d k) := by
  obtain ⟨hlen, hdata, hpar⟩ := hinv
  have hdn : d < n := by
    by_contra hge
    have hlt : d < blocks.length := by
      by_contra h
      rw [List.getElem?_eq_none (by omega)] at hd
      cases hd
    have key := hpar ((d - n) / 3) ((d - n) % 3) (Nat.mod_lt _ (by omega)) (by omega)
    have hidx : n + 3 * ((d - n) / 3) + (d - n) % 3 = d := by omega
    rw [hidx, hd] at key
    have := Option.some.inj key
    rw [this] at hp
    cases hp
  obtain ⟨b, hb, -, bpos, -, -, bRk, bLk, bLn⟩ := hdata d hdn
  have hbd : b = db := Option.some.inj (hb.symm.trans hd)
  subst hbd
  obtain ⟨j, hj, hnext⟩ := nextPos_surj n (StrandClass.ofIdx k) ((d : Int) + 1) (by omega) (by omega)
  obtain ⟨p, hpL⟩ := bLn k j hk hj (by omega) hnext
  obtain ⟨j', hj', hp', -, hnext'⟩ := bLk k p hk hpL
  subst hp'
  refine ⟨hdn, bpos, j', hj', hnext', hpL, ?_, hpar j' k hk (by omega), hpar d k hk (by omega)⟩
  rw [bRk k hk, if_pos (by omega)]

theorem ofIdx_idx (k : StrandClass) : StrandClass.ofIdx k.idx = k ∧ k.idx < 3 := by
  cases k <;> exact ⟨rfl, by decide⟩

/-- C4: for (alpha, S, P) = (3, 5, 5) and `n` data blocks (`NumDataBlocks` given as `n`, or
left at zero and taken from a metadata list of length `n`), `RunInit` returns, so the
"Error in lattice construction" branch is not reached; the first `n` blocks are the data
blocks, and for every data block `d` and every class `k` the pointers `d.Left[k]` and
`d.Right[k]` are non-nil, point to parity blocks of class `k`, and satisfy
`d.Left[k].Right[0] == d` and `d.Right[k].Left[0] == d`. -/
theorem lattice_links (n : Nat) (m : Int) (sizeList : List ChunkMetadata)
    (hm : m = (n : Int) ∨ (m = 0 ∧ sizeList.length = n)) (hwf : MetaWF n sizeList) :
    ∃ l', RunInit (NewLattice 3 5 5 m) sizeList = some l' ∧ l'.NumDataBlocks = (n : Int) ∧
      (∀ d, d < n → ∃ db, l'.Blocks[d]? = some db ∧ db.IsParity = false) ∧
      ∀ (d : Nat) (db : Block), l'.Blocks[d]? = some db → db.IsParity = false →
        ∀ k : StrandClass, ∃ lp rp lb rb,
          db.Left[k.idx]? = some (some lp) ∧ db.Right[k.idx]? = some (some rp) ∧
          l'.Blocks[lp]? = some lb ∧ l'.Blocks[rp]? = some rb ∧
          lb.IsParity = true ∧ lb.Class = k ∧ lb.Right[0]? = some (some d) ∧
          rb.IsParity = true ∧ rb.Class = k ∧ rb.Left[0]? = some (some d) := by
  obtain ⟨l', replaced, hrun, hinv, -, hN, -⟩ := RunInit_spec n m sizeList hm hwf
  refine ⟨l', hrun, hN, ?_, ?_⟩
  · intro d hd
    obtain ⟨b, hb, hp, -⟩ := hinv.2.1 d hd
    exact ⟨b, hb, hp⟩
  · intro d db hd hp k
    obtain ⟨hk1, hk2⟩ := ofIdx_idx k
    obtain ⟨-, -, j, -, hnext, hL, hR, hbl, hbr⟩ :=
      LInv_links n replaced l'.Blocks hinv d db hd hp k.idx hk2
    refine ⟨_, _, _, _, hL, hR, hbl, hbr, rfl, hk1, ?_, rfl, hk1, rfl⟩
    show [some (nextPos n (StrandClass.ofIdx k.idx) ((j : Int) + 1) - 1).toNat][0]? = _
    rw [hnext]
    have : ((d : Int) + 1 - 1).toNat = d := by omega
    rw [this]
    rfl

theorem lattice_links_witness :
    MetaWF 1 [{ Size := 1, Length := 1, Parent := 0, Children := [] }] ∧
    ∃ l', RunInit (NewLattice 3 5 5 1) [{ Size := 1, Length := 1, Parent := 0, Children := [] }] =
        some l' ∧ l'.NumDataBlocks = ((1 : Nat) : Int) ∧
      (∀ d, d < 1 → ∃ db, l'.Blocks[d]? = some db ∧ db.IsParity = false) ∧
      ∀ (d : Nat) (db : Block), l'.Blocks[d]? = some db → db.IsParity = false →
        ∀ k : StrandClass, ∃ lp rp lb rb,
          db.Left[k.idx]? = some (some lp) ∧ db.Right[k.idx]? = some (some rp) ∧
          l'.Blocks[lp]? = some lb ∧ l'.Blocks[rp]? = some rb ∧
          lb.IsParity = true ∧ lb.Class = k ∧ lb.Right[0]? = some (some d) ∧
          rb.IsParity = true ∧ rb.Class = k ∧ rb.Left[0]? = some (some d) :=
  have h : MetaWF 1 [{ Size := 1, Length := 1, Parent := 0, Children := [] }] := by
    refine ⟨by decide, ?_, Or.inl rfl⟩
    intro s hs
    rw [List.mem_singleton] at hs
    subst hs
    exact ⟨Or.inl rfl, fun ch hch => by cases hch⟩
  ⟨h, lattice_links 1 1 _ (Or.inl rfl) h⟩

/-! ### Payloads of the closed lattice along a strand -/

theorem fwd_first_ge (k : StrandClass) (i : Int) (h1 : 1 ≤ i) : 6 ≤ fwd k i := by
  by_contra h
  have hg := fwd_gt k i h1
  have := bwd_nonpos k (fwd k i) (by omega) (by omega)
  rw [bwd_fwd k i h1] at this
  omega

theorem replaced_iff (n : Nat) (hn : 5 ≤ n) (y : Int) :
    (∃ x, 1 ≤ x ∧ x ≤ (n : Int) ∧ ∃ k : StrandClass, fwd k x > (n : Int) ∧ y = wrapPos k x) ↔
      1 ≤ y ∧ y ≤ 5 := by
  constructor
  · rintro ⟨x, h1, -, k, -, rfl⟩
    obtain ⟨-, -, -, hw1, hw5, -⟩ := wrapPos_spec k x h1
    exact ⟨hw1, hw5⟩
  · rintro ⟨h1, h5⟩
    obtain ⟨x, hx1, hx2, hx3, hx4⟩ :=
      extreme_exists .Horizontal n (n - y).toNat y h1 (by omega) (by omega)
    refine ⟨x, by omega, hx2, .Horizontal, hx3, ?_⟩
    obtain ⟨-, -, -, hw1, hw5, hws⟩ := wrapPos_spec .Horizontal x (by omega)
    exact (slot_first_inj _ _ _ hw1 hw5 h1 h5 (hws.trans hx4)).symm

/-! ### The final parities for chunks of any length -/

theorem pmSpec_length_ge (c : Nat) (d : List (List Nat)) :
    ∀ (i : Nat) (s : Int), c ≤ (pmSpec c d i s).length
  | 0, _ => by simp [pmSpec]
  | i + 1, s => by
    have ih := pmSpec_length_ge c d i s
    simp only [pmSpec]
    split
    · rw [XORByteSlice_length_max]; omega
    · exact ih

theorem pmSpec_length_le (c : Nat) (d : List (List Nat)) (hc : ∀ x ∈ d, x.length ≤ c) :
    ∀ (i : Nat) (s : Int), (pmSpec c d i s).length = c
  | 0, _ => by simp [pmSpec]
  | i + 1, s => by
    have ih := pmSpec_length_le c d hc i s
    have hd : (d.getD i []).length ≤ c := by
      by_cases hi : i < d.length
      · rw [List.getD_eq_getElem _ _ hi]
        exact hc _ (List.getElem_mem _)
      · rw [List.getD_eq_getElem?_getD, List.getElem?_eq_none (by omega)]
        simp
    simp only [pmSpec]
    split
    · rw [XORByteSlice_length_max]; omega
    · exact ih

theorem finalBlock_length_ge (c : Nat) (d : List (List Nat)) (n : Nat) (k : StrandClass)
    (i : Nat) : c ≤ (finalBlock c d n k i).Data.length := by
  simp only [finalBlock, mkBlock]
  split
  · rw [XORByteSlice_length_max]
    have := pmSpec_length_ge c d n (slot k i)
    omega
  · exact pmSpec_length_ge c d i _

theorem finalBlock_length_le (c : Nat) (d : List (List Nat)) (hc : ∀ x ∈ d, x.length ≤ c)
    (n : Nat) (k : StrandClass) (i : Nat) : (finalBlock c d n k i).Data.length = c := by
  have hd : (d.getD (i - 1) []).length ≤ c := by
    by_cases hi : i - 1 < d.length
    · rw [List.getD_eq_getElem _ _ hi]
      exact hc _ (List.getElem_mem _)
    · rw [List.getD_eq_getElem?_getD, List.getElem?_eq_none (by omega)]
      simp
  simp only [finalBlock, mkBlock]
  split
  · rw [XORByteSlice_length_max, pmSpec_length_le c d hc]
    omega
  · exact pmSpec_length_le c d hc _ _

/-- Along a strand the final parity of a left index is the chunk at that index XOR-ed with
the final parity of the left index before it; after a left index in `1..5` it is the chunk
XOR-ed with the first parity of the strand, the chunk of that index XOR-ed with the zero
block of the entangler. -/
theorem payload_struct (c : Nat) (d : List (List Nat)) (hn : 25 ≤ d.length)
    (k : StrandClass) (j q : Nat) (hj : j < d.length)
    (hq : nextPos d.length k ((j : Int) + 1) = (q : Int) + 1) :
    q < d.length ∧
    (5 < j + 1 → (finalBlock c d d.length k (q + 1)).Data =
        XORByteSlice (d.getD q []) (finalBlock c d d.length k (j + 1)).Data) ∧
    (j + 1 ≤ 5 → (finalBlock c d d.length k (q + 1)).Data =
        XORByteSlice (d.getD q [])
          (XORByteSlice (d.getD j []) (List.replicate c 0))) := by
  have hr := nextPos_range d.length k ((j : Int) + 1) (by omega) (by omega)
  have hqn : q < d.length := by omega
  have hg := fwd_gt k ((j : Int) + 1) (by omega)
  have hcast : (((j + 1 : Nat) : Int)) = (j : Int) + 1 := by push_cast; rfl
  have hcastq : (((q + 1 : Nat) : Int)) = (q : Int) + 1 := by push_cast; rfl
  refine ⟨hqn, ?_, ?_⟩
  · intro h5
    by_cases hf : fwd k ((j : Int) + 1) ≤ (d.length : Int)
    · have hfq : fwd k ((j : Int) + 1) = (q : Int) + 1 := by
        rw [← hq]; unfold nextPos; rw [if_pos hf]
      have hq5 : ¬ q + 1 ≤ 5 := by omega
      simp only [finalBlock, mkBlock, if_neg (not_le.2 h5), if_neg hq5, hcast, hcastq]
      rw [pmSpec_self c d k q, pmSpec_fwd c d j q k hfq, ← pmSpec_self c d k j]
    · have hfq : wrapPos k ((j : Int) + 1) = (q : Int) + 1 := by
        rw [← hq]; unfold nextPos; rw [if_neg hf]
      obtain ⟨-, -, -, hw1, hw5, hws⟩ := wrapPos_spec k ((j : Int) + 1) (by omega)
      have hq5 : q + 1 ≤ 5 := by omega
      simp only [finalBlock, mkBlock, if_neg (not_le.2 h5), if_pos hq5, hcast, hcastq,
        Nat.add_sub_cancel]
      have hext := pmSpec_extreme c d k (j + 1) d.length (by omega) (by omega)
        (by rw [hcast]; omega)
      rw [hcast] at hext
      rw [← hext, ← hfq, hws]
  · intro h5
    have h6 := fwd_first_ge k ((j : Int) + 1) (by omega)
    have hf : fwd k ((j : Int) + 1) ≤ (d.length : Int) := by omega
    have hfq : fwd k ((j : Int) + 1) = (q : Int) + 1 := by
      rw [← hq]; unfold nextPos; rw [if_pos hf]
    have hq5 : ¬ q + 1 ≤ 5 := by omega
    simp only [finalBlock, mkBlock, if_neg hq5, hcastq]
    rw [pmSpec_self c d k q, pmSpec_fwd c d j q k hfq, pmSpec_first c d k j h5]

/-- The closed lattice for chunks of any length: existence of the two parities around every
position, and the XOR of any such pair. -/
theorem closed_lattice_pad (c : Nat) (d : List (List Nat)) (hn : 25 ≤ d.length) :
    ∃ eb, closedRun c d = some eb ∧
      ∀ (j : Nat) (hj : j < d.length) (k : StrandClass),
        (∃ rp ∈ eb, rp.Class = k ∧ rp.LeftIndex = (j : Int) + 1) ∧
        (∃ lp ∈ eb, lp.Class = k ∧ lp.RightIndex = (j : Int) + 1 ∧ 0 < lp.LeftIndex) ∧
        ∀ rp ∈ eb, ∀ lp ∈ eb, rp.Class = k → rp.LeftIndex = (j : Int) + 1 →
          lp.Class = k → lp.RightIndex = (j : Int) + 1 → 0 < lp.LeftIndex →
          c ≤ rp.Data.length ∧ d[j].length ≤ rp.Data.length ∧
          ((∀ x ∈ d, x.length ≤ c) → rp.Data.length = c) ∧
          (lp.Replace = false → XORByteSlice lp.Data rp.Data =
            d[j] ++ List.replicate (rp.Data.length - d[j].length) 0) ∧
          (lp.Replace = true →
            XORByteSlice (d.getD (lp.LeftIndex - 1).toNat []) rp.Data =
              d[j] ++ List.replicate (rp.Data.length - d[j].length) 0) := by
  obtain ⟨e, hinv, hrun⟩ := closedRun_eq c d hn
  refine ⟨closedBlocks c d e, hrun, ?_⟩
  intro j hj k
  have hdj : d.getD j [] = d[j] := List.getD_eq_getElem _ _ hj
  refine ⟨?_, ?_, ?_⟩
  · exact ⟨finalBlock c d d.length k (j + 1),
      finalBlock_mem c d e hinv hn k (j + 1) (by omega) (by omega), rfl, by
        simp [finalBlock, mkBlock]⟩
  · by_cases h6 : 6 ≤ j + 1
    · obtain ⟨hb1, hb2, hb3⟩ := fwd_bwd k ((j : Int) + 1) (by omega)
      obtain ⟨i, hi⟩ : ∃ i : Nat, bwd k ((j : Int) + 1) = (i : Int) :=
        ⟨(bwd k ((j : Int) + 1)).toNat, by omega⟩
      rw [hi] at hb3
      refine ⟨finalBlock c d d.length k i,
        finalBlock_mem c d e hinv hn k i (by omega) (by omega), rfl, ?_, ?_⟩
      · simp only [finalBlock, mkBlock]
        rw [if_pos (by omega), hb3]
      · simp only [finalBlock, mkBlock]; omega
    · obtain ⟨x, hx1, hx2, hx3, hx4⟩ :=
        extreme_exists k (d.length : Int) (d.length - (j + 1)) ((j : Int) + 1) (by omega)
          (by omega) (by omega)
      obtain ⟨i, rfl⟩ : ∃ i : Nat, x = (i : Int) := ⟨x.toNat, by omega⟩
      obtain ⟨-, -, -, hw1, hw5, hws⟩ := wrapPos_spec k (i : Int) (by omega)
      have hwi : wrapPos k (i : Int) = (j : Int) + 1 :=
        slot_first_inj k _ _ hw1 hw5 (by omega) (by omega) (by rw [hws, hx4])
      refine ⟨finalBlock c d d.length k i,
        finalBlock_mem c d e hinv hn k i (by omega) (by omega), rfl, ?_, ?_⟩
      · simp only [finalBlock, mkBlock]
        rw [if_neg (by omega), hwi]
      · simp only [finalBlock, mkBlock]; omega
  · intro rp hrp lp hlp hrc hrl hlc hlr hlpos
    obtain ⟨t, ht1, ht2, ht3, hrpe⟩ := closedBlocks_char c d e hinv hn rp hrp (by omega)
    obtain ⟨i, hi1, hi2, hi3, hlpe⟩ := closedBlocks_char c d e hinv hn lp hlp hlpos
    rw [hrc] at hrpe
    rw [hlc] at hlpe
    have htj : t = j + 1 := by omega
    subst htj
    obtain ⟨i', rfl⟩ : ∃ i', i = i' + 1 := ⟨i - 1, by omega⟩
    have hcast' : ((i' + 1 : Nat) : Int) = (i' : Int) + 1 := by push_cast; rfl
    have hnext : nextPos d.length k ((i' : Int) + 1) = (j : Int) + 1 := by
      rw [← hlr, hlpe]
      simp only [finalBlock, mkBlock, nextPos, hcast']
    obtain ⟨-, hA, hB⟩ := payload_struct c d hn k i' j (by omega) hnext
    have hli : (lp.LeftIndex - 1).toNat = i' := by omega
    have hrep : lp.Replace = decide (i' + 1 ≤ 5) := by rw [hlpe]; rfl
    rw [hli, hrpe, hdj] at *
    refine ⟨finalBlock_length_ge c d _ k _, ?_, fun hle => finalBlock_length_le c d hle _ k _,
      ?_, ?_⟩
    · by_cases h5 : i' + 1 ≤ 5
      · rw [hB h5, XORByteSlice_length_max]; omega
      · rw [hA (by omega), XORByteSlice_length_max]; omega
    · intro hr
      rw [hrep, decide_eq_false_iff_not] at hr
      rw [hlpe]
      have h := hA (by omega)
      rw [hdj] at h
      rw [h]
      exact xor_back _ _
    · intro hr
      rw [hrep, decide_eq_true_iff] at hr
      have h := hB hr
      rw [hdj] at h
      rw [h]
      exact xor_back_first _ _ c

/-- C2 as stated fails for chunks shorter than the chunk size of the entangler. With the
4096-byte entangler of the program and the 25 one-byte chunks `[1], ..., [25]`, position 11
and the horizontal class: the two parities exist, and for every such pair the XOR the claim
names is the chunk `[11]` followed by 4095 zero bytes, not the chunk. -/
theorem closed_lattice_counterexample :
    ∃ eb, closedRun ChunkSize sampleChunks = some eb ∧
      sampleChunks[10]? = some [11] ∧
      (∃ rp ∈ eb, rp.Class = .Horizontal ∧ rp.LeftIndex = 11) ∧
      (∃ lp ∈ eb, lp.Class = .Horizontal ∧ lp.RightIndex = 11 ∧ 0 < lp.LeftIndex) ∧
      ∀ rp ∈ eb, ∀ lp ∈ eb, rp.Class = .Horizontal → rp.LeftIndex = 11 →
        lp.Class = .Horizontal → lp.RightIndex = 11 → 0 < lp.LeftIndex →
        (lp.Replace = false →
          XORByteSlice lp.Data rp.Data = [11] ++ List.replicate 4095 0 ∧
          XORByteSlice lp.Data rp.Data ≠ [11]) ∧
        (lp.Replace = true →
          XORByteSlice (sampleChunks.getD (lp.LeftIndex - 1).toNat []) rp.Data =
            [11] ++ List.replicate 4095 0 ∧
          XORByteSlice (sampleChunks.getD (lp.LeftIndex - 1).toNat []) rp.Data ≠ [11]) := by
  obtain ⟨eb, hrun, h⟩ := closed_lattice_pad ChunkSize sampleChunks (by decide)
  obtain ⟨h1, h2, h3⟩ := h 10 (by decide) .Horizontal
  refine ⟨eb, hrun, by decide, h1, h2, ?_⟩
  intro rp hrp lp hlp a1 a2 a3 a4 a5
  obtain ⟨-, -, hlen, hA, hB⟩ := h3 rp hrp lp hlp a1 a2 a3 a4 a5
  have hl : rp.Data.length = 4096 := hlen (by decide)
  have hd : sampleChunks[10] = [11] := by decide
  rw [hl, hd] at hA hB
  have hne : ∀ x : List Nat, x = [11] ++ List.replicate 4095 0 → x ≠ [11] := by
    intro x hx hc
    rw [hc] at hx
    have := congrArg List.length hx
    simp only [List.length_append, List.length_replicate, List.length_cons,
      List.length_nil] at this
    omega
  exact ⟨fun hr => ⟨hA hr, hne _ (hA hr)⟩, fun hr => ⟨hB hr, hne _ (hB hr)⟩⟩

/-- C2 as the code has it (closed-lattice entanglement). For `(alpha, S, P) = (3, 5, 5)`, an
entangler of chunk size `c`, chunks `d` of any lengths and `n = len(d) >= 25`: entangling
all chunks, wrapping the lattice and collecting the blocks as `TestClosedEntanglement` does
returns a list in which, for every position `j + 1` and class `k`, there is a block `rp` of
class `k` with left index `j + 1` and a block `lp` of class `k` with right index `j + 1` and
positive left index; and for any such pair, `lp.Data xor rp.Data` when `lp` is not marked
`Replace`, and `d[lp.LeftIndex - 1] xor rp.Data` when it is, is the chunk `d[j]` followed by
zero bytes up to the length of `rp.Data`. That length is at least `c` and at least the
length of the chunk, and it is `c` when no chunk is longer than `c`; so the XOR is the
chunk itself when the chunk has `c` bytes and no chunk has more. -/
theorem closed_lattice_xor (c : Nat) (d : List (List Nat)) (hn : 25 ≤ d.length) :
    ∃ eb, closedRun c d = some eb ∧
      ∀ (j : Nat) (hj : j < d.length) (k : StrandClass),
        (∃ rp ∈ eb, rp.Class = k ∧ rp.LeftIndex = (j : Int) + 1) ∧
        (∃ lp ∈ eb, lp.Class = k ∧ lp.RightIndex = (j : Int) + 1 ∧ 0 < lp.LeftIndex) ∧
        ∀ rp ∈ eb, ∀ lp ∈ eb, rp.Class = k → rp.LeftIndex = (j : Int) + 1 →
          lp.Class = k → lp.RightIndex = (j : Int) + 1 → 0 < lp.LeftIndex →
          c ≤ rp.Data.length ∧ d[j].length ≤ rp.Data.length ∧
          ((∀ x ∈ d, x.length ≤ c) → rp.Data.length = c) ∧
          (lp.Replace = false → XORByteSlice lp.Data rp.Data =
            d[j] ++ List.replicate (rp.Data.length - d[j].length) 0) ∧
          (lp.Replace = true →
            XORByteSlice (d.getD (lp.LeftIndex - 1).toNat []) rp.Data =
              d[j] ++ List.replicate (rp.Data.length - d[j].length) 0) :=
  closed_lattice_pad c d hn

/-- Witness for C2: the 25 one-byte chunks `[1], ..., [25]` and the 4096-byte entangler. -/
theorem closed_lattice_xor_witness :
    25 ≤ sampleChunks.length ∧
    ∃ eb, closedRun ChunkSize sampleChunks = some eb ∧
      ∀ (j : Nat) (hj : j < sampleChunks.length) (k : StrandClass),
        (∃ rp ∈ eb, rp.Class = k ∧ rp.LeftIndex = (j : Int) + 1) ∧
        (∃ lp ∈ eb, lp.Class = k ∧ lp.RightIndex = (j : Int) + 1 ∧ 0 < lp.LeftIndex) ∧
        ∀ rp ∈ eb, ∀ lp ∈ eb, rp.Class = k → rp.LeftIndex = (j : Int) + 1 →
          lp.Class = k → lp.RightIndex = (j : Int) + 1 → 0 < lp.LeftIndex →
          ChunkSize ≤ rp.Data.length ∧ sampleChunks[j].length ≤ rp.Data.length ∧
          ((∀ x ∈ sampleChunks, x.length ≤ ChunkSize) → rp.Data.length = ChunkSize) ∧
          (lp.Replace = false → XORByteSlice lp.Data rp.Data =
            sampleChunks[j] ++ List.replicate (rp.Data.length - sampleChunks[j].length) 0) ∧
          (lp.Replace = true →
            XORByteSlice (sampleChunks.getD (lp.LeftIndex - 1).toNat []) rp.Data =
              sampleChunks[j] ++
                List.replicate (rp.Data.length - sampleChunks[j].length) 0) :=
  ⟨by decide, closed_lattice_xor ChunkSize sampleChunks (by decide)⟩

theorem payloadOf_eq (c : Nat) (d : List (List Nat)) (e : Entangler)
    (hinv : EntInv c d d.length e) (hn : 25 ≤ d.length) (k : StrandClass) (i : Nat)
    (hi : 1 ≤ i) (hin : i ≤ d.length) :
    payloadOf (closedBlocks c d e) k (i : Int) = (finalBlock c d d.length k i).Data := by
  have hmem := finalBlock_mem c d e hinv hn k i hi hin
  have hin' : finalBlock c d d.length k i ∈
      (closedBlocks c d e).filter (fun b => decide (b.Class = k ∧ b.LeftIndex = (i : Int))) := by
    rw [List.mem_filter]
    exact ⟨hmem, by simp [finalBlock, mkBlock]⟩
  unfold payloadOf
  cases hl : ((closedBlocks c d e).filter
      (fun b => decide (b.Class = k ∧ b.LeftIndex = (i : Int)))).getLast? with
  | none =>
    rw [List.getLast?_eq_none_iff] at hl
    rw [hl] at hin'
    cases hin'
  | some b =>
    have hb := List.mem_of_getLast?_eq_some hl
    rw [List.mem_filter] at hb
    obtain ⟨hb1, hb2⟩ := hb
    have hb3 : b.Class = k ∧ b.LeftIndex = (i : Int) := by simpa using hb2
    obtain ⟨i', -, -, hi', hfin⟩ := closedBlocks_char c d e hinv hn b hb1 (by omega)
    have : i' = i := by omega
    subst this
    show b.Data = _
    rw [hfin, hb3.1]

/-! ### Repair pairs of the loaded lattice -/

theorem loaded_get (d : List (List Nat)) (eb : List EntangledBlock) (l : Lattice) (x : Nat) :
    (loadLattice d eb l).Blocks[x]? = (l.Blocks[x]?).map (loadBlock d eb) :=
  List.getElem?_map _ _ _

/-- The loop over the classes of a data block returns when every class has its two parities,
and every pair it returns has the property `Q` that the pairs of each class have. -/
theorem dataPairs_spec (l : Lattice) (b : Block) (Q : RepairPair → Prop) :
    ∀ (cnt i : Nat),
      (∀ k, i ≤ k → k < i + cnt → ∃ lp rp lp1 rb,
        b.Left[k]? = some lp ∧ b.Right[k]? = some rp ∧ skipReplaced l lp = some lp1 ∧
        deref l rp = some rb ∧ Q { Left := lp1, Right := rp } ∧
        (rb.Replace = true → ∃ rr rrb rrr, rb.Right[0]? = some rr ∧ deref l rr = some rrb ∧
          rrb.Right[k]? = some rrr ∧ Q { Left := rr, Right := rrr })) →
      ∃ main extra, dataPairs l b cnt i = some (main, extra) ∧ main.length = cnt ∧
        (∀ p ∈ main, Q p) ∧ (∀ p ∈ extra, Q p) := by
  intro cnt
  induction cnt with
  | zero => intro i _; exact ⟨[], [], rfl, rfl, by simp, by simp⟩
  | succ cnt ih =>
    intro i h
    obtain ⟨main, extra, hrest, hlen, hm, he⟩ :=
      ih (i + 1) (fun k h1 h2 => h k (by omega) (by omega))
    obtain ⟨lp, rp, lp1, rb, hL, hR, hskip, hrb, hQ, hrep⟩ := h i (le_refl _) (by omega)
    rw [dataPairs]
    simp only [hL, hR, hskip, hrb, hrest]
    by_cases hr : rb.Replace = true
    · obtain ⟨rr, rrb, rrr, h1, h2, h3, hQ2⟩ := hrep hr
      rw [if_pos hr]
      simp only [h1, h2, h3]
      refine ⟨_, _, rfl, by simp [hlen], ?_, ?_⟩
      · intro p hp
        rcases List.mem_cons.1 hp with rfl | hp
        · exact hQ
        · exact hm p hp
      · intro p hp
        rcases List.mem_cons.1 hp with rfl | hp
        · exact hQ2
        · exact he p hp
    · rw [if_neg hr]
      refine ⟨_, _, rfl, by simp [hlen], ?_, he⟩
      intro p hp
      rcases List.mem_cons.1 hp with rfl | hp
      · exact hQ
      · exact hm p hp

theorem loaded_parity (d : List (List Nat)) (eb : List EntangledBlock) (l : Lattice)
    (n : Nat) (replaced : List Int) (hinv : LInv n (3 * n) replaced l.Blocks)
    (j k : Nat) (hj : j < n) (hk : k < 3) :
    (loadLattice d eb l).Blocks[n + 3 * j + k]? =
      some (loadBlock d eb (parityBlockSpec n replaced j k)) := by
  rw [loaded_get, hinv.2.2 j k hk (by omega)]
  rfl

theorem loaded_parity_data (c : Nat) (d : List (List Nat)) (e : Entangler)
    (hE : EntInv c d d.length e) (hn : 25 ≤ d.length) (replaced : List Int)
    (j k : Nat) (hj : j < d.length) :
    (loadBlock d (closedBlocks c d e) (parityBlockSpec d.length replaced j k)).Data =
      (finalBlock c d d.length (StrandClass.ofIdx k) (j + 1)).Data := by
  have := payloadOf_eq c d e hE hn (StrandClass.ofIdx k) (j + 1) (by omega) (by omega)
  rw [← this]
  show payloadOf _ _ ((j : Int) + 1) = _
  congr 1

theorem loaded_data (d : List (List Nat)) (eb : List EntangledBlock) (l : Lattice)
    (n : Nat) (replaced : List Int) (hinv : LInv n (3 * n) replaced l.Blocks)
    (idx : Nat) (hidx : idx < n) :
    ∃ db, (loadLattice d eb l).Blocks[idx]? = some db ∧ db.IsParity = false ∧
      db.Data = d.getD idx [] ∧ db.Left.length = 3 ∧
      ∀ k, k < 3 → ∃ j, j < n ∧ nextPos n (StrandClass.ofIdx k) ((j : Int) + 1) = (idx : Int) + 1 ∧
        db.Left[k]? = some (some (n + 3 * j + k)) ∧
        db.Right[k]? = some (some (n + 3 * idx + k)) := by
  obtain ⟨b, hb, hp, hpos, hL, -⟩ := hinv.2.1 idx hidx
  refine ⟨loadBlock d eb b, by rw [loaded_get, hb]; rfl, hp, ?_, hL, ?_⟩
  · show (if b.IsParity = true then _ else d.getD (b.Position - 1).toNat []) = _
    rw [hp, hpos]
    have : ((idx : Int) + 1 - 1).toNat = idx := by omega
    rw [this]
    rfl
  · intro k hk
    obtain ⟨-, -, j, hj, hnext, hLk, hRk, -⟩ := LInv_links n replaced l.Blocks hinv idx b hb hp k hk
    exact ⟨j, hj, hnext, hLk, hRk⟩

/-- The left member of a pair: the parity itself, or its left data block when the parity
is one of the recomputed ones. -/
theorem skip_parity (c : Nat) (d : List (List Nat)) (e : Entangler)
    (hE : EntInv c d d.length e) (hn : 25 ≤ d.length) (l : Lattice) (replaced : List Int)
    (hinv : LInv d.length (3 * d.length) replaced l.Blocks)
    (hrep : ∀ y, y ∈ replaced ↔ 1 ≤ y ∧ y ≤ 5) (j k : Nat) (hj : j < d.length) (hk : k < 3) :
    ∃ lp1 lb, skipReplaced (loadLattice d (closedBlocks c d e) l)
        (some (d.length + 3 * j + k)) = some lp1 ∧
      deref (loadLattice d (closedBlocks c d e) l) lp1 = some lb ∧
      (j + 1 ≤ 5 → lb.Data = d.getD j []) ∧
      (5 < j + 1 → lb.Data = (finalBlock c d d.length (StrandClass.ofIdx k) (j + 1)).Data) := by
  have hpb := loaded_parity d (closedBlocks c d e) l d.length replaced hinv j k hj hk
  have hdata := loaded_parity_data c d e hE hn replaced j k hj
  by_cases h5 : j + 1 ≤ 5
  · obtain ⟨db, hdb, -, hdd, -⟩ := loaded_data d (closedBlocks c d e) l d.length replaced hinv j hj
    refine ⟨some j, db, ?_, hdb, fun _ => hdd, fun h => by omega⟩
    unfold skipReplaced deref
    simp only [hpb]
    have hr : (loadBlock d (closedBlocks c d e) (parityBlockSpec d.length replaced j k)).Replace
        = true := by
      show decide ((j : Int) + 1 ∈ replaced) = true
      rw [decide_eq_true_iff, hrep]
      omega
    rw [if_pos hr]
    rfl
  · refine ⟨some (d.length + 3 * j + k), _, ?_, hpb, fun h => absurd h h5, fun _ => hdata⟩
    unfold skipReplaced deref
    simp only [hpb]
    have hr : ¬ (loadBlock d (closedBlocks c d e) (parityBlockSpec d.length replaced j k)).Replace
        = true := by
      show ¬ decide ((j : Int) + 1 ∈ replaced) = true
      rw [decide_eq_true_iff, hrep]
      omega
    rw [if_neg hr]

/-- Repair pairs of a data block of the loaded lattice, for chunks of any length: the XOR
of a pair is the chunk followed by zeros up to the length of the right block of the pair,
a parity. -/
theorem GetRepairPairs_data_pad (c : Nat) (d : List (List Nat))
    (e : Entangler) (hE : EntInv c d d.length e) (hn : 25 ≤ d.length) (l : Lattice)
    (replaced : List Int) (hinv : LInv d.length (3 * d.length) replaced l.Blocks)
    (hrep : ∀ y, y ∈ replaced ↔ 1 ≤ y ∧ y ≤ 5) (idx : Nat) (hidx : idx < d.length) :
    ∃ pairs, GetRepairPairs (loadLattice d (closedBlocks c d e) l) idx = some pairs ∧
      3 ≤ pairs.length ∧
      ∀ pr ∈ pairs, ∃ lb rb,
        deref (loadLattice d (closedBlocks c d e) l) pr.Left = some lb ∧
        deref (loadLattice d (closedBlocks c d e) l) pr.Right = some rb ∧
        XORByteSlice lb.Data rb.Data =
          d.getD idx [] ++ List.replicate (rb.Data.length - (d.getD idx []).length) 0 ∧
        c ≤ rb.Data.length ∧ (d.getD idx []).length ≤ rb.Data.length ∧
        ((∀ x ∈ d, x.length ≤ c) → rb.Data.length = c) := by
  obtain ⟨db, hdb, hp, -, hL3, hlinks⟩ :=
    loaded_data d (closedBlocks c d e) l d.length replaced hinv idx hidx
  obtain ⟨main, extra, hrun, hlen, hm, he⟩ :=
    dataPairs_spec (loadLattice d (closedBlocks c d e) l) db
      (fun pr => ∃ lb rb,
        deref (loadLattice d (closedBlocks c d e) l) pr.Left = some lb ∧
        deref (loadLattice d (closedBlocks c d e) l) pr.Right = some rb ∧
        XORByteSlice lb.Data rb.Data =
          d.getD idx [] ++ List.replicate (rb.Data.length - (d.getD idx []).length) 0 ∧
        c ≤ rb.Data.length ∧ (d.getD idx []).length ≤ rb.Data.length ∧
        ((∀ x ∈ d, x.length ≤ c) → rb.Data.length = c)) 3 0
      (by
        intro k _ hk
        have hk3 : k < 3 := by omega
        obtain ⟨j, hj, hnext, hLk, hRk⟩ := hlinks k hk3
        obtain ⟨lp1, lb, hskip, hlb, hd5, hd6⟩ :=
          skip_parity c d e hE hn l replaced hinv hrep j k hj hk3
        have hrb := loaded_parity d (closedBlocks c d e) l d.length replaced hinv idx k hidx hk3
        have hrd := loaded_parity_data c d e hE hn replaced idx k hidx
        obtain ⟨-, hA, hB⟩ := payload_struct c d hn (StrandClass.ofIdx k) j idx hj hnext
        refine ⟨_, _, lp1, _, hLk, hRk, hskip, hrb, ⟨lb, _, hlb, hrb, ?_, ?_, ?_, ?_⟩, ?_⟩
        · rw [hrd]
          by_cases h5 : j + 1 ≤ 5
          · rw [hd5 h5, hB h5]; exact xor_back_first _ _ c
          · rw [hd6 (by omega), hA (by omega)]; exact xor_back _ _
        · rw [hrd]; exact finalBlock_length_ge c d _ _ _
        · rw [hrd]
          by_cases h5 : j + 1 ≤ 5
          · rw [hB h5, XORByteSlice_length_max]; omega
          · rw [hA (by omega), XORByteSlice_length_max]; omega
        · intro hle
          rw [hrd]; exact finalBlock_length_le c d hle _ _ _
        · intro hr
          have hr' : decide ((idx : Int) + 1 ∈ replaced) = true := hr
          rw [decide_eq_true_iff, hrep] at hr'
          have hnr := nextPos_range d.length (StrandClass.ofIdx k) ((idx : Int) + 1)
            (by omega) (by omega)
          obtain ⟨q, hq⟩ : ∃ q : Nat,
              nextPos d.length (StrandClass.ofIdx k) ((idx : Int) + 1) = (q : Int) + 1 :=
            ⟨(nextPos d.length (StrandClass.ofIdx k) ((idx : Int) + 1) - 1).toNat, by omega⟩
          obtain ⟨hqn, -, hB'⟩ := payload_struct c d hn (StrandClass.ofIdx k) idx q hidx hq
          obtain ⟨qb, hqb, -, hqd, -, hqlinks⟩ :=
            loaded_data d (closedBlocks c d e) l d.length replaced hinv q hqn
          obtain ⟨-, -, -, -, hqR⟩ := hqlinks k hk3
          have hqp := loaded_parity d (closedBlocks c d e) l d.length replaced hinv q k hqn hk3
          have hqpd := loaded_parity_data c d e hE hn replaced q k hqn
          refine ⟨some q, qb, some (d.length + 3 * q + k), ?_, hqb, hqR,
            ⟨qb, _, hqb, hqp, ?_, ?_, ?_, ?_⟩⟩
          · show [some (nextPos d.length (StrandClass.ofIdx k) ((idx : Int) + 1) - 1).toNat][0]? = _
            rw [hq]
            have : ((q : Int) + 1 - 1).toNat = q := by omega
            rw [this]
            rfl
          · rw [hqd, hqpd, hB' (by omega)]
            exact xor_back_second _ _ c
          · rw [hqpd]; exact finalBlock_length_ge c d _ _ _
          · rw [hqpd, hB' (by omega)]
            simp only [XORByteSlice_length_max]
            omega
          · intro hle
            rw [hqpd]; exact finalBlock_length_le c d hle _ _ _)
  refine ⟨main ++ extra, ?_, by simp [hlen], ?_⟩
  · unfold GetRepairPairs
    simp only [hdb, hp, hL3, hrun, Bool.false_eq_true, if_false]
  · intro pr hpr
    rcases List.mem_append.1 hpr with h | h
    · exact hm pr h
    · exact he pr h

/-- Repair pairs of a parity block of the loaded lattice, for chunks of any length: the XOR
of a pair agrees with the parity up to trailing zeros. -/
theorem GetRepairPairs_parity_pad (c : Nat) (d : List (List Nat))
    (e : Entangler) (hE : EntInv c d d.length e) (hn : 25 ≤ d.length) (l : Lattice)
    (replaced : List Int) (hinv : LInv d.length (3 * d.length) replaced l.Blocks)
    (hrep : ∀ y, y ∈ replaced ↔ 1 ≤ y ∧ y ≤ 5) (j k : Nat) (hj : j < d.length) (hk : k < 3) :
    ∃ pairs, GetRepairPairs (loadLattice d (closedBlocks c d e) l) (d.length + 3 * j + k) =
        some pairs ∧ 1 ≤ pairs.length ∧
      ∀ pr ∈ pairs, ∃ lb rb,
        deref (loadLattice d (closedBlocks c d e) l) pr.Left = some lb ∧
        deref (loadLattice d (closedBlocks c d e) l) pr.Right = some rb ∧
        (∀ i, (XORByteSlice lb.Data rb.Data).getD i 0 =
          (finalBlock c d d.length (StrandClass.ofIdx k) (j + 1)).Data.getD i 0) ∧
        ((∀ x ∈ d, x.length = c) → lb.Data.length = c ∧ rb.Data.length = c) := by
  have hpb := loaded_parity d (closedBlocks c d e) l d.length replaced hinv j k hj hk
  obtain ⟨db, hdb, -, hdd, -, hlinks⟩ :=
    loaded_data d (closedBlocks c d e) l d.length replaced hinv j hj
  obtain ⟨j', hj', hnext', hLk, -⟩ := hlinks k hk
  obtain ⟨lp1, lb, hskip, hlb, hd5, hd6⟩ :=
    skip_parity c d e hE hn l replaced hinv hrep j' k hj' hk
  obtain ⟨-, hA, hB⟩ := payload_struct c d hn (StrandClass.ofIdx k) j' j hj' hnext'
  have hidx : (StrandClass.ofIdx k).idx = k := by
    rcases ofIdx_cases k hk with ⟨rfl, h⟩ | ⟨rfl, h⟩ | ⟨rfl, h⟩ <;> rw [h] <;> rfl
  -- first pair: the left neighbour on the strand and the left data block
  have hpair1 : ∀ i, (XORByteSlice lb.Data db.Data).getD i 0 =
      (finalBlock c d d.length (StrandClass.ofIdx k) (j + 1)).Data.getD i 0 := by
    intro i
    rw [hdd]
    by_cases h5 : j' + 1 ≤ 5
    · rw [hd5 h5, hB h5, XORByteSlice_getD, XORByteSlice_getD, XORByteSlice_getD,
        replicate_zero_getD, Nat.xor_zero, Nat.xor_comm]
    · rw [hd6 (by omega), hA (by omega), XORByteSlice_getD, XORByteSlice_getD, Nat.xor_comm]
  have hlenD : (∀ x ∈ d, x.length = c) → ∀ t, t < d.length → (d.getD t []).length = c := by
    intro hc t ht
    rw [List.getD_eq_getElem _ _ ht]
    exact hc _ (List.getElem_mem _)
  have hlenF : (∀ x ∈ d, x.length = c) → ∀ t,
      (finalBlock c d d.length (StrandClass.ofIdx k) t).Data.length = c :=
    fun hc t => finalBlock_length_le c d (fun x hx => le_of_eq (hc x hx)) _ _ _
  have hlen1 : (∀ x ∈ d, x.length = c) → lb.Data.length = c ∧ db.Data.length = c := by
    intro hc
    refine ⟨?_, by rw [hdd]; exact hlenD hc j hj⟩
    by_cases h5 : j' + 1 ≤ 5
    · rw [hd5 h5]; exact hlenD hc j' hj'
    · rw [hd6 (by omega)]; exact hlenF hc _
  have hL0 : (loadBlock d (closedBlocks c d e) (parityBlockSpec d.length replaced j k)).Left[0]?
      = some (some j) := rfl
  have hcls : (loadBlock d (closedBlocks c d e) (parityBlockSpec d.length replaced j k)).Class.idx
      = k := hidx
  have hpar : (loadBlock d (closedBlocks c d e) (parityBlockSpec d.length replaced j k)).IsParity
      = true := rfl
  have hderef : deref (loadLattice d (closedBlocks c d e) l) (some j) = some db := hdb
  by_cases h5 : j + 1 ≤ 5
  · have hr : (loadBlock d (closedBlocks c d e) (parityBlockSpec d.length replaced j k)).Replace
        = true := by
      show decide ((j : Int) + 1 ∈ replaced) = true
      rw [decide_eq_true_iff, hrep]
      omega
    refine ⟨[{ Left := lp1, Right := some j }], ?_, by simp, ?_⟩
    · unfold GetRepairPairs
      simp only [hpb, hpar, if_true, hL0, hderef, hcls, hLk, hskip, hr, Bool.true_eq_false,
        if_false]
    · intro pr hpr
      rw [List.mem_singleton] at hpr
      subst hpr
      exact ⟨lb, db, hlb, hdb, hpair1, hlen1⟩
  · have hr : (loadBlock d (closedBlocks c d e) (parityBlockSpec d.length replaced j k)).Replace
        = false := by
      show decide ((j : Int) + 1 ∈ replaced) = false
      rw [decide_eq_false_iff_not, hrep]
      omega
    have hnr := nextPos_range d.length (StrandClass.ofIdx k) ((j : Int) + 1) (by omega) (by omega)
    obtain ⟨q, hq⟩ : ∃ q : Nat,
        nextPos d.length (StrandClass.ofIdx k) ((j : Int) + 1) = (q : Int) + 1 :=
      ⟨(nextPos d.length (StrandClass.ofIdx k) ((j : Int) + 1) - 1).toNat, by omega⟩
    obtain ⟨hqn, hA', -⟩ := payload_struct c d hn (StrandClass.ofIdx k) j q hj hq
    obtain ⟨qb, hqb, -, hqd, -, hqlinks⟩ :=
      loaded_data d (closedBlocks c d e) l d.length replaced hinv q hqn
    obtain ⟨-, -, -, -, hqR⟩ := hqlinks k hk
    have hqp := loaded_parity d (closedBlocks c d e) l d.length replaced hinv q k hqn hk
    have hqpd := loaded_parity_data c d e hE hn replaced q k hqn
    have hR0 : (loadBlock d (closedBlocks c d e) (parityBlockSpec d.length replaced j k)).Right[0]?
        = some (some q) := by
      show [some (nextPos d.length (StrandClass.ofIdx k) ((j : Int) + 1) - 1).toNat][0]? = _
      rw [hq]
      have : ((q : Int) + 1 - 1).toNat = q := by omega
      rw [this]
      rfl
    have hderefq : deref (loadLattice d (closedBlocks c d e) l) (some q) = some qb := hqb
    refine ⟨[{ Left := lp1, Right := some j },
        { Left := some q, Right := some (d.length + 3 * q + k) }], ?_, by simp, ?_⟩
    · unfold GetRepairPairs
      simp only [hpb, hpar, if_true, hL0, hderef, hcls, hLk, hskip, hr, hR0, hderefq, hqR]
    · intro pr hpr
      rcases List.mem_cons.1 hpr with rfl | hpr
      · exact ⟨lb, db, hlb, hdb, hpair1, hlen1⟩
      · rw [List.mem_singleton] at hpr
        subst hpr
        refine ⟨qb, _, hqb, hqp, ?_, ?_⟩
        · intro i
          rw [hqd, hqpd, hA' (by omega), XORByteSlice_getD, XORByteSlice_getD,
            ← Nat.xor_assoc, Nat.xor_self, Nat.zero_xor]
        · intro hc
          exact ⟨by rw [hqd]; exact hlenD hc q hqn, by rw [hqpd]; exact hlenF hc _⟩

/-- The repair pairs of the loaded lattice for chunks of any length. -/
theorem repair_pairs_pad (c : Nat) (d : List (List Nat))
    (hn : 25 ≤ d.length) (m : Int) (sizeList : List ChunkMetadata)
    (hm : m = (d.length : Int) ∨ (m = 0 ∧ sizeList.length = d.length))
    (hwf : MetaWF d.length sizeList) :
    ∃ l' eb, RunInit (NewLattice 3 5 5 m) sizeList = some l' ∧ closedRun c d = some eb ∧
      l'.Blocks.length = d.length + 3 * d.length ∧
      (∀ idx, idx < d.length → ∃ b, (loadLattice d eb l').Blocks[idx]? = some b ∧
        b.IsParity = false ∧ b.Data = d.getD idx []) ∧
      ∀ (bi : Nat) (b : Block), (loadLattice d eb l').Blocks[bi]? = some b →
        ∃ pairs, GetRepairPairs (loadLattice d eb l') bi = some pairs ∧ pairs ≠ [] ∧
          ∀ pr ∈ pairs, ∃ lb rb,
            deref (loadLattice d eb l') pr.Left = some lb ∧
            deref (loadLattice d eb l') pr.Right = some rb ∧
            (PadByteSlices (XORByteSlice lb.Data rb.Data) b.Data true).1 =
              (PadByteSlices (XORByteSlice lb.Data rb.Data) b.Data true).2 ∧
            (b.IsParity = false →
              XORByteSlice lb.Data rb.Data =
                b.Data ++ List.replicate (rb.Data.length - b.Data.length) 0 ∧
              c ≤ rb.Data.length ∧ ((∀ x ∈ d, x.length ≤ c) → rb.Data.length = c)) ∧
            ((∀ x ∈ d, x.length = c) → XORByteSlice lb.Data rb.Data = b.Data) := by
  obtain ⟨l', replaced, hrun, hinv, -, -, hmem⟩ := RunInit_spec d.length m sizeList hm hwf
  obtain ⟨e, hE, hclosed⟩ := closedRun_eq c d hn
  have hrep : ∀ y, y ∈ replaced ↔ 1 ≤ y ∧ y ≤ 5 := fun y =>
    (hmem y).trans (replaced_iff d.length (by omega) y)
  refine ⟨l', closedBlocks c d e, hrun, hclosed, hinv.1, ?_, ?_⟩
  · intro idx hidx
    obtain ⟨db, hdb, hp, hdd, -⟩ :=
      loaded_data d (closedBlocks c d e) l' d.length replaced hinv idx hidx
    exact ⟨db, hdb, hp, hdd⟩
  intro bi b hb
  have hlt : bi < d.length + 3 * d.length := by
    by_contra h
    have hlen : (loadLattice d (closedBlocks c d e) l').Blocks.length =
        d.length + 3 * d.length := by
      show (l'.Blocks.map _).length = _
      rw [List.length_map, hinv.1]
    rw [List.getElem?_eq_none (by omega)] at hb
    cases hb
  by_cases hdat : bi < d.length
  · obtain ⟨pairs, hp, hl, hx⟩ :=
      GetRepairPairs_data_pad c d e hE hn l' replaced hinv hrep bi hdat
    obtain ⟨db, hdb, hpar, hdd, -⟩ :=
      loaded_data d (closedBlocks c d e) l' d.length replaced hinv bi hdat
    have hbd : b = db := Option.some.inj (hb.symm.trans hdb)
    refine ⟨pairs, hp, ?_, ?_⟩
    · intro h0; rw [h0] at hl; simp at hl
    · intro pr hpr
      obtain ⟨lb, rb, h1, h2, h3, h4, h5, h6⟩ := hx pr hpr
      rw [hbd, hdd]
      refine ⟨lb, rb, h1, h2, ?_, fun _ => ⟨h3, h4, h6⟩, ?_⟩
      · rw [PadByteSlices_eq_iff]
        intro i
        rw [h3, getD_pad]
      · intro hc
        have hle : ∀ x ∈ d, x.length ≤ c := fun x hx => le_of_eq (hc x hx)
        have hdl : (d.getD bi []).length = c := by
          rw [List.getD_eq_getElem _ _ hdat]
          exact hc _ (List.getElem_mem _)
        rw [h3, h6 hle, hdl, Nat.sub_self]
        simp
  · have hidx : d.length + 3 * ((bi - d.length) / 3) + (bi - d.length) % 3 = bi := by omega
    have hk : (bi - d.length) % 3 < 3 := Nat.mod_lt _ (by omega)
    have hj : (bi - d.length) / 3 < d.length := by omega
    obtain ⟨pairs, hp, hl, hx⟩ :=
      GetRepairPairs_parity_pad c d e hE hn l' replaced hinv hrep _ _ hj hk
    have hpb := loaded_parity d (closedBlocks c d e) l' d.length replaced hinv _ _ hj hk
    have hpd := loaded_parity_data c d e hE hn replaced ((bi - d.length) / 3)
      ((bi - d.length) % 3) hj
    rw [hidx] at hp hpb
    have hbd := Option.some.inj (hb.symm.trans hpb)
    have hbp : b.IsParity = true := by rw [hbd]; rfl
    refine ⟨pairs, hp, ?_, ?_⟩
    · intro h0; rw [h0] at hl; simp at hl
    · intro pr hpr
      obtain ⟨lb, rb, h1, h2, h3, h4⟩ := hx pr hpr
      have hnp : b.IsParity = false → XORByteSlice lb.Data rb.Data =
          b.Data ++ List.replicate (rb.Data.length - b.Data.length) 0 ∧
          c ≤ rb.Data.length ∧ ((∀ x ∈ d, x.length ≤ c) → rb.Data.length = c) := by
        intro h
        rw [hbp] at h
        cases h
      refine ⟨lb, rb, h1, h2, ?_, hnp, ?_⟩
      · rw [PadByteSlices_eq_iff, hbd, hpd]
        exact h3
      · intro hc
        obtain ⟨hl1, hl2⟩ := h4 hc
        rw [hbd, hpd]
        refine eq_of_getD ?_ h3
        rw [XORByteSlice_length_max, hl1, hl2,
          finalBlock_length_le c d (fun x hx => le_of_eq (hc x hx))]
        exact Nat.max_self c

/-- C3 as stated fails for a chunk shorter than the chunk size of the entangler. In the
lattice of 25 data blocks loaded with the one-byte chunks `[1], ..., [25]` and the final
parities of the 4096-byte entangler of the program, the data block at position 11 holds
`[11]`, and the XOR of each of its repair pairs is `[11]` followed by 4095 zero bytes. -/
theorem repair_pairs_counterexample :
    ∃ l' eb, RunInit (NewLattice 3 5 5 25) [] = some l' ∧
      closedRun ChunkSize sampleChunks = some eb ∧
      ∃ b pairs, (loadLattice sampleChunks eb l').Blocks[10]? = some b ∧
        b.IsParity = false ∧ b.Data = [11] ∧
        GetRepairPairs (loadLattice sampleChunks eb l') 10 = some pairs ∧ pairs ≠ [] ∧
        ∀ pr ∈ pairs, ∃ lb rb,
          deref (loadLattice sampleChunks eb l') pr.Left = some lb ∧
          deref (loadLattice sampleChunks eb l') pr.Right = some rb ∧
          XORByteSlice lb.Data rb.Data = [11] ++ List.replicate 4095 0 ∧
          XORByteSlice lb.Data rb.Data ≠ b.Data := by
  have hwf : MetaWF sampleChunks.length [] := by
    refine ⟨by decide, ?_, Or.inr ?_⟩
    · intro s hs; cases hs
    · intro s hs; cases hs
  obtain ⟨l', eb, hrun, hclosed, -, hdata, hpairs⟩ :=
    repair_pairs_pad ChunkSize sampleChunks (by decide) 25 [] (Or.inl (by decide)) hwf
  obtain ⟨b, hb, hpar, hbd⟩ := hdata 10 (by decide)
  have hd : sampleChunks.getD 10 [] = [11] := by decide
  rw [hd] at hbd
  obtain ⟨pairs, hp, hne, hx⟩ := hpairs 10 b hb
  refine ⟨l', eb, hrun, hclosed, b, pairs, hb, hpar, hbd, hp, hne, ?_⟩
  intro pr hpr
  obtain ⟨lb, rb, h1, h2, -, h3, -⟩ := hx pr hpr
  obtain ⟨h4, -, h5⟩ := h3 hpar
  have hl : rb.Data.length = 4096 := h5 (by decide)
  rw [hl, hbd] at h4
  refine ⟨lb, rb, h1, h2, h4, ?_⟩
  rw [h4, hbd]
  intro hc
  have := congrArg List.length hc
  simp only [List.length_append, List.length_replicate, List.length_cons,
    List.length_nil] at this
  omega

/-- C3 as the code has it: every repair pair XORs to its block up to trailing zeros. For
(alpha, S, P) = (3, 5, 5), an entangler of chunk size `c`, chunks `d` of any lengths and
`n = len(d) >= 25` data blocks, the closed-lattice run returns the collected parities `eb`
and `RunInit` returns the lattice; with data block `i` loaded with `d[i - 1]` and the parity
at position `i` of class `k` loaded with the payload that `eb` holds for left index `i` of
class `k`, `GetRepairPairs` returns for every block `b`, data or parity, a non-empty list of
pairs, and for each pair the XOR of the data of its left and right block agrees with the
payload of `b` up to trailing zeros: `PadByteSlices` with zeros makes the two equal. For a
data block the XOR is the payload followed by zeros up to the length of the right block of
the pair, a parity of at least `c` bytes, of `c` bytes when no chunk is longer than `c`. When
every chunk has `c` bytes the XOR is the payload of `b`. -/
theorem repair_pairs_xor (c : Nat) (d : List (List Nat))
    (hn : 25 ≤ d.length) (m : Int) (sizeList : List ChunkMetadata)
    (hm : m = (d.length : Int) ∨ (m = 0 ∧ sizeList.length = d.length))
    (hwf : MetaWF d.length sizeList) :
    ∃ l' eb, RunInit (NewLattice 3 5 5 m) sizeList = some l' ∧ closedRun c d = some eb ∧
      l'.Blocks.length = d.length + 3 * d.length ∧
      (∀ idx, idx < d.length → ∃ b, (loadLattice d eb l').Blocks[idx]? = some b ∧
        b.IsParity = false ∧ b.Data = d.getD idx []) ∧
      ∀ (bi : Nat) (b : Block), (loadLattice d eb l').Blocks[bi]? = some b →
        ∃ pairs, GetRepairPairs (loadLattice d eb l') bi = some pairs ∧ pairs ≠ [] ∧
          ∀ pr ∈ pairs, ∃ lb rb,
            deref (loadLattice d eb l') pr.Left = some lb ∧
            deref (loadLattice d eb l') pr.Right = some rb ∧
            (PadByteSlices (XORByteSlice lb.Data rb.Data) b.Data true).1 =
              (PadByteSlices (XORByteSlice lb.Data rb.Data) b.Data true).2 ∧
            (b.IsParity = false →
              XORByteSlice lb.Data rb.Data =
                b.Data ++ List.replicate (rb.Data.length - b.Data.length) 0 ∧
              c ≤ rb.Data.length ∧ ((∀ x ∈ d, x.length ≤ c) → rb.Data.length = c)) ∧
            ((∀ x ∈ d, x.length = c) → XORByteSlice lb.Data rb.Data = b.Data) :=
  repair_pairs_pad c d hn m sizeList hm hwf

/-- Witness for C3: the 25 one-byte chunks `[1], ..., [25]`, the 4096-byte entangler and the
lattice of 25 data blocks. -/
theorem repair_pairs_xor_witness :
    25 ≤ sampleChunks.length ∧
    MetaWF sampleChunks.length [{ Size := 25, Length := 25, Parent := 0, Children := [] }] ∧
    ∃ l' eb, RunInit (NewLattice 3 5 5 25)
          [{ Size := 25, Length := 25, Parent := 0, Children := [] }] = some l' ∧
      closedRun ChunkSize sampleChunks = some eb ∧
      l'.Blocks.length = sampleChunks.length + 3 * sampleChunks.length ∧
      (∀ idx, idx < sampleChunks.length →
        ∃ b, (loadLattice sampleChunks eb l').Blocks[idx]? = some b ∧
          b.IsParity = false ∧ b.Data = sampleChunks.getD idx []) ∧
      ∀ (bi : Nat) (b : Block), (loadLattice sampleChunks eb l').Blocks[bi]? = some b →
        ∃ pairs, GetRepairPairs (loadLattice sampleChunks eb l') bi = some pairs ∧ pairs ≠ [] ∧
          ∀ pr ∈ pairs, ∃ lb rb,
            deref (loadLattice sampleChunks eb l') pr.Left = some lb ∧
            deref (loadLattice sampleChunks eb l') pr.Right = some rb ∧
            (PadByteSlices (XORByteSlice lb.Data rb.Data) b.Data true).1 =
              (PadByteSlices (XORByteSlice lb.Data rb.Data) b.Data true).2 ∧
            (b.IsParity = false →
              XORByteSlice lb.Data rb.Data =
                b.Data ++ List.replicate (rb.Data.length - b.Data.length) 0 ∧
              ChunkSize ≤ rb.Data.length ∧
              ((∀ x ∈ sampleChunks, x.length ≤ ChunkSize) → rb.Data.length = ChunkSize)) ∧
            ((∀ x ∈ sampleChunks, x.length = ChunkSize) →
              XORByteSlice lb.Data rb.Data = b.Data) :=
  have h : MetaWF sampleChunks.length
      [{ Size := 25, Length := 25, Parent := 0, Children := [] }] := by
    refine ⟨by decide, ?_, Or.inr ?_⟩
    · intro s hs
      rw [List.mem_singleton] at hs
      subst hs
      exact ⟨Or.inl rfl, fun ch hch => by cases hch⟩
    · intro s hs
      rw [List.mem_singleton] at hs
      subst hs
      intro hh
      exact hh.2 rfl
  ⟨by decide, h,
    repair_pairs_xor ChunkSize sampleChunks (by decide) 25 _ (Or.inl (by decide)) h⟩

/-! ### XOR with padding -/

theorem xor_inverse_counterexample : XORByteSlice (XORByteSlice [] [1]) [1] ≠ [] := by decide

/-- C20 as the code has it: XOR-ing twice with `b` returns `a` padded with zeros to the
length of the longer slice, which is `a` itself exactly when `b` is not longer than `a`. -/
theorem xor_inverse_padded (a b : List Nat) :
    XORByteSlice (XORByteSlice a b) b = a ++ List.replicate (b.length - a.length) 0 ∧
    (XORByteSlice (XORByteSlice a b) b = a ↔ b.length ≤ a.length) := by
  have key : XORByteSlice (XORByteSlice a b) b = a ++ List.replicate (b.length - a.length) 0 := by
    have hx := XORByteSlice_length_max a b
    by_cases h : a.length ≤ b.length
    · have h0 : a.length - b.length = 0 := by omega
      have hxe : XORByteSlice a b = List.zipWith (fun x y => x ^^^ y)
          (a ++ List.replicate (b.length - a.length) 0) b := by
        rw [XORByteSlice_pad, h0]; simp
      rw [XORByteSlice_eq (by rw [hx]; omega), hxe]
      exact zipXor_cancel_right _ _ (by simp; omega)
    · have h0 : b.length - a.length = 0 := by omega
      have hxe : XORByteSlice a b = List.zipWith (fun x y => x ^^^ y) a
          (b ++ List.replicate (a.length - b.length) 0) := by
        rw [XORByteSlice_pad, h0]; simp
      have h1 : b.length - (XORByteSlice a b).length = 0 := by rw [hx]; omega
      have h2 : (XORByteSlice a b).length - b.length = a.length - b.length := by rw [hx]; omega
      rw [XORByteSlice_pad (XORByteSlice a b) b, h1, h2, h0, hxe]
      simp only [List.replicate_zero, List.append_nil]
      exact zipXor_cancel_right _ _ (by simp; omega)
  refine ⟨key, ?_⟩
  rw [key]
  constructor
  · intro h
    have := congrArg List.length h
    simp at this
    omega
  · intro h
    have : b.length - a.length = 0 := by omega
    rw [this]; simp

/-- C19: for every download status `ds` and repair status `rs`, `Set(ds, rs) = 4*rs + ds`,
a value below 16; different pairs give different words; and `HasData` of the word is true
exactly when `ds` is `DownloadSuccess` or `rs` is `RepairSuccess`. -/
theorem status_word_encoding :
    (∀ (ds : DownloadStatus) (rs : RepairStatus),
      Set ds rs = 4 * rs.toNat + ds.toNat ∧ Set ds rs < 16 ∧
      (BlockStatus.HasData (Set ds rs) = true ↔
        ds = .DownloadSuccess ∨ rs = .RepairSuccess)) ∧
    (∀ (ds ds' : DownloadStatus) (rs rs' : RepairStatus),
      Set ds rs = Set ds' rs' → ds = ds' ∧ rs = rs') ∧
    (∀ w : Nat, w < 16 → ∃ ds rs, Set ds rs = w) := by
  refine ⟨?_, ?_, ?_⟩
  · intro ds rs
    cases ds <;> cases rs <;> decide
  · intro ds ds' rs rs'
    cases ds <;> cases ds' <;> cases rs <;> cases rs' <;> decide
  · intro w hw
    have h4 : ∀ x : Nat, x < 4 → ∃ ds : DownloadStatus, ds.toNat = x ∧
        ∃ rs : RepairStatus, rs.toNat = x := by
      intro x hx
      rcases x with _ | _ | _ | _ | x
      · exact ⟨.NoDownload, rfl, .NoRepair, rfl⟩
      · exact ⟨.DownloadPending, rfl, .RepairPending, rfl⟩
      · exact ⟨.DownloadSuccess, rfl, .RepairSuccess, rfl⟩
      · exact ⟨.DownloadFailed, rfl, .RepairFailed, rfl⟩
      · omega
    obtain ⟨ds, hds, -⟩ := h4 (w % 4) (Nat.mod_lt _ (by omega))
    obtain ⟨-, -, rs, hrs⟩ := h4 (w / 4) (by omega)
    refine ⟨ds, rs, ?_⟩
    have : Set ds rs = 4 * rs.toNat + ds.toNat := by
      cases ds <;> cases rs <;> decide
    rw [this]
    show (4 * rs.toNat + ds.toNat : Nat) = w
    omega

/-! ### `SetData` and `Repair` -/

theorem SetData_hasData (b : Block) (h : b.HasData = true) (data : Option (List Nat))
    (start endT : Int) (ds : DownloadStatus) (rs : RepairStatus) :
    b.SetData data start endT ds rs = some (b, false) := by
  unfold Block.SetData
  rw [if_pos h]

theorem RepairSuccess_noData (b : Block) (h : b.HasData = false) (x : List Nat) (now : Int)
    (hL : b.Length = 0 ∨ (0 ≤ b.Length ∧ 8 ≤ x.length ∧ b.Length.toNat ≤ x.length)) :
    b.RepairSuccess (some x) now =
      some ({ b with
                Data := if b.Length = 0 then x
                        else ((List.range 8).map (fun i => (b.Size / 256 ^ i) % 256)
                                ++ x.drop 8).take b.Length.toNat,
                RepairStatus := .RepairSuccess,
                RepairTime := { StartTime := b.RepairTime.StartTime,
                                EndTime := if now ≠ 0 then now else b.RepairTime.EndTime } },
            true) := by
  unfold Block.RepairSuccess Block.SetData
  rw [if_neg (by rw [h]; decide)]
  by_cases h0 : b.Length = 0
  · simp [h0]
  · rcases hL with hL | ⟨h1, h2, h3⟩
    · exact absurd hL h0
    · have hp : putUint64 x b.Size =
          some ((List.range 8).map (fun i => (b.Size / 256 ^ i) % 256) ++ x.drop 8) := by
        unfold putUint64
        rw [if_neg (by omega)]
      have hlen : ((List.range 8).map (fun i => (b.Size / 256 ^ i) % 256) ++ x.drop 8).length
          = x.length := by
        simp only [List.length_append, List.length_map, List.length_range, List.length_drop]
        omega
      simp only [h0, hp, hlen, h1, h3, ne_eq, not_false_eq_true, if_true, and_self,
        not_true_eq_false, if_false, reduceCtorEq]

theorem repair_success_counterexample :
    Block.Repair { zeroBlock with Length := 10 }
      (some { zeroBlock with Data := List.replicate 9 0 })
      (some { zeroBlock with Data := List.replicate 9 0 }) 1 = none := by decide

/-- C15 with the bound it needs: if `v` and `w` both have data, `b` has none, and
`0 <= b.Length <= len(XORByteSlice(v.Data, w.Data))`, then `b.Repair(v, w)` returns nil and
leaves `b.RepairStatus = RepairSuccess` and `b.Data` equal to the XOR when `b.Length = 0`,
and otherwise to the XOR with bytes 0..8 overwritten by the little-endian `b.Size`, cut to
`b.Length` bytes. -/
theorem repair_success (b vb wb : Block) (now : Int) (hv : vb.HasData = true)
    (hw : wb.HasData = true) (hb : b.HasData = false)
    (hL : 0 ≤ b.Length ∧ b.Length ≤ ((XORByteSlice vb.Data wb.Data).length : Int)) :
    ∃ b', b.Repair (some vb) (some wb) now = some (b', none) ∧
      b'.RepairStatus = .RepairSuccess ∧
      (b.Length = 0 → b'.Data = XORByteSlice vb.Data wb.Data) ∧
      (b.Length ≠ 0 → b'.Data =
        ((List.range 8).map (fun i => (b.Size / 256 ^ i) % 256)
          ++ (XORByteSlice vb.Data wb.Data).drop 8).take b.Length.toNat) := by
  have hx := XORByteSlice_length_max vb.Data wb.Data
  have hv8 : 8 < vb.Data.length := by simpa [Block.HasData] using hv
  have hrs := RepairSuccess_noData b hb (XORByteSlice vb.Data wb.Data) now
    (Or.inr ⟨hL.1, by rw [hx]; omega, by omega⟩)
  obtain ⟨r, hr, hst, hdata⟩ : ∃ r, b.RepairSuccess (some (XORByteSlice vb.Data wb.Data)) now =
        some (r, true) ∧ r.RepairStatus = .RepairSuccess ∧
      r.Data = (if b.Length = 0 then XORByteSlice vb.Data wb.Data
        else ((List.range 8).map (fun i => (b.Size / 256 ^ i) % 256)
          ++ (XORByteSlice vb.Data wb.Data).drop 8).take b.Length.toNat) :=
    ⟨_, hrs, rfl, rfl⟩
  refine ⟨r, ?_, hst, ?_, ?_⟩
  · unfold Block.Repair
    simp only [ptrHasData, hv, hw, Bool.not_true, Bool.or_self, Bool.false_eq_true, if_false, hr]
    rfl
  · intro h0; rw [hdata, if_pos h0]
  · intro h0; rw [hdata, if_neg h0]

theorem repair_success_witness :
    ∃ b', Block.Repair zeroBlock (some { zeroBlock with Data := List.replicate 9 1 })
        (some { zeroBlock with Data := List.replicate 9 2 }) 1 = some (b', none) ∧
      b'.RepairStatus = .RepairSuccess ∧
      (zeroBlock.Length = 0 → b'.Data = XORByteSlice
        ({ zeroBlock with Data := List.replicate 9 1 } : Block).Data
        ({ zeroBlock with Data := List.replicate 9 2 } : Block).Data) ∧
      (zeroBlock.Length ≠ 0 → b'.Data =
        ((List.range 8).map (fun i => (zeroBlock.Size / 256 ^ i) % 256)
          ++ (XORByteSlice ({ zeroBlock with Data := List.replicate 9 1 } : Block).Data
                ({ zeroBlock with Data := List.replicate 9 2 } : Block).Data).drop 8).take
          zeroBlock.Length.toNat) :=
  repair_success zeroBlock { zeroBlock with Data := List.replicate 9 1 }
    { zeroBlock with Data := List.replicate 9 2 } 1 (by decide) (by decide) (by decide)
    (by decide)

theorem repair_failure_counterexample :
    Block.Repair { zeroBlock with Data := List.replicate 9 7 }
      (some { zeroBlock with Data := List.replicate 9 1 })
      (some { zeroBlock with Data := List.replicate 9 2 }) 1 =
      some ({ zeroBlock with Data := List.replicate 9 7 }, some "Block already have data") := by
  decide

/-- C16 as the code has it: `b.Repair(v, w)` returns the error "Missing data" whenever `v`
or `w` lacks data (a nil pointer included) and leaves `b` unchanged; when `v` and `w` have
data but `b` already has data it leaves `b` unchanged and returns the error
"Block already have data", not nil. -/
theorem repair_failure (b : Block) (v w : Option Block) (now : Int) :
    ((ptrHasData v = false ∨ ptrHasData w = false) →
      b.Repair v w now = some (b, some "Missing data")) ∧
    (ptrHasData v = true → ptrHasData w = true → b.HasData = true →
      b.Repair v w now = some (b, some "Block already have data")) := by
  constructor
  · intro h
    unfold Block.Repair
    rw [if_pos]
    rcases h with h | h <;> simp [h]
  · intro hv hw hb
    unfold Block.Repair
    rw [if_neg (by simp [hv, hw])]
    match v, w, hv, hw with
    | some vb, some wb, _, _ =>
      simp only [Block.RepairSuccess, SetData_hasData b hb, if_true]
    | none, _, hv, _ => simp [ptrHasData] at hv
    | some _, none, _, hw => simp [ptrHasData] at hw

theorem repair_failure_witness :
    Block.Repair { zeroBlock with Data := List.replicate 9 7 } none (some zeroBlock) 1 =
      some ({ zeroBlock with Data := List.replicate 9 7 }, some "Missing data") ∧
    Block.Repair { zeroBlock with Data := List.replicate 9 7 }
      (some { zeroBlock with Data := List.replicate 9 1 })
      (some { zeroBlock with Data := List.replicate 9 2 }) 1 =
      some ({ zeroBlock with Data := List.replicate 9 7 }, some "Block already have data") :=
  ⟨(repair_failure { zeroBlock with Data := List.replicate 9 7 } none (some zeroBlock) 1).1
      (Or.inl rfl),
   (repair_failure { zeroBlock with Data := List.replicate 9 7 }
      (some { zeroBlock with Data := List.replicate 9 1 })
      (some { zeroBlock with Data := List.replicate 9 2 }) 1).2 (by decide) (by decide)
      (by decide)⟩

/-- C17: first writer wins. For a block that has data, `SetData` with any arguments, and so
each of `DownloadPending`, `DownloadFailed`, `DownloadSuccess`, `RepairPending`,
`RepairFailed` and `RepairSuccess`, returns false and leaves the block as it was: its data,
both statuses and both time periods included. -/
theorem first_writer_wins (b : Block) (h : b.HasData = true) (data : Option (List Nat))
    (start endT now : Int) (ds : DownloadStatus) (rs : RepairStatus) :
    b.SetData data start endT ds rs = some (b, false) ∧
    b.DownloadPending now = some (b, false) ∧
    b.DownloadFailed now = some (b, false) ∧
    b.DownloadSuccess data now = some (b, false) ∧
    b.RepairPending now = some (b, false) ∧
    b.RepairFailed now = some (b, false) ∧
    b.RepairSuccess data now = some (b, false) := by
  refine ⟨SetData_hasData b h _ _ _ _ _, SetData_hasData b h _ _ _ _ _,
    SetData_hasData b h _ _ _ _ _, SetData_hasData b h _ _ _ _ _, ?_,
    SetData_hasData b h _ _ _ _ _, SetData_hasData b h _ _ _ _ _⟩
  unfold Block.RepairPending
  split
  · rfl
  · exact SetData_hasData b h _ _ _ _ _

theorem first_writer_wins_witness :
    ({ zeroBlock with Data := List.replicate 9 7 } : Block).HasData = true ∧
    Block.SetData { zeroBlock with Data := List.replicate 9 7 } (some [1, 2, 3]) 5 6
      .DownloadSuccess .RepairSuccess =
      some ({ zeroBlock with Data := List.replicate 9 7 }, false) :=
  ⟨by decide,
   (first_writer_wins { zeroBlock with Data := List.replicate 9 7 } (by decide)
      (some [1, 2, 3]) 5 6 1 .DownloadSuccess .RepairSuccess).1⟩

/-- C18 at a failing input: on a freshly created block, `DownloadSuccess` with a chunk of
eight bytes (a span and no payload) returns true and sets `DownloadStatus` to
`DownloadSuccess`, yet `HasData()` is false afterwards, since it looks at `len(b.Data)`
only. -/
theorem has_data_status_diverges :
    ∃ b, Block.DownloadSuccess zeroBlock (some [0, 0, 0, 0, 0, 0, 0, 0]) 1 = some (b, true) ∧
      b.DownloadStatus = .DownloadSuccess ∧ b.HasData = false :=
  ⟨_, rfl, rfl, rfl⟩

/-! ### The right-extreme set as a list -/

theorem extList_pairwise (n : Int) : ∀ l : Nat, (extList n l).Pairwise (fun a b => a > b)
  | 0 => by simp [extList]
  | l + 1 => by
    unfold extList
    split
    · rw [List.pairwise_cons]
      refine ⟨?_, extList_pairwise n l⟩
      intro x hx
      have := ((mem_extList n x l).1 hx).2.1
      push_cast
      omega
    · exact extList_pairwise n l

theorem RightExtremeIndex_eq (e : Entangler) (hS : e.S = 5) (hP : e.P = 5) (hA : e.Alpha = 3)
    (hn : 0 ≤ e.NumDataBlocks) :
    (setDatablocksToClose e).RightExtremeIndex =
      List.insertionSort (fun a b => a ≤ b) (extList e.NumDataBlocks e.NumDataBlocks.toNat) := by
  have hmax : max e.S e.P * e.Alpha = 15 := by rw [hS, hP, hA]; rfl
  have hl : ((e.NumDataBlocks.toNat : Nat) : Int) ≤ e.NumDataBlocks := by omega
  have h1 := extTotalK_le e.NumDataBlocks _ hl .Right
  have h2 := extTotalK_le e.NumDataBlocks _ hl .Horizontal
  have h3 := extTotalK_le e.NumDataBlocks _ hl .Left
  unfold setDatablocksToClose
  simp only [hmax]
  rw [closeLoop_eq e hS hP _ 0 [] (le_refl 0) (by omega), List.nil_append]

theorem RightExtremeIndex_sorted (e : Entangler) (hS : e.S = 5) (hP : e.P = 5)
    (hA : e.Alpha = 3) (hn : 0 ≤ e.NumDataBlocks) :
    (setDatablocksToClose e).RightExtremeIndex.Pairwise (fun a b => a < b) := by
  rw [RightExtremeIndex_eq e hS hP hA hn]
  have hs : List.Sorted (fun a b : Int => a ≤ b)
      (List.insertionSort (fun a b => a ≤ b) (extList e.NumDataBlocks e.NumDataBlocks.toNat)) :=
    List.sorted_insertionSort _ _
  have hnd : (List.insertionSort (fun a b : Int => a ≤ b)
      (extList e.NumDataBlocks e.NumDataBlocks.toNat)).Nodup := by
    rw [(List.perm_insertionSort _ _).nodup_iff]
    exact (extList_pairwise _ _).imp (fun h => by omega)
  have hboth := List.Pairwise.and hs hnd
  exact hboth.imp (fun h => by omega)

/-- C11: for (alpha, S, P) = (3, 5, 5) and `n` data blocks, `setDatablocksToClose` sets
`RightExtremeIndex` to the ascending list of exactly those `i` in `1..n` for which at least
one component of `GetForwardNeighbours(i, S, P)` is greater than `n`; for `n = 13` this is
`[6, 8, 9, 10, 11, 12, 13]`. -/
theorem right_extreme_set (e : Entangler) (hS : e.S = 5) (hP : e.P = 5) (hA : e.Alpha = 3)
    (n : Nat) (hn : e.NumDataBlocks = (n : Int)) :
    (setDatablocksToClose e).RightExtremeIndex =
      ((List.range n).map (fun (i : Nat) => (i : Int) + 1)).filter (fun i =>
        decide ((GetForwardNeighbours i 5 5).1 > (n : Int) ∨
          (GetForwardNeighbours i 5 5).2.1 > (n : Int) ∨
          (GetForwardNeighbours i 5 5).2.2 > (n : Int))) ∧
    (n = 13 → (setDatablocksToClose e).RightExtremeIndex = [6, 8, 9, 10, 11, 12, 13]) := by
  have h0 : 0 ≤ e.NumDataBlocks := by omega
  have hsorted := RightExtremeIndex_sorted e hS hP hA h0
  have hmem := mem_RightExtremeIndex e hS hP hA h0
  have htarget : ((List.range n).map (fun (i : Nat) => (i : Int) + 1)).Pairwise (fun a b => a < b) := by
    rw [List.pairwise_map]
    exact (List.pairwise_lt_range n).imp (fun h => by omega)
  have key : (setDatablocksToClose e).RightExtremeIndex =
      ((List.range n).map (fun (i : Nat) => (i : Int) + 1)).filter (fun i =>
        decide ((GetForwardNeighbours i 5 5).1 > (n : Int) ∨
          (GetForwardNeighbours i 5 5).2.1 > (n : Int) ∨
          (GetForwardNeighbours i 5 5).2.2 > (n : Int))) := by
    have ht := htarget.filter (fun i =>
        decide ((GetForwardNeighbours i 5 5).1 > (n : Int) ∨
          (GetForwardNeighbours i 5 5).2.1 > (n : Int) ∨
          (GetForwardNeighbours i 5 5).2.2 > (n : Int)))
    apply List.eq_of_perm_of_sorted (r := fun a b : Int => a ≤ b) _
      (hsorted.imp (fun h => by omega)) (ht.imp (fun h => by omega))
    rw [List.perm_ext_iff_of_nodup (hsorted.imp (fun h => by omega)) (ht.imp (fun h => by omega))]
    intro x
    rw [hmem x, hn, List.mem_filter, List.mem_map, decide_eq_true_iff]
    constructor
    · rintro ⟨h1, h2, k, hk⟩
      refine ⟨⟨(x - 1).toNat, List.mem_range.2 (by omega), by omega⟩, ?_⟩
      cases k
      · exact Or.inr (Or.inl hk)
      · exact Or.inl hk
      · exact Or.inr (Or.inr hk)
    · rintro ⟨⟨i, hi, rfl⟩, hf⟩
      rw [List.mem_range] at hi
      refine ⟨by omega, by omega, ?_⟩
      rcases hf with h | h | h
      · exact ⟨.Right, h⟩
      · exact ⟨.Horizontal, h⟩
      · exact ⟨.Left, h⟩
  refine ⟨key, ?_⟩
  intro h13
  subst h13
  rw [key]
  decide

theorem right_extreme_set_witness :
    (setDatablocksToClose { NewEntangler 5 5 5 3 1 with NumDataBlocks := 13 }).RightExtremeIndex
      = [6, 8, 9, 10, 11, 12, 13] :=
  (right_extreme_set { NewEntangler 5 5 5 3 1 with NumDataBlocks := 13 } rfl rfl rfl 13 rfl).2 rfl

/-! ### Wrapping a lattice of any length -/

theorem wrapPos_bwd (k : StrandClass) (x : Int) (hx : 6 ≤ x) :
    wrapPos k x = wrapPos k (bwd k x) := by
  obtain ⟨hb1, hb2, hb3⟩ := fwd_bwd k x hx
  obtain ⟨-, -, -, hw1, hw5, hws⟩ := wrapPos_spec k x (by omega)
  obtain ⟨-, -, -, hv1, hv5, hvs⟩ := wrapPos_spec k (bwd k x) hb1
  have hsl : slot k x = slot k (bwd k x) := by
    have := slot_fwd k (bwd k x) hb1
    rw [hb3] at this
    exact this
  exact slot_first_inj k _ _ hw1 hw5 hv1 hv5 (hws.trans (hsl.trans hvs.symm))

theorem wrapPos_le (k : StrandClass) : ∀ (t : Nat) (x : Int), 1 ≤ x → x ≤ (t : Int) →
    wrapPos k x ≤ x
  | 0, x, h1, h2 => by omega
  | t + 1, x, h1, h2 => by
    by_cases h5 : x ≤ 5
    · rw [wrapPos_first k x h1 h5]
    · obtain ⟨hb1, hb2, -⟩ := fwd_bwd k x (by omega)
      rw [wrapPos_bwd k x (by omega)]
      have := wrapPos_le k t (bwd k x) hb1 (by push_cast at h2; omega)
      omega

theorem wrapOne_le (c : Nat) (d : List (List Nat)) (e : Entangler)
    (hinv : EntInv c d d.length e) (k : StrandClass) (x : Int)
    (hx : 1 ≤ x) (hxn : x ≤ (d.length : Int)) :
    wrapOne e x (slot k x) (wrapPos k x) (fwd k (wrapPos k x)) k =
      some [closingBlock c d d.length k x, replBlock c d d.length k x] := by
  obtain ⟨hS, hP, hA, hlen, hpm, hllen, hlem, hnum, hrei⟩ := hinv
  obtain ⟨w, -, -, hw1, hw5, -⟩ := wrapPos_spec k x hx
  have hwle := wrapPos_le k d.length x hx hxn
  obtain ⟨⟨hr0, hr1⟩, ⟨hh0, hh1⟩, ⟨hl0, hl1⟩⟩ := slot_range x hx
  obtain ⟨sn, hsn⟩ : ∃ sn : Nat, (sn : Int) = slot k x :=
    ⟨(slot k x).toNat, by cases k <;> omega⟩
  have hsb : sn < 15 := by cases k <;> omega
  obtain ⟨t, ht⟩ : ∃ t : Nat, (t : Int) = wrapPos k x - 1 := ⟨(wrapPos k x - 1).toNat, by omega⟩
  have htb : t < 5 := by omega
  unfold wrapOne
  rw [← hsn, ← ht, getI_natCast, getI_natCast, hpm sn hsb, hlem t htb, if_pos (by omega)]
  simp only [closingBlock, replBlock, ← hsn, ← ht, Int.toNat_ofNat]

theorem wrapAt_le (c : Nat) (d : List (List Nat)) (e : Entangler)
    (hinv : EntInv c d d.length e) (x : Int) (hx : 1 ≤ x) (hxn : x ≤ (d.length : Int)) :
    wrapAt e x = some (pairsOut (wrapEvents c d d.length x)) := by
  have hR := wrapOne_le c d e hinv .Right x hx hxn
  have hH := wrapOne_le c d e hinv .Horizontal x hx hxn
  have hL := wrapOne_le c d e hinv .Left x hx hxn
  obtain ⟨hS, hP, hA, hlen, hpm, hllen, hlem, hnum, hrei⟩ := hinv
  obtain ⟨w, hw, hwR, -⟩ := wrapPos_spec .Right x hx
  obtain ⟨w', hw', hwH, -⟩ := wrapPos_spec .Horizontal x hx
  obtain ⟨w'', hw'', hwL, -⟩ := wrapPos_spec .Left x hx
  have e1 : w' = w := Option.some.inj (hw'.symm.trans hw)
  have e2 : w'' = w := Option.some.inj (hw''.symm.trans hw)
  rw [e1] at hwH
  rw [e2] at hwL
  have hmem : GetMemoryPosition x 5 5 = (slot .Right x, slot .Horizontal x, slot .Left x) := rfl
  have hfw : GetForwardNeighbours x 5 5 =
      (fwd .Right x, fwd .Horizontal x, fwd .Left x) := rfl
  have hwe : GetWrapPosition x 5 5 =
      some (wrapPos .Right x, wrapPos .Horizontal x, wrapPos .Left x) := by
    rw [hw, hwR, hwH, hwL]; rfl
  have f1 : (GetForwardNeighbours (wrapPos .Right x) 5 5).1 = fwd .Right (wrapPos .Right x) :=
    rfl
  have f2 : (GetForwardNeighbours (wrapPos .Horizontal x) 5 5).2.1 =
      fwd .Horizontal (wrapPos .Horizontal x) := rfl
  have f3 : (GetForwardNeighbours (wrapPos .Left x) 5 5).2.2 = fwd .Left (wrapPos .Left x) :=
    rfl
  unfold wrapAt
  simp only [hS, hP, hmem, hfw, hwe, f1, f2, f3, hnum, hR, hH, hL]
  unfold wrapEvents
  by_cases c1 : fwd .Right x > (d.length : Int) <;>
    by_cases c2 : fwd .Horizontal x > (d.length : Int) <;>
    by_cases c3 : fwd .Left x > (d.length : Int) <;>
    simp [c1, c2, c3, pairsOut]

theorem wrapAll_le (c : Nat) (d : List (List Nat)) (e : Entangler)
    (hinv : EntInv c d d.length e) :
    ∀ xs : List Int, (∀ x ∈ xs, 1 ≤ x ∧ x ≤ (d.length : Int)) →
      wrapAll e xs = some (pairsOut (xs.flatMap (wrapEvents c d d.length)))
  | [], _ => rfl
  | x :: xs, h => by
    have ih := wrapAll_le c d e hinv xs (fun y hy => h y (List.mem_cons_of_mem _ hy))
    have hx := h x (List.mem_cons_self _ _)
    unfold wrapAll
    rw [wrapAt_le c d e hinv x hx.1 hx.2, ih]
    simp [pairsOut_append]

/-- `WrapLattice` after the chunks of `d`, whatever their number. -/
theorem WrapLattice_eq (c : Nat) (d : List (List Nat)) (e : Entangler)
    (hinv : EntInv c d d.length e) :
    WrapLattice e = some (setDatablocksToClose e,
      pairsOut ((setDatablocksToClose e).RightExtremeIndex.flatMap (wrapEvents c d d.length))) := by
  have hinv' := hinv
  obtain ⟨hS, hP, hA, hlen, hpm, hllen, hlem, hnum, hrei⟩ := hinv
  have hmemR := mem_RightExtremeIndex e hS hP hA (by omega)
  unfold WrapLattice
  rw [hrei]
  simp only [List.length_nil, if_true]
  rw [wrapAll_setClose, wrapAll_le c d e hinv' _
    (fun x hx => ⟨((hmemR x).1 hx).1, by have := ((hmemR x).1 hx).2.1; omega⟩)]

theorem mem_pairsOut (b : EntangledBlock) :
    ∀ evs : List (EntangledBlock × EntangledBlock),
      b ∈ pairsOut evs ↔ ∃ p ∈ evs, b = p.1 ∨ b = p.2
  | [] => by simp [pairsOut]
  | p :: ps => by
    simp only [pairsOut, List.mem_cons, mem_pairsOut b ps, exists_eq_or_imp]
    constructor
    · rintro (h | h | h)
      · exact Or.inl (Or.inl h)
      · exact Or.inl (Or.inr h)
      · exact Or.inr h
    · rintro ((h | h) | h)
      · exact Or.inl h
      · exact Or.inr (Or.inl h)
      · exact Or.inr (Or.inr h)

/-- Per class, the wrap positions of the right-extreme positions are `1..min(n, 5)`. -/
theorem wrapTargets_iff (n : Nat) (k : StrandClass) (y : Int) :
    (∃ x, 1 ≤ x ∧ x ≤ (n : Int) ∧ fwd k x > (n : Int) ∧ y = wrapPos k x) ↔
      1 ≤ y ∧ y ≤ 5 ∧ y ≤ (n : Int) := by
  constructor
  · rintro ⟨x, h1, h2, -, rfl⟩
    obtain ⟨-, -, -, hw1, hw5, -⟩ := wrapPos_spec k x h1
    have := wrapPos_le k n x h1 h2
    exact ⟨hw1, hw5, by omega⟩
  · rintro ⟨h1, h5, hn⟩
    obtain ⟨x, hx1, hx2, hx3, hx4⟩ := extreme_exists k n (n - y).toNat y h1 hn (by omega)
    refine ⟨x, by omega, hx2, hx3, ?_⟩
    obtain ⟨-, -, -, hw1, hw5, hws⟩ := wrapPos_spec k x (by omega)
    exact (slot_first_inj _ _ _ hw1 hw5 h1 h5 (hws.trans hx4)).symm

theorem replacedKeys_iff (e : Entangler) (hS : e.S = 5) (hP : e.P = 5) (hA : e.Alpha = 3)
    (n : Nat) (hn : e.NumDataBlocks = (n : Int)) (hR : e.RightExtremeIndex = []) :
    ∃ keys, GetReplacedParityIndices e = some (setDatablocksToClose e, keys) ∧
      ∀ y, y ∈ keys ↔ 1 ≤ y ∧ y ≤ min (n : Int) 5 := by
  obtain ⟨keys, hk, hmem⟩ := GetReplacedParityIndices_spec e hS hP hA (by omega) hR
  refine ⟨keys, hk, ?_⟩
  intro y
  rw [hmem, hn]
  constructor
  · rintro ⟨x, h1, h2, k, hf, hy⟩
    have := (wrapTargets_iff n k y).1 ⟨x, h1, h2, hf, hy⟩
    omega
  · intro h
    obtain ⟨x, h1, h2, hf, hy⟩ := (wrapTargets_iff n .Horizontal y).2 (by omega)
    exact ⟨x, h1, h2, .Horizontal, hf, hy⟩

/-- C12: for (alpha, S, P) = (3, 5, 5) and the `n` chunks of `d`: after the `n` calls of
`Entangle`, `GetReplacedParityIndices` returns exactly the keys `1..min(n, 5)`, and so it
does on the entangler of a fresh lattice with `n` data blocks; and for each class `k` the
`LeftIndex` values of the `replace = true` blocks that `WrapLattice` sends are exactly
`1..min(n, 5)` as well. -/
theorem replaced_parity_indices (c : Nat) (d : List (List Nat)) :
    ∃ e1 out1 e2 out2 e3 keys e4 keysL,
      entangleFrom (NewEntangler 5 5 5 3 c) d 1 = some (e1, out1) ∧
      WrapLattice e1 = some (e2, out2) ∧
      GetReplacedParityIndices e1 = some (e3, keys) ∧
      GetReplacedParityIndices (NewLattice 3 5 5 d.length).toEntangler = some (e4, keysL) ∧
      (∀ y, y ∈ keys ↔ 1 ≤ y ∧ y ≤ min (d.length : Int) 5) ∧
      (∀ y, y ∈ keysL ↔ 1 ≤ y ∧ y ≤ min (d.length : Int) 5) ∧
      ∀ (k : StrandClass) (y : Int),
        (∃ b ∈ out2, b.Replace = true ∧ b.Class = k ∧ b.LeftIndex = y) ↔
          1 ≤ y ∧ y ≤ min (d.length : Int) 5 := by
  obtain ⟨e1, hrun, hinv⟩ :=
    entangleFrom_spec c d d.length 0 (NewEntangler 5 5 5 3 c) (by omega) (NewEntangler_inv c d)
  have hrun' : entangleFrom (NewEntangler 5 5 5 3 c) d 1 = some (e1, specOut c d 0 d.length) := by
    simpa using hrun
  have hwrap := WrapLattice_eq c d e1 hinv
  have hinv' := hinv
  obtain ⟨hS, hP, hA, hlen, hpm, hllen, hlem, hnum, hrei⟩ := hinv
  obtain ⟨keys, hk, hkm⟩ := replacedKeys_iff e1 hS hP hA d.length hnum hrei
  obtain ⟨keysL, hkL, hkLm⟩ := replacedKeys_iff (NewLattice 3 5 5 d.length).toEntangler
    rfl rfl rfl d.length rfl rfl
  refine ⟨e1, _, _, _, _, keys, _, keysL, hrun', hwrap, hk, hkL, hkm, hkLm, ?_⟩
  intro k y
  constructor
  · rintro ⟨b, hb, hr, hc, hl⟩
    obtain ⟨p, hp, hbp⟩ := (mem_pairsOut b _).1 hb
    obtain ⟨x, k', h1, h2, h3, rfl⟩ := (mem_closeEvents c d e1 hinv' p).1 hp
    rcases hbp with rfl | rfl
    · simp [closingBlock, mkBlock] at hr
    · have hkk : k' = k := hc
      subst hkk
      have hy : y = wrapPos k' x := hl.symm
      have := (wrapTargets_iff d.length k' y).1 ⟨x, h1, h2, h3, hy⟩
      omega
  · intro h
    obtain ⟨x, h1, h2, hf, hy⟩ := (wrapTargets_iff d.length k y).2 (by omega)
    refine ⟨replBlock c d d.length k x, ?_, rfl, rfl, hy.symm⟩
    rw [mem_pairsOut]
    exact ⟨_, (mem_closeEvents c d e1 hinv' _).2 ⟨x, k, h1, h2, hf, rfl⟩, Or.inr rfl⟩

/-! ### The receiver of `handleEntangleBlocks` -/

theorem foldl_handle : ∀ (xs acc : List EntangledBlock),
    xs.foldl handleStep acc =
      (xs.filter (fun b => decide (1 ≤ b.LeftIndex))).foldl collectStep acc
  | [], _ => rfl
  | x :: xs, acc => by
    rw [List.foldl_cons, foldl_handle xs]
    by_cases h : x.LeftIndex < 1
    · have hf : decide (1 ≤ x.LeftIndex) = false := by
        rw [decide_eq_false_iff_not]; omega
      rw [List.filter_cons]
      simp only [hf, Bool.false_eq_true, if_false, handleStep, if_pos h]
    · have hf : decide (1 ≤ x.LeftIndex) = true := by
        rw [decide_eq_true_iff]; omega
      rw [List.filter_cons]
      simp only [hf, if_true, List.foldl_cons, handleStep, if_neg h, collectStep]

theorem filter_length_one {α : Type} (p : α → Bool) : ∀ (l : List α),
    l.Pairwise (fun a b => ¬ (p a = true ∧ p b = true)) → (∃ a ∈ l, p a = true) →
    (l.filter p).length = 1
  | [], _, h => by simp at h
  | x :: xs, hpw, hex => by
    rw [List.pairwise_cons] at hpw
    by_cases hx : p x = true
    · have hnone : xs.filter p = [] := by
        rw [List.filter_eq_nil_iff]
        intro a ha hpa
        exact hpw.1 a ha ⟨hx, hpa⟩
      rw [List.filter_cons_of_pos hx, hnone]
      rfl
    · rw [List.filter_cons_of_neg hx]
      apply filter_length_one p xs hpw.2
      obtain ⟨a, ha, hpa⟩ := hex
      rcases List.mem_cons.1 ha with rfl | ha
      · exact absurd hpa hx
      · exact ⟨a, ha, hpa⟩

/-- What `handleRun` returns, for any number of chunks. -/
theorem handleRun_eq (c : Nat) (d : List (List Nat)) :
    ∃ e, EntInv c d d.length e ∧ handleRun c d = some (keptBlocks c d e) := by
  obtain ⟨e, hrun, hinv⟩ :=
    entangleFrom_spec c d d.length 0 (NewEntangler 5 5 5 3 c) (by omega) (NewEntangler_inv c d)
  refine ⟨e, hinv, ?_⟩
  have hrun' : entangleFrom (NewEntangler 5 5 5 3 c) d 1 = some (e, specOut c d 0 d.length) := by
    simpa using hrun
  have hwrap := WrapLattice_eq c d e hinv
  have hev := fun p => (mem_closeEvents c d e hinv p).1
  unfold handleRun
  rw [hrun']
  simp only [hwrap]
  rw [foldl_handle, List.filter_append]
  have hout2 : (pairsOut ((setDatablocksToClose e).RightExtremeIndex.flatMap
      (wrapEvents c d d.length))).filter (fun b => decide (1 ≤ b.LeftIndex)) =
      pairsOut ((setDatablocksToClose e).RightExtremeIndex.flatMap
        (wrapEvents c d d.length)) := by
    rw [List.filter_eq_self]
    intro b hb
    obtain ⟨p, hp, hbp⟩ := (mem_pairsOut b _).1 hb
    obtain ⟨x, k, h1, h2, h3, rfl⟩ := hev p hp
    obtain ⟨-, -, -, hw1, -, -⟩ := wrapPos_spec k x h1
    rcases hbp with rfl | rfl
    · simpa [closingBlock, mkBlock] using h1
    · simpa [replBlock, mkBlock] using hw1
  rw [hout2, List.foldl_append]
  have hplain : ((specOut c d 0 d.length).filter
      (fun b => decide (1 ≤ b.LeftIndex))).foldl collectStep [] =
      (specOut c d 0 d.length).filter (fun b => decide (1 ≤ b.LeftIndex)) := by
    rw [foldl_collect_plain _ _ (by
      intro b hb
      obtain ⟨m, -, -, hm⟩ := (mem_specOut c d b _ _).1 (List.mem_of_mem_filter hb)
      obtain ⟨k, rfl⟩ := (mem_blocksAt c d m b).1 hm
      rfl)]
    simp
  rw [hplain]
  have := foldl_collect_pairs
    ((setDatablocksToClose e).RightExtremeIndex.flatMap (wrapEvents c d d.length))
    ((specOut c d 0 d.length).filter (fun b => decide (1 ≤ b.LeftIndex))) []
    ((specOut_pairwise c d _ _).sublist (List.filter_sublist _))
    (by
      intro p hp
      obtain ⟨x, k, -, -, -, rfl⟩ := hev p hp
      exact ⟨rfl, rfl⟩)
    (by simp)
    (by
      intro p hp q hq hk
      obtain ⟨x, k, hx1, hx2, hx3, rfl⟩ := hev p hp
      obtain ⟨y, k', hy1, hy2, hy3, rfl⟩ := hev q hq
      have hk2 := hk.2
      simp only [closingBlock, replBlock, mkBlock] at hk2
      obtain ⟨-, -, -, hv1, hv5, -⟩ := wrapPos_spec k' y hy1
      obtain ⟨-, -, -, hw1, hw5, -⟩ := wrapPos_spec k x hx1
      have := fwd_first_ge k' (wrapPos k' y) hv1
      omega)
  simp only [List.nil_append, List.append_nil] at this
  rw [this]
  rfl

theorem bwd_inj (k : StrandClass) (m m' : Int) (hm : 1 ≤ m) (hm' : 1 ≤ m')
    (hb : 1 ≤ bwd k m) (h : bwd k m = bwd k m') : m = m' := by
  have h6 : 6 ≤ m := by
    by_contra hh
    have := bwd_nonpos k m hm (by omega)
    omega
  have h6' : 6 ≤ m' := by
    by_contra hh
    have := bwd_nonpos k m' hm' (by omega)
    omega
  have e1 := (fwd_bwd k m h6).2.2
  have e2 := (fwd_bwd k m' h6').2.2
  rw [← e1, ← e2, h]

/-- No two kept blocks have the same left index and class. -/
theorem keptBlocks_pairwise (c : Nat) (d : List (List Nat)) (e : Entangler)
    (hinv : EntInv c d d.length e) :
    (keptBlocks c d e).Pairwise
      (fun a b => ¬ (a.LeftIndex = b.LeftIndex ∧ a.Class = b.Class)) := by
  have hev := fun p => (mem_closeEvents c d e hinv p).1
  obtain ⟨hS, hP, hA, -, -, -, -, hnum, -⟩ := hinv
  have hsorted := RightExtremeIndex_sorted e hS hP hA (by omega)
  unfold keptBlocks
  rw [List.pairwise_append]
  refine ⟨?_, ?_, ?_⟩
  · rw [List.pairwise_map]
    have hbase := (specOut_pairwise c d d.length 0).sublist
      (List.filter_sublist (p := fun b => decide (1 ≤ b.LeftIndex)) _)
    refine hbase.imp_of_mem ?_
    intro a b ha hb hab hh
    obtain ⟨ka1, ka2, ka3⟩ := applyRepl_key
      ((setDatablocksToClose e).RightExtremeIndex.flatMap (wrapEvents c d d.length)) a
    obtain ⟨kb1, kb2, kb3⟩ := applyRepl_key
      ((setDatablocksToClose e).RightExtremeIndex.flatMap (wrapEvents c d d.length)) b
    rw [ka1, ka3, kb1, kb3] at hh
    rw [List.mem_filter, decide_eq_true_iff] at ha hb
    obtain ⟨ma, ha1, ha2, ha3⟩ := (mem_specOut c d a _ _).1 ha.1
    obtain ⟨ka, rfl⟩ := (mem_blocksAt c d ma a).1 ha3
    obtain ⟨mb, hb1, hb2, hb3⟩ := (mem_specOut c d b _ _).1 hb.1
    obtain ⟨kb, rfl⟩ := (mem_blocksAt c d mb b).1 hb3
    simp only [mkBlock] at hh ha hb
    obtain ⟨hl, hc⟩ := hh
    subst hc
    have := bwd_inj ka (ma : Int) (mb : Int) (by omega) (by omega) ha.2 hl
    exact hab ⟨hl, this⟩
  · rw [List.pairwise_map, List.pairwise_flatMap]
    constructor
    · intro x _
      unfold wrapEvents
      by_cases c1 : fwd .Right x > (d.length : Int) <;>
        by_cases c2 : fwd .Horizontal x > (d.length : Int) <;>
        by_cases c3 : fwd .Left x > (d.length : Int) <;>
        simp [c1, c2, c3, closingBlock, mkBlock]
    · refine hsorted.imp ?_
      intro x y hxy p hp q hq hh
      obtain ⟨k, -, rfl⟩ := (mem_wrapEvents c d _ x p).1 hp
      obtain ⟨k', -, rfl⟩ := (mem_wrapEvents c d _ y q).1 hq
      have := hh.1
      simp only [closingBlock, mkBlock] at this
      omega
  · intro a ha b hb hh
    rw [List.mem_map] at ha hb
    obtain ⟨a0, ha0, rfl⟩ := ha
    obtain ⟨p, hp, rfl⟩ := hb
    obtain ⟨ka1, -, ka3⟩ := applyRepl_key
      ((setDatablocksToClose e).RightExtremeIndex.flatMap (wrapEvents c d d.length)) a0
    rw [ka1, ka3] at hh
    rw [List.mem_filter, decide_eq_true_iff] at ha0
    obtain ⟨m, hm1, hm2, hm3⟩ := (mem_specOut c d a0 _ _).1 ha0.1
    obtain ⟨k, rfl⟩ := (mem_blocksAt c d m a0).1 hm3
    obtain ⟨x, k', hx1, hx2, hx3, rfl⟩ := hev p hp
    simp only [mkBlock, closingBlock] at hh ha0
    obtain ⟨hl, hc⟩ := hh
    subst hc
    have h6 : 6 ≤ (m : Int) := by
      by_contra hcon
      have := bwd_nonpos k (m : Int) (by omega) (by omega)
      omega
    have := (fwd_bwd k (m : Int) h6).2.2
    rw [hl] at this
    omega

/-- Every left index `1..n` has a kept block in each class. -/
theorem keptBlocks_exists (c : Nat) (d : List (List Nat)) (e : Entangler)
    (hinv : EntInv c d d.length e) (k : StrandClass) (i : Nat) (hi : 1 ≤ i)
    (hin : i ≤ d.length) :
    ∃ b ∈ keptBlocks c d e, b.Class = k ∧ b.LeftIndex = (i : Int) := by
  have hgt := fwd_gt k (i : Int) (by omega)
  unfold keptBlocks
  by_cases hf : fwd k (i : Int) ≤ (d.length : Int)
  · obtain ⟨m, hm⟩ : ∃ m : Nat, fwd k (i : Int) = (m : Int) := ⟨(fwd k i).toNat, by omega⟩
    have hbw : bwd k (m : Int) = (i : Int) := by rw [← hm]; exact bwd_fwd k _ (by omega)
    obtain ⟨k1, -, k3⟩ := applyRepl_key
      ((setDatablocksToClose e).RightExtremeIndex.flatMap (wrapEvents c d d.length))
      (mkBlock (pmSpec c d (m - 1) (slot k m)) (bwd k m) m k false)
    refine ⟨_, List.mem_append_left _ (List.mem_map.2
      ⟨mkBlock (pmSpec c d (m - 1) (slot k m)) (bwd k m) m k false, ?_, rfl⟩), ?_, ?_⟩
    · rw [List.mem_filter, decide_eq_true_iff]
      refine ⟨(mem_specOut c d _ _ 0).2 ⟨m, by omega, by omega,
        (mem_blocksAt c d m _).2 ⟨k, rfl⟩⟩, ?_⟩
      show 1 ≤ bwd k (m : Int)
      rw [hbw]; omega
    · rw [k3]; rfl
    · rw [k1]; exact hbw
  · refine ⟨closingBlock c d d.length k i, List.mem_append_right _ (List.mem_map.2
      ⟨(closingBlock c d d.length k i, replBlock c d d.length k i), ?_, rfl⟩), rfl, rfl⟩
    exact (mem_closeEvents c d e hinv _).2 ⟨i, k, by omega, by omega, by omega, rfl⟩

/-- C13: for (alpha, S, P) = (3, 5, 5) and any number `n` of chunks, after the `n` calls of
`Entangle` and `WrapLattice`, with the blocks collected as `handleEntangleBlocks` does
(left index below 1 dropped, a `Replace` block overwriting the earlier block with the same
left and right index): no two remaining blocks share `(LeftIndex, RightIndex, Class)`, and
for each class and each `i` in `1..n` exactly one remaining block has `LeftIndex = i`. -/
theorem one_parity_per_edge (c : Nat) (d : List (List Nat)) :
    ∃ eb, handleRun c d = some eb ∧
      eb.Pairwise (fun a b => ¬ (a.LeftIndex = b.LeftIndex ∧ a.RightIndex = b.RightIndex ∧
        a.Class = b.Class)) ∧
      ∀ (k : StrandClass) (i : Nat), 1 ≤ i → i ≤ d.length →
        (eb.filter (fun b => decide (b.Class = k ∧ b.LeftIndex = (i : Int)))).length = 1 := by
  obtain ⟨e, hinv, hrun⟩ := handleRun_eq c d
  have hpw := keptBlocks_pairwise c d e hinv
  refine ⟨_, hrun, hpw.imp (fun h hh => h ⟨hh.1, hh.2.2⟩), ?_⟩
  intro k i hi hin
  apply filter_length_one
  · refine hpw.imp ?_
    intro a b h hh
    rw [decide_eq_true_iff, decide_eq_true_iff] at hh
    exact h ⟨hh.1.2.trans hh.2.2.symm, hh.1.1.trans hh.2.1.symm⟩
  · obtain ⟨b, hb, hc, hl⟩ := keptBlocks_exists c d e hinv k i hi hin
    exact ⟨b, hb, by rw [decide_eq_true_iff]; exact ⟨hc, hl⟩⟩

/-- C21: `XORByteSlice(a, b)` returns a slice of length `max(len(a), len(b))` whose byte
`i` is `a[i] xor b[i]`, a byte beyond the end of the shorter slice counting as 0; it is
commutative, and `XORByteSlice([0xb9, 0x63], [0x66, 0xcc]) = [0xdf, 0xaf]`. -/
theorem xor_byte_slice_spec (a b : List Nat) :
    (XORByteSlice a b).length = max a.length b.length ∧
    (∀ i, i < max a.length b.length →
      (XORByteSlice a b)[i]? = some (a.getD i 0 ^^^ b.getD i 0)) ∧
    XORByteSlice a b = XORByteSlice b a ∧
    XORByteSlice [0xb9, 0x63] [0x66, 0xcc] = [0xdf, 0xaf] :=
  ⟨XORByteSlice_length_max a b, XORByteSlice_getElem? a b, XORByteSlice_comm_pad a b,
    by decide⟩

/-- C22: after `PadByteSlices(&a, &b, zeros)` both slices have the length of the longer
one; the longer slice is unchanged; the shorter one keeps its bytes as a prefix, followed
by zero bytes when `zeros` is true and by the trailing bytes of the longer slice when it is
false, so that in this case the two slices agree (XOR to 0) on the padded range. -/
theorem pad_byte_slices_spec (a b : List Nat) (zeros : Bool) :
    (PadByteSlices a b zeros).1.length = max a.length b.length ∧
    (PadByteSlices a b zeros).2.length = max a.length b.length ∧
    (b.length ≤ a.length → (PadByteSlices a b zeros).1 = a) ∧
    (a.length ≤ b.length → (PadByteSlices a b zeros).2 = b) ∧
    (a.length < b.length → (PadByteSlices a b zeros).1 =
      a ++ (if zeros = true then List.replicate (b.length - a.length) 0 else b.drop a.length)) ∧
    (b.length < a.length → (PadByteSlices a b zeros).2 =
      b ++ (if zeros = true then List.replicate (a.length - b.length) 0 else a.drop b.length)) ∧
    (zeros = false → ∀ i, min a.length b.length ≤ i → i < max a.length b.length →
      ∃ x, (PadByteSlices a b zeros).1[i]? = some x ∧ (PadByteSlices a b zeros).2[i]? = some x ∧
        x ^^^ x = 0) := by
  have e0 : a.length = b.length → PadByteSlices a b zeros = (a, b) := by
    intro h; unfold PadByteSlices; rw [if_pos h]
  have e1 : a.length < b.length → PadByteSlices a b zeros =
      (a ++ (if zeros = true then List.replicate (b.length - a.length) 0 else b.drop a.length),
        b) := by
    intro h; unfold PadByteSlices; rw [if_neg (by omega), if_pos h]
  have e2 : b.length < a.length → PadByteSlices a b zeros =
      (a, b ++ (if zeros = true then List.replicate (a.length - b.length) 0
        else a.drop b.length)) := by
    intro h; unfold PadByteSlices; rw [if_neg (by omega), if_neg (by omega)]
  have l1 : a.length < b.length →
      (a ++ (if zeros = true then List.replicate (b.length - a.length) 0
        else b.drop a.length)).length = b.length := by
    intro h; cases zeros <;> simp <;> omega
  have l2 : b.length < a.length →
      (b ++ (if zeros = true then List.replicate (a.length - b.length) 0
        else a.drop b.length)).length = a.length := by
    intro h; cases zeros <;> simp <;> omega
  rcases lt_trichotomy a.length b.length with h | h | h
  · rw [e1 h]
    refine ⟨by rw [l1 h]; omega, by show b.length = _; omega, fun hh => by omega, fun _ => rfl,
      fun _ => rfl, fun hh => by omega, ?_⟩
    intro hz i h1 h2
    subst hz
    have hib : i < b.length := by omega
    refine ⟨b[i], ?_, List.getElem?_eq_getElem hib, Nat.xor_self _⟩
    show (a ++ (if false = true then _ else b.drop a.length))[i]? = _
    rw [if_neg (by decide), List.getElem?_append_right (by omega), List.getElem?_drop,
      List.getElem?_eq_getElem (by omega)]
    congr 2
    omega
  · rw [e0 h]
    refine ⟨by show a.length = _; omega, by show b.length = _; omega, fun _ => rfl, fun _ => rfl,
      fun hh => by omega, fun hh => by omega, ?_⟩
    intro _ i h1 h2
    omega
  · rw [e2 h]
    refine ⟨by show a.length = _; omega, by rw [l2 h]; omega, fun _ => rfl, fun hh => by omega,
      fun hh => by omega, fun _ => rfl, ?_⟩
    intro hz i h1 h2
    subst hz
    have hia : i < a.length := by omega
    refine ⟨a[i], List.getElem?_eq_getElem hia, ?_, Nat.xor_self _⟩
    show (b ++ (if false = true then _ else a.drop b.length))[i]? = _
    rw [if_neg (by decide), List.getElem?_append_right (by omega), List.getElem?_drop,
      List.getElem?_eq_getElem (by omega)]
    congr 2
    omega

/-! ### The neighbour functions for any `S` and `P` -/

theorem tmod_pos (x S : Int) (hx : 0 ≤ x) : Int.tmod x S = x % S := by
  rcases Int.eq_ofNat_of_zero_le hx with ⟨n, rfl⟩
  cases S with
  | ofNat m => rfl
  | negSucc m => simp [Int.tmod, Int.emod, Int.ofNat_eq_coe]; rfl

/-- The formula of `GetForwardNeighbours` where its float64 squares are exact: for every
`i >= 1` and `2 <= S <= 94906265`, `h = i + S`, and: when `i mod S = 1`, `r = i + S + 1` and
`l = i + S*P - (S-1)^2`; when `i mod S = 0`, `r = i + S*P - (S^2 - 1)` and `l = i + S - 1`;
otherwise `r = i + S + 1` and `l = i + S - 1`. -/
theorem forward_neighbours_exact (i S P : Int) (hi : 1 ≤ i) (hS : 2 ≤ S)
    (hE : S ≤ 94906265) :
    (GetForwardNeighbours i S P).2.1 = i + S ∧
    (i % S = 1 → (GetForwardNeighbours i S P).1 = i + S + 1 ∧
      (GetForwardNeighbours i S P).2.2 = i + S * P - (S - 1) ^ 2) ∧
    (i % S = 0 → (GetForwardNeighbours i S P).1 = i + S * P - (S ^ 2 - 1) ∧
      (GetForwardNeighbours i S P).2.2 = i + S - 1) ∧
    (i % S ≠ 1 → i % S ≠ 0 → (GetForwardNeighbours i S P).1 = i + S + 1 ∧
      (GetForwardNeighbours i S P).2.2 = i + S - 1) := by
  have ht : Int.tmod i S = i % S := tmod_pos i S (by omega)
  have hm := Int.emod_nonneg i (show S ≠ 0 by omega)
  have hp1 : powTwo (S - 1) = (S - 1) * (S - 1) := powTwo_exact _ (by omega)
  have hp2 : powTwoPred S = S * S - 1 := powTwoPred_exact _ (by omega)
  unfold GetForwardNeighbours
  simp only [ht, hp1, hp2]
  refine ⟨?_, ?_, ?_, ?_⟩
  · split_ifs <;> rfl
  · intro h1
    rw [if_pos (Or.inl h1)]
    exact ⟨rfl, by show i + S * P - (S - 1) * (S - 1) = _; ring⟩
  · intro h0
    rw [if_neg (by omega), if_pos h0]
    exact ⟨by show i + S * P - (S * S - 1) = _; ring, rfl⟩
  · intro h1 h0
    rw [if_neg (by omega), if_neg h0]
    exact ⟨rfl, by show i + (S - 1) = _; ring⟩

/-- C24 (the code leaves the formula): for `S = P = 94906266` and `i = 94906266`, so that
`i mod S = 0`, `GetForwardNeighbours(i, S, P)` returns `r = i + S*P - S^2 = 94906266`, while
the formula `r = i + S*P - (S^2 - 1)` gives 94906267: `S^2 - 1 = 9007199326062755` is not a
float64 and the subtraction rounds it to `S^2`. The other two results keep the formula,
`h = i + S` and `l = i + S - 1`, and so does `r` at `S = 94906265`, the largest `S` whose
square is below `2^53`, and at the default `S = P = 5`. -/
theorem forward_neighbours_rounding :
    (94906266 : Int) % 94906266 = 0 ∧
    (GetForwardNeighbours 94906266 94906266 94906266).1
      = 94906266 + 94906266 * 94906266 - 94906266 ^ 2 ∧
    (GetForwardNeighbours 94906266 94906266 94906266).1 = 94906266 ∧
    (94906266 : Int) + 94906266 * 94906266 - (94906266 ^ 2 - 1) = 94906267 ∧
    (GetForwardNeighbours 94906266 94906266 94906266).2.1 = 94906266 + 94906266 ∧
    (GetForwardNeighbours 94906266 94906266 94906266).2.2 = 94906266 + 94906266 - 1 ∧
    (GetForwardNeighbours 94906265 94906265 94906265).1
      = 94906265 + 94906265 * 94906265 - (94906265 ^ 2 - 1) ∧
    (GetForwardNeighbours 5 5 5).1 = 5 + 5 * 5 - (5 ^ 2 - 1) := by
  decide

/-- C27: for `(S, P) = (5, 5)` and every `i >= 1`, `GetMemoryPosition(i, 5, 5)` returns
`r` in `0..4`, `h = ((i-1) mod 5) + 5` and `l` in `10..14`, all below 15; and the slots of
the positions 1, 5, 21 and 25 are `(0,5,11)`, `(1,9,10)`, `(4,5,10)` and `(0,9,14)`. -/
theorem memory_position_slots (i : Int) (hi : 1 ≤ i) :
    (0 ≤ (GetMemoryPosition i 5 5).1 ∧ (GetMemoryPosition i 5 5).1 ≤ 4) ∧
    (GetMemoryPosition i 5 5).2.1 = (i - 1) % 5 + 5 ∧
    (10 ≤ (GetMemoryPosition i 5 5).2.2 ∧ (GetMemoryPosition i 5 5).2.2 ≤ 14) ∧
    (GetMemoryPosition i 5 5).2.1 < 15 ∧
    GetMemoryPosition 1 5 5 = (0, 5, 11) ∧ GetMemoryPosition 5 5 5 = (1, 9, 10) ∧
    GetMemoryPosition 21 5 5 = (4, 5, 10) ∧ GetMemoryPosition 25 5 5 = (0, 9, 14) := by
  obtain ⟨hr, hh, hl⟩ := slot_range i hi
  have h51 : Int.tmod (i - 1) 5 = (i - 1) % 5 := tmod_pos _ _ (by omega)
  have hH : (GetMemoryPosition i 5 5).2.1 = (i - 1) % 5 + 5 := by
    show Int.tmod (i - 1) 5 + 5 = _
    rw [h51]
  refine ⟨hr, hH, hl, by rw [hH]; omega, by decide, by decide, by decide, by decide⟩

theorem memory_position_slots_witness :
    (0 ≤ (GetMemoryPosition 7 5 5).1 ∧ (GetMemoryPosition 7 5 5).1 ≤ 4) ∧
    (GetMemoryPosition 7 5 5).2.1 = (7 - 1) % 5 + 5 ∧
    (10 ≤ (GetMemoryPosition 7 5 5).2.2 ∧ (GetMemoryPosition 7 5 5).2.2 ≤ 14) ∧
    (GetMemoryPosition 7 5 5).2.1 < 15 ∧
    GetMemoryPosition 1 5 5 = (0, 5, 11) ∧ GetMemoryPosition 5 5 5 = (1, 9, 10) ∧
    GetMemoryPosition 21 5 5 = (4, 5, 10) ∧ GetMemoryPosition 25 5 5 = (0, 9, 14) :=
  memory_position_slots 7 (by decide)

theorem wrap_position_six_counterexample :
    GetWrapPosition 6 5 5 = some (5, 1, 2) ∧ GetWrapPosition 6 5 5 ≠ some (12, 11, 2) := by
  decide

/-- C26 as the code has it: with `(S, P) = (5, 5)`, the triple `(12, 11, 2)` is what
`GetWrapPositionMaxLen(6, 5, 5, 13)` returns (the forward neighbours of 6 that are within
13, the wrap position otherwise); `GetWrapPosition(6, 5, 5)` itself is `(5, 1, 2)`. -/
theorem wrap_position_six :
    GetWrapPositionMaxLen 6 5 5 13 = some (12, 11, 2) ∧ GetWrapPosition 6 5 5 = some (5, 1, 2) := by
  decide

/-! ### `GetWrapPosition` as an iteration of the backward neighbours -/

theorem wrapLoopR_iter : ∀ (fuel : Nat) (r : Int) (v : Int),
    wrapLoopR fuel r 5 5 = some v →
      ∃ t, t ≤ fuel ∧ (fun x => (GetBackwardNeighbours x 5 5).1)^[t] r = v ∧ v ≤ 5 ∧
        ∀ s, s < t → (fun x => (GetBackwardNeighbours x 5 5).1)^[s] r > 5
  | 0, r, v, h => by
    unfold wrapLoopR at h
    split at h
    · cases h
    · have hv : r = v := Option.some.inj h
      subst hv
      exact ⟨0, le_refl _, rfl, by omega, fun s hs => by omega⟩
  | fuel + 1, r, v, h => by
    unfold wrapLoopR at h
    split at h
    · rename_i hr
      obtain ⟨t, ht, hit, hv, hall⟩ := wrapLoopR_iter fuel _ v h
      refine ⟨t + 1, by omega, by rw [Function.iterate_succ_apply]; exact hit, hv, ?_⟩
      intro s hs
      cases s with
      | zero => exact hr
      | succ s => rw [Function.iterate_succ_apply]; exact hall s (by omega)
    · have hv : r = v := Option.some.inj h
      subst hv
      exact ⟨0, by omega, rfl, by omega, fun s hs => by omega⟩

theorem wrapLoopL_iter : ∀ (fuel : Nat) (l : Int) (v : Int),
    wrapLoopL fuel l 5 5 = some v →
      ∃ t, t ≤ fuel ∧ (fun x => (GetBackwardNeighbours x 5 5).2.2)^[t] l = v ∧ v ≤ 5 ∧
        ∀ s, s < t → (fun x => (GetBackwardNeighbours x 5 5).2.2)^[s] l > 5
  | 0, l, v, h => by
    unfold wrapLoopL at h
    split at h
    · cases h
    · have hv : l = v := Option.some.inj h
      subst hv
      exact ⟨0, le_refl _, rfl, by omega, fun s hs => by omega⟩
  | fuel + 1, l, v, h => by
    unfold wrapLoopL at h
    split at h
    · rename_i hr
      obtain ⟨t, ht, hit, hv, hall⟩ := wrapLoopL_iter fuel _ v h
      refine ⟨t + 1, by omega, by rw [Function.iterate_succ_apply]; exact hit, hv, ?_⟩
      intro s hs
      cases s with
      | zero => exact hr
      | succ s => rw [Function.iterate_succ_apply]; exact hall s (by omega)
    · have hv : l = v := Option.some.inj h
      subst hv
      exact ⟨0, by omega, rfl, by omega, fun s hs => by omega⟩

/-- C25: for `S = P = 5` and every `i >= 1`, `GetWrapPosition` returns (both loops end):
`h = ((i-1) mod 5) + 1`, and `r` and `l` lie in `1..5` and are the first values `<= 5`
reached by iterating the `r` (resp. `l`) component of `GetBackwardNeighbours` from
`i mod 25` (25 when that is 0); `GetWrapPosition(1) = (1,1,1)`,
`GetWrapPosition(111) = (4,1,3)` and `GetWrapPosition(13) = (1,3,5)`. -/
theorem wrap_position_total (i : Int) (hi : 1 ≤ i) :
    (∃ r l tr tl, GetWrapPosition i 5 5 = some (r, (i - 1) % 5 + 1, l) ∧
      1 ≤ r ∧ r ≤ 5 ∧ 1 ≤ l ∧ l ≤ 5 ∧
      (fun x => (GetBackwardNeighbours x 5 5).1)^[tr] (if i % 25 = 0 then 25 else i % 25) = r ∧
      (∀ s, s < tr → (fun x => (GetBackwardNeighbours x 5 5).1)^[s]
        (if i % 25 = 0 then 25 else i % 25) > 5) ∧
      (fun x => (GetBackwardNeighbours x 5 5).2.2)^[tl] (if i % 25 = 0 then 25 else i % 25) = l ∧
      (∀ s, s < tl → (fun x => (GetBackwardNeighbours x 5 5).2.2)^[s]
        (if i % 25 = 0 then 25 else i % 25) > 5)) ∧
    GetWrapPosition 1 5 5 = some (1, 1, 1) ∧ GetWrapPosition 111 5 5 = some (4, 1, 3) ∧
    GetWrapPosition 13 5 5 = some (1, 3, 5) := by
  refine ⟨?_, by decide, by decide, by decide⟩
  obtain ⟨w, hw, -, hR1, hR5, -⟩ := wrapPos_spec .Right i hi
  obtain ⟨w', hw', -, hL1, hL5, -⟩ := wrapPos_spec .Left i hi
  have hww : w' = w := Option.some.inj (hw'.symm.trans hw)
  have hwR : wrapPos .Right i = w.1 := by unfold wrapPos; rw [hw]; rfl
  have hwL : wrapPos .Left i = w.2.2 := by unfold wrapPos; rw [hw]; rfl
  rw [hwR] at hR1 hR5
  rw [hwL] at hL1 hL5
  have h5 : Int.tmod i 5 = i % 5 := tmod_pos _ _ (by omega)
  have h25 : Int.tmod i (5 * 5) = i % 25 := tmod_pos _ _ (by omega)
  have hdef := hw
  unfold GetWrapPosition at hdef
  simp only [h5, h25] at hdef
  cases hr : wrapLoopR (if i % 25 = 0 then (25 : Int) else i % 25).toNat
      (if i % 25 = 0 then 25 else i % 25) 5 5 with
  | none => rw [hr] at hdef; cases hdef
  | some r =>
    cases hl : wrapLoopL (if i % 25 = 0 then (25 : Int) else i % 25).toNat
        (if i % 25 = 0 then 25 else i % 25) 5 5 with
    | none => rw [hr, hl] at hdef; cases hdef
    | some l =>
      rw [hr, hl] at hdef
      have hweq : w = (r, (if i % 5 = 0 then 5 else i % 5), l) := (Option.some.inj hdef).symm
      obtain ⟨tr, -, hitr, -, hallr⟩ := wrapLoopR_iter _ _ _ hr
      obtain ⟨tl, -, hitl, -, halll⟩ := wrapLoopL_iter _ _ _ hl
      have hh : (if i % 5 = 0 then (5 : Int) else i % 5) = (i - 1) % 5 + 1 := by
        split <;> omega
      rw [hweq] at hR1 hR5 hL1 hL5 hw
      rw [hh] at hw
      exact ⟨r, l, tr, tl, hw, hR1, hR5, hL1, hL5, hitr, hallr, hitl, halll⟩

theorem wrap_position_total_witness :
    ∃ r l, GetWrapPosition 111 5 5 = some (r, (111 - 1) % 5 + 1, l) ∧ 1 ≤ r ∧ r ≤ 5 ∧
      1 ≤ l ∧ l ≤ 5 :=
  match (wrap_position_total 111 (by decide)).1 with
  | ⟨r, l, _, _, h, h1, h2, h3, h4, _⟩ => ⟨r, l, h, h1, h2, h3, h4⟩

/-! ### Backward after forward, for any `S` and `P` -/

theorem emod_of_decomp (x S q r : Int) (h : x = r + S * q) (h0 : 0 ≤ r) (h1 : r < S) :
    x % S = r := by
  rw [h, Int.add_mul_emod_self_left, Int.emod_eq_of_lt h0 h1]

theorem tmod_negSucc_five (n : Nat) :
    Int.tmod (Int.negSucc n) 5 = -(((n + 1) % 5 : Nat) : Int) := rfl

theorem bwd_fwd_right (i S P : Int) (hi : 1 ≤ i) (hS : 2 ≤ S) (hE : S ≤ 94906265)
    (hSP : S - 1 ≤ P ∨ S = 5) :
    (GetBackwardNeighbours (GetForwardNeighbours i S P).1 S P).1 = i := by
  have hp2 : powTwoPred S = S * S - 1 := powTwoPred_exact _ (by omega)
  have ht : Int.tmod i S = i % S := tmod_pos i S (by omega)
  have hm0 := Int.emod_nonneg i (show S ≠ 0 by omega)
  have hm1 := Int.emod_lt_of_pos i (show 0 < S by omega)
  have hiq : i = i % S + S * (i / S) := (Int.emod_add_ediv i S).symm
  by_cases h0 : i % S = 0
  · have hf : (GetForwardNeighbours i S P).1 = i + S * P - (S * S - 1) := by
      unfold GetForwardNeighbours
      simp only [ht, h0, hp2]
      rfl
    rw [hf]
    have hbr : Int.tmod (i + S * P - (S * S - 1)) S = 1 ∨
        Int.tmod (i + S * P - (S * S - 1)) S = -4 := by
      rcases hSP with hP | h5
      · left
        have hiS : S ≤ i := Int.le_of_dvd (by omega) (Int.dvd_of_emod_eq_zero h0)
        have hmul : S * (S - 1) ≤ S * P := Int.mul_le_mul_of_nonneg_left hP (by omega)
        have e1 : S * (S - 1) = S * S - S := by ring
        rw [tmod_pos _ _ (by omega)]
        apply emod_of_decomp _ S (i / S + P - S) 1 _ (by omega) (by omega)
        rw [h0] at hiq
        have e2 : S * (i / S + P - S) = S * (i / S) + S * P - S * S := by ring
        rw [e2]
        omega
      · subst h5
        by_cases hpos : 0 ≤ i + 5 * P - (5 * 5 - 1)
        · left
          rw [tmod_pos _ _ hpos]
          omega
        · right
          obtain ⟨n, hn⟩ : ∃ n : Nat, i + 5 * P - (5 * 5 - 1) = Int.negSucc n :=
            ⟨(-(i + 5 * P - (5 * 5 - 1)) - 1).toNat, by rw [Int.negSucc_eq]; omega⟩
          rw [hn, tmod_negSucc_five]
          rw [Int.negSucc_eq] at hn
          omega
    unfold GetBackwardNeighbours
    simp only [hp2]
    rw [if_pos hbr]
    show i + S * P - (S * S - 1) - S * P + (S * S - 1) = i
    omega
  · have hf : (GetForwardNeighbours i S P).1 = i + S + 1 := by
      unfold GetForwardNeighbours
      simp only [ht]
      split_ifs <;> rfl
    rw [hf]
    have hE : (i + S + 1) % S = 0 ∨ (2 ≤ (i + S + 1) % S) := by
      by_cases hlast : i % S + 1 = S
      · left
        have : i + S + 1 = 0 + S * (i / S + 2) := by
          have e2 : S * (i / S + 2) = S * (i / S) + S + S := by ring
          rw [e2]; omega
        exact emod_of_decomp _ S _ 0 this (le_refl 0) (by omega)
      · right
        have : i + S + 1 = (i % S + 1) + S * (i / S + 1) := by
          have e2 : S * (i / S + 1) = S * (i / S) + S := by ring
          rw [e2]; omega
        rw [emod_of_decomp _ S _ (i % S + 1) this (by omega) (by omega)]
        omega
    have htf : Int.tmod (i + S + 1) S = (i + S + 1) % S := tmod_pos _ _ (by omega)
    have hge := Int.emod_nonneg (i + S + 1) (show S ≠ 0 by omega)
    unfold GetBackwardNeighbours
    simp only [htf]
    rw [if_neg (by omega)]
    split_ifs <;> (show i + S + 1 - (S + 1) = i; omega)

theorem bwd_fwd_left (i S P : Int) (hi : 1 ≤ i) (hS : 2 ≤ S) (hE : S ≤ 94906265) :
    (GetBackwardNeighbours (GetForwardNeighbours i S P).2.2 S P).2.2 = i := by
  have hp1 : powTwo (S - 1) = (S - 1) * (S - 1) := powTwo_exact _ (by omega)
  have ht : Int.tmod i S = i % S := tmod_pos i S (by omega)
  have hm0 := Int.emod_nonneg i (show S ≠ 0 by omega)
  have hm1 := Int.emod_lt_of_pos i (show 0 < S by omega)
  have hiq : i = i % S + S * (i / S) := (Int.emod_add_ediv i S).symm
  by_cases h1 : i % S = 1
  · have hf : (GetForwardNeighbours i S P).2.2 = i + S * P - (S - 1) * (S - 1) := by
      unfold GetForwardNeighbours
      simp only [ht, h1, hp1]
      rfl
    rw [hf]
    have hdvd : S ∣ i + S * P - (S - 1) * (S - 1) := by
      refine ⟨i / S + P - S + 2, ?_⟩
      rw [h1] at hiq
      have e2 : S * (i / S + P - S + 2) = S * (i / S) + S * P - S * S + 2 * S := by ring
      have e3 : (S - 1) * (S - 1) = S * S - 2 * S + 1 := by ring
      rw [e2, e3]
      omega
    have hz : Int.tmod (i + S * P - (S - 1) * (S - 1)) S = 0 := Int.tmod_eq_zero_of_dvd hdvd
    unfold GetBackwardNeighbours
    simp only [hz, hp1]
    show i + S * P - (S - 1) * (S - 1) - S * P + (S - 1) * (S - 1) = i
    omega
  · have hf : (GetForwardNeighbours i S P).2.2 = i + S - 1 := by
      unfold GetForwardNeighbours
      simp only [ht]
      rw [if_neg (by omega)]
      split
      · rfl
      · show i + (S - 1) = _; omega
    rw [hf]
    have hE : (i + S - 1) % S ≠ 0 := by
      by_cases h0 : i % S = 0
      · have : i + S - 1 = (S - 1) + S * (i / S) := by omega
        rw [emod_of_decomp _ S _ (S - 1) this (by omega) (by omega)]
        omega
      · have : i + S - 1 = (i % S - 1) + S * (i / S + 1) := by
          have e2 : S * (i / S + 1) = S * (i / S) + S := by ring
          rw [e2]; omega
        rw [emod_of_decomp _ S _ (i % S - 1) this (by omega) (by omega)]
        omega
    have htf : Int.tmod (i + S - 1) S = (i + S - 1) % S := tmod_pos _ _ (by omega)
    unfold GetBackwardNeighbours
    simp only [htf]
    split_ifs <;> first | (exfalso; omega) | (show i + S - 1 - (S - 1) = i; omega)

theorem bwd_fwd_horizontal (i S P : Int) :
    (GetBackwardNeighbours (GetForwardNeighbours i S P).2.1 S P).2.1 = i := by
  have hf : (GetForwardNeighbours i S P).2.1 = i + S := by
    unfold GetForwardNeighbours
    simp only []
    split_ifs <;> rfl
  rw [hf]
  unfold GetBackwardNeighbours
  simp only []
  split_ifs <;> (show i + S - S = i; omega)

theorem fwd_bwd_all (k : StrandClass) (i : Int) (hi : 1 ≤ i) : fwd k (bwd k i) = i := by
  by_cases h6 : 6 ≤ i
  · exact (fwd_bwd k i h6).2.2
  · have h5 : i = 1 ∨ i = 2 ∨ i = 3 ∨ i = 4 ∨ i = 5 := by omega
    rcases h5 with rfl | rfl | rfl | rfl | rfl <;> cases k <;> decide

/-- C23 as stated fails in two ways. For `P <= S - 2` a forward neighbour can be negative
and the backward step takes the wrong branch: `S = 4`, `P = 1`, `i = 4` gives the right
forward neighbour -7, whose right backward neighbour is -12. For `S >= 94906266` the
float64 square of the code is rounded: `S = P = 94906266`, `i = S` gives the right forward
neighbour `S`, whose right backward neighbour is -1. -/
theorem mirror_counterexample :
    (GetForwardNeighbours 4 4 1).1 = -7 ∧
    (GetBackwardNeighbours (GetForwardNeighbours 4 4 1).1 4 1).1 = -12 ∧
    (GetForwardNeighbours 94906266 94906266 94906266).1 = 94906266 ∧
    (GetBackwardNeighbours (GetForwardNeighbours 94906266 94906266 94906266).1
      94906266 94906266).1 = -1 := by decide

/-- C23 with the bounds it needs: for every `S` with `2 <= S <= 94906265` (the float64
squares of the code are exact), every `P` with `P >= S - 1` or `S = 5`, every position
`i >= 1` and every class, the backward neighbour of the forward neighbour of `i` is `i`;
and for `S = P = 5` the forward neighbour of the backward neighbour of `i` is `i` as well,
also when the backward neighbour is zero or negative. -/
theorem neighbours_mirror (i S P : Int) (hi : 1 ≤ i) (hS : 2 ≤ S) (hE : S ≤ 94906265)
    (hSP : S - 1 ≤ P ∨ S = 5) (k : StrandClass) :
    (GetBackwardNeighbours ((GetForwardNeighbours i S P).get k) S P).get k = i ∧
    (GetForwardNeighbours ((GetBackwardNeighbours i 5 5).get k) 5 5).get k = i := by
  refine ⟨?_, fwd_bwd_all k i hi⟩
  cases k
  · exact bwd_fwd_horizontal i S P
  · exact bwd_fwd_right i S P hi hS hE hSP
  · exact bwd_fwd_left i S P hi hS hE

/-- Witness for C23: the largest exact `S` with `P = S - 1`, at a bottom-row position. -/
theorem neighbours_mirror_witness :
    (GetBackwardNeighbours ((GetForwardNeighbours 94906265 94906265 94906264).get .Right)
      94906265 94906264).get .Right = 94906265 ∧
    (GetForwardNeighbours ((GetBackwardNeighbours 94906265 5 5).get .Right) 5 5).get .Right
      = 94906265 :=
  neighbours_mirror 94906265 94906265 94906264 (by decide) (by decide) (by decide)
    (Or.inl (by decide)) .Right

/-- The right-extreme list as a filter of `1..n`. -/
theorem RightExtremeIndex_filter (e : Entangler) (hS : e.S = 5) (hP : e.P = 5)
    (hA : e.Alpha = 3) (n : Nat) (hn : e.NumDataBlocks = (n : Int)) :
    (setDatablocksToClose e).RightExtremeIndex =
      ((List.range n).map (fun (i : Nat) => (i : Int) + 1)).filter (fun i =>
        decide (fwd .Right i > (n : Int) ∨ fwd .Horizontal i > (n : Int) ∨
          fwd .Left i > (n : Int))) := by
  have h0 : 0 ≤ e.NumDataBlocks := by omega
  have hsorted := RightExtremeIndex_sorted e hS hP hA h0
  have hmem := mem_RightExtremeIndex e hS hP hA h0
  have htarget : ((List.range n).map (fun (i : Nat) => (i : Int) + 1)).Pairwise
      (fun a b => a < b) := by
    rw [List.pairwise_map]
    exact (List.pairwise_lt_range n).imp (fun h => by omega)
  have ht := htarget.filter (fun i => decide (fwd .Right i > (n : Int) ∨ fwd .Horizontal i > (n : Int) ∨
          fwd .Left i > (n : Int)))
  apply List.eq_of_perm_of_sorted (r := fun a b : Int => a ≤ b) _
    (hsorted.imp (fun h => by omega)) (ht.imp (fun h => by omega))
  rw [List.perm_ext_iff_of_nodup (hsorted.imp (fun h => by omega)) (ht.imp (fun h => by omega))]
  intro x
  rw [hmem x, hn, List.mem_filter, List.mem_map, decide_eq_true_iff]
  constructor
  · rintro ⟨h1, h2, k, hk⟩
    refine ⟨⟨(x - 1).toNat, List.mem_range.2 (by omega), by omega⟩, ?_⟩
    cases k
    · exact Or.inr (Or.inl hk)
    · exact Or.inl hk
    · exact Or.inr (Or.inr hk)
  · rintro ⟨⟨i, hi, rfl⟩, hf⟩
    rw [List.mem_range] at hi
    refine ⟨by omega, by omega, ?_⟩
    rcases hf with h | h | h
    · exact ⟨.Right, h⟩
    · exact ⟨.Horizontal, h⟩
    · exact ⟨.Left, h⟩

theorem extreme_set_259_counterexample :
    (setDatablocksToClose { NewEntangler 5 5 5 3 4096 with NumDataBlocks := 259 }).RightExtremeIndex
      ≠ [1, 2, 3, 4, 5] := by
  intro h
  have h1 : (1 : Int) ∈ (setDatablocksToClose
      { NewEntangler 5 5 5 3 4096 with NumDataBlocks := 259 }).RightExtremeIndex := by
    rw [h]; decide
  obtain ⟨-, -, k, hk⟩ := (mem_RightExtremeIndex _ rfl rfl rfl (by decide) 1).1 h1
  have := fwd_gt k 1 (by decide)
  have hk' : fwd k 1 > 259 := hk
  omega

/-- C29 as the code has it: for `S = P = 5`, `alpha = 3` and 259 data blocks (a file of
256 chunks), `setDatablocksToClose` sets the right-extreme list to
`[251, 254, 255, 256, 257, 258, 259]`, the positions with a forward neighbour beyond 259;
the set `{1, 2, 3, 4, 5}` is the set of replaced parity indices. -/
theorem extreme_set_259 (e : Entangler) (hS : e.S = 5) (hP : e.P = 5) (hA : e.Alpha = 3)
    (hn : e.NumDataBlocks = 259) (hR : e.RightExtremeIndex = []) :
    (setDatablocksToClose e).RightExtremeIndex = [251, 254, 255, 256, 257, 258, 259] ∧
    ∃ e' keys, GetReplacedParityIndices e = some (e', keys) ∧
      ∀ y, y ∈ keys ↔ y = 1 ∨ y = 2 ∨ y = 3 ∨ y = 4 ∨ y = 5 := by
  constructor
  · rw [RightExtremeIndex_filter e hS hP hA 259 hn]
    have hsplit : List.range 259 = List.range 250 ++ (List.range 9).map (fun i => 250 + i) :=
      List.range_add 250 9
    rw [hsplit, List.map_append, List.filter_append]
    have hnil : ((List.range 250).map (fun (i : Nat) => (i : Int) + 1)).filter (fun i =>
        decide (fwd .Right i > ((259 : Nat) : Int) ∨ fwd .Horizontal i > ((259 : Nat) : Int) ∨
          fwd .Left i > ((259 : Nat) : Int))) = [] := by
      rw [List.filter_eq_nil_iff]
      intro x hx
      rw [List.mem_map] at hx
      obtain ⟨i, hi, rfl⟩ := hx
      rw [List.mem_range] at hi
      have g1 := fwd_gt .Right ((i : Int) + 1) (by omega)
      have g2 := fwd_gt .Horizontal ((i : Int) + 1) (by omega)
      have g3 := fwd_gt .Left ((i : Int) + 1) (by omega)
      rw [decide_eq_true_iff]
      push_cast
      omega
    rw [hnil]
    decide
  · obtain ⟨keys, hk, hmem⟩ := GetReplacedParityIndices_spec e hS hP hA (by omega) hR
    refine ⟨_, keys, hk, ?_⟩
    intro y
    rw [hmem, hn]
    have := replaced_iff 259 (by decide) y
    simp only [Nat.cast_ofNat] at this
    rw [this]
    omega

theorem extreme_set_259_witness :
    (setDatablocksToClose
      { NewEntangler 5 5 5 3 4096 with NumDataBlocks := 259 }).RightExtremeIndex =
      [251, 254, 255, 256, 257, 258, 259] :=
  (extreme_set_259 { NewEntangler 5 5 5 3 4096 with NumDataBlocks := 259 } rfl rfl rfl rfl rfl).1

/-! ### `GetTreeIndexBySize` -/

/-- Test vectors of `TestGetTreeIndexBySize`. -/
theorem GetTreeIndexBySize_vectors :
    GetTreeIndexBySize 1 2048 = some 1 ∧ GetTreeIndexBySize 1 4096 = some 1 ∧
    GetTreeIndexBySize 1 6144 = some 3 ∧ GetTreeIndexBySize 2 (128 * 4096) = some 129 ∧
    GetTreeIndexBySize 2 (128 * 4096 + 1) = some 131 ∧
    GetTreeIndexBySize 2 (128 ^ 2 * 4096) = some (1 + 128 + 128 ^ 2) ∧
    GetTreeIndexBySize 9 1048576 = some 259 := by
  decide

/-- With seven full levels the loop makes no progress: `indexAt(7)` and `leavesAt(7)` are
both 0. -/
theorem treeIndexLoop_stuck : ∀ (fuel : Nat) (ctr : Int),
    treeIndexLoop (2 ^ 50) fuel (1, 2 ^ 50, 7, ctr) = none
  | 0, ctr => by
    unfold treeIndexLoop
    rw [if_pos (by decide)]
  | fuel + 1, ctr => by
    have h := treeIndexLoop_stuck fuel (ctr + 1)
    unfold treeIndexLoop
    have hfd : floorDepth (2 ^ 50) = 7 := by decide
    have hi : indexAt 7 = 0 := by decide
    have hl : leavesAt 7 = 0 := by decide
    have hs : ∀ c : Int, hasSiblingsAtSameHeight (2 ^ 50) (2 ^ 50) (2 ^ 50) c false = false := by
      intro c
      unfold hasSiblingsAtSameHeight
      rw [if_neg (by decide), if_neg (by decide), if_pos (by decide)]
      decide
    simp only [hfd, hi, hl]
    rw [if_pos (by decide)]
    simp only [ne_eq, not_true_eq_false, decide_False, Bool.false_eq_true, if_false,
      Int.add_zero, Int.sub_zero, hs]
    exact h

/-- C5 at a failing input: for `size = 2^62` (a valid `uint64`) the loop of
`GetTreeIndexBySize` never ends, whatever the number of iterations allowed, so the
function returns no node count. -/
theorem tree_index_no_result : ∀ fuel : Nat, GetTreeIndexBySize fuel (2 ^ 62) = none := by
  intro fuel
  unfold GetTreeIndexBySize
  rw [if_neg (by decide)]
  have h1 : (((2 ^ 62 / ChunkSize : Nat) : Nat) : Int) = 2 ^ 50 := by decide
  have h2 : ¬ (2 ^ 62 % ChunkSize ≠ 0) := by decide
  simp only [h1]
  rw [if_neg h2]
  have hfd : floorDepth (2 ^ 50) = 7 := by decide
  rw [hfd, treeIndexLoop_stuck fuel 0]

/-- C28 at a failing pair: `4096 <= 2^62`, `GetTreeIndexBySize(4096)` is 1, and
`GetTreeIndexBySize(2^62)` has no value to compare it with, since its loop never ends. -/
theorem tree_index_pair_no_result :
    GetTreeIndexBySize 0 4096 = some 1 ∧ ∀ fuel : Nat, GetTreeIndexBySize fuel (2 ^ 62) = none := by
  refine ⟨by decide, ?_⟩
  intro fuel
  unfold GetTreeIndexBySize
  rw [if_neg (by decide)]
  have h1 : (((2 ^ 62 / ChunkSize : Nat) : Nat) : Int) = 2 ^ 50 := by decide
  have h2 : ¬ (2 ^ 62 % ChunkSize ≠ 0) := by decide
  simp only [h1]
  rw [if_neg h2]
  have hfd : floorDepth (2 ^ 50) = 7 := by decide
  rw [hfd, treeIndexLoop_stuck fuel 0]

set_option maxRecDepth 100000 in
/-- C30 at a failing input: in the closed lattice of 25 nine-byte chunks, every block but
the data block at position 11 loaded with its payload, `XORBlocks(a, b)` for the horizontal
parity `a` that ends at position 11 and the right-class parity `b` that starts there
returns the data block, without error, filled with `a.Data xor b.Data`: nine bytes 2,
while the chunk is nine bytes 11. The two parities are of different classes, which the
case of two parities does not check. -/
theorem xor_blocks_other_class :
    sampleXORBlocks 40 56 10 = some ([2, 2, 2, 2, 2, 2, 2, 2, 2], some 10, none) ∧
    sampleChunks9[10]? = some [11, 11, 11, 11, 11, 11, 11, 11, 11] := by
  decide

/-! ### Repair of a data block from the parities of one class -/

theorem take_pad_put (x : List Nat) (size z : Nat)
    (hp : putUint64 x size = some x) :
    (((List.range 8).map (fun i => (size / 256 ^ i) % 256) ++
      (x ++ List.replicate z 0).drop 8).take x.length) = x := by
  unfold putUint64 at hp
  by_cases h8 : x.length < 8
  · rw [if_pos h8] at hp; cases hp
  · rw [if_neg h8] at hp
    have hx := Option.some.inj hp
    have hd : (x ++ List.replicate z 0).drop 8 = x.drop 8 ++ List.replicate z 0 := by
      rw [List.drop_append_of_le_length (by omega)]
    rw [hd, ← List.append_assoc, hx]
    exact List.take_left' rfl

/-- `Repair` through the pair of a class on the loaded lattice, for chunks of any length. -/
theorem repair_left_right_pad (c : Nat) (d : List (List Nat)) (hn : 25 ≤ d.length) (m : Int)
    (sizeList : List ChunkMetadata)
    (hm : m = (d.length : Int) ∨ (m = 0 ∧ sizeList.length = d.length))
    (hwf : MetaWF d.length sizeList) :
    ∃ l' eb, RunInit (NewLattice 3 5 5 m) sizeList = some l' ∧ closedRun c d = some eb ∧
      ∀ (idx : Nat), idx < d.length →
        ∃ db, (loadLattice d eb l').Blocks[idx]? = some db ∧ db.Data = d.getD idx [] ∧
        ∀ (k : Nat) (now : Int), k < 3 →
          ∃ lp rp lp1 lb rb,
            db.Left[k]? = some lp ∧ db.Right[k]? = some rp ∧
            skipReplaced (loadLattice d eb l') lp = some lp1 ∧
            (∀ lpb, deref (loadLattice d eb l') lp = some lpb → lpb.Replace = false →
              lp1 = lp) ∧
            deref (loadLattice d eb l') lp1 = some lb ∧
            deref (loadLattice d eb l') rp = some rb ∧
            c ≤ rb.Data.length ∧ ((∀ x ∈ d, x.length ≤ c) → rb.Data.length = c) ∧
            (c ≤ lb.Data.length ∨ ∃ j, j < d.length ∧ lb.Data = d.getD j []) ∧
            (lb.HasData = true → rb.HasData = true →
              (db.Length = (db.Data.length : Int) →
                putUint64 db.Data db.Size = some db.Data →
                ∃ b1, Block.Repair { db with Data := [] } (some lb) (some rb) now =
                    some (b1, none) ∧ b1.Data = db.Data) ∧
              (db.Length = 0 →
                ∃ b1, Block.Repair { db with Data := [] } (some lb) (some rb) now =
                    some (b1, none) ∧
                  b1.Data = db.Data ++
                    List.replicate (rb.Data.length - db.Data.length) 0)) := by
  obtain ⟨l', replaced, hrun, hinv, -, -, hmem⟩ := RunInit_spec d.length m sizeList hm hwf
  obtain ⟨e, hE, hclosed⟩ := closedRun_eq c d hn
  have hrep : ∀ y, y ∈ replaced ↔ 1 ≤ y ∧ y ≤ 5 := fun y =>
    (hmem y).trans (replaced_iff d.length (by omega) y)
  refine ⟨l', closedBlocks c d e, hrun, hclosed, ?_⟩
  intro idx hidx
  obtain ⟨db, hdb, hp, hdd, hL3, hlinks⟩ :=
    loaded_data d (closedBlocks c d e) l' d.length replaced hinv idx hidx
  refine ⟨db, hdb, hdd, ?_⟩
  intro k now hk
  obtain ⟨j, hj, hnext, hLk, hRk⟩ := hlinks k hk
  obtain ⟨lp1, lb, hskip, hlb, hd5, hd6⟩ :=
    skip_parity c d e hE hn l' replaced hinv hrep j k hj hk
  have hrb := loaded_parity d (closedBlocks c d e) l' d.length replaced hinv idx k hidx hk
  have hrd := loaded_parity_data c d e hE hn replaced idx k hidx
  obtain ⟨-, hA, hB⟩ := payload_struct c d hn (StrandClass.ofIdx k) j idx hj hnext
  have hx : XORByteSlice lb.Data
      (loadBlock d (closedBlocks c d e) (parityBlockSpec d.length replaced idx k)).Data =
      d.getD idx [] ++ List.replicate
        ((loadBlock d (closedBlocks c d e)
          (parityBlockSpec d.length replaced idx k)).Data.length - (d.getD idx []).length) 0 := by
    rw [hrd]
    by_cases h5 : j + 1 ≤ 5
    · rw [hd5 h5, hB h5]; exact xor_back_first _ _ c
    · rw [hd6 (by omega), hA (by omega)]; exact xor_back _ _
  have hxl : (d.getD idx []).length ≤ (loadBlock d (closedBlocks c d e)
      (parityBlockSpec d.length replaced idx k)).Data.length := by
    rw [hrd]
    by_cases h5 : j + 1 ≤ 5
    · rw [hB h5, XORByteSlice_length_max]; omega
    · rw [hA (by omega), XORByteSlice_length_max]; omega
  have hrl : c ≤ (loadBlock d (closedBlocks c d e)
      (parityBlockSpec d.length replaced idx k)).Data.length := by
    rw [hrd]; exact finalBlock_length_ge c d _ _ _
  have hll : c ≤ lb.Data.length ∨ ∃ j, j < d.length ∧ lb.Data = d.getD j [] := by
    by_cases h5 : j + 1 ≤ 5
    · exact Or.inr ⟨j, hj, hd5 h5⟩
    · left; rw [hd6 (by omega)]; exact finalBlock_length_ge c d _ _ _
  have hre : (∀ x ∈ d, x.length ≤ c) → (loadBlock d (closedBlocks c d e)
      (parityBlockSpec d.length replaced idx k)).Data.length = c := by
    intro hle
    rw [hrd]; exact finalBlock_length_le c d hle _ _ _
  refine ⟨_, _, lp1, lb, _, hLk, hRk, hskip, ?_, hlb, hrb, hrl, hre, hll, ?_⟩
  · intro lpb h1 h2
    unfold skipReplaced at hskip
    rw [h1] at hskip
    simp only [h2, Bool.false_eq_true, if_false] at hskip
    exact (Option.some.inj hskip).symm
  intro hlv hrv
  have hr8 : 8 < (loadBlock d (closedBlocks c d e)
      (parityBlockSpec d.length replaced idx k)).Data.length := by
    simpa [Block.HasData] using hrv
  generalize hR : (loadBlock d (closedBlocks c d e)
      (parityBlockSpec d.length replaced idx k)) = rb at hx hxl hrl hrv hr8 ⊢
  have hXlen : (d.getD idx [] ++ List.replicate
      (rb.Data.length - (d.getD idx []).length) 0).length = rb.Data.length := by
    rw [List.length_append, List.length_replicate]; omega
  have hrepair : ∀ (r : Block),
      Block.RepairSuccess { db with Data := [] }
        (some (d.getD idx [] ++ List.replicate
          (rb.Data.length - (d.getD idx []).length) 0)) now = some (r, true) →
      Block.Repair { db with Data := [] } (some lb) (some rb) now = some (r, none) := by
    intro r hr
    unfold Block.Repair
    simp only [ptrHasData, hlv, hrv, Bool.not_true, Bool.or_self, Bool.false_eq_true, if_false,
      hx, hr]
    rfl
  constructor
  · intro hLen hput
    rw [hdd] at hLen hput
    have h8 : 8 ≤ (d.getD idx []).length := by
      unfold putUint64 at hput
      by_contra hc
      rw [if_pos (by omega)] at hput
      cases hput
    have hrs := RepairSuccess_noData { db with Data := [] } rfl
      (d.getD idx [] ++ List.replicate (rb.Data.length - (d.getD idx []).length) 0) now
      (Or.inr ⟨by show 0 ≤ db.Length; rw [hLen]; omega, by rw [hXlen]; omega, by
        show db.Length.toNat ≤ _
        rw [hXlen, hLen]
        simp only [Int.toNat_ofNat]
        exact hxl⟩)
    refine ⟨_, hrepair _ hrs, ?_⟩
    show (if db.Length = 0 then _ else _) = db.Data
    rw [if_neg (by rw [hLen]; omega), hLen, hdd]
    simp only [Int.toNat_ofNat]
    exact take_pad_put _ _ _ hput
  · intro hLen
    have hrs := RepairSuccess_noData { db with Data := [] } rfl
      (d.getD idx [] ++ List.replicate (rb.Data.length - (d.getD idx []).length) 0) now
      (Or.inl hLen)
    refine ⟨_, hrepair _ hrs, ?_⟩
    show (if db.Length = 0 then _ else _) = _
    rw [if_pos hLen, hdd]

set_option maxRecDepth 100000 in
/-- C14 as stated fails in two ways. On the closed lattice of 25 nine-byte chunks (every
chunk `i` filled with the byte `i`), for the data block at position 6 and the horizontal
class, `d.Left[0]` is a replaced parity: both parities have data, `Repair` returns nil, and
the block then holds nine bytes 15 (the left parity is `1 xor 6 xor 11 xor 16 xor 21 = 9`),
not the nine bytes 6 of its chunk. And with the 4096-byte entangler of the program, for the
data block at position 11, whose recorded length is 0 in the lattice that `RunInit` builds
without metadata: both parities of every class have data, `Repair` returns nil, and the
block then holds its nine bytes followed by 4087 zero bytes. -/
theorem repair_left_right_counterexample :
    sampleRepair 5 0 = some ([15, 15, 15, 15, 15, 15, 15, 15, 15], none, true, true) ∧
    sampleChunks9[5]? = some [6, 6, 6, 6, 6, 6, 6, 6, 6] ∧
    ∃ l' eb db, RunInit (NewLattice 3 5 5 25) [] = some l' ∧
      closedRun ChunkSize sampleChunks9 = some eb ∧
      (loadLattice sampleChunks9 eb l').Blocks[10]? = some db ∧
      db.Data = List.replicate 9 11 ∧ db.Length = 0 ∧
      ∀ k, k < 3 → ∃ lp rp lp1 lb rb b1,
        db.Left[k]? = some lp ∧ db.Right[k]? = some rp ∧
        skipReplaced (loadLattice sampleChunks9 eb l') lp = some lp1 ∧
        deref (loadLattice sampleChunks9 eb l') lp1 = some lb ∧
        deref (loadLattice sampleChunks9 eb l') rp = some rb ∧
        lb.HasData = true ∧ rb.HasData = true ∧
        Block.Repair { db with Data := [] } (some lb) (some rb) 1 = some (b1, none) ∧
        b1.Data = List.replicate 9 11 ++ List.replicate 4087 0 ∧ b1.Data ≠ db.Data := by
  refine ⟨by decide, by decide, ?_⟩
  have hwf : MetaWF sampleChunks9.length [] := by
    refine ⟨by decide, ?_, Or.inr ?_⟩
    · intro s hs; cases hs
    · intro s hs; cases hs
  have hc9 : ∀ x ∈ sampleChunks9, x.length = 9 := by decide
  obtain ⟨l', eb, hrun, hclosed, h⟩ :=
    repair_left_right_pad ChunkSize sampleChunks9 (by decide) 25 [] (Or.inl (by decide)) hwf
  obtain ⟨db, hdb, hdd, hk⟩ := h 10 (by decide)
  have hd10 : sampleChunks9.getD 10 [] = List.replicate 9 11 := by decide
  rw [hd10] at hdd
  have hL0 : (RunInit (NewLattice 3 5 5 25) []).bind
      (fun l => (l.Blocks[10]?).map Block.Length) = some 0 := by decide
  rw [hrun] at hL0
  have hL1 : (l'.Blocks[10]?).map Block.Length = some 0 := hL0
  have hLen : db.Length = 0 := by
    rw [loaded_get] at hdb
    cases hb : l'.Blocks[10]? with
    | none => rw [hb] at hdb; cases hdb
    | some b0 =>
      rw [hb] at hdb hL1
      have e : loadBlock sampleChunks9 eb b0 = db := Option.some.inj hdb
      rw [← e]
      exact Option.some.inj hL1
  refine ⟨l', eb, db, hrun, hclosed, hdb, hdd, hLen, ?_⟩
  intro k hk3
  obtain ⟨lp, rp, lp1, lb, rb, h1, h2, h3, h4, h5, h6, h7, hre, h8, h9⟩ := hk k 1 hk3
  have hrl : rb.Data.length = 4096 := hre (by decide)
  have hrv : rb.HasData = true := by
    unfold Block.HasData
    exact decide_eq_true (by omega)
  have hlv : lb.HasData = true := by
    unfold Block.HasData
    rcases h8 with h | ⟨j, hj, h⟩
    · have : ChunkSize = 4096 := rfl
      exact decide_eq_true (by omega)
    · rw [h, List.getD_eq_getElem _ _ hj, hc9 _ (List.getElem_mem _)]
      rfl
  obtain ⟨b1, hb1, hb1d⟩ := (h9 hlv hrv).2 hLen
  rw [hrl, hdd, List.length_replicate] at hb1d
  refine ⟨lp, rp, lp1, lb, rb, b1, h1, h2, h3, h5, h6, hlv, hrv, hb1, hb1d, ?_⟩
  rw [hb1d, hdd]
  intro hc
  have := congrArg List.length hc
  simp only [List.length_append, List.length_replicate] at this
  omega

/-- C14 as the code has it. For (alpha, S, P) = (3, 5, 5), an entangler of chunk size `c`,
chunks `d` of any lengths with `n = len(d) >= 25`, in the lattice of `RunInit` loaded with
the chunks and with the final parities of the closed-lattice run: for every data block `db`
and every class `k`, with `lb` the block `db.Left[k]`, or the block `db.Left[k].Left[0]` when
`db.Left[k]` is marked `Replace` (the substitution `GetRepairPairs` makes), and `rb` the
block `db.Right[k]`: when both have data, `Repair(lb, rb)` on `db` without its data returns
nil and restores the chunk if the recorded `Length` and `Size` of `db` are the length of the
chunk and the number in its first eight bytes; and if the recorded `Length` is 0 it leaves
the chunk followed by zero bytes up to the length of `rb.Data`, which is at least `c`, and
is `c` when no chunk is longer. -/
theorem repair_left_right (c : Nat) (d : List (List Nat)) (hn : 25 ≤ d.length) (m : Int)
    (sizeList : List ChunkMetadata)
    (hm : m = (d.length : Int) ∨ (m = 0 ∧ sizeList.length = d.length))
    (hwf : MetaWF d.length sizeList) :
    ∃ l' eb, RunInit (NewLattice 3 5 5 m) sizeList = some l' ∧ closedRun c d = some eb ∧
      ∀ (idx : Nat), idx < d.length →
        ∃ db, (loadLattice d eb l').Blocks[idx]? = some db ∧ db.Data = d.getD idx [] ∧
        ∀ (k : Nat) (now : Int), k < 3 →
          ∃ lp rp lp1 lb rb,
            db.Left[k]? = some lp ∧ db.Right[k]? = some rp ∧
            skipReplaced (loadLattice d eb l') lp = some lp1 ∧
            (∀ lpb, deref (loadLattice d eb l') lp = some lpb → lpb.Replace = false →
              lp1 = lp) ∧
            deref (loadLattice d eb l') lp1 = some lb ∧
            deref (loadLattice d eb l') rp = some rb ∧
            c ≤ rb.Data.length ∧ ((∀ x ∈ d, x.length ≤ c) → rb.Data.length = c) ∧
            (c ≤ lb.Data.length ∨ ∃ j, j < d.length ∧ lb.Data = d.getD j []) ∧
            (lb.HasData = true → rb.HasData = true →
              (db.Length = (db.Data.length : Int) →
                putUint64 db.Data db.Size = some db.Data →
                ∃ b1, Block.Repair { db with Data := [] } (some lb) (some rb) now =
                    some (b1, none) ∧ b1.Data = db.Data) ∧
              (db.Length = 0 →
                ∃ b1, Block.Repair { db with Data := [] } (some lb) (some rb) now =
                    some (b1, none) ∧
                  b1.Data = db.Data ++
                    List.replicate (rb.Data.length - db.Data.length) 0)) :=
  repair_left_right_pad c d hn m sizeList hm hwf

set_option maxRecDepth 100000 in
/-- Witness for C14: 25 chunks of nine bytes that begin with their span, the metadata that
records them, and the 4096-byte entangler. The data block at position 11 has the recorded
length 9, and for every class both parities have data and `Repair` restores the chunk. -/
theorem repair_left_right_witness :
    25 ≤ sampleSpanChunks.length ∧ MetaWF sampleSpanChunks.length sampleSpanMeta ∧
    ∃ l' eb db, RunInit (NewLattice 3 5 5 25) sampleSpanMeta = some l' ∧
      closedRun ChunkSize sampleSpanChunks = some eb ∧
      (loadLattice sampleSpanChunks eb l').Blocks[10]? = some db ∧
      db.Data = [9, 0, 0, 0, 0, 0, 0, 0, 11] ∧ db.Length = 9 ∧ db.Size = 9 ∧
      ∀ k, k < 3 → ∃ lp rp lp1 lb rb b1,
        db.Left[k]? = some lp ∧ db.Right[k]? = some rp ∧
        skipReplaced (loadLattice sampleSpanChunks eb l') lp = some lp1 ∧
        deref (loadLattice sampleSpanChunks eb l') lp1 = some lb ∧
        deref (loadLattice sampleSpanChunks eb l') rp = some rb ∧
        lb.HasData = true ∧ rb.HasData = true ∧
        Block.Repair { db with Data := [] } (some lb) (some rb) 1 = some (b1, none) ∧
        b1.Data = db.Data := by
  have hwf : MetaWF sampleSpanChunks.length sampleSpanMeta := by
    refine ⟨by decide, ?_, Or.inl (by decide)⟩
    intro s hs
    have : s = { Size := 9, Length := 9, Parent := 0, Children := [] } :=
      List.eq_of_mem_replicate hs
    rw [this]
    exact ⟨Or.inl rfl, fun ch hch => by cases hch⟩
  have hc9 : ∀ x ∈ sampleSpanChunks, x.length = 9 := by decide
  refine ⟨by decide, hwf, ?_⟩
  obtain ⟨l', eb, hrun, hclosed, h⟩ :=
    repair_left_right ChunkSize sampleSpanChunks (by decide) 25 sampleSpanMeta
      (Or.inl (by decide)) hwf
  obtain ⟨db, hdb, hdd, hk⟩ := h 10 (by decide)
  have hd10 : sampleSpanChunks.getD 10 [] = [9, 0, 0, 0, 0, 0, 0, 0, 11] := by decide
  rw [hd10] at hdd
  have hL0 : (RunInit (NewLattice 3 5 5 25) sampleSpanMeta).bind
      (fun l => (l.Blocks[10]?).map (fun b => (b.Length, b.Size))) = some (9, 9) := by decide
  rw [hrun] at hL0
  have hL1 : (l'.Blocks[10]?).map (fun b => (b.Length, b.Size)) = some (9, 9) := hL0
  have hLen : db.Length = 9 ∧ db.Size = 9 := by
    rw [loaded_get] at hdb
    cases hb : l'.Blocks[10]? with
    | none => rw [hb] at hdb; cases hdb
    | some b0 =>
      rw [hb] at hdb hL1
      have e : loadBlock sampleSpanChunks eb b0 = db := Option.some.inj hdb
      rw [← e]
      have e2 : (b0.Length, b0.Size) = (9, 9) := Option.some.inj hL1
      exact ⟨congrArg Prod.fst e2, congrArg Prod.snd e2⟩
  refine ⟨l', eb, db, hrun, hclosed, hdb, hdd, hLen.1, hLen.2, ?_⟩
  intro k hk3
  obtain ⟨lp, rp, lp1, lb, rb, h1, h2, h3, h4, h5, h6, h7, hre, h8, h9⟩ := hk k 1 hk3
  have hrv : rb.HasData = true := by
    unfold Block.HasData
    have : ChunkSize = 4096 := rfl
    exact decide_eq_true (by omega)
  have hlv : lb.HasData = true := by
    unfold Block.HasData
    rcases h8 with h | ⟨j, hj, h⟩
    · have : ChunkSize = 4096 := rfl
      exact decide_eq_true (by omega)
    · rw [h, List.getD_eq_getElem _ _ hj, hc9 _ (List.getElem_mem _)]
      rfl
  obtain ⟨b1, hb1, hb1d⟩ := (h9 hlv hrv).1 (by rw [hLen.1, hdd]; rfl)
    (by rw [hLen.2, hdd]; decide)
  exact ⟨lp, rp, lp1, lb, rb, b1, h1, h2, h3, h5, h6, hlv, hrv, hb1, hb1d⟩

/-! ### The tree of `BuildCompleteTree` -/

/-- For `size = 2^62` the loop of `GetTreeIndexBySize` never ends. -/
theorem GetTreeIndexBySize_stuck (fuel : Nat) : GetTreeIndexBySize fuel (2 ^ 62) = none := by
  unfold GetTreeIndexBySize
  rw [if_neg (by decide)]
  have h1 : (((2 ^ 62 / ChunkSize : Nat) : Nat) : Int) = 2 ^ 50 := by decide
  have h2 : ¬ (2 ^ 62 % ChunkSize ≠ 0) := by decide
  simp only [h1]
  rw [if_neg h2]
  have hfd : floorDepth (2 ^ 50) = 7 := by decide
  rw [hfd, treeIndexLoop_stuck fuel 0]

set_option maxRecDepth 100000 in
/-- On the file of `128 * 4096 + 1` bytes `BuildCompleteTree` returns the sample tree. -/
theorem BuildCompleteTree_sample :
    BuildCompleteTree 2 true sampleFile = some (.ok sampleTree) := by
  rfl

set_option maxRecDepth 100000 in
/-- The sample tree has the post-order numbering, and `FlattenTree` lists it in that order:
131 nodes, `out[i].Index = i + 1`. -/
theorem sampleTree_postOrdered :
    PostOrdered sampleTree ∧
    (FlattenTree sampleTree).map indicesOf =
      some ((List.range 131).map (fun (i : Nat) => (i : Int) + 1)) := by
  unfold PostOrdered
  decide

/-- C6 at a failing input: for a file of `2^62` bytes, whose root chunk has the span `2^62`
(whatever its payload and the chunks it refers to), `BuildCompleteTree` computes the index
of the root with `GetTreeIndexBySize(2^62)`, which never returns: no tree is built, for any
number of iterations allowed. -/
theorem build_tree_no_result (fuel : Nat) (emptyLeaves : Bool) (payload : Nat)
    (refs : List Chunk) :
    BuildCompleteTree fuel emptyLeaves (.mk (2 ^ 62) payload refs) = none := by
  unfold BuildCompleteTree
  simp only [GetTreeIndexBySize_stuck]

/-! ### `GetChildFromMem` -/

mutual
theorem getChildFromMem_spec : ∀ (t : TreeChunk), fileTree t = true →
    ∀ (i : Nat), 1 ≤ i → i ≤ (leavesOf t).length →
      ∃ c, (leavesOf t)[i - 1]? = some c ∧ getChildFromMem (i : Int) t = some c
  | .mk ix s l cs, h, i, h1, h2 => by
    unfold fileTree at h
    unfold leavesOf at h2 ⊢
    unfold getChildFromMem
    by_cases hc : cs.length = 0
    · rw [if_pos hc] at h h2 ⊢
      have hl : l = 0 ∨ l = (s + ChunkSizeOffset) % 2 ^ 64 := by simpa using h
      have hi : i = 1 := by simp at h2; omega
      subst hi
      have hcond : l = 0 ∨ ((1 : Nat) : Int) = 0 ∨ l = (s + ChunkSizeOffset) % 2 ^ 64 := by
        rcases hl with hl | hl
        · exact Or.inl hl
        · exact Or.inr (Or.inr hl)
      exact ⟨.mk ix s l cs, rfl, by rw [if_pos hcond]⟩
    · rw [if_neg hc] at h h2 ⊢
      rw [Bool.and_eq_true] at h
      have hl : l ≠ 0 ∧ l ≠ (s + ChunkSizeOffset) % 2 ^ 64 := by simpa using h.1
      rw [if_neg]
      · have := getChildLoop_spec cs h.2 0 i (by omega) (by omega)
        simpa using this
      · rintro (h0 | h0 | h0)
        · exact hl.1 h0
        · omega
        · exact hl.2 h0
theorem getChildLoop_spec : ∀ (cs : List TreeChunk), fileTreeList cs = true →
    ∀ (sub i : Nat), sub < i → i ≤ sub + (leavesOfList cs).length →
      ∃ c, (leavesOfList cs)[i - sub - 1]? = some c ∧
        getChildLoop (i : Int) (sub : Int) cs = some c
  | [], _, sub, i, h1, h2 => by
    unfold leavesOfList at h2
    simp at h2
    omega
  | c :: cs, h, sub, i, h1, h2 => by
    unfold fileTreeList at h
    rw [Bool.and_eq_true, Bool.and_eq_true] at h
    obtain ⟨⟨hc, hn⟩, hcs⟩ := h
    have hn' : (leavesOf c).length = (c.SubtreeSize + (ChunkSize - 1)) / ChunkSize := by
      simpa using hn
    unfold leavesOfList at h2 ⊢
    unfold getChildLoop
    rw [List.length_append] at h2
    simp only [← hn']
    by_cases hi : i ≤ sub + (leavesOf c).length
    · rw [if_pos (by exact_mod_cast hi)]
      obtain ⟨x, hx1, hx2⟩ := getChildFromMem_spec c hc (i - sub) (by omega) (by omega)
      refine ⟨x, ?_, ?_⟩
      · rw [List.getElem?_append_left (by omega)]
        exact hx1
      · have : ((i : Int) - (sub : Int)) = ((i - sub : Nat) : Int) := by omega
        rw [this]
        exact hx2
    · rw [if_neg (by intro hh; exact hi (by exact_mod_cast hh))]
      obtain ⟨x, hx1, hx2⟩ := getChildLoop_spec cs hcs (sub + (leavesOf c).length) i
        (by omega) (by omega)
      refine ⟨x, ?_, ?_⟩
      · rw [List.getElem?_append_right (by omega)]
        have : i - sub - 1 - (leavesOf c).length = i - (sub + (leavesOf c).length) - 1 := by
          omega
        rw [this]
        exact hx1
      · have : ((sub : Int) + ((leavesOf c).length : Int)) =
            ((sub + (leavesOf c).length : Nat) : Int) := by push_cast; rfl
        rw [this]
        exact hx2
end

theorem getChildLoop_beyond : ∀ (cs : List TreeChunk), fileTreeList cs = true →
    ∀ (sub i : Nat), sub + (leavesOfList cs).length < i →
      getChildLoop (i : Int) (sub : Int) cs = none
  | [], _, sub, i, _ => by
    unfold getChildLoop
    rfl
  | c :: cs, h, sub, i, h2 => by
    unfold fileTreeList at h
    rw [Bool.and_eq_true, Bool.and_eq_true] at h
    obtain ⟨⟨-, hn⟩, hcs⟩ := h
    have hn' : (leavesOf c).length = (c.SubtreeSize + (ChunkSize - 1)) / ChunkSize := by
      simpa using hn
    unfold leavesOfList at h2
    unfold getChildLoop
    rw [List.length_append] at h2
    simp only [← hn']
    rw [if_neg (by intro hh; have : i ≤ sub + (leavesOf c).length := by exact_mod_cast hh
                   omega)]
    have := getChildLoop_beyond cs hcs (sub + (leavesOf c).length) i (by omega)
    have hcast : ((sub : Int) + ((leavesOf c).length : Int)) =
        ((sub + (leavesOf c).length : Nat) : Int) := by push_cast; rfl
    rw [hcast]
    exact this

/-- C10 fails on the code for a file of one chunk: `BuildCompleteTree` returns the root as
the only node, the tree has one leaf, and `GetChildFromMem(2)` returns the root without an
error. -/
theorem get_child_from_mem_counterexample :
    BuildCompleteTree 0 true (.mk 100 100 []) = some (.ok (.mk 1 100 108 [])) ∧
    (leavesOf (.mk 1 100 108 [])).length = 1 ∧
    GetChildFromMem (.mk 1 100 108 []) 2 = .ok (.mk 1 100 108 []) :=
  ⟨rfl, rfl, rfl⟩

/-- C10 as the code has it. For a tree as `BuildCompleteTree` builds it for a file, with
`L` leaves: for every `i` with `1 <= i <= L`, `GetChildFromMem(i)` returns the `i`-th leaf
from the left without an error; for `i > L` it returns the error "could not find child"
when the root has children, and when the root is the only chunk it returns the root for
every `i`. -/
theorem get_child_from_mem (t : TreeChunk) (h : fileTree t = true) :
    (∀ i : Nat, 1 ≤ i → i ≤ (leavesOf t).length →
      ∃ c, (leavesOf t)[i - 1]? = some c ∧ GetChildFromMem t (i : Int) = .ok c) ∧
    (t.Children.length ≠ 0 → ∀ i : Nat, (leavesOf t).length < i →
      GetChildFromMem t (i : Int) = .error "could not find child") ∧
    (t.Children.length = 0 → ∀ i : Int, GetChildFromMem t i = .ok t) := by
  refine ⟨?_, ?_, ?_⟩
  · intro i h1 h2
    obtain ⟨c, hc1, hc2⟩ := getChildFromMem_spec t h i h1 h2
    refine ⟨c, hc1, ?_⟩
    unfold GetChildFromMem
    rw [hc2]
  · obtain ⟨ix, s, l, cs⟩ := t
    intro hcs i hi
    have hcs' : ¬ cs.length = 0 := hcs
    unfold fileTree at h
    rw [if_neg hcs', Bool.and_eq_true] at h
    have hl : l ≠ 0 ∧ l ≠ (s + ChunkSizeOffset) % 2 ^ 64 := by simpa using h.1
    unfold leavesOf at hi
    rw [if_neg hcs'] at hi
    have hnone := getChildLoop_beyond cs h.2 0 i (by omega)
    unfold GetChildFromMem getChildFromMem
    rw [if_neg]
    · have h0 : ((0 : Nat) : Int) = 0 := rfl
      rw [h0] at hnone
      rw [hnone]
    · rintro (h0 | h0 | h0)
      · exact hl.1 h0
      · omega
      · exact hl.2 h0
  · obtain ⟨ix, s, l, cs⟩ := t
    intro hcs i
    have hcs' : cs.length = 0 := hcs
    unfold fileTree at h
    rw [if_pos hcs'] at h
    have hl : l = 0 ∨ l = (s + ChunkSizeOffset) % 2 ^ 64 := by simpa using h
    have hcond : l = 0 ∨ i = 0 ∨ l = (s + ChunkSizeOffset) % 2 ^ 64 := by
      rcases hl with hl | hl
      · exact Or.inl hl
      · exact Or.inr (Or.inr hl)
    unfold GetChildFromMem getChildFromMem
    rw [if_pos hcond]

set_option maxRecDepth 100000 in
theorem get_child_from_mem_witness :
    fileTree sampleTree = true ∧
    (∀ i : Nat, 1 ≤ i → i ≤ (leavesOf sampleTree).length →
      ∃ c, (leavesOf sampleTree)[i - 1]? = some c ∧
        GetChildFromMem sampleTree (i : Int) = .ok c) ∧
    (sampleTree.Children.length ≠ 0 → ∀ i : Nat, (leavesOf sampleTree).length < i →
      GetChildFromMem sampleTree (i : Int) = .error "could not find child") ∧
    (sampleTree.Children.length = 0 → ∀ i : Int, GetChildFromMem sampleTree i = .ok sampleTree) :=
  ⟨by decide, get_child_from_mem sampleTree (by decide)⟩

/-! ### `FlattenTree` and `FlattenTreeWindow` -/

mutual
theorem windowWalker_eq (r : Int) : ∀ (t : TreeChunk),
    windowWalker r t = (postOrder t, (postOrder t).filter (isInternal r))
  | .mk i s l cs => by
    have ih := windowWalkerList_eq r cs
    unfold windowWalker postOrder
    rw [List.filter_append]
    by_cases hc : cs.length > 0
    · rw [if_pos hc, ih]
      dsimp only
      by_cases hi : i ≠ r
      · rw [if_pos hi]
        have h1 : isInternal r (.mk i s l cs) = true := by
          simp only [isInternal, TreeChunk.Children, TreeChunk.Index]
          exact decide_eq_true ⟨hc, hi⟩
        simp only [List.filter_cons, h1, if_true, List.filter_nil]
      · rw [if_neg hi]
        have h1 : isInternal r (.mk i s l cs) = false := by
          simp only [isInternal, TreeChunk.Children, TreeChunk.Index]
          exact decide_eq_false (fun h => hi h.2)
        simp only [List.filter_cons, h1, List.filter_nil, List.append_nil]
        simp
    · rw [if_neg hc]
      have hnil : cs = [] := by
        cases cs with
        | nil => rfl
        | cons a t => simp at hc
      subst hnil
      have h1 : isInternal r (.mk i s l []) = false := by
        simp only [isInternal, TreeChunk.Children]
        exact decide_eq_false (fun h => hc h.1)
      simp only [postOrderList, List.nil_append, List.filter_cons, h1, List.filter_nil]
      simp
theorem windowWalkerList_eq (r : Int) : ∀ (cs : List TreeChunk),
    windowWalkerList r cs = (postOrderList cs, (postOrderList cs).filter (isInternal r))
  | [] => by
    unfold windowWalkerList postOrderList
    rfl
  | c :: cs => by
    unfold windowWalkerList postOrderList
    rw [windowWalker_eq r c, windowWalkerList_eq r cs, List.filter_append]
end

theorem postOrder_last (t : TreeChunk) : ∃ pre, postOrder t = pre ++ [t] := by
  obtain ⟨i, s, l, cs⟩ := t
  exact ⟨postOrderList cs, by rw [postOrder]⟩

theorem postOrder_leaf (t : TreeChunk) (h : t.Children.length = 0) : postOrder t = [t] := by
  obtain ⟨i, s, l, cs⟩ := t
  have hnil : cs = [] := by
    cases cs with
    | nil => rfl
    | cons a t => simp [TreeChunk.Children] at h
  subst hnil
  rw [postOrder, postOrderList]
  rfl

theorem PostOrdered_index (tc : TreeChunk) (h : PostOrdered tc) (q : Nat) (x : TreeChunk)
    (hx : (postOrder tc)[q]? = some x) : x.Index = (q : Int) + 1 := by
  have h1 := congrArg (fun l => l[q]?) h
  obtain ⟨hq, -⟩ := List.getElem?_eq_some.1 hx
  simp only [List.getElem?_map, hx, Option.map_some', List.getElem?_range hq] at h1
  exact Option.some.inj h1

theorem PostOrdered_root (tc : TreeChunk) (h : PostOrdered tc) :
    tc.Index = ((postOrder tc).length : Int) ∧ 1 ≤ (postOrder tc).length ∧
    (postOrder tc)[(postOrder tc).length - 1]? = some tc := by
  obtain ⟨pre, hpre⟩ := postOrder_last tc
  have hlen : (postOrder tc).length = pre.length + 1 := by rw [hpre]; simp
  have hget : (postOrder tc)[(postOrder tc).length - 1]? = some tc := by
    rw [hlen, hpre, Nat.add_sub_cancel, List.getElem?_append_right (le_refl _)]
    simp
  refine ⟨?_, by omega, hget⟩
  have := PostOrdered_index tc h _ tc hget
  rw [this]
  omega

theorem PostOrdered_mem (tc : TreeChunk) (h : PostOrdered tc) (x : TreeChunk)
    (hx : x ∈ postOrder tc) :
    ∃ k : Nat, k < (postOrder tc).length ∧ x.Index = (k : Int) + 1 ∧
      (postOrder tc)[k]? = some x := by
  obtain ⟨k, hk⟩ := List.mem_iff_getElem?.1 hx
  obtain ⟨hq, -⟩ := List.getElem?_eq_some.1 hk
  exact ⟨k, hq, PostOrdered_index tc h k x hk, hk⟩

theorem perm_cons_set {α : Type} : ∀ (t : List α) (j : Nat) (a y : α), t[j]? = some y →
    (y :: t.set j a).Perm (a :: t)
  | [], j, a, y, h => by simp at h
  | b :: t, 0, a, y, h => by
    simp only [List.getElem?_cons_zero, Option.some.injEq] at h
    subst h
    exact List.Perm.swap a b t
  | b :: t, j + 1, a, y, h => by
    simp only [List.getElem?_cons_succ] at h
    have ih := perm_cons_set t j a y h
    simp only [List.set_cons_succ]
    exact (List.Perm.swap b y _).trans ((ih.cons b).trans (List.Perm.swap a b t))

theorem perm_set_swap {α : Type} : ∀ (l : List α) (i j : Nat) (x y : α),
    l[i]? = some x → l[j]? = some y → ((l.set i y).set j x).Perm l
  | [], i, j, x, y, hi, hj => by simp at hi
  | a :: t, 0, 0, x, y, hi, hj => by
    simp only [List.getElem?_cons_zero, Option.some.injEq] at hi hj
    subst hi
    simp
  | a :: t, 0, j + 1, x, y, hi, hj => by
    simp only [List.getElem?_cons_zero, Option.some.injEq, List.getElem?_cons_succ] at hi hj
    subst hi
    simp only [List.set_cons_zero, List.set_cons_succ]
    exact perm_cons_set t j a y hj
  | a :: t, i + 1, 0, x, y, hi, hj => by
    simp only [List.getElem?_cons_zero, Option.some.injEq, List.getElem?_cons_succ] at hi hj
    subst hj
    simp only [List.set_cons_zero, List.set_cons_succ]
    exact perm_cons_set t i a x hi
  | a :: t, i + 1, j + 1, x, y, hi, hj => by
    simp only [List.getElem?_cons_succ] at hi hj
    simp only [List.set_cons_succ]
    exact (perm_set_swap t i j x y hi hj).cons a

theorem scanWindow_spec (N : Nat) (ws s : Int) (hws : 0 ≤ ws) (hstep : 1 ≤ ws + s)
    (im lo hi : TreeChunk) (hlo : im.Children.head? = some lo)
    (hhi : im.Children.getLast? = some hi) (k : Nat) (hk : im.Index = (k : Int) + 1)
    (hkN : k < N) :
    ∀ (fuel : Nat) (j : Int) (out : List (Option TreeChunk)), 0 ≤ j →
      out.length = N → (∀ q, q < N → ∃ x, out[q]? = some (some x)) →
      (N : Int) ≤ j + fuel →
      ∃ out', scanWindow (N : Int) ws s im fuel j out = some out' ∧
        (out' = out ∨ ∃ (j' : Nat) (x : TreeChunk) (y : Option TreeChunk),
          j' < N ∧ out[j']? = some (some x) ∧ x.Children.length = 0 ∧
          ¬ (x.Index > lo.Index - ws ∧ x.Index < hi.Index + ws) ∧
          out[k]? = some y ∧ out' = (out.set j' y).set k (some x))
  | 0, j, out, hj, hlen, hall, hf => by
    unfold scanWindow
    rw [if_neg (by omega)]
    exact ⟨out, rfl, Or.inl rfl⟩
  | fuel + 1, j, out, hj, hlen, hall, hf => by
    unfold scanWindow
    by_cases hjn : j < (N : Int)
    · rw [if_pos hjn]
      obtain ⟨x, hx⟩ := hall j.toNat (by omega)
      have hg : getI out j = some (some x) := by
        unfold getI
        rw [if_neg (by omega)]
        exact hx
      simp only [hlo, hhi, hg]
      by_cases hcond : (!(decide (x.Index > lo.Index - ws) &&
          decide (x.Index < hi.Index + ws)) && decide (x.Children.length = 0)) = true
      · rw [if_pos hcond]
        obtain ⟨y, hy⟩ := hall k hkN
        have hkt : (im.Index - 1).toNat = k := by omega
        have hgk : getI out (im.Index - 1) = some (some y) := by
          unfold getI
          rw [if_neg (by omega), hkt]
          exact hy
        have hs1 : setI out j (some y) = some (out.set j.toNat (some y)) := by
          unfold setI
          rw [if_neg (by omega), if_pos (by omega)]
        have hs2 : setI (out.set j.toNat (some y)) (im.Index - 1) (some x) =
            some ((out.set j.toNat (some y)).set k (some x)) := by
          unfold setI
          rw [if_neg (by omega), hkt, if_pos (by rw [List.length_set]; omega)]
        simp only [hgk, hs1, hs2]
        simp only [Bool.and_eq_true, Bool.not_eq_true', decide_eq_true_eq,
          Bool.and_eq_false_imp] at hcond
        refine ⟨_, rfl, Or.inr ⟨j.toNat, x, some y, by omega, hx, hcond.2, ?_, hy, rfl⟩⟩
        rintro ⟨h1, h2⟩
        have := hcond.1 h1
        simp at this
        omega
      · rw [if_neg hcond]
        exact scanWindow_spec N ws s hws hstep im lo hi hlo hhi k hk hkN fuel (j + (ws + s)) out
          (by omega) hlen hall (by push_cast at hf ⊢; omega)
    · rw [if_neg hjn]
      exact ⟨out, rfl, Or.inl rfl⟩

theorem Placed_mono (ws : Int) (done : List TreeChunk) (im x : TreeChunk) (q : Nat)
    (h : Placed ws done x q) : Placed ws (done ++ [im]) x q := by
  intro lo hi hlo hhi
  rcases h lo hi hlo hhi with h1 | h1 | ⟨y, hy, h2⟩
  · exact Or.inl h1
  · exact Or.inr (Or.inl h1)
  · exact Or.inr (Or.inr ⟨y, List.mem_append_left _ hy, h2⟩)

theorem WindowInv_skip (tc : TreeChunk) (ws : Int) (done rest : List TreeChunk)
    (im : TreeChunk) (out : List (Option TreeChunk))
    (h : WindowInv tc ws done (im :: rest) out) : WindowInv tc ws (done ++ [im]) rest out := by
  obtain ⟨hperm, hlast, hhome, hB⟩ := h
  refine ⟨hperm, hlast, fun x hx => hhome x (List.mem_cons_of_mem _ hx), ?_⟩
  intro q x hq
  rcases hB q x hq with h1 | ⟨h1, y, hy, h2⟩ | ⟨h1, h2⟩
  · exact Or.inl h1
  · exact Or.inr (Or.inl ⟨h1, y, List.mem_append_left _ hy, h2⟩)
  · exact Or.inr (Or.inr ⟨List.mem_append_left _ h1, Placed_mono ws done im x q h2⟩)

theorem WindowInv_swap (tc : TreeChunk) (ws : Int) (done rest : List TreeChunk)
    (im lo hi x : TreeChunk) (out : List (Option TreeChunk)) (k j : Nat)
    (hH : ∀ y ∈ done ++ im :: rest, y.Children.length > 0 ∧ y.Index ≠ tc.Index)
    (hP : (done ++ im :: rest).Pairwise (fun a b => a.Index ≠ b.Index))
    (hroot : tc.Children.length > 0)
    (hN : tc.Index = ((postOrder tc).length : Int))
    (hlo : im.Children.head? = some lo) (hhi : im.Children.getLast? = some hi)
    (hk : im.Index = (k : Int) + 1) (hkout : out[k]? = some (some im))
    (hxj : out[j]? = some (some x)) (hleaf : x.Children.length = 0)
    (hwin : ¬ (x.Index > lo.Index - ws ∧ x.Index < hi.Index + ws))
    (h : WindowInv tc ws done (im :: rest) out) :
    WindowInv tc ws (done ++ [im]) rest ((out.set j (some im)).set k (some x)) := by
  obtain ⟨hperm, hlast, hhome, hB⟩ := h
  have him := hH im (by simp)
  rw [List.pairwise_append, List.pairwise_cons] at hP
  obtain ⟨-, ⟨hP1, -⟩, hP2⟩ := hP
  have hjk : j ≠ k := by
    rintro rfl
    rw [hxj] at hkout
    have : x = im := Option.some.inj (Option.some.inj hkout)
    rw [this] at hleaf
    omega
  have hkl : k < out.length := by
    by_contra hcon
    rw [List.getElem?_eq_none (by omega)] at hkout
    cases hkout
  have hjl : j < out.length := by
    by_contra hcon
    rw [List.getElem?_eq_none (by omega)] at hxj
    cases hxj
  have hget : ∀ q, ((out.set j (some im)).set k (some x))[q]? =
      if k = q then some (some x) else if j = q then some (some im) else out[q]? := by
    intro q
    rw [List.getElem?_set, List.length_set]
    by_cases h1 : k = q
    · rw [if_pos h1, if_pos h1, if_pos hkl]
    · rw [if_neg h1, if_neg h1, List.getElem?_set]
      by_cases h2 : j = q
      · rw [if_pos h2, if_pos h2, if_pos hjl]
      · rw [if_neg h2, if_neg h2]
  refine ⟨?_, ?_, ?_, ?_⟩
  · exact (perm_set_swap out j k (some x) (some im) hxj hkout).trans hperm
  · rw [hget]
    have h1 : k ≠ (postOrder tc).length - 1 := by
      intro hc
      have := him.2
      rw [hN, hk, hc] at this
      have hlen := hperm.length_eq
      rw [List.length_map] at hlen
      omega
    have h2 : j ≠ (postOrder tc).length - 1 := by
      intro hc
      rw [hc, hlast] at hxj
      have : tc = x := Option.some.inj (Option.some.inj hxj)
      rw [← this] at hleaf
      omega
    rw [if_neg h1, if_neg h2]
    exact hlast
  · intro y hy
    obtain ⟨k2, hk2, hout2⟩ := hhome y (List.mem_cons_of_mem _ hy)
    refine ⟨k2, hk2, ?_⟩
    rw [hget]
    have h1 : k ≠ k2 := by
      intro hc
      have := hP1 y hy
      rw [hk, hk2, hc] at this
      exact this rfl
    have h2 : j ≠ k2 := by
      intro hc
      rw [hc, hout2] at hxj
      have : y = x := Option.some.inj (Option.some.inj hxj)
      have hy2 := (hH y (by simp [hy])).1
      rw [this] at hy2
      omega
    rw [if_neg h1, if_neg h2]
    exact hout2
  · intro q z hq
    rw [hget] at hq
    by_cases h1 : k = q
    · rw [if_pos h1] at hq
      have hz : x = z := Option.some.inj (Option.some.inj hq)
      subst hz
      subst h1
      exact Or.inr (Or.inl ⟨hleaf, im, by simp, hk⟩)
    · rw [if_neg h1] at hq
      by_cases h2 : j = q
      · rw [if_pos h2] at hq
        have hz : im = z := Option.some.inj (Option.some.inj hq)
        subst hz
        subst h2
        refine Or.inr (Or.inr ⟨by simp, ?_⟩)
        intro lo' hi' hlo' hhi'
        have e1 : lo' = lo := Option.some.inj (hlo'.symm.trans hlo)
        have e2 : hi' = hi := Option.some.inj (hhi'.symm.trans hhi)
        subst e1 e2
        rcases hB j x hxj with h3 | ⟨-, y, hy, h3⟩ | ⟨h3, -⟩
        · rw [h3] at hwin
          by_cases h4 : (j : Int) + 1 > lo'.Index - ws
          · right; left
            by_contra h5
            exact hwin ⟨h4, by omega⟩
          · left; omega
        · right; right
          exact ⟨y, List.mem_append_left _ hy, hP2 y hy im (by simp), h3⟩
        · have := (hH x (by simp [h3])).1
          omega
      · rw [if_neg h2] at hq
        rcases hB q z hq with h3 | ⟨h3, y, hy, h4⟩ | ⟨h3, h4⟩
        · exact Or.inl h3
        · exact Or.inr (Or.inl ⟨h3, y, List.mem_append_left _ hy, h4⟩)
        · exact Or.inr (Or.inr ⟨List.mem_append_left _ h3, Placed_mono ws done im z q h4⟩)

theorem shiftNodes_spec (tc : TreeChunk) (ws s : Int) (hws : 0 ≤ ws) (hstep : 1 ≤ ws + s)
    (fuel : Nat) (hfuel : (postOrder tc).length ≤ fuel)
    (hN : tc.Index = ((postOrder tc).length : Int)) :
    ∀ (todo done : List TreeChunk) (out : List (Option TreeChunk)),
      (∀ y ∈ done ++ todo, y.Children.length > 0 ∧ y.Index ≠ tc.Index) →
      (done ++ todo).Pairwise (fun a b => a.Index ≠ b.Index) →
      (tc.Children.length > 0 ∨ todo = []) →
      WindowInv tc ws done todo out →
      ∃ out', shiftNodes fuel tc.Index ws s todo out = some out' ∧
        WindowInv tc ws (done ++ todo) [] out'
  | [], done, out, _, _, _, hinv => by
    refine ⟨out, by unfold shiftNodes; rfl, ?_⟩
    rw [List.append_nil]
    exact hinv
  | im :: rest, done, out, hH, hP, hroot, hinv => by
    have hperm := hinv.1
    have hhome := hinv.2.2.1
    have hlen : out.length = (postOrder tc).length := by
      rw [hperm.length_eq, List.length_map]
    have hall : ∀ q, q < (postOrder tc).length → ∃ x, out[q]? = some (some x) := by
      intro q hq
      have hq' : q < out.length := by omega
      have hm : out[q] ∈ out := List.getElem_mem _
      have hm2 := hperm.mem_iff.1 hm
      rw [List.mem_map] at hm2
      obtain ⟨x, -, hx⟩ := hm2
      exact ⟨x, by rw [List.getElem?_eq_getElem hq', ← hx]⟩
    have him := hH im (by simp)
    have hrc : tc.Children.length > 0 := by
      rcases hroot with h | h
      · exact h
      · cases h
    obtain ⟨k, hk, hkout⟩ := hhome im (List.mem_cons_self _ _)
    have hkN : k < (postOrder tc).length := by
      by_contra hcon
      rw [List.getElem?_eq_none (by omega)] at hkout
      cases hkout
    obtain ⟨lo, hlo⟩ : ∃ lo, im.Children.head? = some lo := by
      cases hc : im.Children with
      | nil => rw [hc] at him; simp at him
      | cons a t => exact ⟨a, rfl⟩
    obtain ⟨hi, hhi⟩ : ∃ hi, im.Children.getLast? = some hi := by
      cases hc : im.Children.getLast? with
      | none =>
        rw [List.getLast?_eq_none_iff] at hc
        rw [hc] at him
        simp at him
      | some a => exact ⟨a, rfl⟩
    obtain ⟨out1, hscan, hres⟩ := scanWindow_spec (postOrder tc).length ws s hws hstep im lo hi
      hlo hhi k hk hkN fuel ws out hws hlen hall (by omega)
    have hdone : WindowInv tc ws (done ++ [im]) rest out1 := by
      rcases hres with h | ⟨j, x, y, -, hxj, hleaf, hwin, hyk, hout1⟩
      · rw [h]
        exact WindowInv_skip tc ws done rest im out hinv
      · have hy : y = some im := Option.some.inj (hyk.symm.trans hkout)
        rw [hout1, hy]
        exact WindowInv_swap tc ws done rest im lo hi x out k j hH hP hrc hN hlo hhi hk hkout
          hxj hleaf hwin hinv
    have hH2 : ∀ y ∈ (done ++ [im]) ++ rest, y.Children.length > 0 ∧ y.Index ≠ tc.Index := by
      intro y hy
      exact hH y (by simpa using hy)
    have hP2 : ((done ++ [im]) ++ rest).Pairwise (fun a b => a.Index ≠ b.Index) := by
      rw [List.append_assoc]
      exact hP
    obtain ⟨out2, hrun, hfin⟩ := shiftNodes_spec tc ws s hws hstep fuel hfuel hN rest
      (done ++ [im]) out1 hH2 hP2 (Or.inl hrc) hdone
    refine ⟨out2, ?_, ?_⟩
    · unfold shiftNodes
      simp only [hlo, hhi]
      rw [hN] at hrun ⊢
      rw [hscan]
      exact hrun
    · rw [List.append_assoc] at hfin
      exact hfin

/-- The run of `FlattenTreeWindow` on a tree with the post-order numbering. -/
theorem FlattenTreeWindow_spec (tc : TreeChunk) (s p : Int) (hs : 0 < s) (hp : 0 ≤ p)
    (hpo : PostOrdered tc) (fuel : Nat) (hfuel : (postOrder tc).length ≤ fuel) :
    ∃ out, FlattenTreeWindow fuel tc s p = some out ∧
      WindowInv tc (s * p) ((postOrder tc).filter (isInternal tc.Index)) [] out := by
  obtain ⟨hN, h1, hlast⟩ := PostOrdered_root tc hpo
  have hws : 0 ≤ s * p := Int.mul_nonneg (le_of_lt hs) hp
  have hfill : fillOut tc.Index (postOrder tc) = some ((postOrder tc).map some) := by
    unfold fillOut
    rw [if_neg (by omega), if_pos (by omega)]
    have : tc.Index.toNat - (postOrder tc).length = 0 := by omega
    rw [this]
    simp
  have hH : ∀ y ∈ ([] : List TreeChunk) ++ (postOrder tc).filter (isInternal tc.Index),
      y.Children.length > 0 ∧ y.Index ≠ tc.Index := by
    intro y hy
    rw [List.nil_append, List.mem_filter] at hy
    simpa [isInternal] using hy.2
  have hdist : (postOrder tc).Pairwise (fun a b => a.Index ≠ b.Index) := by
    rw [List.pairwise_iff_getElem]
    intro i j hi hj hij
    have e1 := PostOrdered_index tc hpo i _ (List.getElem?_eq_getElem hi)
    have e2 := PostOrdered_index tc hpo j _ (List.getElem?_eq_getElem hj)
    rw [e1, e2]
    omega
  have hP : (([] : List TreeChunk) ++ (postOrder tc).filter (isInternal tc.Index)).Pairwise
      (fun a b => a.Index ≠ b.Index) := by
    rw [List.nil_append]
    exact hdist.filter _
  have hroot : tc.Children.length > 0 ∨ (postOrder tc).filter (isInternal tc.Index) = [] := by
    by_cases hc : tc.Children.length > 0
    · exact Or.inl hc
    · right
      rw [postOrder_leaf tc (by omega)]
      have hi : isInternal tc.Index tc = false := by
        simp only [isInternal]
        exact decide_eq_false
          (fun (h : tc.Children.length > 0 ∧ tc.Index ≠ tc.Index) => h.2 rfl)
      simp only [List.filter_cons, hi, List.filter_nil]
      simp
  have hinit : WindowInv tc (s * p) [] ((postOrder tc).filter (isInternal tc.Index))
      ((postOrder tc).map some) := by
    refine ⟨List.Perm.refl _, ?_, ?_, ?_⟩
    · rw [List.getElem?_map, hlast]
      rfl
    · intro im him
      rw [List.mem_filter] at him
      obtain ⟨k, -, hk, hget⟩ := PostOrdered_mem tc hpo im him.1
      exact ⟨k, hk, by rw [List.getElem?_map, hget]; rfl⟩
    · intro q x hq
      rw [List.getElem?_map] at hq
      cases hx : (postOrder tc)[q]? with
      | none => rw [hx] at hq; cases hq
      | some z =>
        rw [hx] at hq
        have : z = x := Option.some.inj (Option.some.inj hq)
        rw [← this]
        exact Or.inl (PostOrdered_index tc hpo q z hx)
  obtain ⟨out, hrun, hfin⟩ := shiftNodes_spec tc (s * p) s hws (by omega) fuel hfuel hN
    ((postOrder tc).filter (isInternal tc.Index)) [] ((postOrder tc).map some) hH hP hroot hinit
  refine ⟨out, ?_, ?_⟩
  · unfold FlattenTreeWindow
    simp only [windowWalker_eq, hfill]
    exact hrun
  · rw [List.nil_append] at hfin
    exact hfin

/-- C8: `FlattenTreeWindow(S, P)` returns a permutation of the post-order traversal that
`FlattenTree` returns. For a tree with the post-order numbering (as `BuildCompleteTree`
gives it), `0 < S` and `0 <= P`: both functions return, the list of `FlattenTreeWindow`
is a rearrangement of the list of `FlattenTree` (the same nodes, each as often), its length
is the index of the root, and the root is its last entry. -/
theorem flatten_window_permutation (tc : TreeChunk) (s p : Int) (hs : 0 < s) (hp : 0 ≤ p)
    (hpo : PostOrdered tc) (fuel : Nat) (hfuel : (postOrder tc).length ≤ fuel) :
    ∃ out full, FlattenTreeWindow fuel tc s p = some out ∧ FlattenTree tc = some full ∧
      full = (postOrder tc).map some ∧ out.Perm full ∧
      (out.length : Int) = tc.Index ∧ out.getLast? = some (some tc) := by
  obtain ⟨out, hrun, hperm, hlast, -, -⟩ := FlattenTreeWindow_spec tc s p hs hp hpo fuel hfuel
  obtain ⟨hN, h1, -⟩ := PostOrdered_root tc hpo
  have hlen : out.length = (postOrder tc).length := by
    rw [hperm.length_eq, List.length_map]
  refine ⟨out, (postOrder tc).map some, hrun, ?_, rfl, hperm, by rw [hlen, hN], ?_⟩
  · unfold FlattenTree fillOut
    rw [if_neg (by omega), if_pos (by omega)]
    have : tc.Index.toNat - (postOrder tc).length = 0 := by omega
    rw [this]
    simp
  · rw [List.getLast?_eq_getElem?, hlen]
    exact hlast

set_option maxRecDepth 100000 in
theorem flatten_window_permutation_witness :
    (0 : Int) < 5 ∧ (0 : Int) ≤ 5 ∧ PostOrdered sampleTree ∧
    (postOrder sampleTree).length ≤ 131 ∧
    ∃ out full, FlattenTreeWindow 131 sampleTree 5 5 = some out ∧
      FlattenTree sampleTree = some full ∧
      full = (postOrder sampleTree).map some ∧ out.Perm full ∧
      (out.length : Int) = sampleTree.Index ∧ out.getLast? = some (some sampleTree) :=
  have h : PostOrdered sampleTree := by unfold PostOrdered; decide
  ⟨by decide, by decide, h, by decide,
    flatten_window_permutation sampleTree 5 5 (by decide) (by decide) h 131 (by decide)⟩

set_option maxRecDepth 100000 in
/-- C7 fails on the code for the file of `128 * 4096 + 1` bytes: `FlattenTreeWindow(5, 5)`
returns the post-order list unchanged, so the intermediate chunk, a non-root internal node
with the index 129 and the children 1 to 128, is at position 129, inside
`[1 - 25, 128 + 25]`. -/
theorem flatten_window_counterexample :
    FlattenTreeWindow 131 sampleTree 5 5 = some ((postOrder sampleTree).map some) ∧
    ((postOrder sampleTree).map some)[128]? = some (some sampleInner) ∧
    sampleInner.Index = 129 ∧ sampleInner.Index ≠ sampleTree.Index ∧
    sampleInner.Children.head?.map TreeChunk.Index = some 1 ∧
    sampleInner.Children.getLast?.map TreeChunk.Index = some 128 ∧
    (1 : Int) - 5 * 5 ≤ 128 + 1 ∧ (128 : Int) + 1 ≤ 128 + 5 * 5 :=
  ⟨rfl, rfl, rfl, by decide, rfl, rfl, by decide, by decide⟩

/-! ### A node that stays was offered no place -/

theorem scanWindow_cases (N : Nat) (ws s : Int) (hws : 0 ≤ ws) (hstep : 1 ≤ ws + s)
    (im lo hi : TreeChunk) (hlo : im.Children.head? = some lo)
    (hhi : im.Children.getLast? = some hi) (k : Nat) (hk : im.Index = (k : Int) + 1)
    (hkN : k < N) :
    ∀ (fuel : Nat) (j : Int) (out : List (Option TreeChunk)), 0 ≤ j →
      out.length = N → (∀ q, q < N → ∃ x, out[q]? = some (some x)) →
      (N : Int) ≤ j + fuel →
      ∃ out', scanWindow (N : Int) ws s im fuel j out = some out' ∧
        ((out' = out ∧ ∀ (t j' : Nat), (j' : Int) = j + (t : Int) * (ws + s) → j' < N →
            ∀ x, out[j']? = some (some x) →
              (x.Index > lo.Index - ws ∧ x.Index < hi.Index + ws) ∨ 0 < x.Children.length) ∨
          ∃ (j' : Nat) (x : TreeChunk) (y : Option TreeChunk),
            j' < N ∧ out[j']? = some (some x) ∧ x.Children.length = 0 ∧
            ¬ (x.Index > lo.Index - ws ∧ x.Index < hi.Index + ws) ∧
            out[k]? = some y ∧ out' = (out.set j' y).set k (some x))
  | 0, j, out, hj, hlen, hall, hf => by
    unfold scanWindow
    rw [if_neg (by omega)]
    refine ⟨out, rfl, Or.inl ⟨rfl, ?_⟩⟩
    intro t j' hj' hlt
    have := Int.mul_nonneg (Int.ofNat_nonneg t) (show 0 ≤ ws + s by omega)
    omega
  | fuel + 1, j, out, hj, hlen, hall, hf => by
    unfold scanWindow
    by_cases hjn : j < (N : Int)
    · rw [if_pos hjn]
      obtain ⟨x, hx⟩ := hall j.toNat (by omega)
      have hg : getI out j = some (some x) := by
        unfold getI
        rw [if_neg (by omega)]
        exact hx
      simp only [hlo, hhi, hg]
      by_cases hcond : (!(decide (x.Index > lo.Index - ws) &&
          decide (x.Index < hi.Index + ws)) && decide (x.Children.length = 0)) = true
      · rw [if_pos hcond]
        obtain ⟨y, hy⟩ := hall k hkN
        have hkt : (im.Index - 1).toNat = k := by omega
        have hgk : getI out (im.Index - 1) = some (some y) := by
          unfold getI
          rw [if_neg (by omega), hkt]
          exact hy
        have hs1 : setI out j (some y) = some (out.set j.toNat (some y)) := by
          unfold setI
          rw [if_neg (by omega), if_pos (by omega)]
        have hs2 : setI (out.set j.toNat (some y)) (im.Index - 1) (some x) =
            some ((out.set j.toNat (some y)).set k (some x)) := by
          unfold setI
          rw [if_neg (by omega), hkt, if_pos (by rw [List.length_set]; omega)]
        simp only [hgk, hs1, hs2]
        simp only [Bool.and_eq_true, Bool.not_eq_true', decide_eq_true_eq,
          Bool.and_eq_false_imp] at hcond
        refine ⟨_, rfl, Or.inr ⟨j.toNat, x, some y, by omega, hx, hcond.2, ?_, hy, rfl⟩⟩
        rintro ⟨h1, h2⟩
        have := hcond.1 h1
        simp at this
        omega
      · rw [if_neg hcond]
        obtain ⟨out', hrun, hres⟩ := scanWindow_cases N ws s hws hstep im lo hi hlo hhi k hk
          hkN fuel (j + (ws + s)) out (by omega) hlen hall (by push_cast at hf ⊢; omega)
        refine ⟨out', hrun, ?_⟩
        rcases hres with ⟨he, hno⟩ | hsw
        · refine Or.inl ⟨he, ?_⟩
          intro t j' hj' hlt z hz
          cases t with
          | zero =>
            have hjj : j' = j.toNat := by
              simp only [Nat.cast_zero, zero_mul, add_zero] at hj'
              omega
            rw [hjj, hx] at hz
            have hzx : x = z := Option.some.inj (Option.some.inj hz)
            subst hzx
            by_cases hw : x.Index > lo.Index - ws ∧ x.Index < hi.Index + ws
            · exact Or.inl hw
            · right
              by_contra hc
              apply hcond
              have h0 : x.Children.length = 0 := by omega
              simp only [Bool.and_eq_true, Bool.not_eq_true', decide_eq_true_eq, h0,
                and_true]
              rw [Bool.and_eq_false_iff]
              by_cases h1 : x.Index > lo.Index - ws
              · right
                exact decide_eq_false (fun h2 => hw ⟨h1, h2⟩)
              · left
                exact decide_eq_false h1
          | succ t' =>
            refine hno t' j' ?_ hlt z hz
            rw [hj']
            push_cast
            ring
        · exact Or.inr hsw
    · rw [if_neg hjn]
      refine ⟨out, rfl, Or.inl ⟨rfl, ?_⟩⟩
      intro t j' hj' hlt
      have := Int.mul_nonneg (Int.ofNat_nonneg t) (show 0 ≤ ws + s by omega)
      omega

theorem shiftNodes_append (fuel : Nat) (N ws s : Int) :
    ∀ (a b : List TreeChunk) (out : List (Option TreeChunk)),
      shiftNodes fuel N ws s (a ++ b) out =
        (shiftNodes fuel N ws s a out).bind (shiftNodes fuel N ws s b)
  | [], b, out => by
    rw [List.nil_append]
    have : shiftNodes fuel N ws s [] out = some out := by rw [shiftNodes]
    rw [this]
    rfl
  | im :: a, b, out => by
    rw [List.cons_append, shiftNodes, shiftNodes]
    cases im.Children.head? with
    | none => rfl
    | some lo =>
      cases im.Children.getLast? with
      | none => rfl
      | some hi =>
        simp only []
        cases scanWindow N ws s im fuel ws out with
        | none => rfl
        | some out1 => exact shiftNodes_append fuel N ws s a b out1

theorem shiftNodes_gen (tc : TreeChunk) (ws s : Int) (hws : 0 ≤ ws) (hstep : 1 ≤ ws + s)
    (fuel : Nat) (hfuel : (postOrder tc).length ≤ fuel)
    (hN : tc.Index = ((postOrder tc).length : Int)) :
    ∀ (todo rest done : List TreeChunk) (out : List (Option TreeChunk)),
      (∀ y ∈ done ++ (todo ++ rest), y.Children.length > 0 ∧ y.Index ≠ tc.Index) →
      (done ++ (todo ++ rest)).Pairwise (fun a b => a.Index ≠ b.Index) →
      (tc.Children.length > 0 ∨ todo = []) →
      WindowInv tc ws done (todo ++ rest) out →
      ∃ out', shiftNodes fuel tc.Index ws s todo out = some out' ∧
        WindowInv tc ws (done ++ todo) rest out' ∧
        ∀ (j : Nat) (n : TreeChunk), out[j]? = some (some n) → n.Children.length > 0 →
          (∀ im ∈ todo, im.Index ≠ n.Index) → out'[j]? = some (some n)
  | [], rest, done, out, _, _, _, hinv => by
    refine ⟨out, by unfold shiftNodes; rfl, ?_, fun j n h _ _ => h⟩
    rw [List.append_nil]
    exact hinv
  | im :: todo, rest, done, out, hH, hP, hroot, hinv => by
    rw [List.cons_append] at hH hP hinv
    have hperm := hinv.1
    have hhome := hinv.2.2.1
    have hlen : out.length = (postOrder tc).length := by
      rw [hperm.length_eq, List.length_map]
    have hall : ∀ q, q < (postOrder tc).length → ∃ x, out[q]? = some (some x) := by
      intro q hq
      have hq' : q < out.length := by omega
      have hm : out[q] ∈ out := List.getElem_mem _
      have hm2 := hperm.mem_iff.1 hm
      rw [List.mem_map] at hm2
      obtain ⟨x, -, hx⟩ := hm2
      exact ⟨x, by rw [List.getElem?_eq_getElem hq', ← hx]⟩
    have him := hH im (by simp)
    have hrc : tc.Children.length > 0 := by
      rcases hroot with h | h
      · exact h
      · cases h
    obtain ⟨k, hk, hkout⟩ := hhome im (List.mem_cons_self _ _)
    have hkN : k < (postOrder tc).length := by
      by_contra hcon
      rw [List.getElem?_eq_none (by omega)] at hkout
      cases hkout
    obtain ⟨lo, hlo⟩ : ∃ lo, im.Children.head? = some lo := by
      cases hc : im.Children with
      | nil => rw [hc] at him; simp at him
      | cons a t => exact ⟨a, rfl⟩
    obtain ⟨hi, hhi⟩ : ∃ hi, im.Children.getLast? = some hi := by
      cases hc : im.Children.getLast? with
      | none =>
        rw [List.getLast?_eq_none_iff] at hc
        rw [hc] at him
        simp at him
      | some a => exact ⟨a, rfl⟩
    obtain ⟨out1, hscan, hres⟩ := scanWindow_cases (postOrder tc).length ws s hws hstep im lo hi
      hlo hhi k hk hkN fuel ws out hws hlen hall (by omega)
    have hdone : WindowInv tc ws (done ++ [im]) (todo ++ rest) out1 ∧
        ∀ (j : Nat) (n : TreeChunk), out[j]? = some (some n) → n.Children.length > 0 →
          im.Index ≠ n.Index → out1[j]? = some (some n) := by
      rcases hres with ⟨h, -⟩ | ⟨j, x, y, -, hxj, hleaf, hwin, hyk, hout1⟩
      · rw [h]
        exact ⟨WindowInv_skip tc ws done (todo ++ rest) im out hinv, fun j n hj _ _ => hj⟩
      · have hy : y = some im := Option.some.inj (hyk.symm.trans hkout)
        rw [hout1, hy]
        refine ⟨WindowInv_swap tc ws done (todo ++ rest) im lo hi x out k j hH hP hrc hN hlo
          hhi hk hkout hxj hleaf hwin hinv, ?_⟩
        intro j2 n hj2 hn hne
        have h1 : k ≠ j2 := by
          rintro rfl
          rw [hkout] at hj2
          have : im = n := Option.some.inj (Option.some.inj hj2)
          exact hne (by rw [this])
        have h2 : j ≠ j2 := by
          rintro rfl
          rw [hxj] at hj2
          have : x = n := Option.some.inj (Option.some.inj hj2)
          rw [this] at hleaf
          omega
        rw [List.getElem?_set_ne h1, List.getElem?_set_ne h2]
        exact hj2
    have hH2 : ∀ y ∈ (done ++ [im]) ++ (todo ++ rest),
        y.Children.length > 0 ∧ y.Index ≠ tc.Index := by
      intro y hy
      exact hH y (by simpa using hy)
    have hP2 : ((done ++ [im]) ++ (todo ++ rest)).Pairwise (fun a b => a.Index ≠ b.Index) := by
      rw [List.append_assoc]
      exact hP
    obtain ⟨out2, hrun, hfin, hkeep⟩ := shiftNodes_gen tc ws s hws hstep fuel hfuel hN todo rest
      (done ++ [im]) out1 hH2 hP2 (Or.inl hrc) hdone.1
    refine ⟨out2, ?_, ?_, ?_⟩
    · rw [shiftNodes]
      simp only [hlo, hhi]
      rw [hN] at hrun ⊢
      rw [hscan]
      exact hrun
    · rw [List.append_assoc] at hfin
      exact hfin
    · intro j n hj hn hne
      exact hkeep j n (hdone.2 j n hj hn (hne im (List.mem_cons_self _ _))) hn
        (fun im2 h2 => hne im2 (List.mem_cons_of_mem _ h2))

/-- A node that `FlattenTreeWindow` leaves at its post-order position was not moved by its
scan: the scan found no place in the list as it was when the node's turn came. -/
theorem flatten_stay (tc : TreeChunk) (s p : Int) (hs : 0 < s) (hp : 0 ≤ p)
    (hpo : PostOrdered tc) (fuel : Nat) (hfuel : (postOrder tc).length ≤ fuel)
    (pre post : List TreeChunk) (n lo hi : TreeChunk)
    (hsplit : (postOrder tc).filter (isInternal tc.Index) = pre ++ n :: post)
    (hlo : n.Children.head? = some lo) (hhi : n.Children.getLast? = some hi) :
    ∃ mid out, shiftNodes fuel tc.Index (s * p) s pre ((postOrder tc).map some) = some mid ∧
      FlattenTreeWindow fuel tc s p = some out ∧
      ∀ k : Nat, n.Index = (k : Int) + 1 → out[k]? = some (some n) →
        NoFreePlace tc.Index (s * p) s lo hi mid := by
  obtain ⟨hN, h1, hlast⟩ := PostOrdered_root tc hpo
  have hws : 0 ≤ s * p := Int.mul_nonneg (le_of_lt hs) hp
  have hfill : fillOut tc.Index (postOrder tc) = some ((postOrder tc).map some) := by
    unfold fillOut
    rw [if_neg (by omega), if_pos (by omega)]
    have : tc.Index.toNat - (postOrder tc).length = 0 := by omega
    rw [this]
    simp
  have hH : ∀ y ∈ pre ++ n :: post, y.Children.length > 0 ∧ y.Index ≠ tc.Index := by
    intro y hy
    rw [← hsplit, List.mem_filter] at hy
    simpa [isInternal] using hy.2
  have hdist : (postOrder tc).Pairwise (fun a b => a.Index ≠ b.Index) := by
    rw [List.pairwise_iff_getElem]
    intro i j hi hj hij
    have e1 := PostOrdered_index tc hpo i _ (List.getElem?_eq_getElem hi)
    have e2 := PostOrdered_index tc hpo j _ (List.getElem?_eq_getElem hj)
    rw [e1, e2]
    omega
  have hP : (pre ++ n :: post).Pairwise (fun a b => a.Index ≠ b.Index) := by
    rw [← hsplit]
    exact hdist.filter _
  have hnd : ((postOrder tc).map some).Nodup := by
    apply List.Nodup.map (Option.some_injective _)
    exact hdist.imp (fun h e => h (by rw [e]))
  have hn := hH n (by simp)
  have hrc : tc.Children.length > 0 := by
    by_contra hc
    have hpl := postOrder_leaf tc (by omega)
    have hi : isInternal tc.Index tc = false := by
      simp only [isInternal]
      exact decide_eq_false
        (fun (h : tc.Children.length > 0 ∧ tc.Index ≠ tc.Index) => h.2 rfl)
    rw [hpl] at hsplit
    simp only [List.filter_cons, hi, List.filter_nil] at hsplit
    simp at hsplit
  have hinit : WindowInv tc (s * p) [] (pre ++ n :: post) ((postOrder tc).map some) := by
    refine ⟨List.Perm.refl _, ?_, ?_, ?_⟩
    · rw [List.getElem?_map, hlast]
      rfl
    · intro im him
      rw [← hsplit, List.mem_filter] at him
      obtain ⟨k, -, hk, hget⟩ := PostOrdered_mem tc hpo im him.1
      exact ⟨k, hk, by rw [List.getElem?_map, hget]; rfl⟩
    · intro q x hq
      rw [List.getElem?_map] at hq
      cases hx : (postOrder tc)[q]? with
      | none => rw [hx] at hq; cases hq
      | some z =>
        rw [hx] at hq
        have : z = x := Option.some.inj (Option.some.inj hq)
        rw [← this]
        exact Or.inl (PostOrdered_index tc hpo q z hx)
  -- the nodes before `n`
  obtain ⟨mid, hrun1, hinv1, -⟩ := shiftNodes_gen tc (s * p) s hws (by omega) fuel hfuel hN
    pre (n :: post) [] ((postOrder tc).map some) (by simpa using hH) (by simpa using hP)
    (Or.inl hrc) hinit
  rw [List.nil_append] at hinv1
  have hperm1 := hinv1.1
  have hlen1 : mid.length = (postOrder tc).length := by
    rw [hperm1.length_eq, List.length_map]
  have hall1 : ∀ q, q < (postOrder tc).length → ∃ x, mid[q]? = some (some x) := by
    intro q hq
    have hq' : q < mid.length := by omega
    have hm : mid[q] ∈ mid := List.getElem_mem _
    have hm2 := hperm1.mem_iff.1 hm
    rw [List.mem_map] at hm2
    obtain ⟨x, -, hx⟩ := hm2
    exact ⟨x, by rw [List.getElem?_eq_getElem hq', ← hx]⟩
  obtain ⟨k, hk, hkmid⟩ := hinv1.2.2.1 n (List.mem_cons_self _ _)
  have hkN : k < (postOrder tc).length := by
    by_contra hcon
    rw [List.getElem?_eq_none (by omega)] at hkmid
    cases hkmid
  -- the scan of `n`
  obtain ⟨out1, hscan, hres⟩ := scanWindow_cases (postOrder tc).length (s * p) s hws (by omega)
    n lo hi hlo hhi k hk hkN fuel (s * p) mid hws hlen1 hall1 (by omega)
  have hrunN : shiftNodes fuel tc.Index (s * p) s [n] mid = some out1 := by
    rw [shiftNodes]
    simp only [hlo, hhi]
    rw [hN, hscan]
    simp only []
    rw [shiftNodes]
  obtain ⟨out1', hrunN', hinv2, -⟩ := shiftNodes_gen tc (s * p) s hws (by omega) fuel hfuel hN
    [n] post pre mid (by simpa using hH) (by simpa using hP) (Or.inl hrc) hinv1
  have he1 : out1' = out1 := Option.some.inj (hrunN'.symm.trans hrunN)
  rw [he1] at hinv2
  -- the nodes after `n`
  obtain ⟨out, hrun3, hinv3, hkeep⟩ := shiftNodes_gen tc (s * p) s hws (by omega) fuel hfuel hN
    post [] (pre ++ [n]) out1 (by simpa using hH) (by simpa using hP) (Or.inl hrc)
    (by simpa using hinv2)
  have hrunAll : FlattenTreeWindow fuel tc s p = some out := by
    unfold FlattenTreeWindow
    simp only [windowWalker_eq, hfill, hsplit]
    have e : pre ++ n :: post = pre ++ ([n] ++ post) := by simp
    rw [e, shiftNodes_append, hrun1]
    show shiftNodes fuel tc.Index (s * p) s ([n] ++ post) mid = some out
    rw [shiftNodes_append, hrunN]
    exact hrun3
  refine ⟨mid, out, hrun1, hrunAll, ?_⟩
  intro k' hk' hout
  have hkk : k' = k := by omega
  subst hkk
  rcases hres with ⟨-, hno⟩ | ⟨j, x, y, hjN, hxj, hleaf, -, hyk, hout1⟩
  · intro t j hj hlt z hz
    exact hno t j hj (by omega) z hz
  · exfalso
    have hy : y = some n := Option.some.inj (hyk.symm.trans hkmid)
    have hjk : j ≠ k' := by
      rintro rfl
      rw [hxj] at hkmid
      have : x = n := Option.some.inj (Option.some.inj hkmid)
      rw [this] at hleaf
      omega
    have hj1 : out1[j]? = some (some n) := by
      rw [hout1, hy, List.getElem?_set_ne (Ne.symm hjk), List.getElem?_set_self (by omega)]
    rw [List.pairwise_append, List.pairwise_cons] at hP
    have hj3 := hkeep j n hj1 hn.1 (fun im him => (hP.2.1.1 im him).symm)
    have hnd3 : out.Nodup := (hinv3.1.nodup_iff).2 hnd
    have hjl : j < out.length := by
      by_contra hcon
      rw [List.getElem?_eq_none (by omega)] at hj3
      cases hj3
    have hkl : k' < out.length := by
      by_contra hcon
      rw [List.getElem?_eq_none (by omega)] at hout
      cases hout
    rw [List.getElem?_eq_getElem hjl] at hj3
    rw [List.getElem?_eq_getElem hkl] at hout
    have := (List.Nodup.getElem_inj_iff hnd3).1 ((Option.some.inj hj3).trans
      (Option.some.inj hout).symm)
    exact hjk this

/-- C7 as the code has it. For a tree with the post-order numbering, `0 < S` and `0 <= P`,
every non-root internal node `n` with the children `lo .. hi` is, in the list that
`FlattenTreeWindow(S, P)` returns, at a position outside the open interval
`(lo.Index - S*P, hi.Index + S*P)`, or at the post-order position of another non-root
internal node (one that was moved before and whose place a leaf had taken), or at its own
post-order position `n.Index`, and then only because its scan found no place: with
`internalNodes = pre ++ n :: post` and `mid` the list after the scans of the nodes `pre`,
every position `S*P, S*P + (S*P + S), ...` below the root index held, in `mid`, a node with
its index inside the open window of `n` or a node with children. -/
theorem flatten_window_positions (tc : TreeChunk) (s p : Int) (hs : 0 < s) (hp : 0 ≤ p)
    (hpo : PostOrdered tc) (fuel : Nat) (hfuel : (postOrder tc).length ≤ fuel) :
    ∃ out, FlattenTreeWindow fuel tc s p = some out ∧
      ∀ (q : Nat) (n lo hi : TreeChunk), out[q]? = some (some n) →
        n.Index ≠ tc.Index → n.Children.head? = some lo → n.Children.getLast? = some hi →
        (n.Index = (q : Int) + 1 ∧
          ∃ pre post init mid, (windowWalker tc.Index tc).2 = pre ++ n :: post ∧
            fillOut tc.Index (windowWalker tc.Index tc).1 = some init ∧
            shiftNodes fuel tc.Index (s * p) s pre init = some mid ∧
            NoFreePlace tc.Index (s * p) s lo hi mid) ∨
        (q : Int) + 1 ≤ lo.Index - s * p ∨ hi.Index + s * p ≤ (q : Int) + 1 ∨
        ∃ y ∈ postOrder tc, y.Children.length > 0 ∧ y.Index ≠ tc.Index ∧
          y.Index ≠ n.Index ∧ y.Index = (q : Int) + 1 := by
  obtain ⟨out, hrun, hperm, -, -, hB⟩ := FlattenTreeWindow_spec tc s p hs hp hpo fuel hfuel
  obtain ⟨hN, h1, -⟩ := PostOrdered_root tc hpo
  have hfill : fillOut tc.Index (postOrder tc) = some ((postOrder tc).map some) := by
    unfold fillOut
    rw [if_neg (by omega), if_pos (by omega)]
    have : tc.Index.toNat - (postOrder tc).length = 0 := by omega
    rw [this]
    simp
  refine ⟨out, hrun, ?_⟩
  intro q n lo hi hq hroot hlo hhi
  have hnc : n.Children.length > 0 := by
    cases hc : n.Children with
    | nil => rw [hc] at hlo; cases hlo
    | cons a t => simp
  rcases hB q n hq with h1 | ⟨h1, -⟩ | ⟨-, h2⟩
  · left
    refine ⟨h1, ?_⟩
    have hmem : n ∈ postOrder tc := by
      have hm : some n ∈ out := List.mem_iff_getElem?.2 ⟨q, hq⟩
      have hm2 := hperm.mem_iff.1 hm
      rw [List.mem_map] at hm2
      obtain ⟨x, hx, hxe⟩ := hm2
      rw [← Option.some.inj hxe]
      exact hx
    have hint : n ∈ (postOrder tc).filter (isInternal tc.Index) := by
      rw [List.mem_filter]
      exact ⟨hmem, by simp only [isInternal]; exact decide_eq_true ⟨hnc, hroot⟩⟩
    obtain ⟨pre, post, hsplit⟩ := List.append_of_mem hint
    obtain ⟨mid, out2, hmid, hrun2, hstay⟩ :=
      flatten_stay tc s p hs hp hpo fuel hfuel pre post n lo hi hsplit hlo hhi
    have he : out2 = out := Option.some.inj (hrun2.symm.trans hrun)
    rw [he] at hstay
    refine ⟨pre, post, (postOrder tc).map some, mid, ?_, ?_, hmid, hstay q h1 hq⟩
    · rw [windowWalker_eq]
      exact hsplit
    · rw [windowWalker_eq]
      exact hfill
  · omega
  · rcases h2 lo hi hlo hhi with h3 | h3 | ⟨y, hy, h4, h5⟩
    · exact Or.inr (Or.inl h3)
    · exact Or.inr (Or.inr (Or.inl h3))
    · rw [List.mem_filter] at hy
      have hy2 : y.Children.length > 0 ∧ y.Index ≠ tc.Index := by
        simpa [isInternal] using hy.2
      exact Or.inr (Or.inr (Or.inr ⟨y, hy.1, hy2.1, hy2.2, h4, h5⟩))

set_option maxRecDepth 100000 in
/-- Witness for C7: the tree of the file of `128 * 4096 + 1` bytes. -/
theorem flatten_window_positions_witness :
    (0 : Int) < 5 ∧ (0 : Int) ≤ 5 ∧ PostOrdered sampleTree ∧
    (postOrder sampleTree).length ≤ 131 ∧
    ∃ out, FlattenTreeWindow 131 sampleTree 5 5 = some out ∧
      ∀ (q : Nat) (n lo hi : TreeChunk), out[q]? = some (some n) →
        n.Index ≠ sampleTree.Index → n.Children.head? = some lo →
        n.Children.getLast? = some hi →
        (n.Index = (q : Int) + 1 ∧
          ∃ pre post init mid,
            (windowWalker sampleTree.Index sampleTree).2 = pre ++ n :: post ∧
            fillOut sampleTree.Index (windowWalker sampleTree.Index sampleTree).1
              = some init ∧
            shiftNodes 131 sampleTree.Index (5 * 5) 5 pre init = some mid ∧
            NoFreePlace sampleTree.Index (5 * 5) 5 lo hi mid) ∨
        (q : Int) + 1 ≤ lo.Index - 5 * 5 ∨ hi.Index + 5 * 5 ≤ (q : Int) + 1 ∨
        ∃ y ∈ postOrder sampleTree, y.Children.length > 0 ∧ y.Index ≠ sampleTree.Index ∧
          y.Index ≠ n.Index ∧ y.Index = (q : Int) + 1 :=
  have h : PostOrdered sampleTree := by unfold PostOrdered; decide
  ⟨by decide, by decide, h, by decide,
    flatten_window_positions sampleTree 5 5 (by decide) (by decide) h 131 (by decide)⟩

/-! ### Chunk data, depth and leaves of the canonical index -/

/-- What `IsChunkLeaf` tests: it is true if and only if the chunk has its eight bytes of
span and `len(chunk) >= subtree_size`, the eight bytes of the span counted in the length;
so it is true whenever `len(chunk) >= subtree_size + 8`. -/
theorem IsChunkLeaf_iff (chunk : List Nat) :
    (IsChunkLeaf chunk = some true ↔
      ∃ size, RawChunkSize chunk = some size ∧ chunk.length ≥ size) ∧
    (∀ size, RawChunkSize chunk = some size → chunk.length ≥ size + 8 →
      IsChunkLeaf chunk = some true) := by
  unfold IsChunkLeaf
  cases h : RawChunkSize chunk with
  | none => simp
  | some size =>
    refine ⟨?_, ?_⟩
    · simp only [Option.some.injEq, decide_eq_true_eq, exists_eq_left', ge_iff_le]
    · intro s hs hl
      have : s = size := (Option.some.inj hs).symm
      subst this
      simp only [Option.some.injEq, decide_eq_true_eq]
      omega

theorem RawChunkSize_head (hd tl : List Nat) (h : hd.length = 8) :
    RawChunkSize (hd ++ tl) = RawChunkSize hd := by
  unfold RawChunkSize
  rw [if_neg (by rw [List.length_append]; omega), if_neg (by omega)]
  congr 2
  apply List.map_congr_left
  intro i hi
  rw [List.mem_range] at hi
  rw [List.getD_append _ _ _ _ (by omega)]

/-- C34 at a failing input: for a chunk of 104 bytes whose span says 100 `IsChunkLeaf` is
true although `104 < 100 + 8`, and so it is for a chunk of 4096 bytes (the size of the
chunks that the `Corrupt` failure mode serves) whose span says 4090. A leaf as the chunker
writes it, 100 bytes after a span of 100, is a leaf, and a chunk of 100 bytes with the span
100 is one too although it holds 92 bytes only. -/
theorem is_chunk_leaf_short_chunk :
    IsChunkLeaf ([100, 0, 0, 0, 0, 0, 0, 0] ++ List.replicate 96 0) = some true ∧
    RawChunkSize ([100, 0, 0, 0, 0, 0, 0, 0] ++ List.replicate 96 0) = some 100 ∧
    ([100, 0, 0, 0, 0, 0, 0, 0] ++ List.replicate 96 0).length = 104 ∧
    ¬ (104 ≥ 100 + 8) ∧
    IsChunkLeaf ([250, 15, 0, 0, 0, 0, 0, 0] ++ List.replicate 4088 0) = some true ∧
    RawChunkSize ([250, 15, 0, 0, 0, 0, 0, 0] ++ List.replicate 4088 0) = some 4090 ∧
    ([250, 15, 0, 0, 0, 0, 0, 0] ++ List.replicate 4088 0).length = 4096 ∧
    ¬ (4096 ≥ 4090 + 8) ∧
    IsChunkLeaf ([100, 0, 0, 0, 0, 0, 0, 0] ++ List.replicate 100 0) = some true ∧
    IsChunkLeaf ([100, 0, 0, 0, 0, 0, 0, 0] ++ List.replicate 92 0) = some true := by
  have h1 : RawChunkSize [100, 0, 0, 0, 0, 0, 0, 0] = some 100 := by decide
  have h2 : RawChunkSize [250, 15, 0, 0, 0, 0, 0, 0] = some 4090 := by decide
  have k1 : ∀ z, RawChunkSize ([100, 0, 0, 0, 0, 0, 0, 0] ++ List.replicate z 0) = some 100 :=
    fun z => (RawChunkSize_head [100, 0, 0, 0, 0, 0, 0, 0] _ rfl).trans h1
  have k2 : ∀ z, RawChunkSize ([250, 15, 0, 0, 0, 0, 0, 0] ++ List.replicate z 0) = some 4090 :=
    fun z => (RawChunkSize_head [250, 15, 0, 0, 0, 0, 0, 0] _ rfl).trans h2
  have l1 : ∀ z, ([100, 0, 0, 0, 0, 0, 0, 0] ++ List.replicate z 0).length = 8 + z := by
    intro z
    rw [List.length_append, List.length_replicate]
    rfl
  have l2 : ∀ z, ([250, 15, 0, 0, 0, 0, 0, 0] ++ List.replicate z 0).length = 8 + z := by
    intro z
    rw [List.length_append, List.length_replicate]
    rfl
  refine ⟨?_, k1 96, l1 96, by decide, ?_, k2 4088, l2 4088, by decide, ?_, ?_⟩
  · rw [IsChunkLeaf, k1, l1]; rfl
  · rw [IsChunkLeaf, k2, l2]; rfl
  · rw [IsChunkLeaf, k1, l1]; rfl
  · rw [IsChunkLeaf, k1, l1]; rfl

/-- C32 at a failing input: for the index 34361852034 `GetDepthCanonicalIndex` returns 7,
but `Index_6 = 1 + 128 + ... + 128^5 = 34630287489` is at least that index and
`Index_5 = 270549121` is not, so the minimum depth is 6. The constant of the sixth branch is
`34361852033 = Index_6 - 128^4`. On the values of the test the function returns the
minimum depth. -/
theorem depth_canonical_index_slip :
    GetDepthCanonicalIndex 0 34361852034 = some 7 ∧
    specIndexOfDepth 6 = 34630287489 ∧ (34361852034 : Int) ≤ specIndexOfDepth 6 ∧
    specIndexOfDepth 5 = 270549121 ∧ specIndexOfDepth 5 < 34361852034 ∧
    (34361852033 : Int) = specIndexOfDepth 6 - 128 ^ 4 ∧
    GetDepthCanonicalIndex 0 1 = some 1 ∧ GetDepthCanonicalIndex 0 118 = some 2 ∧
    GetDepthCanonicalIndex 0 16513 = some 3 ∧ GetDepthCanonicalIndex 0 16514 = some 4 ∧
    GetDepthCanonicalIndex 0 8746985110 = some 6 := by
  decide

theorem calcLevel_leaf (c0 c1 c2 c3 lv : Int) (h : c0 ≠ 128) :
    calcLevel 5 0 ([c0, c1, c2, c3], lv) = some ([c0 + 1, c1, c2, c3], lv + 1) := by
  unfold calcLevel
  simp [getI, setI, h]

theorem calcLevel_group (c1 c2 c3 lv : Int) (h1 : c1 ≠ 128) (h2 : c1 + 1 ≠ 128) :
    calcLevel 5 0 ([128, c1, c2, c3], lv) = some ([0, c1 + 1, c2, c3], lv) := by
  unfold calcLevel
  simp only [getI, setI]
  unfold calcLevel
  simp [getI, setI, h1, h2]

theorem calcLevel_groupFull (c2 c3 lv : Int) :
    calcLevel 5 0 ([128, 127, c2, c3], lv) = some ([128, 128, c2, c3], lv) := by
  unfold calcLevel
  simp only [getI, setI]
  unfold calcLevel
  simp [getI, setI]

theorem calcLevel_level2 (c2 c3 lv : Int) (h1 : c2 ≠ 128) (h2 : c2 + 1 ≠ 128) :
    calcLevel 5 0 ([128, 128, c2, c3], lv) = some ([0, 0, c2 + 1, c3], lv) := by
  unfold calcLevel
  simp only [getI, setI]
  unfold calcLevel
  simp only [getI, setI]
  unfold calcLevel
  simp [getI, setI, h1, h2]

theorem calcLoop_succ (depth n : Nat) (st : List Int × Int) :
    calcLoop depth (n + 1) st =
      match calcLevel (depth + 1) 0 st with
      | none => none
      | some st1 => calcLoop depth n st1 := rfl

theorem calcLoop_add (depth : Nat) : ∀ (a b : Nat) (st : List Int × Int),
    calcLoop depth (a + b) st = (calcLoop depth a st).bind (calcLoop depth b)
  | 0, b, st => by
    rw [Nat.zero_add]
    rfl
  | a + 1, b, st => by
    have e : a + 1 + b = (a + b) + 1 := by omega
    rw [e, calcLoop_succ, calcLoop_succ]
    cases h : calcLevel (depth + 1) 0 st with
    | none => rfl
    | some st1 => exact calcLoop_add depth a b st1

theorem calcLoop_leaves (c1 c2 c3 : Int) : ∀ (m : Nat) (c0 lv : Int), 0 ≤ c0 →
    c0 + m ≤ 128 →
    calcLoop 4 m ([c0, c1, c2, c3], lv) = some ([c0 + m, c1, c2, c3], lv + m)
  | 0, c0, lv, _, _ => by
    unfold calcLoop
    simp
  | m + 1, c0, lv, h0, h => by
    unfold calcLoop
    rw [calcLevel_leaf c0 c1 c2 c3 lv (by push_cast at h; omega)]
    simp only
    rw [calcLoop_leaves c1 c2 c3 m (c0 + 1) (lv + 1) (by omega) (by push_cast at h ⊢; omega)]
    push_cast
    simp only [Int.add_assoc, Int.add_comm 1 (m : Int)]

theorem calcLoop_group (c1 c2 c3 lv : Int) (h1 : c1 ≠ 128) (h2 : c1 + 1 ≠ 128) :
    calcLoop 4 129 ([0, c1, c2, c3], lv) = some ([0, c1 + 1, c2, c3], lv + 128) := by
  have e : 129 = 128 + 1 := rfl
  rw [e, calcLoop_add, calcLoop_leaves c1 c2 c3 128 0 lv (le_refl _) (by decide)]
  simp only [Option.bind]
  unfold calcLoop
  have e0 : (0 : Int) + ((128 : Nat) : Int) = 128 := by decide
  rw [e0, calcLevel_group c1 c2 c3 _ h1 h2]
  simp only
  unfold calcLoop
  rfl

theorem calcLoop_groups (c2 c3 : Int) : ∀ (g : Nat) (c1 lv : Int), 0 ≤ c1 →
    c1 + g ≤ 127 →
    calcLoop 4 (129 * g) ([0, c1, c2, c3], lv) =
      some ([0, c1 + g, c2, c3], lv + 128 * g)
  | 0, c1, lv, _, _ => by
    unfold calcLoop
    simp
  | g + 1, c1, lv, h0, h => by
    have e : 129 * (g + 1) = 129 + 129 * g := by omega
    rw [e, calcLoop_add, calcLoop_group c1 c2 c3 lv (by push_cast at h; omega)
      (by push_cast at h; omega)]
    simp only [Option.bind]
    rw [calcLoop_groups c2 c3 g (c1 + 1) (lv + 128) (by omega) (by push_cast at h ⊢; omega)]
    push_cast
    have e1 : c1 + 1 + (g : Int) = c1 + ((g : Int) + 1) := by omega
    have e2 : lv + 128 + 128 * (g : Int) = lv + 128 * ((g : Int) + 1) := by omega
    rw [e1, e2]

/-- The counting loop of `GetLeavesCanonIndex(16645)`: after its 16641 calls of `calc` the
counters are `[128, 0, 1, 0]` and 16512 leaves were counted. -/
theorem calcLoop_16641 :
    calcLoop 4 16641 ([0, 0, 0, 0], 0) = some ([128, 0, 1, 0], 16512) := by
  have e : 16641 = 129 * 127 + (128 + (1 + (1 + 128))) := by decide
  rw [e, calcLoop_add, calcLoop_groups 0 0 127 0 0 (le_refl _) (by decide)]
  simp only [Option.bind]
  rw [calcLoop_add, calcLoop_leaves _ 0 0 128 0 _ (le_refl _) (by decide)]
  simp only [Option.bind]
  have e1 : (0 : Int) + ((127 : Nat) : Int) = 127 := by decide
  have e2 : (0 : Int) + ((128 : Nat) : Int) = 128 := by decide
  have e3 : (0 : Int) + 128 * ((127 : Nat) : Int) + ((128 : Nat) : Int) = 16384 := by decide
  rw [e1, e2, e3, calcLoop_add]
  have s1 : calcLoop 4 1 ([128, 127, 0, 0], 16384) = some ([128, 128, 0, 0], 16384) := by
    unfold calcLoop
    rw [calcLevel_groupFull]
    simp only
    unfold calcLoop
    rfl
  rw [s1]
  simp only [Option.bind]
  rw [calcLoop_add]
  have s2 : calcLoop 4 1 ([128, 128, 0, 0], 16384) = some ([0, 0, 0 + 1, 0], 16384) := by
    unfold calcLoop
    rw [calcLevel_level2 0 0 16384 (by decide) (by decide)]
    simp only
    unfold calcLoop
    rfl
  rw [s2]
  simp only [Option.bind]
  rw [calcLoop_leaves 0 (0 + 1) 0 128 0 16384 (le_refl _) (by decide)]
  decide

set_option maxRecDepth 100000 in
/-- C33 at a failing input: the file of `16512 * 4096 + 1` bytes has the canonical index
16645 and `ceil(size / 4096) = 16513` leaves, but `GetLeavesCanonIndex(16645)` returns
16514. On the indices 1, 129, 131, 132 and 133 it returns the leaf counts of the test. -/
theorem leaves_canon_index_off :
    GetTreeIndexBySize 3 67633153 = some 16645 ∧
    GetLeavesCanonIndex 0 16645 = some 16514 ∧
    (67633153 + 4095) / 4096 = 16513 ∧
    GetLeavesCanonIndex 0 1 = some 1 ∧ GetLeavesCanonIndex 0 129 = some 128 ∧
    GetLeavesCanonIndex 0 131 = some 129 ∧ GetLeavesCanonIndex 0 132 = some 129 ∧
    GetLeavesCanonIndex 0 133 = some 130 := by
  refine ⟨by decide, ?_, by decide, by decide, by decide, by decide, by decide, by decide⟩
  unfold GetLeavesCanonIndex
  have hd : GetDepthCanonicalIndex 0 16645 = some 4 := by decide
  rw [hd]
  simp only
  rw [if_neg (by decide)]
  have h1 : ((16645 : Int) - 4).toNat = 16641 := by decide
  have h2 : (4 : Int).toNat = 4 := rfl
  have h3 : List.replicate 4 (0 : Int) = [0, 0, 0, 0] := rfl
  rw [h1, h2, h3, calcLoop_16641]
  decide

/-! ### `WrapLattice` twice -/

theorem closeLoop_congr (e e' : Entangler) (hS : e.S = e'.S) (hP : e.P = e'.P)
    (hN : e.NumDataBlocks = e'.NumDataBlocks) (maxWraps : Int) :
    ∀ (last : Nat) (wraps : Int) (acc : List Int),
      closeLoop e maxWraps last wraps acc = closeLoop e' maxWraps last wraps acc
  | 0, _, _ => rfl
  | last + 1, wraps, acc => by
    unfold closeLoop
    simp only [hS, hP, hN]
    split
    · exact closeLoop_congr e e' hS hP hN maxWraps last _ _
    · rfl

theorem setDatablocksToClose_idem (e : Entangler) :
    setDatablocksToClose (setDatablocksToClose e) = setDatablocksToClose e := by
  have h := closeLoop_congr (setDatablocksToClose e) e rfl rfl rfl
  unfold setDatablocksToClose at h ⊢
  simp only [h]

/-- C36: closure is idempotent. When `WrapLattice` returns, `ParityMemory`,
`LeftExtremeMemory` and `NumDataBlocks` are what they were, and a second call on the
entangler it leaves returns the same state and sends the same sequence of blocks. -/
theorem wrap_lattice_idempotent (e : Entangler) (r : Entangler × List EntangledBlock)
    (h : WrapLattice e = some r) :
    r.1.ParityMemory = e.ParityMemory ∧ r.1.LeftExtremeMemory = e.LeftExtremeMemory ∧
    r.1.NumDataBlocks = e.NumDataBlocks ∧ WrapLattice r.1 = some r := by
  unfold WrapLattice at h
  by_cases hl : e.RightExtremeIndex.length = 0
  · simp only [hl, if_true] at h
    cases hw : wrapAll (setDatablocksToClose e) (setDatablocksToClose e).RightExtremeIndex with
    | none => rw [hw] at h; cases h
    | some out =>
      rw [hw] at h
      have hr : r = (setDatablocksToClose e, out) := (Option.some.inj h).symm
      subst hr
      refine ⟨rfl, rfl, rfl, ?_⟩
      unfold WrapLattice
      by_cases hl2 : (setDatablocksToClose e).RightExtremeIndex.length = 0
      · simp only [hl2, if_true, setDatablocksToClose_idem, hw]
      · simp only [hl2, if_false, hw]
  · simp only [hl, if_false] at h
    cases hw : wrapAll e e.RightExtremeIndex with
    | none => rw [hw] at h; cases h
    | some out =>
      rw [hw] at h
      have hr : r = (e, out) := (Option.some.inj h).symm
      subst hr
      refine ⟨rfl, rfl, rfl, ?_⟩
      unfold WrapLattice
      simp only [hl, if_false, hw]

set_option maxRecDepth 100000 in
theorem wrap_lattice_idempotent_witness :
    ∃ r, WrapLattice sampleEntangler = some r ∧ r.2.length = 30 ∧
      r.1.ParityMemory = sampleEntangler.ParityMemory ∧
      r.1.LeftExtremeMemory = sampleEntangler.LeftExtremeMemory ∧
      r.1.NumDataBlocks = sampleEntangler.NumDataBlocks ∧ WrapLattice r.1 = some r :=
  match h : WrapLattice sampleEntangler with
  | some r =>
    ⟨r, rfl, by
      have h2 : (WrapLattice sampleEntangler).map (fun x => x.2.length) = some 30 := by decide
      rw [h] at h2
      exact Option.some.inj h2, wrap_lattice_idempotent sampleEntangler r h⟩
  | none => absurd h (by decide)

/-! ### The parities marked `Replace` -/

theorem fwd_first_le (k : StrandClass) (i : Int) (h1 : 1 ≤ i) (h5 : i ≤ 5) :
    fwd k i ≤ 10 := by
  have h : i = 1 ∨ i = 2 ∨ i = 3 ∨ i = 4 ∨ i = 5 := by omega
  rcases h with h | h | h | h | h <;> subst h <;> cases k <;> decide

set_option maxRecDepth 100000 in
/-- C35 fails on the code for a lattice of 6 data blocks: the horizontal parity of position
2 is marked `Replace`, and its forward neighbour 7 is beyond the 6 data blocks, so it is
also the closing parity of its strand (its right index is the wrap position 2). -/
theorem replace_parity_counterexample :
    sampleParity 6 9 = some (true, true, .Horizontal, 2, 2) ∧
    fwd .Horizontal 2 = 7 ∧ (7 : Int) > 6 := by
  decide

/-- C35 for lattices of at least ten data blocks. In the (3, 5, 5) lattice that `RunInit`
builds for `n >= 10` data blocks, a parity `p` with `p.Replace` is the first parity of its
strand and not the last: its left data position is one of the strand heads 1..5 (it has no
backward neighbour in the class of `p`), and the forward neighbour of that position in
the class of `p` is within the `n` data blocks and is the right index of `p`. -/
theorem replace_parity_first (n : Nat) (hn : 10 ≤ n) (m : Int)
    (sizeList : List ChunkMetadata)
    (hm : m = (n : Int) ∨ (m = 0 ∧ sizeList.length = n)) (hwf : MetaWF n sizeList) :
    ∃ l', RunInit (NewLattice 3 5 5 m) sizeList = some l' ∧
      ∀ (bi : Nat) (b : Block), l'.Blocks[bi]? = some b → b.IsParity = true →
        b.Replace = true →
        1 ≤ b.LeftIndex ∧ b.LeftIndex ≤ 5 ∧ b.Position = b.LeftIndex ∧
        bwd b.Class b.LeftIndex ≤ 0 ∧ fwd b.Class b.LeftIndex ≤ (n : Int) ∧
        b.RightIndex = fwd b.Class b.LeftIndex := by
  obtain ⟨l', replaced, hrun, hinv, -, -, hmem⟩ := RunInit_spec n m sizeList hm hwf
  have hrep : ∀ y, y ∈ replaced ↔ 1 ≤ y ∧ y ≤ 5 := fun y =>
    (hmem y).trans (replaced_iff n (by omega) y)
  refine ⟨l', hrun, ?_⟩
  intro bi b hb hpar hrepl
  have hlt : bi < n + 3 * n := by
    by_contra h
    rw [List.getElem?_eq_none (by rw [hinv.1]; omega)] at hb
    cases hb
  have hge : n ≤ bi := by
    by_contra h
    obtain ⟨db, hdb, hp, -⟩ := hinv.2.1 bi (by omega)
    have : b = db := Option.some.inj (hb.symm.trans hdb)
    rw [this, hp] at hpar
    cases hpar
  have hidx : n + 3 * ((bi - n) / 3) + (bi - n) % 3 = bi := by omega
  have hk : (bi - n) % 3 < 3 := Nat.mod_lt _ (by omega)
  have hspec := hinv.2.2 ((bi - n) / 3) ((bi - n) % 3) hk (by omega)
  rw [hidx] at hspec
  have hbs : b = parityBlockSpec n replaced ((bi - n) / 3) ((bi - n) % 3) :=
    Option.some.inj (hb.symm.trans hspec)
  have hr : decide ((((bi - n) / 3 : Nat) : Int) + 1 ∈ replaced) = true := by
    rw [hbs] at hrepl
    exact hrepl
  rw [decide_eq_true_iff, hrep] at hr
  have hfl := fwd_first_le (StrandClass.ofIdx ((bi - n) % 3)) _ hr.1 hr.2
  rw [hbs]
  refine ⟨hr.1, hr.2, rfl, bwd_nonpos _ _ hr.1 hr.2, ?_, ?_⟩
  · show fwd (StrandClass.ofIdx ((bi - n) % 3)) ((((bi - n) / 3 : Nat) : Int) + 1) ≤ _
    omega
  · show nextPos n (StrandClass.ofIdx ((bi - n) % 3)) ((((bi - n) / 3 : Nat) : Int) + 1) =
      fwd (StrandClass.ofIdx ((bi - n) % 3)) ((((bi - n) / 3 : Nat) : Int) + 1)
    unfold nextPos
    rw [if_pos (by omega)]

theorem replace_parity_first_witness :
    10 ≤ 25 ∧ MetaWF 25 [] ∧
    ∃ l', RunInit (NewLattice 3 5 5 25) [] = some l' ∧
      ∀ (bi : Nat) (b : Block), l'.Blocks[bi]? = some b → b.IsParity = true →
        b.Replace = true →
        1 ≤ b.LeftIndex ∧ b.LeftIndex ≤ 5 ∧ b.Position = b.LeftIndex ∧
        bwd b.Class b.LeftIndex ≤ 0 ∧ fwd b.Class b.LeftIndex ≤ ((25 : Nat) : Int) ∧
        b.RightIndex = fwd b.Class b.LeftIndex :=
  have h : MetaWF 25 [] := by
    refine ⟨by decide, ?_, Or.inr ?_⟩
    · intro s hs; cases hs
    · intro s hs; cases hs
  ⟨by decide, h, replace_parity_first 25 (by decide) 25 [] (Or.inl rfl) h⟩

/-! ### The memory slot and the strand -/

theorem slot_iterate (k : StrandClass) : ∀ (t : Nat) (i : Int), 1 ≤ i →
    1 ≤ (fwd k)^[t] i ∧ slot k ((fwd k)^[t] i) = slot k i
  | 0, i, hi => ⟨hi, rfl⟩
  | t + 1, i, hi => by
    have hg := fwd_gt k i hi
    obtain ⟨h1, h2⟩ := slot_iterate k t (fwd k i) (by omega)
    rw [Function.iterate_succ_apply]
    exact ⟨h1, h2.trans (slot_fwd k i hi)⟩

theorem strand_head (k : StrandClass) : ∀ (b : Nat) (i : Int), 1 ≤ i → i ≤ (b : Int) →
    ∃ (h : Int) (t : Nat), 1 ≤ h ∧ h ≤ 5 ∧ (fwd k)^[t] h = i
  | 0, i, h1, hb => by omega
  | b + 1, i, h1, hb => by
    by_cases h5 : i ≤ 5
    · exact ⟨i, 0, h1, h5, rfl⟩
    · obtain ⟨hb1, hb2, hb3⟩ := fwd_bwd k i (by omega)
      obtain ⟨h, t, hh1, hh5, ht⟩ := strand_head k b (bwd k i) hb1 (by push_cast at hb; omega)
      refine ⟨h, t + 1, hh1, hh5, ?_⟩
      rw [Function.iterate_succ_apply', ht, hb3]

/-- C40: the memory slot identifies the strand. For (S, P) = (5, 5), every position
`i >= 1` and every class `c`: the slot of class `c` is the same at `i`, at the forward
neighbour of `i` in class `c` and at the wrap position of `i` in class `c`; another
position `j >= 1` has the same slot of class `c` exactly when `i` and `j` are on one strand
of that class (one is reached from the other by forward steps); a position `j >= 1` never
has in another class the slot that `i` has in class `c`; and the slots of class r are in
0..4, those of class h in 5..9 and those of class l in 10..14. -/
theorem slot_identifies_strand (i : Int) (hi : 1 ≤ i) (c : StrandClass) :
    slot c (fwd c i) = slot c i ∧
    (∃ w, GetWrapPosition i 5 5 = some w ∧ slot c (w.get c) = slot c i) ∧
    (∀ j, 1 ≤ j →
      (slot c i = slot c j ↔ ∃ t : Nat, (fwd c)^[t] i = j ∨ (fwd c)^[t] j = i)) ∧
    (∀ j, 1 ≤ j → ∀ c2, c2 ≠ c → slot c i ≠ slot c2 j) ∧
    (0 ≤ slot .Right i ∧ slot .Right i ≤ 4) ∧
    (5 ≤ slot .Horizontal i ∧ slot .Horizontal i ≤ 9) ∧
    (10 ≤ slot .Left i ∧ slot .Left i ≤ 14) := by
  refine ⟨slot_fwd c i hi, ?_, ?_, ?_, slot_range i hi⟩
  · obtain ⟨w, hw, hget, -, -, hs⟩ := wrapPos_spec c i hi
    exact ⟨w, hw, by rw [← hget]; exact hs⟩
  · intro j hj
    constructor
    · intro hs
      obtain ⟨a, ta, ha1, ha5, hta⟩ := strand_head c i.toNat i hi (by omega)
      obtain ⟨b, tb, hb1, hb5, htb⟩ := strand_head c j.toNat j hj (by omega)
      have sa := (slot_iterate c ta a ha1).2
      have sb := (slot_iterate c tb b hb1).2
      rw [hta] at sa
      rw [htb] at sb
      have hab : a = b := slot_first_inj c a b ha1 ha5 hb1 hb5 (by rw [← sa, ← sb, hs])
      subst hab
      by_cases hle : ta ≤ tb
      · refine ⟨tb - ta, Or.inl ?_⟩
        rw [← hta, ← Function.iterate_add_apply, Nat.sub_add_cancel hle, htb]
      · refine ⟨ta - tb, Or.inr ?_⟩
        rw [← htb, ← Function.iterate_add_apply, Nat.sub_add_cancel (by omega), hta]
    · rintro ⟨t, h | h⟩
      · rw [← h]
        exact (slot_iterate c t i hi).2.symm
      · rw [← h]
        exact (slot_iterate c t j hj).2
  · intro j hj c2 hc
    obtain ⟨⟨a1, a2⟩, ⟨a3, a4⟩, a5, a6⟩ := slot_range i hi
    obtain ⟨⟨b1, b2⟩, ⟨b3, b4⟩, b5, b6⟩ := slot_range j hj
    cases c <;> cases c2 <;> first | exact absurd rfl hc | omega

theorem slot_identifies_strand_witness :
    slot .Right (fwd .Right 7) = slot .Right 7 ∧
    (∃ w, GetWrapPosition 7 5 5 = some w ∧ slot .Right (w.get .Right) = slot .Right 7) ∧
    (∀ j, 1 ≤ j →
      (slot .Right 7 = slot .Right j ↔
        ∃ t : Nat, (fwd .Right)^[t] 7 = j ∨ (fwd .Right)^[t] j = 7)) ∧
    (∀ j, 1 ≤ j → ∀ c2, c2 ≠ StrandClass.Right → slot .Right 7 ≠ slot c2 j) ∧
    (0 ≤ slot .Right 7 ∧ slot .Right 7 ≤ 4) ∧
    (5 ≤ slot .Horizontal 7 ∧ slot .Horizontal 7 ≤ 9) ∧
    (10 ≤ slot .Left 7 ∧ slot .Left 7 ≤ 14) :=
  slot_identifies_strand 7 (by decide) .Right

/-! ### `RecoverError` -/

set_option maxRecDepth 100000 in
/-- C31 fails on the code for a block that has data. On the lattice in which only the data
block of position 2 has data, `RepairChunk(1)` fails and sets `RecoverError`; the next call
`RepairChunk(2)` returns the data of the block and a nil error, not the recorded error (and
`RepairChunk(3)` returns the recorded error). -/
theorem recover_error_counterexample :
    sampleFirstCall.map (fun r => r.2) = some (none, some "chunk not found") ∧
    sampleSecondCall 2 = some (some "chunk not found", some (List.replicate 9 2), none) ∧
    sampleSecondCall 3 = some (some "chunk not found", none, some "chunk not found") := by
  decide

/-- A `RepairChunk` call that returns an error leaves that error in `RecoverError`. -/
theorem RepairChunk_error
    (repairBlock : Lattice → Nat → Lattice × Option (List Nat) × Option String)
    (now : Int) (l : Lattice) (index : Int) (l1 : Lattice) (data : Option (List Nat))
    (err : String) (hP : ¬ ((l.ParityRootID.length : Int) < l.Alpha))
    (h : RepairChunk repairBlock now l index = some (l1, data, some err)) :
    l1.RecoverError = some err := by
  unfold RepairChunk at h
  rw [if_neg hP] at h
  cases hg : GetBlock l index with
  | none => rw [hg] at h; cases h
  | some bi =>
    rw [hg] at h
    dsimp only at h
    cases hb : l.Blocks[bi]? with
    | none => rw [hb] at h; cases h
    | some b =>
      rw [hb] at h
      dsimp only at h
      by_cases hd : b.HasData = true
      · rw [if_pos hd] at h
        cases h
      · rw [if_neg hd] at h
        cases hr : l.RecoverError with
        | some e =>
          rw [hr] at h
          dsimp only at h
          injection h with h
          injection h with h1 h2
          injection h2 with h3 h4
          injection h4 with h5
          rw [← h1, hr, h5]
        | none =>
          rw [hr] at h
          dsimp only at h
          rcases hrb : repairBlock l bi with ⟨l2, dt, er⟩
          rw [hrb] at h
          cases er with
          | none =>
            dsimp only at h
            cases hm : ResetMendingStatus l2 with
            | none => rw [hm] at h; cases h
            | some l3 =>
              rw [hm] at h
              dsimp only at h
              injection h with h
              injection h with h1 h2
              injection h2 with h3 h4
              cases h4
          | some er =>
            dsimp only at h
            cases hb1 : l2.Blocks[bi]? with
            | none => rw [hb1] at h; cases h
            | some b1 =>
              rw [hb1] at h
              dsimp only at h
              cases hf : b1.RepairFailed now with
              | none => rw [hf] at h; cases h
              | some p =>
                rw [hf] at h
                dsimp only at h
                cases hm : ResetMendingStatus
                    { l2 with Blocks := l2.Blocks.set bi p.1, RecoverError := some er } with
                | none => rw [hm] at h; cases h
                | some l3 =>
                  rw [hm] at h
                  dsimp only at h
                  injection h with h
                  injection h with h1 h2
                  injection h2 with h3 h4
                  injection h4 with h5
                  unfold ResetMendingStatus at hm
                  split at hm
                  · injection hm with hm
                    rw [← h1, ← hm, h5]
                  · cases hm

/-- With `RecoverError` set, `RepairChunk` on a block without data returns it at once. -/
theorem RepairChunk_sticky
    (repairBlock : Lattice → Nat → Lattice × Option (List Nat) × Option String)
    (now : Int) (l : Lattice) (index : Int) (e : String) (bi : Nat) (b : Block)
    (hr : l.RecoverError = some e) (hP : ¬ ((l.ParityRootID.length : Int) < l.Alpha))
    (hg : GetBlock l index = some bi) (hb : l.Blocks[bi]? = some b)
    (hd : b.HasData = false) :
    RepairChunk repairBlock now l index = some (l, none, some e) := by
  unfold RepairChunk
  rw [if_neg hP, hg]
  dsimp only
  rw [hb]
  dsimp only
  rw [if_neg (by rw [hd]; decide), hr]

/-- C31 for the blocks without data. Once a `RepairChunk` call (on a lattice with its
parity root IDs) has returned an error, which it has then stored in `RecoverError`, every
`RepairChunk(index2)` on the lattice it left, for an index of a block without data,
returns that same error and no data, whatever `repairBlock` would do, and leaves the
lattice as it is, so that the same holds for the calls after it. -/
theorem recover_error_sticky
    (repairBlock repairBlock2 : Lattice → Nat → Lattice × Option (List Nat) × Option String)
    (now now2 : Int) (l l1 : Lattice) (index index2 : Int) (data : Option (List Nat))
    (err : String) (bi : Nat) (b : Block)
    (hP : ¬ ((l.ParityRootID.length : Int) < l.Alpha))
    (hfirst : RepairChunk repairBlock now l index = some (l1, data, some err))
    (hP1 : ¬ ((l1.ParityRootID.length : Int) < l1.Alpha))
    (hg : GetBlock l1 index2 = some bi) (hb : l1.Blocks[bi]? = some b)
    (hd : b.HasData = false) :
    l1.RecoverError = some err ∧
    RepairChunk repairBlock2 now2 l1 index2 = some (l1, none, some err) :=
  ⟨RepairChunk_error repairBlock now l index l1 data err hP hfirst,
    RepairChunk_sticky repairBlock2 now2 l1 index2 err bi b
      (RepairChunk_error repairBlock now l index l1 data err hP hfirst) hP1 hg hb hd⟩

set_option maxRecDepth 100000 in
theorem recover_error_sticky_witness :
    ∃ l l1 b, sampleDamaged = some l ∧
      RepairChunk failingRepairBlock 1 l 1 = some (l1, none, some "chunk not found") ∧
      GetBlock l1 3 = some 2 ∧ l1.Blocks[2]? = some b ∧ b.HasData = false ∧
      l1.RecoverError = some "chunk not found" ∧
      RepairChunk failingRepairBlock 2 l1 3 = some (l1, none, some "chunk not found") := by
  have e0 : sampleDamaged.isSome = true := by decide
  obtain ⟨l, hl⟩ := Option.isSome_iff_exists.mp e0
  have e1 : sampleFirstCall.isSome = true := by decide
  obtain ⟨⟨l1, d, e⟩, h1⟩ := Option.isSome_iff_exists.mp e1
  have e2 : sampleFirstCall.map (fun r => r.2) = some (none, some "chunk not found") := by
    decide
  rw [h1] at e2
  have hde : (d, e) = (none, some "chunk not found") := Option.some.inj e2
  injection hde with hd1 he1
  subst hd1
  subst he1
  have e3 : sampleDamaged.map (fun l => decide ((l.ParityRootID.length : Int) < l.Alpha)) =
      some false := by decide
  rw [hl] at e3
  have hP : ¬ ((l.ParityRootID.length : Int) < l.Alpha) :=
    of_decide_eq_false (Option.some.inj e3)
  have e4 : sampleFirstCall.map
      (fun r => (decide ((r.1.ParityRootID.length : Int) < r.1.Alpha), GetBlock r.1 3)) =
      some (false, some 2) := by decide
  rw [h1] at e4
  have e4a := Option.some.inj e4
  injection e4a with e4b e4c
  have hP1 : ¬ ((l1.ParityRootID.length : Int) < l1.Alpha) := of_decide_eq_false e4b
  have e5 : (sampleFirstCall.bind (fun r => r.1.Blocks[2]?)).map Block.HasData =
      some false := by decide
  rw [h1] at e5
  have e6 : (l1.Blocks[2]?).isSome = true := by
    cases hb : l1.Blocks[2]? with
    | none => rw [Option.some_bind, hb] at e5; cases e5
    | some b => rfl
  obtain ⟨b, hb⟩ := Option.isSome_iff_exists.mp e6
  rw [Option.some_bind, hb] at e5
  have hd : b.HasData = false := Option.some.inj e5
  have hfirst : RepairChunk failingRepairBlock 1 l 1 =
      some (l1, none, some "chunk not found") := by
    unfold sampleFirstCall at h1
    rw [hl] at h1
    exact h1
  obtain ⟨r1, r2⟩ := recover_error_sticky failingRepairBlock failingRepairBlock 1 2 l l1 1 3
    none "chunk not found" 2 b hP hfirst hP1 e4c hb hd
  exact ⟨l, l1, b, hl, hfirst, e4c, hb, hd, r1, r2⟩

/-! ### `RepairAll` -/

theorem KeepsData_refl (l : Lattice) : KeepsData l l := ⟨rfl, fun _ h => h⟩

theorem KeepsData_trans {a b c : Lattice} (h1 : KeepsData a b) (h2 : KeepsData b c) :
    KeepsData a c :=
  ⟨h2.1.trans h1.1, fun j h => h2.2 j (h1.2 j h)⟩

theorem countHasData_mono {a b : Lattice} (h : KeepsData a b) (is : List Nat) :
    is.countP (fun i => ptrHasData a.Blocks[i]?) ≤
      is.countP (fun i => ptrHasData b.Blocks[i]?) :=
  List.countP_mono_left (fun i _ hi => h.2 i hi)

theorem mem_range_lt (n : Nat) : ∀ i ∈ List.range n, i < n := fun _ hi => List.mem_range.mp hi

/-! ### The repair calls: what they keep -/

theorem Returns_done {α : Type} {Q : α → Prop} {a : α} (h : Q a) :
    (Outcome.done a).Returns Q := h

theorem Returns_bind {α β : Type} {o : Outcome α} {f : α → Outcome β} {P : α → Prop}
    {Q : β → Prop} (h : o.Returns P) (hf : ∀ a, P a → (f a).Returns Q) :
    (o.bind f).Returns Q := by
  cases o with
  | done a => exact hf a h
  | crash => trivial
  | blocked => exact h
  | noFuel => exact h

theorem Returns_orCrash {α β : Type} {o : Option α} {f : α → Outcome β} {Q : β → Prop}
    (hf : ∀ a, o = some a → (f a).Returns Q) : ((orCrash o).bind f).Returns Q := by
  cases o with
  | none => trivial
  | some a => exact hf a rfl

theorem Returns_mono {α : Type} {o : Outcome α} {P Q : α → Prop} (h : o.Returns P)
    (hPQ : ∀ a, P a → Q a) : o.Returns Q := by
  cases o with
  | done a => exact hPQ a h
  | crash => trivial
  | blocked => exact h
  | noFuel => exact h

theorem BlockStep_refl (b : Block) : BlockStep b b := ⟨rfl, fun _ => rfl, fun h => h, fun h => h⟩

theorem BlockStep_trans {a b c : Block} (h1 : BlockStep a b) (h2 : BlockStep b c) :
    BlockStep a c := by
  refine ⟨h2.frame.trans h1.frame, fun h => ?_, fun h => h2.mending (h1.mending h),
    fun h => h1.download (h2.download h)⟩
  have hd := h1.data h
  have hb : b.HasData = true := by
    unfold Block.HasData at h ⊢
    rw [hd]
    exact h
  rw [h2.data hb, hd]

theorem LatticeStep_refl (keep : Nat → Prop) (l : Lattice) : LatticeStep keep l l :=
  ⟨rfl, fun j b b' h h' => by
    have : b = b' := Option.some.inj (h.symm.trans h')
    subst this
    exact ⟨BlockStep_refl b, fun _ hp => hp⟩⟩

theorem LatticeStep_get {keep : Nat → Prop} {l l' : Lattice} (h : LatticeStep keep l l')
    {j : Nat} {b : Block} (hb : l.Blocks[j]? = some b) : ∃ b', l'.Blocks[j]? = some b' := by
  have hj : j < l.Blocks.length := by
    by_contra hc
    rw [List.getElem?_eq_none (by omega)] at hb
    cases hb
  exact ⟨_, List.getElem?_eq_getElem (by rw [h.length_eq]; exact hj)⟩

theorem LatticeStep_get_back {keep : Nat → Prop} {l l' : Lattice} (h : LatticeStep keep l l')
    {j : Nat} {b' : Block} (hb : l'.Blocks[j]? = some b') : ∃ b, l.Blocks[j]? = some b := by
  have hj : j < l'.Blocks.length := by
    by_contra hc
    rw [List.getElem?_eq_none (by omega)] at hb
    cases hb
  exact ⟨_, List.getElem?_eq_getElem (by rw [← h.length_eq]; exact hj)⟩

theorem LatticeStep_trans {keep : Nat → Prop} {a b c : Lattice} (h1 : LatticeStep keep a b)
    (h2 : LatticeStep keep b c) : LatticeStep keep a c := by
  refine ⟨h2.length_eq.trans h1.length_eq, fun j x z hx hz => ?_⟩
  obtain ⟨y, hy⟩ := LatticeStep_get h1 hx
  obtain ⟨s1, k1⟩ := h1.blocks j x y hx hy
  obtain ⟨s2, k2⟩ := h2.blocks j y z hy hz
  exact ⟨BlockStep_trans s1 s2, fun hk hp => k2 hk (k1 hk hp)⟩

theorem LatticeStep_weaken {keep keep' : Nat → Prop} {a b : Lattice}
    (h : LatticeStep keep a b) (hk : ∀ j, keep' j → keep j) : LatticeStep keep' a b :=
  ⟨h.length_eq, fun j x y hx hy => ⟨(h.blocks j x y hx hy).1,
    fun hk' hp => (h.blocks j x y hx hy).2 (hk j hk') hp⟩⟩

theorem LatticeStep_set {keep : Nat → Prop} {l : Lattice} {i : Nat} {b b' : Block}
    (hb : l.Blocks[i]? = some b) (hs : BlockStep b b')
    (hk : keep i → b.RepairStatus = .RepairPending → b'.RepairStatus = .RepairPending) :
    LatticeStep keep l (setBlock l i b') := by
  refine ⟨by simp [setBlock], fun j x y hx hy => ?_⟩
  unfold setBlock at hy
  dsimp only at hy
  by_cases hij : i = j
  · subst hij
    have hi : i < l.Blocks.length := by
      by_contra hc
      rw [List.getElem?_eq_none (by omega)] at hb
      cases hb
    rw [List.getElem?_set_self hi] at hy
    have h1 : x = b := Option.some.inj (hx.symm.trans hb)
    have h2 : y = b' := (Option.some.inj hy).symm
    subst h1 h2
    exact ⟨hs, hk⟩
  · rw [List.getElem?_set_ne hij] at hy
    have : x = y := Option.some.inj (hx.symm.trans hy)
    subst this
    exact ⟨BlockStep_refl x, fun _ hp => hp⟩

theorem LatticeStep_keepsData {keep : Nat → Prop} {l l' : Lattice}
    (h : LatticeStep keep l l') : KeepsData l l' := by
  refine ⟨h.length_eq, fun j hj => ?_⟩
  cases hb : l.Blocks[j]? with
  | none => rw [hb] at hj; cases hj
  | some b =>
    rw [hb] at hj
    obtain ⟨b', hb'⟩ := LatticeStep_get h hb
    have hs := (h.blocks j b b' hb hb').1
    rw [hb']
    show b'.HasData = true
    have hd : b.HasData = true := hj
    unfold Block.HasData at hd ⊢
    rw [hs.data hj]
    exact hd

theorem countP_le_of_imp (p q : Nat → Bool) : ∀ (is : List Nat),
    (∀ j ∈ is, p j = true → q j = true) → is.countP p ≤ is.countP q
  | [], _ => le_refl _
  | i :: rest, h => by
    have ih := countP_le_of_imp p q rest (fun j hj => h j (List.mem_cons_of_mem _ hj))
    have hi := h i (List.mem_cons_self _ _)
    simp only [List.countP_cons]
    by_cases hp : p i = true
    · rw [if_pos hp, if_pos (hi hp)]
      omega
    · rw [if_neg hp]
      split <;> omega

theorem countP_lt_of_imp (p q : Nat → Bool) : ∀ (is : List Nat),
    (∀ j ∈ is, p j = true → q j = true) → (∃ x ∈ is, q x = true ∧ p x = false) →
    is.countP p < is.countP q
  | [], _, ⟨x, hx, _⟩ => by cases hx
  | i :: rest, h, ⟨x, hx, hqx, hpx⟩ => by
    have hrest : ∀ j ∈ rest, p j = true → q j = true :=
      fun j hj => h j (List.mem_cons_of_mem _ hj)
    have hi := h i (List.mem_cons_self _ _)
    simp only [List.countP_cons]
    rcases List.mem_cons.mp hx with hxi | hxr
    · subst hxi
      have ih := countP_le_of_imp p q rest hrest
      rw [if_pos hqx, if_neg (by rw [hpx]; decide)]
      omega
    · have ih := countP_lt_of_imp p q rest hrest ⟨x, hxr, hqx, hpx⟩
      by_cases hp : p i = true
      · rw [if_pos hp, if_pos (hi hp)]
        omega
      · rw [if_neg hp]
        split <;> omega

theorem SetData_tail (b b' : Block) (ok : Bool) (d2 : List Nat) (s e : Int)
    (ds : DownloadStatus) (rs : RepairStatus)
    (h : (let b1 : Block := { b with Data := d2 }
      let b2 : Block :=
        if ds ≠ .NoDownload then
          { b1 with
              DownloadStatus := ds,
              DownloadTime :=
                { StartTime := if s ≠ 0 then s else b1.DownloadTime.StartTime,
                  EndTime := if e ≠ 0 then e else b1.DownloadTime.EndTime } }
        else b1
      let b3 : Block :=
        if rs ≠ .NoRepair then
          { b2 with
              RepairStatus := rs,
              RepairTime :=
                { StartTime := if s ≠ 0 then s else b2.RepairTime.StartTime,
                  EndTime := if e ≠ 0 then e else b2.RepairTime.EndTime } }
        else b2
      some (b3, true)) = some (b', ok)) :
    b'.frame = b.frame ∧ b'.IsMending = b.IsMending ∧ ok = true ∧
      b'.DownloadStatus = (if ds ≠ .NoDownload then ds else b.DownloadStatus) ∧
      b'.RepairStatus = (if rs ≠ .NoRepair then rs else b.RepairStatus) ∧ b'.Data = d2 := by
  by_cases h1 : ds = .NoDownload <;> by_cases h2 : rs = .NoRepair <;>
    simp only [h1, h2, ne_eq, not_true_eq_false, not_false_eq_true, if_true, if_false,
      Option.some.injEq, Prod.mk.injEq] at h <;>
    obtain ⟨hb, hok⟩ := h <;> subst hb <;>
    refine ⟨rfl, rfl, hok.symm, ?_, ?_, rfl⟩ <;>
    simp [h1, h2]

theorem SetData_spec (b b' : Block) (ok : Bool) (data : Option (List Nat)) (s e : Int)
    (ds : DownloadStatus) (rs : RepairStatus)
    (h : b.SetData data s e ds rs = some (b', ok)) :
    b'.frame = b.frame ∧ b'.IsMending = b.IsMending ∧
    (b.HasData = true → b' = b ∧ ok = false) ∧
    (b.HasData = false → ok = true ∧
      b'.DownloadStatus = (if ds ≠ .NoDownload then ds else b.DownloadStatus) ∧
      b'.RepairStatus = (if rs ≠ .NoRepair then rs else b.RepairStatus) ∧
      (data = none → b'.Data = b.Data)) := by
  unfold Block.SetData at h
  by_cases hd : b.HasData = true
  · rw [if_pos hd] at h
    cases h
    exact ⟨rfl, rfl, fun _ => ⟨rfl, rfl⟩, fun hn => by rw [hd] at hn; cases hn⟩
  · rw [if_neg hd] at h
    have key : ∀ d2 : List Nat, (data = none → d2 = b.Data) →
        b'.frame = b.frame ∧ b'.IsMending = b.IsMending ∧ ok = true ∧
          b'.DownloadStatus = (if ds ≠ .NoDownload then ds else b.DownloadStatus) ∧
          b'.RepairStatus = (if rs ≠ .NoRepair then rs else b.RepairStatus) ∧
          b'.Data = d2 →
        b'.frame = b.frame ∧ b'.IsMending = b.IsMending ∧
        (b.HasData = true → b' = b ∧ ok = false) ∧
        (b.HasData = false → ok = true ∧
          b'.DownloadStatus = (if ds ≠ .NoDownload then ds else b.DownloadStatus) ∧
          b'.RepairStatus = (if rs ≠ .NoRepair then rs else b.RepairStatus) ∧
          (data = none → b'.Data = b.Data)) := by
      intro d2 hn ⟨k1, k2, k3, k4, k5, k6⟩
      exact ⟨k1, k2, fun hc => absurd hc hd, fun _ => ⟨k3, k4, k5, fun hx => by rw [k6, hn hx]⟩⟩
    cases data with
    | none => exact key b.Data (fun _ => rfl) (SetData_tail b b' ok _ s e ds rs h)
    | some dt =>
      dsimp only at h
      by_cases hL : b.Length ≠ 0
      · rw [if_pos hL] at h
        cases hp : putUint64 dt b.Size with
        | none => rw [hp] at h; cases h
        | some d1 =>
          rw [hp] at h
          dsimp only at h
          by_cases hc : 0 ≤ b.Length ∧ b.Length.toNat ≤ d1.length
          · rw [if_pos hc] at h
            exact key _ (fun hx => by cases hx) (SetData_tail b b' ok _ s e ds rs h)
          · rw [if_neg hc] at h
            cases h
      · rw [if_neg hL] at h
        exact key _ (fun hx => by cases hx) (SetData_tail b b' ok _ s e ds rs h)

theorem SetData_step (b b' : Block) (ok : Bool) (data : Option (List Nat)) (s e : Int)
    (ds : DownloadStatus) (rs : RepairStatus) (hds : ds ≠ .DownloadPending)
    (h : b.SetData data s e ds rs = some (b', ok)) : BlockStep b b' := by
  obtain ⟨hf, hm, h1, h2⟩ := SetData_spec b b' ok data s e ds rs h
  by_cases hd : b.HasData = true
  · rw [(h1 hd).1]
    exact BlockStep_refl b
  · have hd' : b.HasData = false := Bool.eq_false_iff.mpr hd
    obtain ⟨-, hdl, -, -⟩ := h2 hd'
    refine ⟨hf, fun hc => absurd hc hd, fun hmm => by rw [hm]; exact hmm, fun hp => ?_⟩
    rw [hdl] at hp
    by_cases hn : ds = .NoDownload
    · rw [if_neg (by rw [hn]; decide)] at hp
      exact hp
    · rw [if_pos hn] at hp
      exact absurd hp hds

theorem Ready_step {wf : Nat} {keep : Nat → Prop} {l l' : Lattice} (hr : Ready wf l)
    (h : LatticeStep keep l l') : Ready wf l' := by
  refine ⟨fun b' hb' hp => ?_, ?_⟩
  · obtain ⟨j, hj⟩ := List.mem_iff_getElem?.mp hb'
    obtain ⟨b, hb⟩ := LatticeStep_get_back h hj
    exact hr.1 b (List.mem_iff_getElem?.mpr ⟨j, hb⟩) ((h.blocks j b b' hb hj).1.download hp)
  · have : l'.Blocks.map Block.frame = l.Blocks.map Block.frame := by
      apply List.ext_getElem?
      intro j
      rw [List.getElem?_map, List.getElem?_map]
      cases hb : l.Blocks[j]? with
      | none =>
        have : l'.Blocks[j]? = none := by
          rw [List.getElem?_eq_none_iff] at hb ⊢
          rw [h.length_eq]
          exact hb
        rw [this]
      | some b =>
        obtain ⟨b', hb'⟩ := LatticeStep_get h hb
        rw [hb']
        exact congrArg some (h.blocks j b b' hb hb').1.frame
    rw [this]
    exact hr.2

theorem notPending_le {l l' : Lattice} (h : LatticeStep (fun _ => True) l l') :
    notPending l' ≤ notPending l := by
  unfold notPending
  rw [h.length_eq]
  apply countP_le_of_imp
  intro j hj hp
  rw [List.mem_range] at hj
  rw [decide_eq_true_eq] at hp ⊢
  intro hc
  apply hp
  obtain ⟨b, hb, hbp⟩ : ∃ b, l.Blocks[j]? = some b ∧ b.RepairStatus = .RepairPending := by
    cases hb : l.Blocks[j]? with
    | none => rw [hb] at hc; cases hc
    | some b => rw [hb] at hc; exact ⟨b, rfl, Option.some.inj hc⟩
  obtain ⟨b', hb'⟩ := LatticeStep_get h hb
  rw [hb']
  exact congrArg some ((h.blocks j b b' hb hb').2 trivial hbp)

theorem notMending_le {keep : Nat → Prop} {l l' : Lattice} (h : LatticeStep keep l l') :
    notMending l' ≤ notMending l := by
  unfold notMending
  rw [h.length_eq]
  apply countP_le_of_imp
  intro j hj hp
  rw [decide_eq_true_eq] at hp ⊢
  intro hc
  apply hp
  obtain ⟨b, hb, hbp⟩ : ∃ b, l.Blocks[j]? = some b ∧ b.IsMending = true := by
    cases hb : l.Blocks[j]? with
    | none => rw [hb] at hc; cases hc
    | some b => rw [hb] at hc; exact ⟨b, rfl, Option.some.inj hc⟩
  obtain ⟨b', hb'⟩ := LatticeStep_get h hb
  rw [hb']
  exact congrArg some ((h.blocks j b b' hb hb').1.mending hbp)

theorem withData_le {keep : Nat → Prop} {l l' : Lattice} (h : LatticeStep keep l l') :
    withData l ≤ withData l' := by
  unfold withData
  rw [h.length_eq]
  exact countHasData_mono (LatticeStep_keepsData h) _

theorem withData_le_length (l : Lattice) : withData l ≤ l.Blocks.length := by
  unfold withData
  have := List.countP_le_length (fun j => ptrHasData l.Blocks[j]?)
    (l := List.range l.Blocks.length)
  rw [List.length_range] at this
  exact this

theorem notPending_le_length (l : Lattice) : notPending l ≤ l.Blocks.length := by
  unfold notPending
  have := List.countP_le_length (fun j =>
    decide ((l.Blocks[j]?).map Block.RepairStatus ≠ some .RepairPending))
    (l := List.range l.Blocks.length)
  rw [List.length_range] at this
  exact this

theorem notMending_le_length (l : Lattice) : notMending l ≤ l.Blocks.length := by
  unfold notMending
  have := List.countP_le_length (fun j =>
    decide ((l.Blocks[j]?).map Block.IsMending ≠ some true))
    (l := List.range l.Blocks.length)
  rw [List.length_range] at this
  exact this

/-- Marking a block that was not `RepairPending` lowers the number of blocks that are not. -/
theorem notPending_lt {l l' : Lattice} (h : LatticeStep (fun _ => True) l l') {x : Nat}
    {b b' : Block} (hb : l.Blocks[x]? = some b) (hb' : l'.Blocks[x]? = some b')
    (hn : b.RepairStatus ≠ .RepairPending) (hp : b'.RepairStatus = .RepairPending) :
    notPending l' < notPending l := by
  unfold notPending
  rw [h.length_eq]
  apply countP_lt_of_imp
  · intro j hj hq
    rw [decide_eq_true_eq] at hq ⊢
    intro hc
    apply hq
    obtain ⟨c, hc1, hc2⟩ : ∃ c, l.Blocks[j]? = some c ∧ c.RepairStatus = .RepairPending := by
      cases hcb : l.Blocks[j]? with
      | none => rw [hcb] at hc; cases hc
      | some c => rw [hcb] at hc; exact ⟨c, rfl, Option.some.inj hc⟩
    obtain ⟨c', hc'⟩ := LatticeStep_get h hc1
    rw [hc']
    exact congrArg some ((h.blocks j c c' hc1 hc').2 trivial hc2)
  · have hx : x < l.Blocks.length := by
      by_contra hc
      rw [List.getElem?_eq_none (by omega)] at hb
      cases hb
    refine ⟨x, List.mem_range.mpr hx, ?_, ?_⟩
    · rw [decide_eq_true_eq, hb]
      intro hc
      exact hn (Option.some.inj hc)
    · rw [decide_eq_false_iff_not, not_not, hb', Option.map_some', hp]

/-- A block that was not mending and is now lowers the number of blocks that are not. -/
theorem notMending_lt {keep : Nat → Prop} {l l' : Lattice} (h : LatticeStep keep l l')
    {x : Nat} {b b' : Block} (hb : l.Blocks[x]? = some b) (hb' : l'.Blocks[x]? = some b')
    (hn : b.IsMending = false) (hp : b'.IsMending = true) :
    notMending l' < notMending l := by
  unfold notMending
  rw [h.length_eq]
  apply countP_lt_of_imp
  · intro j hj hq
    rw [decide_eq_true_eq] at hq ⊢
    intro hc
    apply hq
    obtain ⟨c, hc1, hc2⟩ : ∃ c, l.Blocks[j]? = some c ∧ c.IsMending = true := by
      cases hcb : l.Blocks[j]? with
      | none => rw [hcb] at hc; cases hc
      | some c => rw [hcb] at hc; exact ⟨c, rfl, Option.some.inj hc⟩
    obtain ⟨c', hc'⟩ := LatticeStep_get h hc1
    rw [hc']
    exact congrArg some ((h.blocks j c c' hc1 hc').1.mending hc2)
  · have hx : x < l.Blocks.length := by
      by_contra hc
      rw [List.getElem?_eq_none (by omega)] at hb
      cases hb
    refine ⟨x, List.mem_range.mpr hx, ?_, ?_⟩
    · rw [decide_eq_true_eq, hb]
      intro hc
      have := Option.some.inj hc
      rw [hn] at this
      cases this
    · rw [decide_eq_false_iff_not, not_not, hb', Option.map_some', hp]

theorem HasData_of_data {b b' : Block} (h : b'.Data = b.Data) : b'.HasData = b.HasData := by
  unfold Block.HasData
  rw [h]

theorem RepairPending_spec (b b' : Block) (ok : Bool) (now : Int)
    (h : b.RepairPending now = some (b', ok)) :
    BlockStep b b' ∧ b'.Data = b.Data ∧
    (ok = true → b.RepairStatus ≠ .RepairPending ∧ b'.RepairStatus = .RepairPending) ∧
    (ok = false → b' = b) ∧
    (b.HasData = false → b.RepairStatus ≠ .RepairPending → ok = true) := by
  unfold Block.RepairPending at h
  by_cases hp : b.RepairStatus = .RepairPending
  · rw [if_pos hp] at h
    cases h
    exact ⟨BlockStep_refl b, rfl, (fun hc => by cases hc), (fun _ => rfl),
      (fun _ hc => absurd hp hc)⟩
  · rw [if_neg hp] at h
    have hs := SetData_step b b' ok none now 0 .NoDownload .RepairPending (by decide) h
    obtain ⟨-, -, h1, h2⟩ := SetData_spec b b' ok none now 0 .NoDownload .RepairPending h
    by_cases hd : b.HasData = true
    · obtain ⟨e1, e2⟩ := h1 hd
      refine ⟨hs, by rw [e1], (fun hc => ?_), (fun _ => e1), (fun hc => ?_)⟩
      · rw [e2] at hc
        cases hc
      · rw [hd] at hc
        cases hc
    · obtain ⟨e1, -, e3, e4⟩ := h2 (Bool.eq_false_iff.mpr hd)
      refine ⟨hs, e4 rfl, (fun _ => ⟨hp, ?_⟩), (fun hc => ?_), (fun _ _ => e1)⟩
      · rw [e3, if_pos (by decide)]
      · rw [e1] at hc
        cases hc

theorem RepairFailed_spec (b b' : Block) (ok : Bool) (now : Int)
    (h : b.RepairFailed now = some (b', ok)) : BlockStep b b' :=
  SetData_step b b' ok none 0 now .NoDownload .RepairFailed (by decide) h

theorem RepairSuccess_spec (b b' : Block) (ok : Bool) (data : Option (List Nat)) (now : Int)
    (h : b.RepairSuccess data now = some (b', ok)) :
    BlockStep b b' ∧ (ok = false → b' = b) := by
  refine ⟨SetData_step b b' ok data 0 now .NoDownload .RepairSuccess (by decide) h, ?_⟩
  obtain ⟨-, -, h1, h2⟩ := SetData_spec b b' ok data 0 now .NoDownload .RepairSuccess h
  intro hok
  by_cases hd : b.HasData = true
  · exact (h1 hd).1
  · have := (h2 (Bool.eq_false_iff.mpr hd)).1
    rw [hok] at this
    cases this

theorem Repair_spec (b b' : Block) (v w : Option Block) (err : Option String) (now : Int)
    (h : b.Repair v w now = some (b', err)) :
    BlockStep b b' ∧ (err.isNone = false → b' = b) := by
  unfold Block.Repair at h
  by_cases hm : (!ptrHasData v || !ptrHasData w) = true
  · rw [if_pos hm] at h
    cases h
    exact ⟨BlockStep_refl b, (fun _ => rfl)⟩
  · rw [if_neg hm] at h
    cases v with
    | none => cases h
    | some vb =>
      cases w with
      | none => cases h
      | some wb =>
        dsimp only at h
        cases hr : b.RepairSuccess (some (XORByteSlice vb.Data wb.Data)) now with
        | none => rw [hr] at h; cases h
        | some r =>
          obtain ⟨b1, ok⟩ := r
          rw [hr] at h
          dsimp only at h
          obtain ⟨hs, hk⟩ := RepairSuccess_spec b b1 ok _ now hr
          by_cases hok : ok = false
          · rw [if_pos hok] at h
            cases h
            exact ⟨hs, (fun _ => hk hok)⟩
          · rw [if_neg hok] at h
            cases h
            exact ⟨hs, (fun hc => by cases hc)⟩

/-- The two writes of `GetParity` on a block without data whose download is not pending. -/
theorem download_step (b : Block) (r1 r2 : Block × Bool) (now : Int)
    (hd : b.HasData = false)
    (h1 : b.DownloadPending now = some r1)
    (h2 : r1.1.DownloadFailed now = some r2 ∨
      ∃ data, r1.1.DownloadSuccess data now = some r2) :
    BlockStep b r2.1 ∧ r2.1.RepairStatus = b.RepairStatus := by
  obtain ⟨b1, ok1⟩ := r1
  obtain ⟨b2, ok2⟩ := r2
  obtain ⟨f1, m1, -, k1⟩ := SetData_spec b b1 ok1 none now 0 .DownloadPending .NoRepair h1
  obtain ⟨-, -, q1, d1⟩ := k1 hd
  have hd1 : b1.HasData = false := by rw [HasData_of_data (d1 rfl)]; exact hd
  rw [if_neg (by decide)] at q1
  have key : ∀ (data : Option (List Nat)) (ds : DownloadStatus), ds ≠ .NoDownload →
      ds ≠ .DownloadPending → b1.SetData data 0 now ds .NoRepair = some (b2, ok2) →
      BlockStep b b2 ∧ b2.RepairStatus = b.RepairStatus := by
    intro data ds hn hp h
    obtain ⟨f2, m2, -, k2⟩ := SetData_spec b1 b2 ok2 data 0 now ds .NoRepair h
    obtain ⟨-, s2, q2, -⟩ := k2 hd1
    rw [if_pos hn] at s2
    rw [if_neg (by decide)] at q2
    refine ⟨⟨f2.trans f1, (fun hc => ?_), (fun hm => ?_), (fun hc => ?_)⟩, q2.trans q1⟩
    · rw [hd] at hc
      cases hc
    · rw [m2, m1]
      exact hm
    · rw [s2] at hc
      exact absurd hc hp
  rcases h2 with h2 | ⟨data, h2⟩
  · exact key none .DownloadFailed (by decide) (by decide) h2
  · exact key data .DownloadSuccess (by decide) (by decide) h2

theorem mem_of_get {l : Lattice} {j : Nat} {b : Block} (h : l.Blocks[j]? = some b) :
    b ∈ l.Blocks := List.mem_iff_getElem?.mpr ⟨j, h⟩

theorem GetParity_spec (getter : Getter) (now : Int) (wf : Nat) (l : Lattice) (c bp : Nat)
    (hr : Ready wf l) :
    (GetParity getter now (l, c) bp).Returns
      (fun r => LatticeStep (fun _ => True) l r.1.1) := by
  unfold GetParity
  refine Returns_orCrash fun b hb => ?_
  dsimp only at hb ⊢
  by_cases hd : b.HasData = true
  · rw [if_pos hd]
    exact LatticeStep_refl _ l
  · rw [if_neg hd]
    have hnp := hr.1 b (mem_of_get hb)
    rw [if_neg hnp]
    refine Returns_orCrash fun r1 h1 => Returns_orCrash fun root _ => ?_
    cases hg : getter c b.Position root with
    | none =>
      dsimp only
      refine Returns_orCrash fun r2 h2 => ?_
      obtain ⟨hs, hk⟩ := download_step b r1 r2 now (Bool.eq_false_iff.mpr hd) h1 (Or.inl h2)
      exact LatticeStep_set hb hs (fun _ hp => by rw [hk]; exact hp)
    | some data =>
      dsimp only
      refine Returns_orCrash fun r2 h2 => ?_
      obtain ⟨hs, hk⟩ := download_step b r1 r2 now (Bool.eq_false_iff.mpr hd) h1
        (Or.inr ⟨data, h2⟩)
      exact LatticeStep_set hb hs (fun _ hp => by rw [hk]; exact hp)

theorem downloadBlock_spec (getter : Getter) (now : Int) (wf : Nat) (l : Lattice) (c : Nat)
    (p : Option Nat) (hr : Ready wf l) :
    (downloadBlock getter now (l, c) p).Returns
      (fun r => LatticeStep (fun _ => True) l r.1) := by
  unfold downloadBlock
  cases p with
  | none => trivial
  | some bp =>
    dsimp only
    refine Returns_orCrash fun b hb => ?_
    by_cases hd : b.HasData = true
    · rw [if_pos hd]
      exact LatticeStep_refl _ l
    · rw [if_neg hd]
      by_cases hp : b.IsParity = true
      · rw [if_pos hp]
        exact Returns_bind (GetParity_spec getter now wf l c bp hr) (fun r h => h)
      · rw [if_neg hp]
        exact LatticeStep_refl _ l

theorem repairFrom_spec (now : Int) (l : Lattice) (c bp : Nat) (pr : RepairPair) :
    (repairFrom now (l, c) bp pr).Returns (RepairPost bp l) := by
  unfold repairFrom
  refine Returns_orCrash fun b hb => Returns_orCrash fun r h => ?_
  obtain ⟨b', err⟩ := r
  obtain ⟨hs, hk⟩ := Repair_spec b b' _ _ err now h
  dsimp only at hb ⊢
  refine ⟨LatticeStep_set hb hs (fun hc => absurd rfl hc), fun he => ?_⟩
  have := hk he
  subst this
  exact LatticeStep_set hb (BlockStep_refl _) (fun _ hp => hp)

theorem RepairPost_trans {bp : Nat} {l l1 : Lattice} {r : (Lattice × Nat) × Bool}
    (h1 : LatticeStep (fun _ => True) l l1) (h2 : RepairPost bp l1 r) : RepairPost bp l r :=
  ⟨LatticeStep_trans (LatticeStep_weaken h1 (fun _ _ => trivial)) h2.1,
    fun he => LatticeStep_trans h1 (h2.2 he)⟩

theorem downloadRepair_spec (getter : Getter) (now : Int) (wf : Nat) (l : Lattice)
    (c bp : Nat) (pr : RepairPair) (hr : Ready wf l) :
    (downloadRepair getter now (l, c) bp pr).Returns (RepairPost bp l) := by
  unfold downloadRepair
  refine Returns_bind (downloadBlock_spec getter now wf l c pr.Left hr) fun s1 h1 => ?_
  refine Returns_bind (downloadBlock_spec getter now wf s1.1 s1.2 pr.Right
    (Ready_step hr h1)) fun s2 h2 => ?_
  exact Returns_mono (repairFrom_spec now s2.1 s2.2 bp pr)
    (fun r h => RepairPost_trans (LatticeStep_trans h1 h2) h)

theorem dlAdjacentLoop_spec (getter : Getter) (now : Int) (wf : Nat) (bp : Nat) :
    ∀ (pairs : List RepairPair) (l : Lattice) (c : Nat), Ready wf l →
      (dlAdjacentLoop getter now bp pairs (l, c)).Returns (RepairPost bp l)
  | [], l, c, _ => ⟨LatticeStep_refl _ l, fun _ => LatticeStep_refl _ l⟩
  | pr :: rest, l, c, hr => by
    unfold dlAdjacentLoop
    refine Returns_bind (downloadRepair_spec getter now wf l c bp pr hr) fun r h => ?_
    by_cases hok : r.2 = true
    · rw [if_pos hok]
      exact ⟨h.1, (fun hc => by cases hc)⟩
    · rw [if_neg hok]
      have hstep := h.2 (Bool.eq_false_iff.mpr hok)
      exact Returns_mono (dlAdjacentLoop_spec getter now wf bp rest r.1.1 r.1.2
        (Ready_step hr hstep)) (fun r2 h2 => RepairPost_trans hstep h2)

theorem repairDataDLAdjacent_spec (getter : Getter) (now : Int) (wf : Nat) (l : Lattice)
    (c bp : Nat) (hr : Ready wf l) :
    (repairDataDLAdjacent getter now (l, c) bp).Returns (RepairPost bp l) := by
  unfold repairDataDLAdjacent
  refine Returns_orCrash fun b _ => ?_
  by_cases hd : b.HasData = true
  · rw [if_pos hd]
    exact ⟨LatticeStep_refl _ l, fun _ => LatticeStep_refl _ l⟩
  · rw [if_neg hd]
    exact Returns_orCrash fun pairs _ => dlAdjacentLoop_spec getter now wf bp pairs l c hr

theorem frames_get (l : Lattice) (i : Nat) :
    (l.Blocks.map Block.frame)[i]? = (l.Blocks[i]?).map Block.frame := List.getElem?_map _ _ _

theorem replacedWalk_returns (l : Lattice) (pos : Int) (cls : Nat) :
    ∀ (fuel : Nat) (right : Option Nat) (acc : List Nat),
      walkReturns (l.Blocks.map Block.frame) pos cls fuel right = true →
      (replacedWalk l pos cls fuel right acc).Returns (fun _ => True)
  | 0, _, _, h => by
    unfold walkReturns at h
    cases h
  | fuel + 1, right, acc, h => by
    unfold replacedWalk
    unfold walkReturns at h
    cases right with
    | none => trivial
    | some ri =>
      dsimp only at h
      rw [frames_get] at h
      refine Returns_orCrash fun rb hrb => ?_
      have hrb' : l.Blocks[ri]? = some rb := hrb
      rw [hrb'] at h
      dsimp only [Option.map_some'] at h
      by_cases hp : rb.Position = pos
      · rw [if_pos hp]
        trivial
      · rw [if_neg hp]
        have hp' : ¬ rb.frame.Position = pos := hp
        rw [if_neg hp'] at h
        by_cases hd : rb.HasData = false
        · rw [if_pos hd]
          trivial
        · rw [if_neg hd]
          refine Returns_orCrash fun rp hrp => ?_
          have hrp' : rb.frame.Right[cls]? = some rp := hrp
          rw [hrp'] at h
          cases rp with
          | none => trivial
          | some pi =>
            dsimp only at h
            rw [frames_get] at h
            refine Returns_orCrash fun pb hpb => ?_
            have hpb' : l.Blocks[pi]? = some pb := hpb
            rw [hpb'] at h
            dsimp only [Option.map_some'] at h
            refine Returns_orCrash fun next hnext => ?_
            have hnext' : pb.frame.Right[0]? = some next := hnext
            rw [hnext'] at h
            exact replacedWalk_returns l pos cls fuel next _ h

theorem replacedParityRepair_spec (wf : Nat) (now : Int) (l : Lattice) (bp : Nat) (b : Block)
    (hr : Ready wf l) (hb : l.Blocks[bp]? = some b) (hp : b.IsParity = true)
    (hR : b.Replace = true) :
    (replacedParityRepair wf now l bp).Returns
      (fun q => LatticeStep (fun j => j ≠ bp) l q.1 ∧
        (q.2 = false → LatticeStep (fun _ => True) l q.1)) := by
  unfold replacedParityRepair
  refine Returns_orCrash fun b0 hb0 => ?_
  have : b0 = b := Option.some.inj (hb0.symm.trans hb)
  subst this
  refine Returns_orCrash fun right hright => ?_
  have hw : walkReturns (l.Blocks.map Block.frame) b0.Position b0.Class.idx wf right = true := by
    have hall := hr.2
    unfold walkOK at hall
    rw [List.all_eq_true] at hall
    have hmem : b0.frame ∈ l.Blocks.map Block.frame := List.mem_map_of_mem _ (mem_of_get hb)
    have := hall _ hmem
    have e1 : b0.frame.IsParity = true := hp
    have e2 : b0.frame.Replace = true := hR
    have e3 : b0.frame.Right[0]? = some right := hright
    rw [e1, e2, e3] at this
    exact this
  refine Returns_bind (replacedWalk_returns l b0.Position b0.Class.idx wf right _ hw)
    fun w _ => ?_
  cases w with
  | none => exact ⟨LatticeStep_refl _ l, (fun _ => LatticeStep_refl _ l)⟩
  | some rightDat =>
    dsimp only
    refine Returns_orCrash fun r h => ?_
    obtain ⟨b1, ok⟩ := r
    obtain ⟨hs, hk⟩ := RepairSuccess_spec b0 b1 ok _ now h
    refine ⟨LatticeStep_set hb hs (fun hc => absurd rfl hc), (fun he => ?_)⟩
    have := hk he
    subst this
    exact LatticeStep_set hb (BlockStep_refl _) (fun _ hq => hq)

theorem repAdjacentLoop_spec
    (rp : Lattice × Nat → Option Nat → Bool → Outcome (Lattice × Nat)) (now : Int)
    (wf k bp : Nat)
    (hrp : ∀ (s : Lattice × Nat) (p : Option Nat) (g : Bool), Ready wf s.1 →
      notPending s.1 < k → (rp s p g).Returns (fun r => LatticeStep (fun _ => True) s.1 r.1)) :
    ∀ (pairs : List RepairPair) (l : Lattice) (c : Nat), Ready wf l → notPending l < k →
      (repAdjacentLoop rp now bp pairs (l, c)).Returns (RepairPost bp l)
  | [], l, c, _, _ => by
    unfold repAdjacentLoop
    exact Returns_orCrash fun b _ => ⟨LatticeStep_refl _ l, (fun _ => LatticeStep_refl _ l)⟩
  | pr :: rest, l, c, hr, hk => by
    unfold repAdjacentLoop
    refine Returns_orCrash fun b _ => ?_
    by_cases hd : b.HasData = true
    · rw [if_pos hd]
      exact ⟨LatticeStep_refl _ l, (fun _ => LatticeStep_refl _ l)⟩
    · rw [if_neg hd]
      refine Returns_bind (hrp (l, c) pr.Right true hr hk) fun s1 h1 => ?_
      have hr1 := Ready_step hr h1
      have hk1 : notPending s1.1 < k := lt_of_le_of_lt (notPending_le h1) hk
      refine Returns_bind (hrp s1 pr.Left false hr1 hk1) fun s2 h2 => ?_
      have h12 := LatticeStep_trans h1 h2
      refine Returns_bind (repairFrom_spec now s2.1 s2.2 bp pr) fun r h => ?_
      have hpost := RepairPost_trans h12 h
      by_cases hok : r.2 = true
      · rw [if_pos hok]
        exact ⟨hpost.1, (fun hc => by cases hc)⟩
      · rw [if_neg hok]
        have hstep := hpost.2 (Bool.eq_false_iff.mpr hok)
        exact Returns_mono (repAdjacentLoop_spec rp now wf k bp hrp rest r.1.1 r.1.2
          (Ready_step hr hstep) (lt_of_le_of_lt (notPending_le hstep) hk))
          (fun r2 h2 => RepairPost_trans hstep h2)

theorem repairDataRepAdjacent_spec
    (rp : Lattice × Nat → Option Nat → Bool → Outcome (Lattice × Nat)) (now : Int)
    (wf k bp : Nat)
    (hrp : ∀ (s : Lattice × Nat) (p : Option Nat) (g : Bool), Ready wf s.1 →
      notPending s.1 < k → (rp s p g).Returns (fun r => LatticeStep (fun _ => True) s.1 r.1))
    (l : Lattice) (c : Nat) (hr : Ready wf l) (hk : notPending l < k) :
    (repairDataRepAdjacent rp now (l, c) bp).Returns (RepairPost bp l) := by
  unfold repairDataRepAdjacent
  exact Returns_orCrash fun pairs _ => repAdjacentLoop_spec rp now wf k bp hrp pairs l c hr hk

/-- A call that marks the block `bp`, not `RepairPending` before, and then changes the
status of no other pending block, keeps every block that was `RepairPending`. -/
theorem LatticeStep_close {l l1 l2 : Lattice} {bp : Nat} {b : Block}
    (hb : l.Blocks[bp]? = some b) (hn : b.RepairStatus ≠ .RepairPending)
    (h1 : LatticeStep (fun _ => True) l l1) (h2 : LatticeStep (fun j => j ≠ bp) l1 l2) :
    LatticeStep (fun _ => True) l l2 := by
  have h := LatticeStep_trans (LatticeStep_weaken h1 (fun _ _ => trivial)) h2
  refine ⟨h.length_eq, fun j x y hx hy => ⟨(h.blocks j x y hx hy).1, fun _ hp => ?_⟩⟩
  by_cases hj : j = bp
  · subst hj
    have : x = b := Option.some.inj (hx.symm.trans hb)
    rw [this] at hp
    exact absurd hp hn
  · exact (h.blocks j x y hx hy).2 hj hp

theorem repairParity_spec (getter : Getter) (now : Int) (wf : Nat) :
    ∀ (fuel : Nat) (s : Lattice × Nat) (p : Option Nat) (g : Bool), Ready wf s.1 →
      notPending s.1 < fuel →
      (repairParity getter now wf fuel s p g).Returns
        (fun r => LatticeStep (fun _ => True) s.1 r.1)
  | 0, _, _, _, _, h => by omega
  | fuel + 1, s, p, g, hr, hk => by
    obtain ⟨l, c⟩ := s
    have ih := repairParity_spec getter now wf fuel
    unfold repairParity
    cases p with
    | none => trivial
    | some bp =>
      dsimp only at hr hk ⊢
      refine Returns_orCrash fun b hb => ?_
      by_cases hpar : b.IsParity = false
      · rw [if_pos hpar]
        refine Returns_orCrash fun r hrp => ?_
        obtain ⟨b1, ok⟩ := r
        obtain ⟨hs, -, hok1, -, -⟩ := RepairPending_spec b b1 ok now hrp
        dsimp only
        by_cases hok : ok = true
        · rw [if_pos hok]
          obtain ⟨hnp, hp1⟩ := hok1 hok
          have h01 : LatticeStep (fun _ => True) l (setBlock l bp b1) :=
            LatticeStep_set hb hs (fun _ _ => hp1)
          have hget1 : (setBlock l bp b1).Blocks[bp]? = some b1 := by
            obtain ⟨y, hy⟩ := LatticeStep_get h01 hb
            have hi : bp < l.Blocks.length := by
              by_contra hc
              rw [List.getElem?_eq_none (by omega)] at hb
              cases hb
            show (l.Blocks.set bp b1)[bp]? = some b1
            rw [List.getElem?_set_self hi]
          have hlt : notPending (setBlock l bp b1) < notPending l :=
            notPending_lt h01 hb hget1 hnp hp1
          have hr1 := Ready_step hr h01
          refine Returns_bind (repairDataDLAdjacent_spec getter now wf _ c bp hr1)
            fun r1 h1 => ?_
          by_cases hok1 : r1.2 = true
          · rw [if_pos hok1]
            exact LatticeStep_close hb hnp h01 h1.1
          · rw [if_neg hok1]
            have hstep := h1.2 (Bool.eq_false_iff.mpr hok1)
            refine Returns_bind (repairDataRepAdjacent_spec
              (fun s0 p0 g0 => repairParity getter now wf fuel s0 p0 g0) now wf fuel bp
              (fun s0 p0 g0 h0 k0 => ih s0 p0 g0 h0 k0) r1.1.1 r1.1.2
              (Ready_step hr1 hstep)
              (by have := notPending_le hstep; omega)) fun r2 h2 => ?_
            exact LatticeStep_close hb hnp h01
              (LatticeStep_trans (LatticeStep_weaken hstep (fun _ _ => trivial)) h2.1)
        · rw [if_neg hok]
          exact LatticeStep_refl _ l
      · rw [if_neg hpar]
        by_cases hsr : b.ParityShouldRepair = false
        · rw [if_pos hsr]
          exact LatticeStep_refl _ l
        · rw [if_neg hsr]
          have hsr' : b.ParityShouldRepair = true := by
            cases hx : b.ParityShouldRepair with
            | true => rfl
            | false => exact absurd hx hsr
          unfold Block.ParityShouldRepair at hsr'
          simp only [Bool.not_eq_true', Bool.or_eq_false_iff, decide_eq_false_iff_not] at hsr'
          obtain ⟨⟨hnd, -⟩, hnp⟩ := hsr'
          refine Returns_orCrash fun r hrp => ?_
          obtain ⟨b1, ok⟩ := r
          obtain ⟨hs, -, hok1, -, hok2⟩ := RepairPending_spec b b1 ok now hrp
          have hok : ok = true := hok2 hnd hnp
          obtain ⟨-, hp1⟩ := hok1 hok
          dsimp only
          have h01 : LatticeStep (fun _ => True) l (setBlock l bp b1) :=
            LatticeStep_set hb hs (fun _ _ => hp1)
          have hget1 : (setBlock l bp b1).Blocks[bp]? = some b1 := by
            have hi : bp < l.Blocks.length := by
              by_contra hc
              rw [List.getElem?_eq_none (by omega)] at hb
              cases hb
            show (l.Blocks.set bp b1)[bp]? = some b1
            rw [List.getElem?_set_self hi]
          have hlt : notPending (setBlock l bp b1) < notPending l :=
            notPending_lt h01 hb hget1 hnp hp1
          have hr1 := Ready_step hr h01
          have hfirst : (if b.Replace = true then
              (replacedParityRepair wf now (setBlock l bp b1) bp).bind fun q =>
                Outcome.done ((q.1, c), q.2)
              else Outcome.done ((setBlock l bp b1, c), false)).Returns
              (RepairPost bp (setBlock l bp b1)) := by
            by_cases hR : b.Replace = true
            · rw [if_pos hR]
              have e1 : b1.IsParity = true := by
                have := congrArg Block.IsParity hs.frame
                have e : b1.IsParity = b.IsParity := this
                rw [e]
                cases hx : b.IsParity with
                | true => rfl
                | false => exact absurd hx hpar
              have e2 : b1.Replace = true := by
                have := congrArg Block.Replace hs.frame
                have e : b1.Replace = b.Replace := this
                rw [e, hR]
              exact Returns_bind (replacedParityRepair_spec wf now _ bp b1 hr1 hget1 e1 e2)
                (fun q hq => hq)
            · rw [if_neg hR]
              exact ⟨LatticeStep_refl _ _, (fun _ => LatticeStep_refl _ _)⟩
          refine Returns_bind hfirst fun q hq => ?_
          by_cases hq2 : q.2 = true
          · rw [if_pos hq2]
            exact LatticeStep_close hb hnp h01 hq.1
          · rw [if_neg hq2]
            have hstepq := hq.2 (Bool.eq_false_iff.mpr hq2)
            have hrq := Ready_step hr1 hstepq
            refine Returns_orCrash fun allRepPair _ => Returns_orCrash fun repPair _ => ?_
            refine Returns_bind (downloadRepair_spec getter now wf q.1.1 q.1.2 bp repPair hrq)
              fun r1 h1 => ?_
            by_cases hr12 : r1.2 = true
            · rw [if_pos hr12]
              exact LatticeStep_close hb hnp h01
                (LatticeStep_trans (LatticeStep_weaken hstepq (fun _ _ => trivial)) h1.1)
            · rw [if_neg hr12]
              have hstep1 := LatticeStep_trans hstepq (h1.2 (Bool.eq_false_iff.mpr hr12))
              have hk1 : notPending r1.1.1 < fuel := by
                have := notPending_le hstep1
                omega
              refine Returns_bind (ih r1.1 repPair.Right true (Ready_step hr1 hstep1) hk1)
                fun s2 h2 => ?_
              have hstep2 := LatticeStep_trans hstep1 h2
              have hk2 : notPending s2.1 < fuel := by
                have := notPending_le hstep2
                omega
              refine Returns_bind (ih s2 repPair.Left false (Ready_step hr1 hstep2) hk2)
                fun s3 h3 => ?_
              have hstep3 := LatticeStep_trans hstep2 h3
              refine Returns_bind (repairFrom_spec now s3.1 s3.2 bp repPair) fun r2 h4 => ?_
              have hpost := RepairPost_trans hstep3 h4
              by_cases hr22 : r2.2 = true
              · rw [if_pos hr22]
                exact LatticeStep_close hb hnp h01 hpost.1
              · rw [if_neg hr22]
                refine Returns_orCrash fun b2 hb2 => Returns_orCrash fun r3 h5 => ?_
                obtain ⟨b3, ok3⟩ := r3
                have hs3 := RepairFailed_spec b2 b3 ok3 now h5
                exact LatticeStep_close hb hnp h01 (LatticeStep_trans hpost.1
                  (LatticeStep_set hb2 hs3 (fun hc => absurd rfl hc)))

theorem ResetRepairStatus_step (l : Lattice) :
    LatticeStep (fun _ => False) l (ResetRepairStatus l) := by
  refine ⟨by simp [ResetRepairStatus], fun j b b' hb hb' => ⟨?_, (fun hc => hc.elim)⟩⟩
  have h : (l.Blocks.map resetRepairStatus)[j]? = some b' := hb'
  rw [List.getElem?_map, hb] at h
  have e : b' = resetRepairStatus b := (Option.some.inj h).symm
  subst e
  unfold resetRepairStatus
  split
  · exact ⟨rfl, (fun _ => rfl), (fun hm => hm), (fun hd => hd)⟩
  · exact BlockStep_refl b

theorem pending_not_mending {b : Block} (h : b.InternalNodePendingRepair = true) :
    b.IsMending = false := by
  unfold Block.InternalNodePendingRepair at h
  simp only [Bool.and_eq_true, Bool.not_eq_true', decide_eq_true_eq] at h
  exact h.1.1.2

theorem countLoop_spec (rb : Lattice × Nat → Nat → Outcome ((Lattice × Nat) × Bool))
    (old : Int) (wf k n : Nat)
    (hrb : ∀ (s : Lattice × Nat) (j : Nat), Ready wf s.1 → s.1.Blocks.length = n →
      notMending s.1 < k → (rb s j).Returns (BlockPost j s.1)) :
    ∀ (is : List Nat) (l : Lattice) (c : Nat) (cnt : Int), Ready wf l →
      l.Blocks.length = n → notMending l < k →
      (countLoop rb old is (l, c) cnt).Returns (fun r =>
        LatticeStep (fun _ => False) l r.1.1 ∧
        ((r.2 = old - 1 ∧ notMending r.1.1 < notMending l) ∨
          (cnt + (is.countP (fun i => ptrHasData l.Blocks[i]?) : Nat) ≤ r.2 ∧
            r.2 ≤ cnt + (is.countP (fun i => ptrHasData r.1.1.Blocks[i]?) : Nat))))
  | [], l, c, cnt, _, _, _ => by
    unfold countLoop
    refine ⟨LatticeStep_refl _ l, Or.inr ?_⟩
    simp
  | j :: rest, l, c, cnt, hr, hn, hk => by
    unfold countLoop
    refine Returns_orCrash fun tb htb => ?_
    have htb' : l.Blocks[j]? = some tb := htb
    by_cases hd : tb.HasData = true
    · rw [if_pos hd]
      refine Returns_mono (countLoop_spec rb old wf k n hrb rest l c (cnt + 1) hr hn hk)
        fun r hpost => ⟨hpost.1, ?_⟩
      rcases hpost.2 with hbr | ⟨h1, h2⟩
      · exact Or.inl hbr
      · right
        have hdl : ptrHasData l.Blocks[j]? = true := by rw [htb']; exact hd
        have hdr := (LatticeStep_keepsData hpost.1).2 j hdl
        simp only [List.countP_cons, hdl, hdr, if_true]
        push_cast
        exact ⟨by omega, by omega⟩
    · rw [if_neg hd]
      have hdl : ptrHasData l.Blocks[j]? = false := by
        rw [htb']; exact Bool.eq_false_iff.mpr hd
      by_cases hcond : tb.IsParity = false ∧ tb.InternalNodePendingRepair = true
      · rw [if_pos hcond]
        refine Returns_bind (hrb (l, c) j hr hn hk) fun r hpost => ?_
        obtain ⟨y, hy⟩ := LatticeStep_get hpost.1 htb'
        have hlt : notMending r.1.1 < notMending l :=
          notMending_lt hpost.1 htb' hy (pending_not_mending hcond.2) (hpost.2 y hy)
        by_cases hok : r.2 = true
        · rw [if_pos hok]
          exact ⟨hpost.1, Or.inl ⟨rfl, hlt⟩⟩
        · rw [if_neg hok]
          refine Returns_mono (countLoop_spec rb old wf k n hrb rest r.1.1 r.1.2 cnt
            (Ready_step hr hpost.1) (by rw [hpost.1.length_eq]; exact hn) (by omega))
            fun r2 hp2 => ?_
          refine ⟨LatticeStep_trans hpost.1 hp2.1, ?_⟩
          rcases hp2.2 with ⟨e1, e2⟩ | ⟨h1, h2⟩
          · exact Or.inl ⟨e1, by omega⟩
          · right
            have hm : rest.countP (fun i => ptrHasData l.Blocks[i]?) ≤
                rest.countP (fun i => ptrHasData r.1.1.Blocks[i]?) :=
              countHasData_mono (LatticeStep_keepsData hpost.1) rest
            simp only [List.countP_cons, hdl, Bool.false_eq_true, if_false, Nat.add_zero]
            refine ⟨by omega, ?_⟩
            push_cast
            omega
      · rw [if_neg hcond]
        refine Returns_mono (countLoop_spec rb old wf k n hrb rest l c cnt hr hn hk)
          fun r hpost => ⟨hpost.1, ?_⟩
        rcases hpost.2 with hbr | ⟨h1, h2⟩
        · exact Or.inl hbr
        · right
          simp only [List.countP_cons, hdl, Bool.false_eq_true, if_false, Nat.add_zero]
          refine ⟨by omega, ?_⟩
          push_cast
          omega

theorem withData_eq {keep : Nat → Prop} {l l' : Lattice} (h : LatticeStep keep l l') :
    ((List.range l.Blocks.length).countP (fun i => ptrHasData l'.Blocks[i]?)) = withData l' := by
  unfold withData
  rw [h.length_eq]

theorem repairBlockLoop_spec
    (rp : Lattice × Nat → Option Nat → Bool → Outcome (Lattice × Nat))
    (rb : Lattice × Nat → Nat → Outcome ((Lattice × Nat) × Bool)) (now : Int)
    (wf k n bp : Nat)
    (hrp : ∀ (s : Lattice × Nat) (p : Option Nat) (g : Bool), Ready wf s.1 →
      notPending s.1 < n + 1 →
      (rp s p g).Returns (fun r => LatticeStep (fun _ => True) s.1 r.1))
    (hrb : ∀ (s : Lattice × Nat) (j : Nat), Ready wf s.1 → s.1.Blocks.length = n →
      notMending s.1 < k → (rb s j).Returns (BlockPost j s.1)) :
    ∀ (fuel : Nat) (l : Lattice) (c : Nat) (old : Int), Ready wf l → l.Blocks.length = n →
      notMending l < k → old ≤ (withData l : Int) →
      2 * (notMending l : Int) + (n : Int) - old < (fuel : Int) →
      (repairBlockLoop rp rb now bp fuel (l, c) old).Returns
        (fun r => LatticeStep (fun _ => False) l r.1.1)
  | 0, l, c, old, _, hn, _, hold, hfuel => by
    have := withData_le_length l
    rw [hn] at this
    push_cast at hfuel
    omega
  | fuel + 1, l, c, old, hr, hn, hk, hold, hfuel => by
    unfold repairBlockLoop
    have hnp : notPending l < n + 1 := by
      have := notPending_le_length l
      omega
    refine Returns_bind (repairDataRepAdjacent_spec rp now wf (n + 1) bp hrp l c hr hnp)
      fun r hpost => ?_
    have h1 : LatticeStep (fun _ => False) l r.1.1 :=
      LatticeStep_weaken hpost.1 (fun _ hc => hc.elim)
    have h2 : LatticeStep (fun _ => False) l (ResetRepairStatus r.1.1) :=
      LatticeStep_trans h1 (ResetRepairStatus_step r.1.1)
    by_cases hok : r.2 = true
    · rw [if_pos hok]
      exact h2
    · rw [if_neg hok]
      have hr2 := Ready_step hr h2
      have hk2 : notMending (ResetRepairStatus r.1.1) < k := by
        have := notMending_le h2
        omega
      have hlen : r.1.1.Blocks.length = (ResetRepairStatus r.1.1).Blocks.length := by
        simp [ResetRepairStatus]
      rw [hlen]
      refine Returns_bind (countLoop_spec rb old wf k n hrb _ (ResetRepairStatus r.1.1) r.1.2 0
        hr2 (by rw [h2.length_eq]; exact hn) hk2) fun cr hcr => ?_
      have h3 : LatticeStep (fun _ => False) l cr.1.1 := LatticeStep_trans h2 hcr.1
      by_cases he : cr.2 = old
      · rw [if_pos he]
        exact Returns_orCrash fun b _ => h3
      · rw [if_neg he]
        have hm3 := notMending_le h3
        have hm2 := notMending_le h2
        have hw2 := withData_le h2
        have hw3 := withData_le h3
        have hlen3 : cr.1.1.Blocks.length = n := by rw [h3.length_eq, hn]
        have hcase : cr.2 ≤ (withData cr.1.1 : Int) ∧
            2 * (notMending cr.1.1 : Int) + (n : Int) - cr.2 < (fuel : Int) := by
          rcases hcr.2 with ⟨e1, e2⟩ | ⟨b1, b2⟩
          · constructor
            · omega
            · push_cast at hfuel
              omega
          · rw [withData_eq hcr.1] at b2
            have b1' : ((withData (ResetRepairStatus r.1.1) : Nat) : Int) ≤ cr.2 := by
              have : (0 : Int) + ((List.range (ResetRepairStatus r.1.1).Blocks.length).countP
                (fun i => ptrHasData (ResetRepairStatus r.1.1).Blocks[i]?) : Nat) ≤ cr.2 := b1
              unfold withData
              omega
            constructor
            · omega
            · push_cast at hfuel
              omega
        refine Returns_mono (repairBlockLoop_spec rp rb now wf k n bp hrp hrb fuel cr.1.1 cr.1.2
          cr.2 (Ready_step hr h3) hlen3 (by omega) hcase.1 hcase.2)
          fun r2 hp2 => LatticeStep_trans h3 hp2

theorem repairBlock_spec (getter : Getter) (now : Int) (wf : Nat) :
    ∀ (fuel : Nat) (s : Lattice × Nat) (bp : Nat), Ready wf s.1 →
      3 * s.1.Blocks.length + 2 < wf → notMending s.1 < fuel →
      (repairBlock getter now wf fuel s bp).Returns (BlockPost bp s.1)
  | 0, _, _, _, _, h => by omega
  | fuel + 1, s, bp, hr, hwf, hk => by
    obtain ⟨l, c⟩ := s
    have ih := repairBlock_spec getter now wf fuel
    unfold repairBlock
    dsimp only at hr hwf hk ⊢
    refine Returns_orCrash fun b hb => ?_
    by_cases hm : b.IsMending = true
    · rw [if_pos hm]
      refine ⟨LatticeStep_refl _ l, fun b' hb' => ?_⟩
      have : b' = b := Option.some.inj (hb'.symm.trans hb)
      rw [this]
      exact hm
    · rw [if_neg hm]
      have hs : BlockStep b { b with IsMending := true } :=
        ⟨rfl, (fun _ => rfl), (fun _ => rfl), (fun hd => hd)⟩
      have h01 : LatticeStep (fun _ => False) l (setBlock l bp { b with IsMending := true }) :=
        LatticeStep_set hb hs (fun hc => hc.elim)
      have hget1 : (setBlock l bp { b with IsMending := true }).Blocks[bp]? =
          some { b with IsMending := true } := by
        have hi : bp < l.Blocks.length := by
          by_contra hc
          rw [List.getElem?_eq_none (by omega)] at hb
          cases hb
        show (l.Blocks.set bp _)[bp]? = some _
        rw [List.getElem?_set_self hi]
      have hlt : notMending (setBlock l bp { b with IsMending := true }) < notMending l :=
        notMending_lt h01 hb hget1 (Bool.eq_false_iff.mpr hm) rfl
      have hr1 := Ready_step hr h01
      have hmend : ∀ l2, LatticeStep (fun _ => False)
          (setBlock l bp { b with IsMending := true }) l2 →
          ∀ b', l2.Blocks[bp]? = some b' → b'.IsMending = true := by
        intro l2 h2 b' hb'
        exact (h2.blocks bp _ b' hget1 hb').1.mending rfl
      refine Returns_bind (repairDataDLAdjacent_spec getter now wf _ c bp hr1) fun r h1 => ?_
      have h1f : LatticeStep (fun _ => False) (setBlock l bp { b with IsMending := true })
          r.1.1 := LatticeStep_weaken h1.1 (fun _ hc => hc.elim)
      by_cases hok : r.2 = true
      · rw [if_pos hok]
        exact ⟨LatticeStep_trans h01 h1f, hmend _ h1f⟩
      · rw [if_neg hok]
        have h02 := LatticeStep_trans h01 h1f
        have hlen : r.1.1.Blocks.length = l.Blocks.length := h02.length_eq
        have hm2 := notMending_le h1f
        have hml := notMending_le_length l
        refine Returns_mono (repairBlockLoop_spec (repairParity getter now wf wf)
          (fun s0 j0 => repairBlock getter now wf fuel s0 j0) now wf fuel l.Blocks.length bp
          (fun s0 p0 g0 h0 k0 => repairParity_spec getter now wf wf s0 p0 g0 h0 (by omega))
          (fun s0 j0 h0 n0 k0 => ih s0 j0 h0 (by rw [n0]; exact hwf) k0)
          wf r.1.1 r.1.2 (-1) (Ready_step hr h02) hlen (by omega)
          (by omega) (by omega))
          fun r2 hp2 => ⟨LatticeStep_trans h02 hp2, hmend _ (LatticeStep_trans h1f hp2)⟩

theorem Returns_cases {α : Type} {o : Outcome α} {Q : α → Prop} (h : o.Returns Q) :
    o = .crash ∨ ∃ a, o = .done a ∧ Q a := by
  cases o with
  | done a => exact Or.inr ⟨a, rfl, h⟩
  | crash => exact Or.inl rfl
  | blocked => exact h.elim
  | noFuel => exact h.elim

/-- A pass of `RepairAll` keeps the data, counts every block that had data before it, and
counts only blocks that have data after it. -/
theorem repairAllPass_spec (getter : Getter) (now : Int) (fuel : Nat) :
    ∀ (is : List Nat) (l : Lattice) (c : Nat) (cnt : Int), Ready fuel l →
      3 * l.Blocks.length + 2 < fuel →
      (repairAllPass getter now fuel is (l, c) cnt).Returns (fun r =>
        LatticeStep (fun _ => False) l r.1.1 ∧
        cnt + (is.countP (fun i => ptrHasData l.Blocks[i]?) : Nat) ≤ r.2 ∧
        r.2 ≤ cnt + (is.countP (fun i => ptrHasData r.1.1.Blocks[i]?) : Nat))
  | [], l, c, cnt, _, _ => by
    unfold repairAllPass
    refine ⟨LatticeStep_refl _ l, ?_, ?_⟩ <;> simp
  | i :: rest, l, c, cnt, hr, hf => by
    unfold repairAllPass
    refine Returns_orCrash fun b hb => ?_
    have hb' : l.Blocks[i]? = some b := hb
    by_cases hd : b.HasData = true
    · rw [if_pos hd]
      refine Returns_mono (repairAllPass_spec getter now fuel rest l c (cnt + 1) hr hf)
        fun r hpost => ?_
      refine ⟨hpost.1, ?_⟩
      obtain ⟨k1, k2, k3⟩ := hpost
      have hdl : ptrHasData l.Blocks[i]? = true := by rw [hb']; exact hd
      have hdr := (LatticeStep_keepsData k1).2 i hdl
      simp only [List.countP_cons, hdl, hdr, if_true]
      push_cast
      exact ⟨by omega, by omega⟩
    · rw [if_neg hd]
      have hdl : ptrHasData l.Blocks[i]? = false := by
        rw [hb']; exact Bool.eq_false_iff.mpr hd
      have hcall : (if b.IsParity = true then repairParity getter now fuel fuel (l, c) (some i) true
          else (repairBlock getter now fuel fuel (l, c) i).bind fun r => Outcome.done r.1).Returns
          (fun s1 => LatticeStep (fun _ => False) l s1.1) := by
        by_cases hp : b.IsParity = true
        · rw [if_pos hp]
          have hnp := notPending_le_length l
          exact Returns_mono (repairParity_spec getter now fuel fuel (l, c) (some i) true hr
            (by show notPending l < fuel; omega))
            (fun r h => LatticeStep_weaken h (fun _ hc => hc.elim))
        · rw [if_neg hp]
          have hnm := notMending_le_length l
          exact Returns_bind (repairBlock_spec getter now fuel fuel (l, c) i hr hf
            (by show notMending l < fuel; omega)) (fun r h => h.1)
      refine Returns_bind hcall fun s1 h1 => ?_
      refine Returns_orCrash fun b1 hb1 => ?_
      have hb1' : s1.1.Blocks[i]? = some b1 := hb1
      refine Returns_mono (repairAllPass_spec getter now fuel rest s1.1 s1.2
        (if b1.HasData = true then cnt + 1 else cnt) (Ready_step hr h1)
        (by rw [h1.length_eq]; exact hf)) fun r hpost => ?_
      obtain ⟨k1, k2, k3⟩ := hpost
      have hm : rest.countP (fun i => ptrHasData l.Blocks[i]?) ≤
          rest.countP (fun i => ptrHasData s1.1.Blocks[i]?) :=
        countHasData_mono (LatticeStep_keepsData h1) rest
      refine ⟨LatticeStep_trans h1 k1, ?_, ?_⟩
      · simp only [List.countP_cons, hdl, Bool.false_eq_true, if_false, Nat.add_zero]
        by_cases h1d : b1.HasData = true
        · rw [if_pos h1d] at k2
          omega
        · rw [if_neg h1d] at k2
          omega
      · by_cases h1d : b1.HasData = true
        · rw [if_pos h1d] at k3
          have h2 : ptrHasData r.1.1.Blocks[i]? = true :=
            (LatticeStep_keepsData k1).2 i (by rw [hb1']; exact h1d)
          simp only [List.countP_cons, h2, if_true]
          push_cast
          omega
        · rw [if_neg h1d] at k3
          simp only [List.countP_cons]
          push_cast
          omega

/-- The loop of `RepairAll` from a state whose previous count is at most the number of
blocks with data: it returns within `len(Blocks) - old + 1` passes. -/
theorem repairAllLoop_spec (getter : Getter) (now : Int) (fuel : Nat) :
    ∀ (k : Nat) (l : Lattice) (c : Nat) (old : Int) (counts : List Int), Ready fuel l →
      3 * l.Blocks.length + 2 < fuel → old ≤ (withData l : Int) →
      (l.Blocks.length : Int) - old + 1 ≤ k →
      (repairAllLoop getter now fuel k (l, c) old counts).Returns (fun r =>
        ∃ cs x, r.2 = counts ++ cs ++ [x] ∧
          LatticeStep (fun _ => False) l r.1.1 ∧ List.Chain (fun a b => a < b) old cs ∧
          (old :: cs).getLast? = some x ∧ (withData l : Int) ≤ x ∧
          (cs.length : Int) + 1 ≤ (l.Blocks.length : Int) - old + 1)
  | 0, l, c, old, counts, _, _, hold, hk => by
    have := withData_le_length l
    push_cast at hk
    omega
  | k + 1, l, c, old, counts, hr, hf, hold, hk => by
    unfold repairAllLoop
    refine Returns_bind (repairAllPass_spec getter now fuel (List.range l.Blocks.length) l c 0
      hr hf) fun r hpost => ?_
    obtain ⟨k1, k2, k3⟩ := hpost
    rw [withData_eq k1] at k3
    have k2' : (withData l : Int) ≤ r.2 := by
      have : (0 : Int) + ((List.range l.Blocks.length).countP
        (fun i => ptrHasData l.Blocks[i]?) : Nat) ≤ r.2 := k2
      unfold withData
      omega
    have hle := withData_le_length r.1.1
    have hlen : r.1.1.Blocks.length = l.Blocks.length := k1.length_eq
    by_cases he : old = r.2
    · rw [if_pos he]
      refine ⟨[], r.2, by rw [List.append_nil], k1, List.Chain.nil, by rw [he]; rfl, k2', ?_⟩
      simp only [List.length_nil]
      push_cast
      omega
    · rw [if_neg he]
      refine Returns_mono (repairAllLoop_spec getter now fuel k r.1.1 r.1.2 r.2
        (counts ++ [r.2]) (Ready_step hr k1) (by rw [hlen]; exact hf) (by omega)
        (by rw [hlen]; push_cast at hk ⊢; omega)) fun r2 hp2 => ?_
      obtain ⟨cs, x, h1, h2, h3, h4, h5, h6⟩ := hp2
      have hw := withData_le k1
      rw [hlen] at h6
      refine ⟨r.2 :: cs, x, ?_, LatticeStep_trans k1 h2, List.Chain.cons (by omega) h3, ?_,
        by omega, ?_⟩
      · rw [h1]
        simp only [List.append_assoc, List.singleton_append, List.cons_append, List.nil_append]
      · rw [List.getLast?_cons_cons]
        exact h4
      · simp only [List.length_cons]
        push_cast
        omega

/-- C38 fails on the code for a lattice without blocks, which is the lattice before
`RunInit` and also the lattice that `RunInit` builds for no data block: whatever the network
answers, `RepairAll` makes two passes, each with the count 0, since the first count is
compared with the start value -1; `len(Blocks) + 1` is 1. -/
theorem repair_all_counterexample :
    (∀ (getter : Getter) (now : Int) (calls : Nat),
      (RepairAll getter now 3 (NewLattice 3 5 5 25, calls)).bind (fun r => .done r.2) =
        .done [0, 0]) ∧
    (NewLattice 3 5 5 25).Blocks.length + 1 = 1 ∧
    ∃ l, RunInit (NewLattice 3 5 5 0) [] = some l ∧ l.Blocks.length + 1 = 1 ∧
      ∀ (getter : Getter) (now : Int) (calls : Nat),
        (RepairAll getter now 3 (l, calls)).bind (fun r => .done r.2) = .done [0, 0] :=
  ⟨fun _ _ _ => rfl, rfl, _, rfl, rfl, fun _ _ _ => rfl⟩

/-- `RepairAll` from a state in which no download is pending and the strands of the replaced
parities are closed, with fuel above `3 * len(Blocks) + 2`, for any network: a pass over the
blocks returns or ends in a panic, and so does `RepairAll`. A pass that returns has kept the
number of blocks and the data of every block that had data. When `RepairAll` returns it has
made at most `len(Blocks) + 2` passes, the counts rise from the start value -1 until the
last pass, whose count equals the one before, and every block that had data still has the
same data. -/
theorem repairAll_returns (getter : Getter) (now : Int) (fuel : Nat) (l : Lattice)
    (calls : Nat) (hready : Ready fuel l) (hfuel : 3 * l.Blocks.length + 2 < fuel) :
    (repairAllPass getter now fuel (List.range l.Blocks.length) (l, calls) 0 = .crash ∨
      ∃ l1 c1 cnt, repairAllPass getter now fuel (List.range l.Blocks.length) (l, calls) 0 =
          .done ((l1, c1), cnt) ∧ KeepsData l l1 ∧
        ∀ (j : Nat) (b b1 : Block), l.Blocks[j]? = some b → l1.Blocks[j]? = some b1 →
          b.HasData = true → b1.Data = b.Data) ∧
    (RepairAll getter now fuel (l, calls) = .crash ∨
      ∃ l1 c1 cs c, RepairAll getter now fuel (l, calls) = .done ((l1, c1), cs ++ [c]) ∧
        KeepsData l l1 ∧
        (∀ (j : Nat) (b b1 : Block), l.Blocks[j]? = some b → l1.Blocks[j]? = some b1 →
          b.HasData = true → b1.Data = b.Data) ∧
        List.Chain (fun a b => a < b) (-1) cs ∧
        (-1 :: cs).getLast? = some c ∧ 0 ≤ c ∧
        (cs ++ [c]).length ≤ l.Blocks.length + 2) := by
  constructor
  · rcases Returns_cases (repairAllPass_spec getter now fuel (List.range l.Blocks.length) l
      calls 0 hready hfuel) with h | ⟨r, h, hpost, -, -⟩
    · exact Or.inl h
    · exact Or.inr ⟨r.1.1, r.1.2, r.2, h, LatticeStep_keepsData hpost,
        fun j b b1 hb hb1 hd => (hpost.blocks j b b1 hb hb1).1.data hd⟩
  · have hw : (-1 : Int) ≤ (withData l : Int) := by omega
    rcases Returns_cases (repairAllLoop_spec getter now fuel fuel l calls (-1) [] hready hfuel
      hw (by omega)) with h | ⟨r, h, cs, x, h1, h2, h3, h4, h5, h6⟩
    · exact Or.inl h
    · right
      refine ⟨r.1.1, r.1.2, cs, x, ?_, LatticeStep_keepsData h2,
        fun j b b1 hb hb1 hd => (h2.blocks j b b1 hb hb1).1.data hd, h3, h4, by omega, ?_⟩
      · unfold RepairAll
        rw [h]
        rw [List.nil_append] at h1
        obtain ⟨⟨l1, c1⟩, cnts⟩ := r
        dsimp only at h1 ⊢
        rw [h1]
      · simp only [List.length_append, List.length_singleton]
        omega

set_option maxRecDepth 100000 in
/-- The run of `RepairAll` on the sample, evaluated. -/
theorem sampleRepairAll_eval :
    sampleRepairAll = some (100, true, .done ([99, 100, 100], true)) := by decide!

/-! ### The chain of a replaced parity -/

theorem dropData_get (miss : List Nat) (l : Lattice) (i : Nat) :
    (dropData miss l).Blocks[i]? =
      (l.Blocks[i]?).map (fun b => if i ∈ miss then { b with Data := [] } else b) := by
  show (List.zipWith _ (List.range l.Blocks.length) l.Blocks)[i]? = _
  by_cases hi : i < l.Blocks.length
  · rw [List.getElem?_eq_getElem (by simp [hi]), List.getElem?_eq_getElem hi]
    simp only [List.getElem_zipWith, List.getElem_range, Option.map_some']
  · rw [List.getElem?_eq_none (by simp; omega), List.getElem?_eq_none (by omega)]
    rfl

theorem dropped_data (d : List (List Nat)) (eb : List EntangledBlock) (l : Lattice)
    (n : Nat) (replaced : List Int) (hinv : LInv n (3 * n) replaced l.Blocks)
    (miss : List Nat) (i : Nat) (hi : i < n) :
    ∃ db, (dropData miss (loadLattice d eb l)).Blocks[i]? = some db ∧
      db.Position = (i : Int) + 1 ∧ db.IsParity = false ∧
      db.Data = (if i ∈ miss then [] else d.getD i []) ∧
      ∀ k, k < 3 → db.Right[k]? = some (some (n + 3 * i + k)) := by
  obtain ⟨b, hb, hp, hpos, -, -, hR, -⟩ := hinv.2.1 i hi
  have hdat : (loadBlock d eb b).Data = d.getD i [] := by
    show (if b.IsParity = true then _ else d.getD (b.Position - 1).toNat []) = _
    rw [hp, hpos]
    have : ((i : Int) + 1 - 1).toNat = i := by omega
    rw [this]
    rfl
  have hR' : ∀ k, k < 3 → b.Right[k]? = some (some (n + 3 * i + k)) := by
    intro k hk
    rw [hR k hk, if_pos (by omega)]
  rw [dropData_get, loaded_get, hb]
  by_cases hm : i ∈ miss
  · refine ⟨{ (loadBlock d eb b) with Data := [] },
      by simp only [Option.map_some', if_pos hm], hpos, hp, by rw [if_pos hm], hR'⟩
  · refine ⟨loadBlock d eb b, by simp only [Option.map_some', if_neg hm], hpos, hp, ?_, hR'⟩
    rw [if_neg hm]
    exact hdat

theorem dropped_parity (d : List (List Nat)) (eb : List EntangledBlock) (l : Lattice)
    (n : Nat) (replaced : List Int) (hinv : LInv n (3 * n) replaced l.Blocks)
    (miss : List Nat) (j k : Nat) (hj : j < n) (hk : k < 3) :
    ∃ pb, (dropData miss (loadLattice d eb l)).Blocks[n + 3 * j + k]? = some pb ∧
      pb.Right[0]? = some (some (nextPos n (StrandClass.ofIdx k) ((j : Int) + 1) - 1).toNat) ∧
      pb.Position = (j : Int) + 1 ∧ pb.Class = StrandClass.ofIdx k ∧ pb.IsParity = true ∧
      pb.Replace = decide ((j : Int) + 1 ∈ replaced) ∧ pb.Length = 0 ∧
      pb.Data = (if n + 3 * j + k ∈ miss then []
        else (loadBlock d eb (parityBlockSpec n replaced j k)).Data) := by
  rw [dropData_get, loaded_get, hinv.2.2 j k hk (by omega)]
  by_cases hm : n + 3 * j + k ∈ miss
  · exact ⟨{ (loadBlock d eb (parityBlockSpec n replaced j k)) with Data := [] },
      by simp only [Option.map_some', if_pos hm], rfl, rfl, rfl, rfl, rfl, rfl,
      by rw [if_pos hm]⟩
  · exact ⟨loadBlock d eb (parityBlockSpec n replaced j k),
      by simp only [Option.map_some', if_neg hm], rfl, rfl, rfl, rfl, rfl, rfl,
      by rw [if_neg hm]⟩

theorem strandFrom_beyond (n : Nat) (k : StrandClass) (f : Nat) (x : Int)
    (h : (n : Int) < x) : strandFrom n k f x = [] := by
  cases f with
  | zero => rfl
  | succ f =>
    unfold strandFrom
    rw [if_neg (by omega)]

/-- The walk of `replacedParityRepair` along the strand of the head `h`, from the data block
at pointer `x` with the sum `acc`: it ends with the chunks of the strand from `x` on XOR-ed
onto `acc`, or with `false` at a block without data. -/
theorem replacedWalk_fold (d : List (List Nat)) (l : Lattice) (replaced : List Int)
    (hinv : LInv d.length (3 * d.length) replaced l.Blocks) (eb : List EntangledBlock)
    (miss : List Nat) (k : Nat) (hk : k < 3) (h : Nat) (h1 : 1 ≤ h) (h5 : h ≤ 5) :
    ∀ (f F x : Nat) (acc : List Nat), f < F → 5 ≤ x → x < d.length → d.length - x ≤ f →
      slot (StrandClass.ofIdx k) ((x : Int) + 1) = slot (StrandClass.ofIdx k) (h : Int) →
      replacedWalk (dropData miss (loadLattice d eb l)) (h : Int) k F (some x) acc =
        if (strandFrom d.length (StrandClass.ofIdx k) f ((x : Int) + 1)).all
            (fun y => decide ((y - 1).toNat ∉ miss ∧
              8 < (d.getD (y - 1).toNat []).length)) = true then
          .done (some (((strandFrom d.length (StrandClass.ofIdx k) f ((x : Int) + 1)).map
            (fun y => d.getD (y - 1).toNat [])).foldl XORByteSlice acc))
        else .done none
  | 0, _, x, _, _, _, hx, hm, _ => by omega
  | _, 0, _, _, hF, _, _, _, _ => by omega
  | f + 1, F + 1, x, acc, hF, hx5, hx, hm, hs => by
    obtain ⟨db, hdb, hpos, -, hdat, hR⟩ :=
      dropped_data d eb l d.length replaced hinv miss x hx
    obtain ⟨pb, hpb, hpR, -⟩ := dropped_parity d eb l d.length replaced hinv miss x k hx hk
    have hgt := fwd_gt (StrandClass.ofIdx k) ((x : Int) + 1) (by omega)
    have hx1 : ((x : Int) + 1 - 1).toNat = x := by omega
    unfold replacedWalk
    simp only [deref, hdb, orCrash, Outcome.bind]
    rw [if_neg (by rw [hpos]; omega)]
    unfold strandFrom
    rw [if_pos (show (x : Int) + 1 ≤ (d.length : Int) by omega)]
    simp only [List.all_cons, List.map_cons, List.foldl_cons, hx1]
    by_cases hmx : x ∉ miss ∧ 8 < (d.getD x []).length
    · have hdd : db.Data = d.getD x [] := by rw [hdat, if_neg hmx.1]
      have hnd : ¬ db.HasData = false := by
        unfold Block.HasData
        rw [hdd]
        intro hc
        exact (of_decide_eq_false hc) hmx.2
      rw [if_neg hnd, hR k hk]
      simp only [hpb, hpR, orCrash, Outcome.bind]
      have hdec : decide (x ∉ miss ∧ 8 < (d.getD x []).length) = true := decide_eq_true hmx
      rw [hdec, Bool.true_and, hdd]
      by_cases hf : fwd (StrandClass.ofIdx k) ((x : Int) + 1) ≤ (d.length : Int)
      · have hnp : nextPos d.length (StrandClass.ofIdx k) ((x : Int) + 1) =
            fwd (StrandClass.ofIdx k) ((x : Int) + 1) := by
          unfold nextPos
          rw [if_pos hf]
        obtain ⟨x', hx'⟩ : ∃ x' : Nat, fwd (StrandClass.ofIdx k) ((x : Int) + 1) =
            (x' : Int) + 1 := ⟨(fwd (StrandClass.ofIdx k) ((x : Int) + 1) - 1).toNat, by omega⟩
        have hx'1 : ((x' : Int) + 1 - 1).toNat = x' := by omega
        rw [hnp, hx', hx'1]
        rw [replacedWalk_fold d l replaced hinv eb miss k hk h h1 h5 f F x'
          (XORByteSlice acc (d.getD x [])) (by omega) (by omega) (by omega) (by omega)
          (by rw [← hx', slot_fwd _ _ (by omega)]; exact hs)]
      · have hnp : nextPos d.length (StrandClass.ofIdx k) ((x : Int) + 1) =
            wrapPos (StrandClass.ofIdx k) ((x : Int) + 1) := by
          unfold nextPos
          rw [if_neg hf]
        obtain ⟨-, -, -, hw1, hw5, hws⟩ := wrapPos_spec (StrandClass.ofIdx k) ((x : Int) + 1)
          (by omega)
        have hwh : wrapPos (StrandClass.ofIdx k) ((x : Int) + 1) = (h : Int) :=
          slot_first_inj _ _ _ hw1 hw5 (by omega) (by omega) (hws.trans hs)
        have hh1 : ((h : Int) - 1).toNat = h - 1 := by omega
        obtain ⟨hb, hhb, hhpos, -⟩ :=
          dropped_data d eb l d.length replaced hinv miss (h - 1) (by omega)
        rw [hnp, hwh, hh1, strandFrom_beyond _ _ _ _ (by omega)]
        obtain ⟨F', rfl⟩ : ∃ F', F = F' + 1 := ⟨F - 1, by omega⟩
        unfold replacedWalk
        simp only [deref, hhb, orCrash, Outcome.bind]
        rw [if_pos (by rw [hhpos]; omega)]
        rfl
    · have hnd : db.HasData = false := by
        unfold Block.HasData
        rw [hdat]
        by_cases hmm : x ∈ miss
        · rw [if_pos hmm]; rfl
        · rw [if_neg hmm]
          have : ¬ 8 < (d.getD x []).length := fun h8 => hmx ⟨hmm, h8⟩
          exact decide_eq_false this
      rw [if_pos hnd]
      have hdec : decide (x ∉ miss ∧ 8 < (d.getD x []).length) = false := decide_eq_false hmx
      rw [hdec, Bool.false_and]
      rfl

theorem strandFrom_range (n : Nat) (k : StrandClass) :
    ∀ (f : Nat) (x y : Int), 1 ≤ x → y ∈ strandFrom n k f x → x ≤ y ∧ y ≤ (n : Int)
  | 0, _, _, _, hy => by cases hy
  | f + 1, x, y, hx, hy => by
    unfold strandFrom at hy
    split at hy
    · rcases List.mem_cons.mp hy with h | h
      · omega
      · have := strandFrom_range n k f (fwd k x) y (by have := fwd_gt k x hx; omega) h
        have := fwd_gt k x hx
        omega
    · cases hy

/-- The positions of `strandFrom` are the forward iterates of its start within `n`. -/
theorem mem_strandFrom (n : Nat) (k : StrandClass) :
    ∀ (f : Nat) (x y : Int), 1 ≤ x → (n : Int) - x < f →
      (y ∈ strandFrom n k f x ↔ y ≤ (n : Int) ∧ ∃ t : Nat, (fwd k)^[t] x = y)
  | 0, x, y, hx, hf => by
    constructor
    · intro h; cases h
    · rintro ⟨hy, t, ht⟩
      have := (slot_iterate k t x hx).1
      have : x ≤ y := by
        rw [← ht]
        clear ht hy
        induction t with
        | zero => exact le_refl _
        | succ t ih =>
          rw [Function.iterate_succ_apply']
          have h1 := (slot_iterate k t x hx).1
          have := fwd_gt k _ h1
          omega
      omega
  | f + 1, x, y, hx, hf => by
    have hg := fwd_gt k x hx
    unfold strandFrom
    by_cases hxn : x ≤ (n : Int)
    · rw [if_pos hxn, List.mem_cons,
        mem_strandFrom n k f (fwd k x) y (by omega) (by omega)]
      constructor
      · rintro (h | ⟨hy, t, ht⟩)
        · exact ⟨by omega, 0, h.symm⟩
        · exact ⟨hy, t + 1, by rw [Function.iterate_succ_apply]; exact ht⟩
      · rintro ⟨hy, t, ht⟩
        cases t with
        | zero => exact Or.inl ht.symm
        | succ t => exact Or.inr ⟨hy, t, by rw [Function.iterate_succ_apply] at ht; exact ht⟩
    · rw [if_neg hxn]
      constructor
      · intro h; cases h
      · rintro ⟨hy, t, ht⟩
        have : x ≤ y := by
          rw [← ht]
          clear ht hy
          induction t with
          | zero => exact le_refl _
          | succ t ih =>
            rw [Function.iterate_succ_apply']
            have h1 := (slot_iterate k t x hx).1
            have := fwd_gt k _ h1
            omega
        omega

/-- The chunks of the strand of the head `h` from the position `x + 1` on, XOR-ed onto a sum
that fits the final parity of that position, give the final parity of the head up to
trailing zeros; the parity is as long as the longer of the sum and the chunk of the head.
The entangler has the chunk size 4096. -/
theorem strand_fold (d : List (List Nat)) (hn : 25 ≤ d.length) (k : StrandClass) (h : Nat)
    (h1 : 1 ≤ h) (h5 : h ≤ 5) :
    ∀ (f x : Nat) (acc : List Nat), 5 ≤ x → x < d.length → d.length - x ≤ f →
      slot k ((x : Int) + 1) = slot k (h : Int) →
      (∀ i, (XORByteSlice acc (d.getD x [])).getD i 0 =
        (d.getD (h - 1) []).getD i 0 ^^^
          (finalBlock ChunkSize d d.length k (x + 1)).Data.getD i 0) →
      max (XORByteSlice acc (d.getD x [])).length (d.getD (h - 1) []).length =
        (finalBlock ChunkSize d d.length k (x + 1)).Data.length →
      (∀ i, (((strandFrom d.length k f ((x : Int) + 1)).map
          (fun y => d.getD (y - 1).toNat [])).foldl XORByteSlice acc).getD i 0 =
        (finalBlock ChunkSize d d.length k h).Data.getD i 0) ∧
      (finalBlock ChunkSize d d.length k h).Data.length =
        max (((strandFrom d.length k f ((x : Int) + 1)).map
          (fun y => d.getD (y - 1).toNat [])).foldl XORByteSlice acc).length
          (d.getD (h - 1) []).length
  | 0, x, _, _, hx, hm, _, _, _ => by omega
  | f + 1, x, acc, hx5, hx, hm, hs, hQ, hL => by
    have hgt := fwd_gt k ((x : Int) + 1) (by omega)
    have hx1 : ((x : Int) + 1 - 1).toNat = x := by omega
    unfold strandFrom
    rw [if_pos (show (x : Int) + 1 ≤ (d.length : Int) by omega)]
    simp only [List.map_cons, List.foldl_cons, hx1]
    by_cases hf : fwd k ((x : Int) + 1) ≤ (d.length : Int)
    · have hnp : nextPos d.length k ((x : Int) + 1) = fwd k ((x : Int) + 1) := by
        unfold nextPos
        rw [if_pos hf]
      obtain ⟨x', hx'⟩ : ∃ x' : Nat, fwd k ((x : Int) + 1) = (x' : Int) + 1 :=
        ⟨(fwd k ((x : Int) + 1) - 1).toNat, by omega⟩
      obtain ⟨-, hA, -⟩ := payload_struct ChunkSize d hn k x x' hx (by rw [hnp, hx'])
      have hA' := hA (by omega)
      rw [hx']
      refine strand_fold d hn k h h1 h5 f x' (XORByteSlice acc (d.getD x []))
        (by omega) (by omega) (by omega)
        (by rw [← hx', slot_fwd _ _ (by omega)]; exact hs) ?_ ?_
      · intro i
        rw [XORByteSlice_getD, hQ i, hA', XORByteSlice_getD, Nat.xor_assoc,
          Nat.xor_comm ((finalBlock ChunkSize d d.length k (x + 1)).Data.getD i 0)]
      · rw [XORByteSlice_length_max] at hL
        rw [hA']
        simp only [XORByteSlice_length_max]
        omega
    · have hnp : nextPos d.length k ((x : Int) + 1) = wrapPos k ((x : Int) + 1) := by
        unfold nextPos
        rw [if_neg hf]
      obtain ⟨-, -, -, hw1, hw5, hws⟩ := wrapPos_spec k ((x : Int) + 1) (by omega)
      have hwh : wrapPos k ((x : Int) + 1) = (h : Int) :=
        slot_first_inj _ _ _ hw1 hw5 (by omega) (by omega) (hws.trans hs)
      obtain ⟨-, hA, -⟩ := payload_struct ChunkSize d hn k x (h - 1) hx
        (by rw [hnp, hwh]; omega)
      have hA' := hA (by omega)
      rw [Nat.sub_add_cancel h1] at hA'
      rw [strandFrom_beyond _ _ _ _ (by omega)]
      simp only [List.map_nil, List.foldl_nil]
      refine ⟨?_, ?_⟩
      · intro i
        rw [hQ i, hA', XORByteSlice_getD]
      · rw [XORByteSlice_length_max] at hL
        rw [hA']
        simp only [XORByteSlice_length_max]
        omega

theorem idx_ofIdx (k : Nat) (hk : k < 3) : (StrandClass.ofIdx k).idx = k := by
  rcases ofIdx_cases k hk with ⟨h1, h2⟩ | ⟨h1, h2⟩ | ⟨h1, h2⟩ <;> rw [h2, h1] <;> rfl

theorem RepairSuccess_fill (b : Block) (hnd : b.HasData = false) (hL : b.Length = 0)
    (x : List Nat) (now : Int) :
    ∃ b1, b.RepairSuccess (some x) now = some (b1, true) ∧ b1.Data = x := by
  have h := RepairSuccess_noData b hnd x now (Or.inl hL)
  rw [if_pos hL] at h
  exact ⟨_, h, rfl⟩

theorem foldl_xor_length_ge : ∀ (xs : List (List Nat)) (acc : List Nat),
    acc.length ≤ (xs.foldl XORByteSlice acc).length
  | [], _ => le_refl _
  | x :: xs, acc => by
    have := foldl_xor_length_ge xs (XORByteSlice acc x)
    rw [XORByteSlice_length_max] at this
    simp only [List.foldl_cons]
    omega

/-- What `replacedParityRepair` does on the replaced parity of the head `j + 1` and the
class number `k`, in the loaded lattice in which the blocks `miss`, the parity among them,
have no data; the entangler has the chunk size 4096. -/
theorem replacedParityRepair_fold (d : List (List Nat)) (hn : 25 ≤ d.length) (l : Lattice)
    (replaced : List Int) (hinv : LInv d.length (3 * d.length) replaced l.Blocks)
    (eb : List EntangledBlock) (miss : List Nat) (j k : Nat) (hj : j < 5) (hk : k < 3)
    (hp : d.length + 3 * j + k ∈ miss) (now : Int) (fuel : Nat) (hfuel : d.length < fuel) :
    ∃ b b1, (dropData miss (loadLattice d eb l)).Blocks[d.length + 3 * j + k]? = some b ∧
      b.Position = (j : Int) + 1 ∧ b.Class = StrandClass.ofIdx k ∧
      b1.Data = ((strandFrom d.length (StrandClass.ofIdx k) d.length
          (fwd (StrandClass.ofIdx k) ((j : Int) + 1))).map
            (fun y => d.getD (y - 1).toNat [])).foldl XORByteSlice
              (List.replicate ChunkSize 0) ∧
      (finalBlock ChunkSize d d.length (StrandClass.ofIdx k) (j + 1)).Data =
        b1.Data ++ List.replicate
          ((finalBlock ChunkSize d d.length (StrandClass.ofIdx k) (j + 1)).Data.length -
            b1.Data.length) 0 ∧
      ((d.getD j []).length ≤ ChunkSize →
        b1.Data = (finalBlock ChunkSize d d.length (StrandClass.ofIdx k) (j + 1)).Data) ∧
      replacedParityRepair fuel now (dropData miss (loadLattice d eb l))
          (d.length + 3 * j + k) =
        if (strandFrom d.length (StrandClass.ofIdx k) d.length
            (fwd (StrandClass.ofIdx k) ((j : Int) + 1))).all
            (fun y => decide ((y - 1).toNat ∉ miss ∧
              8 < (d.getD (y - 1).toNat []).length)) = true then
          .done ({ dropData miss (loadLattice d eb l) with
                  Blocks := (dropData miss (loadLattice d eb l)).Blocks.set
                    (d.length + 3 * j + k) b1 }, true)
        else .done (dropData miss (loadLattice d eb l), false) := by
  obtain ⟨b, hb, hbR, hbpos, hbcls, -, -, hbL, hbdat⟩ :=
    dropped_parity d eb l d.length replaced hinv miss j k (by omega) hk
  rw [if_pos hp] at hbdat
  have hge := fwd_first_ge (StrandClass.ofIdx k) ((j : Int) + 1) (by omega)
  have hle := fwd_first_le (StrandClass.ofIdx k) ((j : Int) + 1) (by omega) (by omega)
  have hnp : nextPos d.length (StrandClass.ofIdx k) ((j : Int) + 1) =
      fwd (StrandClass.ofIdx k) ((j : Int) + 1) := by
    unfold nextPos
    rw [if_pos (by omega)]
  obtain ⟨x, hx⟩ : ∃ x : Nat, fwd (StrandClass.ofIdx k) ((j : Int) + 1) = (x : Int) + 1 :=
    ⟨(fwd (StrandClass.ofIdx k) ((j : Int) + 1) - 1).toNat, by omega⟩
  have hx1 : ((x : Int) + 1 - 1).toNat = x := by omega
  obtain ⟨-, -, hB⟩ := payload_struct ChunkSize d hn (StrandClass.ofIdx k) j x (by omega)
    (by rw [hnp, hx])
  have hB' := hB (by omega)
  have hs : slot (StrandClass.ofIdx k) ((x : Int) + 1) =
      slot (StrandClass.ofIdx k) (((j + 1 : Nat) : Int)) := by
    rw [← hx, slot_fwd _ _ (by omega)]
    push_cast
    rfl
  have hnd : b.HasData = false := by
    unfold Block.HasData
    rw [hbdat]
    rfl
  have hwalk := replacedWalk_fold d l replaced hinv eb miss k hk (j + 1)
    (by omega) (by omega) d.length fuel x (List.replicate ChunkSize 0) hfuel (by omega)
    (by omega) (by omega) hs
  have hfold := strand_fold d hn (StrandClass.ofIdx k) (j + 1) (by omega) (by omega)
    d.length x (List.replicate ChunkSize 0) (by omega) (by omega) (by omega) hs
    (by
      intro i
      rw [Nat.add_sub_cancel, hB', XORByteSlice_getD, XORByteSlice_getD, XORByteSlice_getD,
        replicate_zero_getD, Nat.zero_xor, Nat.xor_zero, Nat.xor_comm ((d.getD x []).getD i 0),
        Nat.xor_cancel_left])
    (by
      rw [Nat.add_sub_cancel, hB']
      simp only [XORByteSlice_length_max, List.length_replicate]
      omega)
  rw [Nat.add_sub_cancel] at hfold
  have hcast : (((j + 1 : Nat) : Nat) : Int) = (j : Int) + 1 := by push_cast; rfl
  rw [hcast] at hwalk
  rw [← hx] at hwalk hfold
  obtain ⟨b1, hb1, hb1d⟩ := RepairSuccess_fill b hnd hbL
    (((strandFrom d.length (StrandClass.ofIdx k) d.length
      (fwd (StrandClass.ofIdx k) ((j : Int) + 1))).map
        (fun y => d.getD (y - 1).toNat [])).foldl XORByteSlice
          (List.replicate ChunkSize 0)) now
  have hge4 := foldl_xor_length_ge ((strandFrom d.length (StrandClass.ofIdx k) d.length
      (fwd (StrandClass.ofIdx k) ((j : Int) + 1))).map
        (fun y => d.getD (y - 1).toNat [])) (List.replicate ChunkSize 0)
  rw [List.length_replicate] at hge4
  rw [← hb1d] at hfold hge4
  refine ⟨b, b1, hb, hbpos, hbcls, hb1d, ?_, ?_, ?_⟩
  · exact eq_pad_of_getD (by rw [hfold.2]; omega) (fun i => (hfold.1 i).symm)
  · intro hlen
    exact eq_of_getD (by rw [hfold.2]; omega) hfold.1
  unfold replacedParityRepair
  simp only [hb, hbR, hbpos, hbcls, idx_ofIdx k hk, hnp, hx, hx1, orCrash, Outcome.bind]
  rw [← hx, hwalk]
  by_cases hall : (strandFrom d.length (StrandClass.ofIdx k) d.length
      (fwd (StrandClass.ofIdx k) ((j : Int) + 1))).all
      (fun y => decide ((y - 1).toNat ∉ miss ∧ 8 < (d.getD (y - 1).toNat []).length)) = true
  · rw [if_pos hall, if_pos hall]
    simp only [hb1, orCrash, Outcome.bind, setBlock]
  · rw [if_neg hall, if_neg hall]

/-- C37 (replaced-parity chain). For (alpha, S, P) = (3, 5, 5), the entangler of chunk size
4096 of the program, chunks `d` with `n = len(d) >= 25`, in the lattice of `RunInit` loaded
with the chunks and the final parities of the closed-lattice run, in which the blocks at
the pointers `miss` have no data: for every parity `b` (at pointer `p`) marked `Replace` and
without data, `replacedParityRepair` returns (with `n + 1` iterations at most). The other
data blocks of the strand of `b` are the positions `strandFrom`, the forward iterates of
the position of `b` up to `n`. If each of them has data, the call returns true and the data
of `b` is then the XOR of those chunks, on the block of 4096 zero bytes the loop starts
with; the replacement parity that the closed-lattice run holds for `b` (a block marked
`Replace` of the class and left index of `b`) is that data, followed by zero bytes if it is
longer, and it is that data byte for byte when the chunk at the position of `b` has at most
4096 bytes, as every chunk payload has; no other block changes. If one of the blocks of the
strand has no data, the call returns false and the lattice is as before. -/
theorem replaced_parity_chain (d : List (List Nat)) (hn : 25 ≤ d.length) (m : Int)
    (sizeList : List ChunkMetadata)
    (hm : m = (d.length : Int) ∨ (m = 0 ∧ sizeList.length = d.length))
    (hwf : MetaWF d.length sizeList) (miss : List Nat) (now : Int) (fuel : Nat)
    (hfuel : d.length < fuel) :
    ∃ l' eb, RunInit (NewLattice 3 5 5 m) sizeList = some l' ∧
      closedRun ChunkSize d = some eb ∧
      ∀ (p : Nat) (b : Block),
        (dropData miss (loadLattice d eb l')).Blocks[p]? = some b →
        b.IsParity = true → b.Replace = true → b.HasData = false →
        ∃ fb r,
          (loadLattice d eb l').Blocks[p]? = some fb ∧
          (∃ blk ∈ eb, blk.Replace = true ∧ blk.Class = b.Class ∧
            blk.LeftIndex = b.Position ∧ blk.Data = fb.Data) ∧
          (∀ y, y ∈ strandFrom d.length b.Class d.length (fwd b.Class b.Position) ↔
            (y ≤ (d.length : Int) ∧ ∃ t : Nat, (fwd b.Class)^[t + 1] b.Position = y)) ∧
          replacedParityRepair fuel now (dropData miss (loadLattice d eb l')) p = .done r ∧
          ((∀ y ∈ strandFrom d.length b.Class d.length (fwd b.Class b.Position),
              ∃ db, (dropData miss (loadLattice d eb l')).Blocks[(y - 1).toNat]? = some db ∧
                db.HasData = true) →
            r.2 = true ∧ ∃ b1, r.1.Blocks[p]? = some b1 ∧
              b1.Data = ((strandFrom d.length b.Class d.length
                (fwd b.Class b.Position)).map (fun y => d.getD (y - 1).toNat [])).foldl
                  XORByteSlice (List.replicate ChunkSize 0) ∧
              fb.Data = b1.Data ++ List.replicate (fb.Data.length - b1.Data.length) 0 ∧
              ((d.getD (b.Position - 1).toNat []).length ≤ ChunkSize →
                b1.Data = fb.Data) ∧
              ∀ i, i ≠ p →
                r.1.Blocks[i]? = (dropData miss (loadLattice d eb l')).Blocks[i]?) ∧
          ((∃ y ∈ strandFrom d.length b.Class d.length (fwd b.Class b.Position),
              ∃ db, (dropData miss (loadLattice d eb l')).Blocks[(y - 1).toNat]? = some db ∧
                db.HasData = false) →
            r = (dropData miss (loadLattice d eb l'), false)) := by
  obtain ⟨l', replaced, hrun, hinv, -, -, hmem⟩ := RunInit_spec d.length m sizeList hm hwf
  obtain ⟨e, hE, hclosed⟩ := closedRun_eq ChunkSize d hn
  have hrep : ∀ y, y ∈ replaced ↔ 1 ≤ y ∧ y ≤ 5 := fun y =>
    (hmem y).trans (replaced_iff d.length (by omega) y)
  refine ⟨l', closedBlocks ChunkSize d e, hrun, hclosed, ?_⟩
  intro p b hb hpar hrepl hnd
  have hlen : (dropData miss (loadLattice d (closedBlocks ChunkSize d e) l')).Blocks.length =
      d.length + 3 * d.length := by
    show (List.zipWith _ _ _).length = _
    rw [List.length_zipWith, List.length_range, Nat.min_self]
    show (l'.Blocks.map _).length = _
    rw [List.length_map, hinv.1]
  have hlt : p < d.length + 3 * d.length := by
    by_contra h
    rw [List.getElem?_eq_none (by omega)] at hb
    cases hb
  have hge : d.length ≤ p := by
    by_contra h
    obtain ⟨db, hdb, -, hp, -⟩ :=
      dropped_data d (closedBlocks ChunkSize d e) l' d.length replaced hinv miss p (by omega)
    have : b = db := Option.some.inj (hb.symm.trans hdb)
    rw [this, hp] at hpar
    cases hpar
  have hidx : d.length + 3 * ((p - d.length) / 3) + (p - d.length) % 3 = p := by omega
  have hk : (p - d.length) % 3 < 3 := Nat.mod_lt _ (by omega)
  generalize (p - d.length) / 3 = j at hidx
  generalize (p - d.length) % 3 = k at hidx hk
  subst hidx
  have hjn : j < d.length := by omega
  obtain ⟨pb, hpb, -, hpos, hcls, -, hprep, -, hpdat⟩ :=
    dropped_parity d (closedBlocks ChunkSize d e) l' d.length replaced hinv miss j k hjn hk
  have hbp : b = pb := Option.some.inj (hb.symm.trans hpb)
  subst hbp
  have hj5 : j < 5 := by
    rw [hprep, decide_eq_true_iff, hrep] at hrepl
    omega
  have hfd := loaded_parity_data ChunkSize d e hE hn replaced j k hjn
  have hFl := finalBlock_length_ge ChunkSize d d.length (StrandClass.ofIdx k) (j + 1)
  have hpm : d.length + 3 * j + k ∈ miss := by
    by_contra h
    rw [if_neg h, hfd] at hpdat
    unfold Block.HasData at hnd
    rw [hpdat] at hnd
    have h8 := of_decide_eq_false hnd
    have : ChunkSize = 4096 := rfl
    omega
  obtain ⟨b', b1, hb', -, -, hb1x, hpad, hexact, hres⟩ := replacedParityRepair_fold d hn l'
    replaced hinv (closedBlocks ChunkSize d e) miss j k hj5 hk hpm now fuel hfuel
  have hfb := loaded_parity d (closedBlocks ChunkSize d e) l' d.length replaced hinv j k hjn hk
  have hf6 := fwd_first_ge (StrandClass.ofIdx k) ((j : Int) + 1) (by omega)
  have hf10 := fwd_first_le (StrandClass.ofIdx k) ((j : Int) + 1) (by omega) (by omega)
  have hhas : ∀ y ∈ strandFrom d.length (StrandClass.ofIdx k) d.length
      (fwd (StrandClass.ofIdx k) ((j : Int) + 1)),
      ∀ db, (dropData miss (loadLattice d (closedBlocks ChunkSize d e) l')).Blocks[(y - 1).toNat]? =
        some db → (db.HasData = true ↔
          ((y - 1).toNat ∉ miss ∧ 8 < (d.getD (y - 1).toNat []).length)) := by
    intro y hy db hdb
    have hr := strandFrom_range d.length (StrandClass.ofIdx k) d.length _ y (by omega) hy
    obtain ⟨db', hdb', -, -, hdat, -⟩ := dropped_data d (closedBlocks ChunkSize d e) l' d.length
      replaced hinv miss (y - 1).toNat (by omega)
    have hdd : db = db' := Option.some.inj (hdb.symm.trans hdb')
    subst hdd
    unfold Block.HasData
    rw [hdat]
    by_cases hmy : (y - 1).toNat ∈ miss
    · rw [if_pos hmy]
      constructor
      · intro h
        exact absurd h (by decide)
      · intro h
        exact absurd hmy h.1
    · rw [if_neg hmy]
      constructor
      · intro h
        exact ⟨hmy, of_decide_eq_true h⟩
      · intro h
        exact decide_eq_true h.2
  rw [hpos, hcls]
  have hj1 : ((j : Int) + 1 - 1).toNat = j := by omega
  rw [hj1]
  have hblk : ∃ blk ∈ closedBlocks ChunkSize d e, blk.Replace = true ∧
      blk.Class = StrandClass.ofIdx k ∧ blk.LeftIndex = (j : Int) + 1 ∧
      blk.Data = (loadBlock d (closedBlocks ChunkSize d e)
        (parityBlockSpec d.length replaced j k)).Data := by
    refine ⟨finalBlock ChunkSize d d.length (StrandClass.ofIdx k) (j + 1),
      finalBlock_mem ChunkSize d e hE hn _ _ (by omega) (by omega), ?_, rfl, ?_, hfd.symm⟩
    · show decide (j + 1 ≤ 5) = true
      exact decide_eq_true (by omega)
    · show ((j + 1 : Nat) : Int) = _
      push_cast
      rfl
  have hstr : ∀ y, y ∈ strandFrom d.length (StrandClass.ofIdx k) d.length
      (fwd (StrandClass.ofIdx k) ((j : Int) + 1)) ↔
      (y ≤ (d.length : Int) ∧
        ∃ t : Nat, (fwd (StrandClass.ofIdx k))^[t + 1] ((j : Int) + 1) = y) := by
    intro y
    rw [mem_strandFrom d.length (StrandClass.ofIdx k) d.length _ y (by omega) (by omega)]
    simp only [Function.iterate_succ_apply]
  by_cases hall' : (strandFrom d.length (StrandClass.ofIdx k) d.length
      (fwd (StrandClass.ofIdx k) ((j : Int) + 1))).all
      (fun y => decide ((y - 1).toNat ∉ miss ∧ 8 < (d.getD (y - 1).toNat []).length)) = true
  · rw [if_pos hall'] at hres
    refine ⟨_, _, hfb, hblk, hstr, hres, ?_, ?_⟩
    · intro _
      refine ⟨rfl, b1, List.getElem?_set_self (by rw [hlen]; exact hlt), hb1x, ?_, ?_, ?_⟩
      · rw [hfd]
        exact hpad
      · intro h4
        rw [hfd]
        exact hexact h4
      · intro i hi
        exact List.getElem?_set_ne (Ne.symm hi)
    · rintro ⟨y, hy, db, hdb, hd⟩
      rw [List.all_eq_true] at hall'
      have h1 := of_decide_eq_true (hall' y hy)
      have h2 := (hhas y hy db hdb).mpr h1
      rw [hd] at h2
      cases h2
  · rw [if_neg hall'] at hres
    refine ⟨_, _, hfb, hblk, hstr, hres, ?_, ?_⟩
    · intro hall
      exfalso
      apply hall'
      rw [List.all_eq_true]
      intro y hy
      obtain ⟨db, hdb, hd⟩ := hall y hy
      exact decide_eq_true ((hhas y hy db hdb).mp hd)
    · intro _
      rfl

/-- Witness for C37: the lattice of the 25 nine-byte chunks with the parities of the
4096-byte entangler, in which the replaced horizontal parity of position 1 (pointer 25) has
no data. `replacedParityRepair` returns true, and the data it stores, 4096 bytes or more, is
the replacement parity byte for byte. -/
theorem replaced_parity_chain_witness :
    25 ≤ sampleChunks9.length ∧ MetaWF sampleChunks9.length [] ∧
    sampleChunks9.length < 26 ∧
    ∃ l' eb, RunInit (NewLattice 3 5 5 25) [] = some l' ∧
      closedRun ChunkSize sampleChunks9 = some eb ∧
      ∃ b fb r b1, (dropData [25] (loadLattice sampleChunks9 eb l')).Blocks[25]? = some b ∧
        b.IsParity = true ∧ b.Replace = true ∧ b.HasData = false ∧
        (loadLattice sampleChunks9 eb l').Blocks[25]? = some fb ∧
        replacedParityRepair 26 1 (dropData [25] (loadLattice sampleChunks9 eb l')) 25
          = .done r ∧
        r.2 = true ∧ r.1.Blocks[25]? = some b1 ∧ b1.Data = fb.Data ∧
        4096 ≤ b1.Data.length := by
  have hwf : MetaWF sampleChunks9.length [] := by
    refine ⟨by decide, ?_, Or.inr ?_⟩
    · intro s hs; cases hs
    · intro s hs; cases hs
  have hn : 25 ≤ sampleChunks9.length := by decide
  have hlen : sampleChunks9.length = 25 := by decide
  have hc9 : ∀ x ∈ sampleChunks9, x.length = 9 := by decide
  refine ⟨hn, hwf, by decide, ?_⟩
  obtain ⟨l', eb, hrun, hclosed, hall⟩ :=
    replaced_parity_chain sampleChunks9 hn 25 [] (Or.inl (by decide)) hwf [25] 1 26
      (by decide)
  obtain ⟨l2, replaced, hrun2, hinv, -, -, hmem⟩ :=
    RunInit_spec sampleChunks9.length 25 [] (Or.inl (by decide)) hwf
  have hl : l2 = l' := Option.some.inj (hrun2.symm.trans hrun)
  rw [hl] at hinv
  have hrep : ∀ y, y ∈ replaced ↔ 1 ≤ y ∧ y ≤ 5 := fun y =>
    (hmem y).trans (replaced_iff sampleChunks9.length (by omega) y)
  obtain ⟨pb, hpb, -, hpos, hcls, hpar, hprep, -, hpdat⟩ :=
    dropped_parity sampleChunks9 eb l' sampleChunks9.length replaced hinv [25] 0 0
      (by decide) (by decide)
  have hp25 : sampleChunks9.length + 3 * 0 + 0 = 25 := by decide
  rw [hp25] at hpb hpdat
  rw [if_pos (by decide)] at hpdat
  have hrepl : pb.Replace = true := by
    rw [hprep, decide_eq_true_iff, hrep]
    decide
  have hnd : pb.HasData = false := by
    unfold Block.HasData
    rw [hpdat]
    rfl
  obtain ⟨fb, r, hfb, -, -, hres, hok, -⟩ := hall 25 pb hpb hpar hrepl hnd
  have hf6 := fwd_first_ge pb.Class pb.Position (by rw [hpos]; decide)
  obtain ⟨hr2, b1, hb1, hfold, -, hexact, -⟩ := hok (by
    intro y hy
    have hr := strandFrom_range sampleChunks9.length pb.Class sampleChunks9.length _ y
      (by omega) hy
    obtain ⟨db, hdb, -, -, hdat, -⟩ := dropped_data sampleChunks9 eb l' sampleChunks9.length
      replaced hinv [25] (y - 1).toNat (by omega)
    refine ⟨db, hdb, ?_⟩
    unfold Block.HasData
    rw [hdat, if_neg (by rw [List.mem_singleton]; omega),
      List.getD_eq_getElem _ _ (by omega), hc9 _ (List.getElem_mem _)]
    rfl)
  refine ⟨l', eb, hrun, hclosed, pb, fb, r, b1, hpb, hpar, hrepl, hnd, hfb, hres, hr2, hb1,
    ?_, ?_⟩
  · apply hexact
    rw [hpos]
    decide
  · have := foldl_xor_length_ge ((strandFrom sampleChunks9.length pb.Class
      sampleChunks9.length (fwd pb.Class pb.Position)).map
        (fun y => sampleChunks9.getD (y - 1).toNat [])) (List.replicate ChunkSize 0)
    rw [← hfold, List.length_replicate] at this
    exact this

/-! ### `RepairAll` on the lattice of `RunInit` -/

/-- A walk of `replacedParityRepair` that came back with a sum came back on the frames. -/
theorem walkReturns_of_walk (l : Lattice) (pos : Int) (cls : Nat) :
    ∀ (fuel : Nat) (right : Option Nat) (acc dat : List Nat),
      replacedWalk l pos cls fuel right acc = .done (some dat) →
      walkReturns (l.Blocks.map Block.frame) pos cls fuel right = true
  | 0, _, _, _, h => by
    unfold replacedWalk at h
    cases h
  | fuel + 1, right, acc, dat, h => by
    unfold replacedWalk at h
    unfold walkReturns
    cases right with
    | none => rfl
    | some ri =>
      dsimp only
      rw [frames_get]
      cases hrb : l.Blocks[ri]? with
      | none => rfl
      | some rb =>
        have hd : deref l (some ri) = some rb := hrb
        rw [hd] at h
        simp only [orCrash, Outcome.bind] at h
        dsimp only [Option.map_some']
        by_cases hp : rb.Position = pos
        · have hp' : rb.frame.Position = pos := hp
          rw [if_pos hp']
        · have hp' : ¬ rb.frame.Position = pos := hp
          rw [if_neg hp']
          rw [if_neg hp] at h
          by_cases hnd : rb.HasData = false
          · rw [if_pos hnd] at h
            cases h
          · rw [if_neg hnd] at h
            have hR : rb.frame.Right[cls]? = rb.Right[cls]? := rfl
            rw [hR]
            cases hrp : rb.Right[cls]? with
            | none => rfl
            | some rp =>
              rw [hrp] at h
              cases rp with
              | none => rfl
              | some pi =>
                dsimp only at h ⊢
                rw [frames_get]
                cases hpb : l.Blocks[pi]? with
                | none => rfl
                | some pb =>
                  have hd2 : deref l (some pi) = some pb := hpb
                  rw [hd2] at h
                  dsimp only [Option.map_some'] at h ⊢
                  have hR2 : pb.frame.Right[0]? = pb.Right[0]? := rfl
                  rw [hR2]
                  cases hnx : pb.Right[0]? with
                  | none => rfl
                  | some next =>
                    rw [hnx] at h
                    exact walkReturns_of_walk l pos cls fuel next _ dat h

theorem frames_dropData_load (d : List (List Nat)) (eb : List EntangledBlock)
    (miss : List Nat) (l : Lattice) :
    (dropData miss (loadLattice d eb l)).Blocks.map Block.frame = l.Blocks.map Block.frame := by
  apply List.ext_getElem?
  intro i
  rw [frames_get, frames_get, dropData_get, loaded_get]
  cases l.Blocks[i]? with
  | none => rfl
  | some b =>
    simp only [Option.map_some']
    by_cases hm : i ∈ miss
    · rw [if_pos hm]
      rfl
    · rw [if_neg hm]
      rfl

/-- The strands of the replaced parities of the lattice that `RunInit` builds are closed:
the walk of `replacedParityRepair` is back within `n + 1` steps. -/
theorem walkOK_of_LInv (n : Nat) (hn : 25 ≤ n) (l0 : Lattice) (replaced : List Int)
    (hinv : LInv n (3 * n) replaced l0.Blocks) (hrep : ∀ y, y ∈ replaced ↔ 1 ≤ y ∧ y ≤ 5)
    (fuel : Nat) (hfuel : n < fuel) : walkOK (l0.Blocks.map Block.frame) fuel = true := by
  unfold walkOK
  rw [List.all_eq_true]
  intro fb hfb
  obtain ⟨b, hb, rfl⟩ := List.mem_map.mp hfb
  obtain ⟨i, hi⟩ := List.mem_iff_getElem?.mp hb
  have hlt : i < n + 3 * n := by
    by_contra hc
    rw [List.getElem?_eq_none (by rw [hinv.1]; omega)] at hi
    cases hi
  by_cases hin : i < n
  · obtain ⟨b', hb', hpar, -⟩ := hinv.2.1 i hin
    have : b = b' := Option.some.inj (hi.symm.trans hb')
    have hp : b.frame.IsParity = false := by rw [this]; exact hpar
    rw [hp]
    rfl
  · have hidx : n + 3 * ((i - n) / 3) + (i - n) % 3 = i := by omega
    have hk : (i - n) % 3 < 3 := Nat.mod_lt _ (by omega)
    generalize (i - n) / 3 = j at hidx
    generalize (i - n) % 3 = k at hidx hk
    subst hidx
    have hjn : j < n := by omega
    have hspec := hinv.2.2 j k hk (by omega)
    have hbe : b = parityBlockSpec n replaced j k := Option.some.inj (hi.symm.trans hspec)
    subst hbe
    by_cases hr : (j : Int) + 1 ∈ replaced
    · have hj5 : j < 5 := by
        have := (hrep _).mp hr
        omega
      set d : List (List Nat) := List.replicate n (List.replicate 9 0) with hd
      have hdl : d.length = n := List.length_replicate _ _
      have hinv' : LInv d.length (3 * d.length) replaced l0.Blocks := by rw [hdl]; exact hinv
      have hge := fwd_first_ge (StrandClass.ofIdx k) ((j : Int) + 1) (by omega)
      have hle := fwd_first_le (StrandClass.ofIdx k) ((j : Int) + 1) (by omega) (by omega)
      have hnp : nextPos n (StrandClass.ofIdx k) ((j : Int) + 1) =
          fwd (StrandClass.ofIdx k) ((j : Int) + 1) := by
        unfold nextPos
        rw [if_pos (by omega)]
      obtain ⟨x, hx⟩ : ∃ x : Nat, fwd (StrandClass.ofIdx k) ((j : Int) + 1) = (x : Int) + 1 :=
        ⟨(fwd (StrandClass.ofIdx k) ((j : Int) + 1) - 1).toNat, by omega⟩
      have hx1 : ((x : Int) + 1 - 1).toNat = x := by omega
      have hs : slot (StrandClass.ofIdx k) ((x : Int) + 1) =
          slot (StrandClass.ofIdx k) (((j + 1 : Nat) : Int)) := by
        rw [← hx, slot_fwd _ _ (by omega)]
        push_cast
        rfl
      have hwalk := replacedWalk_fold d l0 replaced hinv' [] [] k hk (j + 1)
        (by omega) (by omega) d.length fuel x [] (by omega) (by omega)
        (by omega) (by omega) hs
      have hall : (strandFrom d.length (StrandClass.ofIdx k) d.length ((x : Int) + 1)).all
          (fun y => decide ((y - 1).toNat ∉ ([] : List Nat) ∧
            8 < (d.getD (y - 1).toNat []).length)) = true := by
        rw [List.all_eq_true]
        intro y hy
        obtain ⟨hy1, hy2⟩ := strandFrom_range d.length (StrandClass.ofIdx k) d.length _ y
          (by omega) hy
        rw [decide_eq_true_eq]
        refine ⟨List.not_mem_nil _, ?_⟩
        have hlt : (y - 1).toNat < n := by omega
        rw [List.getD_eq_getElem?_getD, hd, List.getElem?_replicate, if_pos hlt]
        simp
      rw [if_pos hall] at hwalk
      have hw := walkReturns_of_walk _ _ _ _ _ _ _ hwalk
      rw [frames_dropData_load] at hw
      have e1 : (parityBlockSpec n replaced j k).frame.Right[0]? = some (some x) := by
        show (parityBlockSpec n replaced j k).Right[0]? = _
        unfold parityBlockSpec
        rw [hnp, hx, hx1]
        rfl
      have e2 : (parityBlockSpec n replaced j k).frame.Position = ((j + 1 : Nat) : Int) := by
        show (parityBlockSpec n replaced j k).Position = _
        unfold parityBlockSpec
        push_cast
        rfl
      have e3 : (parityBlockSpec n replaced j k).frame.Class.idx = k := by
        show (StrandClass.ofIdx k).idx = k
        exact idx_ofIdx k hk
      rw [e1, e2, e3]
      dsimp only
      rw [hw, Bool.or_true]
    · have hp : (parityBlockSpec n replaced j k).frame.Replace = false := by
        show decide ((j : Int) + 1 ∈ replaced) = false
        exact decide_eq_false hr
      rw [hp, Bool.and_false]
      rfl

/-- C38 with the bound `len(Blocks) + 2`, for `RepairAll` with `repairParity`, `repairBlock`
and the calls below them as the source has them, run one at a time with any network
`getter`. For (alpha, S, P) = (3, 5, 5) and `n >= 25` data blocks, or no data block
(`n = 0`, the lattice without blocks), in any state `l` of the lattice that `RunInit` builds
(the frames of its blocks are those of `RunInit`; data, statuses and mending flags are
arbitrary) in which no download is pending, and with fuel above `3 * len(Blocks) + 2`: a
pass over the blocks returns or ends in a panic, and so does `RepairAll`; neither waits for
ever nor outruns the fuel. A pass that returns has kept the number of blocks and the data of
every block that had data (data once set is never cleared). When `RepairAll` returns it has
made at most `len(Blocks) + 2` passes; counted from the start value -1, the count of every
pass but the last is greater than the count before it, and the count of the last pass
equals the count before it, so the loop returns at the first pass whose count equals the
previous one; and every block that had data still has the same data. -/
theorem repair_all_converges (n : Nat) (hn : n = 0 ∨ 25 ≤ n) (m : Int)
    (sizeList : List ChunkMetadata)
    (hm : m = (n : Int) ∨ (m = 0 ∧ sizeList.length = n)) (hwf : MetaWF n sizeList)
    (l0 : Lattice) (hrun : RunInit (NewLattice 3 5 5 m) sizeList = some l0)
    (l : Lattice) (hl : l.Blocks.map Block.frame = l0.Blocks.map Block.frame)
    (hpend : ∀ b ∈ l.Blocks, b.DownloadStatus ≠ .DownloadPending)
    (getter : Getter) (now : Int) (calls fuel : Nat)
    (hfuel : 3 * l.Blocks.length + 2 < fuel) :
    l.Blocks.length = 4 * n ∧
    (repairAllPass getter now fuel (List.range l.Blocks.length) (l, calls) 0 = .crash ∨
      ∃ l1 c1 cnt, repairAllPass getter now fuel (List.range l.Blocks.length) (l, calls) 0 =
          .done ((l1, c1), cnt) ∧ KeepsData l l1 ∧
        ∀ (j : Nat) (b b1 : Block), l.Blocks[j]? = some b → l1.Blocks[j]? = some b1 →
          b.HasData = true → b1.Data = b.Data) ∧
    (RepairAll getter now fuel (l, calls) = .crash ∨
      ∃ l1 c1 cs c, RepairAll getter now fuel (l, calls) = .done ((l1, c1), cs ++ [c]) ∧
        KeepsData l l1 ∧
        (∀ (j : Nat) (b b1 : Block), l.Blocks[j]? = some b → l1.Blocks[j]? = some b1 →
          b.HasData = true → b1.Data = b.Data) ∧
        List.Chain (fun a b => a < b) (-1) cs ∧
        (-1 :: cs).getLast? = some c ∧ 0 ≤ c ∧
        (cs ++ [c]).length ≤ l.Blocks.length + 2) := by
  obtain ⟨l', replaced, hrun', hinv, -, -, hmem⟩ := RunInit_spec n m sizeList hm hwf
  have e : l' = l0 := Option.some.inj (hrun'.symm.trans hrun)
  subst e
  have hlen : l.Blocks.length = 4 * n := by
    have := congrArg List.length hl
    rw [List.length_map, List.length_map, hinv.1] at this
    omega
  have hwalk : walkOK (l'.Blocks.map Block.frame) fuel = true := by
    rcases hn with h0 | h25
    · have hnil : l'.Blocks = [] := List.eq_nil_of_length_eq_zero (by rw [hinv.1]; omega)
      rw [hnil]
      rfl
    · have hrep : ∀ y, y ∈ replaced ↔ 1 ≤ y ∧ y ≤ 5 := fun y =>
        (hmem y).trans (replaced_iff n (by omega) y)
      exact walkOK_of_LInv n h25 l' replaced hinv hrep fuel (by omega)
  have hready : Ready fuel l := ⟨hpend, by rw [hl]; exact hwalk⟩
  exact ⟨hlen, repairAll_returns getter now fuel l calls hready hfuel⟩

/-- Witness for C38: the sample lattice of 25 chunks with parities of 4096 bytes, in which
the data block at position 11, left mending by an earlier `RepairAll`, and the parity that
joins the positions 6 and 11 hold no data, and a network that is down. The first pass
counts 99 blocks with data: `repairBlock` returns at once on the mending block, which the
repair of the parity then restores, after the count has passed it. The second pass counts
100, the third 100, and `RepairAll` returns: three passes with a rising count, and the two
blocks hold their data again. -/
theorem repair_all_converges_witness :
    25 ≤ 25 ∧ MetaWF 25 sampleSpanMeta ∧
    ∃ l0 full, RunInit (NewLattice 3 5 5 25) sampleSpanMeta = some l0 ∧
      sampleFull = some full ∧
      (sampleLost full).Blocks.map Block.frame = l0.Blocks.map Block.frame ∧
      (∀ b ∈ (sampleLost full).Blocks, b.DownloadStatus ≠ .DownloadPending) ∧
      3 * (sampleLost full).Blocks.length + 2 < 400 ∧
      (RepairAll noNetwork 1 400 (sampleLost full, 0)).bind
        (fun r => .done (r.2, decide ([10, 40].map (fun i => r.1.1.Blocks[i]?.map Block.Data) =
          [10, 40].map (fun i => full.Blocks[i]?.map Block.Data)))) =
        .done ([99, 100, 100], true) ∧
      (sampleLost full).Blocks.length = 4 * 25 ∧
      (RepairAll noNetwork 1 400 (sampleLost full, 0) = .crash ∨
        ∃ l1 c1 cs c,
          RepairAll noNetwork 1 400 (sampleLost full, 0) = .done ((l1, c1), cs ++ [c]) ∧
          KeepsData (sampleLost full) l1 ∧
          (∀ (j : Nat) (b b1 : Block), (sampleLost full).Blocks[j]? = some b →
            l1.Blocks[j]? = some b1 → b.HasData = true → b1.Data = b.Data) ∧
          List.Chain (fun a b => a < b) (-1) cs ∧
          (-1 :: cs).getLast? = some c ∧ 0 ≤ c ∧
          (cs ++ [c]).length ≤ (sampleLost full).Blocks.length + 2) := by
  have hwf : MetaWF 25 sampleSpanMeta := by
    refine ⟨by decide, ?_, Or.inl (by decide)⟩
    intro s hs
    have : s = { Size := 9, Length := 9, Parent := 0, Children := [] } :=
      List.eq_of_mem_replicate hs
    rw [this]
    exact ⟨Or.inl rfl, fun ch hch => by cases hch⟩
  have e := sampleRepairAll_eval
  unfold sampleRepairAll at e
  have hex : ∃ l0 full, RunInit (NewLattice 3 5 5 25) sampleSpanMeta = some l0 ∧
      sampleFull = some full := by
    cases hrun : RunInit (NewLattice 3 5 5 25) sampleSpanMeta with
    | none =>
      rw [hrun] at e
      cases e
    | some l0 =>
      cases hf : sampleFull with
      | none =>
        rw [hrun, hf] at e
        cases e
      | some full => exact ⟨l0, full, rfl, rfl⟩
  obtain ⟨l0, full, hrun, hf⟩ := hex
  rw [hrun, hf] at e
  obtain ⟨hlen, h23⟩ := Prod.mk.inj (Option.some.inj e)
  obtain ⟨h2, hres⟩ := Prod.mk.inj h23
  obtain ⟨hfr, hp⟩ := Bool.and_eq_true_iff.mp h2
  have hfr := of_decide_eq_true hfr
  have hpend := of_decide_eq_true hp
  have hfuel : 3 * (sampleLost full).Blocks.length + 2 < 400 := by
    rw [hlen]
    decide
  have h := repair_all_converges 25 (Or.inr (by decide)) 25 sampleSpanMeta (Or.inl rfl) hwf l0 hrun
    (sampleLost full) hfr hpend noNetwork 1 0 400 hfuel
  exact ⟨by decide, hwf, l0, full, hrun, hf, hfr, hpend, hfuel, hres, h.1, h.2.2⟩

/-! ### `GetNeighbours` -/

theorem fwd_shift (k : StrandClass) (o : Int) (t : Nat) (ho : 1 ≤ o) :
    fwd k (o + 5 * (t : Int)) = fwd k o + 5 * (t : Int) := by
  rw [fwd_eq k _ (by omega), fwd_eq k o ho]
  cases k <;> simp only [stepOf] <;> (try split_ifs) <;> omega

theorem bwd_shift (k : StrandClass) (o : Int) (t : Nat) (ho : 1 ≤ o) :
    bwd k (o + 5 * (t : Int)) = bwd k o + 5 * (t : Int) := by
  rw [bwd_eq k _ (by omega), bwd_eq k o ho]
  cases k <;> simp only [backStepOf] <;> (try split_ifs) <;> omega

theorem list_three {α : Type} (xs : List α) (dflt : α) (h : xs.length = 3) :
    xs = [0, 1, 2].map (fun k => xs.getD k dflt) := by
  match xs, h with
  | [_, _, _], _ => rfl

/-- The link that `iter` follows from a data block: for the data block at pointer `x`, the
class `k` and the position `y` of the forward neighbour (to the right) or of the backward
neighbour (to the left), when `y` is a position of the lattice. -/
theorem neighbour_step (n : Nat) (replaced : List Int) (l : Lattice)
    (hinv : LInv n (3 * n) replaced l.Blocks) (dir : Bool) (x : Nat) (db : Block)
    (hdb : l.Blocks[x]? = some db) (hp : db.IsParity = false) (k : Nat) (hk : k < 3)
    (y : Int)
    (hy : y = if dir then fwd (StrandClass.ofIdx k) ((x : Int) + 1)
      else bwd (StrandClass.ofIdx k) ((x : Int) + 1))
    (hy1 : 1 ≤ y) (hyn : y ≤ (n : Int)) :
    ∃ pp sb nb, (if dir then db.Right else db.Left)[k]? = some (some pp) ∧
      l.Blocks[pp]? = some sb ∧
      (if dir then sb.Right[0]? else sb.Left[0]?) = some (some (y - 1).toNat) ∧
      l.Blocks[(y - 1).toNat]? = some nb ∧ nb.IsParity = false ∧ nb.Position = y ∧
      nb.Left.length = 3 ∧ nb.Right.length = 3 := by
  obtain ⟨hxn, -, j, hj, hnext, hL, hR, hbl, hbr⟩ :=
    LInv_links n replaced l.Blocks hinv x db hdb hp k hk
  obtain ⟨nb, hnb, hnp, hnpos, hnL, hnR, -⟩ := hinv.2.1 (y - 1).toNat (by omega)
  have hcast : (((y - 1).toNat : Nat) : Int) + 1 = y := by omega
  rw [hcast] at hnpos
  cases dir with
  | true =>
    simp only [if_true] at hy ⊢
    have hnx : nextPos n (StrandClass.ofIdx k) ((x : Int) + 1) = y := by
      unfold nextPos
      rw [if_pos (by rw [← hy]; exact hyn), hy]
    refine ⟨_, _, nb, hR, hbr, ?_, hnb, hnp, hnpos, hnL, hnR⟩
    show [some (nextPos n (StrandClass.ofIdx k) ((x : Int) + 1) - 1).toNat][0]? = _
    rw [hnx]
    rfl
  | false =>
    simp only [Bool.false_eq_true, if_false] at hy ⊢
    have hx6 : 6 ≤ (x : Int) + 1 := by
      by_contra h
      have := bwd_nonpos (StrandClass.ofIdx k) ((x : Int) + 1) (by omega) (by omega)
      omega
    have hjy : (j : Int) + 1 = y := by
      have hg := fwd_gt (StrandClass.ofIdx k) ((j : Int) + 1) (by omega)
      unfold nextPos at hnext
      by_cases hf : fwd (StrandClass.ofIdx k) ((j : Int) + 1) ≤ (n : Int)
      · rw [if_pos hf] at hnext
        rw [hy, ← hnext, bwd_fwd _ _ (by omega)]
      · rw [if_neg hf] at hnext
        obtain ⟨-, -, -, -, hw5, -⟩ := wrapPos_spec (StrandClass.ofIdx k) ((j : Int) + 1)
          (by omega)
        omega
    have hjn : (y - 1).toNat = j := by omega
    refine ⟨_, _, nb, hL, hbl, ?_, hnb, hnp, hnpos, hnL, hnR⟩
    show [some j][0]? = _
    rw [hjn]
    rfl

/-- The state of the walk in the lattice is the state of the walk on the positions of the
first two columns, moved by `s` positions. -/
def StateShift (s : Nat) (st : List Nat × List Int) (stP : List Int × List Int) : Prop :=
  st.1 = stP.1.map (fun o => (o + (s : Int) - 1).toNat) ∧
  st.2 = stP.2.map (fun o => o + (s : Int))

/-- A deferred call in the lattice and on the positions: the same direction, and the list
scanned is the right or the left list of the data block at the position, moved by `s`. -/
def CallShift (s : Nat) (l : Lattice) (e : List (Option Nat) × Bool) (eP : Int × Bool) :
    Prop :=
  e.2 = eP.2 ∧ 1 ≤ eP.1 ∧ eP.1 ≤ 10 ∧
  ∃ nb, l.Blocks[(eP.1 + (s : Int) - 1).toNat]? = some nb ∧ nb.IsParity = false ∧
    nb.Left.length = 3 ∧ nb.Right.length = 3 ∧ e.1 = if e.2 then nb.Right else nb.Left

theorem scan_sim (n : Nat) (replaced : List Int) (l : Lattice)
    (hinv : LInv n (3 * n) replaced l.Blocks) (t : Nat) (hs : 5 * t + 10 ≤ n) (dir : Bool)
    (o : Int) (ho1 : 1 ≤ o) (ho10 : o ≤ 10) (db : Block)
    (hdb : l.Blocks[(o + ((5 * t : Nat) : Int) - 1).toNat]? = some db)
    (hp : db.IsParity = false) :
    ∀ (ks : List Nat), (∀ k ∈ ks, k < 3) →
      ∀ (stP : List Int × List Int) (defsP : List (Int × Bool)) (st : List Nat × List Int)
        (defs : List (List (Option Nat) × Bool))
        (rP : (List Int × List Int) × List (Int × Bool)),
        StateShift (5 * t) st stP → List.Forall₂ (CallShift (5 * t) l) defs defsP →
        scanW dir o ks stP defsP = some rP →
        ∃ r, iterScan l dir (ks.map (fun k => (if dir then db.Right else db.Left).getD k none))
            st defs = some r ∧
          StateShift (5 * t) r.1 rP.1 ∧ List.Forall₂ (CallShift (5 * t) l) r.2 rP.2
  | [], _, stP, defsP, st, defs, rP, hst, hdefs, hscan => by
    unfold scanW at hscan
    cases hscan
    exact ⟨(st, defs), rfl, hst, hdefs⟩
  | k :: ks, hks, stP, defsP, st, defs, rP, hst, hdefs, hscan => by
    have hk : k < 3 := hks k (List.mem_cons_self _ _)
    have hks' : ∀ k ∈ ks, k < 3 := fun k hk => hks k (List.mem_cons_of_mem _ hk)
    unfold scanW at hscan
    generalize hy0 : (if dir = true then fwd (StrandClass.ofIdx k) o
      else bwd (StrandClass.ofIdx k) o) = y0 at hscan
    by_cases hg : 0 < y0 ∧ y0 ≤ 10
    swap
    · rw [if_neg hg] at hscan
      cases hscan
    rw [if_pos hg] at hscan
    have hxc : (((o + ((5 * t : Nat) : Int) - 1).toNat : Nat) : Int) + 1 =
        o + 5 * (t : Int) := by
      push_cast
      omega
    have hy : y0 + ((5 * t : Nat) : Int) =
        if dir = true then
          fwd (StrandClass.ofIdx k) ((((o + ((5 * t : Nat) : Int) - 1).toNat : Nat) : Int) + 1)
        else
          bwd (StrandClass.ofIdx k)
            ((((o + ((5 * t : Nat) : Int) - 1).toNat : Nat) : Int) + 1) := by
      rw [hxc, ← hy0]
      cases dir with
      | true =>
        simp only [if_true]
        rw [fwd_shift _ _ _ ho1]
        push_cast
        rfl
      | false =>
        simp only [Bool.false_eq_true, if_false]
        rw [bwd_shift _ _ _ ho1]
        push_cast
        rfl
    obtain ⟨pp, sb, nb, h1, h2, h3, h4, h5, h6, h7, h8⟩ :=
      neighbour_step n replaced l hinv dir _ db hdb hp k hk (y0 + ((5 * t : Nat) : Int)) hy
        (by omega) (by push_cast; omega)
    have hsrc : (if dir = true then db.Right else db.Left).getD k none = some pp := by
      rw [List.getD_eq_getElem?_getD, h1]
      rfl
    have hmem : nb.Position ∈ st.2 ↔ y0 ∈ stP.2 := by
      rw [h6, hst.2, List.mem_map]
      constructor
      · rintro ⟨a, ha, hae⟩
        have : a = y0 := by omega
        rw [← this]
        exact ha
      · intro h
        exact ⟨y0, h, rfl⟩
    rw [List.map_cons, hsrc]
    unfold iterScan
    simp only [deref, h2, h3, h4]
    by_cases hin : y0 ∈ stP.2
    · rw [if_pos hin] at hscan
      rw [if_pos (hmem.mpr hin)]
      exact scan_sim n replaced l hinv t hs dir o ho1 ho10 db hdb hp ks hks' stP defsP st defs
        rP hst hdefs hscan
    · rw [if_neg hin] at hscan
      rw [if_neg (fun h => hin (hmem.mp h))]
      refine scan_sim n replaced l hinv t hs dir o ho1 ho10 db hdb hp ks hks' _ _ _ _ rP
        ?_ ?_ hscan
      · refine ⟨?_, ?_⟩
        · show st.1 ++ [_] = List.map _ (stP.1 ++ [y0])
          rw [List.map_append, hst.1]
          rfl
        · show nb.Position :: st.2 = List.map _ (y0 :: stP.2)
          rw [List.map_cons, hst.2, h6]
      · refine List.Forall₂.cons ⟨rfl, by omega, by omega, nb, h4, h5, h7, h8, ?_⟩ hdefs
        cases dir <;> rfl

theorem walk_sim (n : Nat) (replaced : List Int) (l : Lattice)
    (hinv : LInv n (3 * n) replaced l.Blocks) (t : Nat) (hs : 5 * t + 10 ≤ n) :
    ∀ (fuel : Nat) (stackP : List (Int × Bool)) (stack : List (List (Option Nat) × Bool))
      (stP : List Int × List Int) (st : List Nat × List Int) (rP : List Int × List Int),
      List.Forall₂ (CallShift (5 * t) l) stack stackP → StateShift (5 * t) st stP →
      walkW fuel stackP stP = some rP →
      ∃ r, iterStack l fuel stack st = some r ∧ StateShift (5 * t) r rP
  | fuel, [], stack, stP, st, rP, hstack, hst, hw => by
    cases hstack
    have h1 : walkW fuel [] stP = some stP := by cases fuel <;> rfl
    have h2 : iterStack l fuel [] st = some st := by cases fuel <;> rfl
    rw [h1] at hw
    cases hw
    exact ⟨st, h2, hst⟩
  | 0, _ :: _, _, _, _, _, _, _, hw => by
    cases hw
  | fuel + 1, (o, dir) :: restP, stack, stP, st, rP, hstack, hst, hw => by
    cases hstack with
    | cons he hrest =>
      rename_i e rest
      obtain ⟨src, d⟩ := e
      obtain ⟨hdir, ho1, ho10, nb, hnb, hnp, hL, hR, hsrc⟩ := he
      dsimp only at hdir ho1 ho10 hnb hsrc
      subst hdir
      unfold walkW at hw
      cases hsc : scanW d o [0, 1, 2] stP [] with
      | none =>
        rw [hsc] at hw
        cases hw
      | some rs =>
        obtain ⟨st1P, defsP⟩ := rs
        rw [hsc] at hw
        dsimp only at hw
        obtain ⟨r1, hr1, hst1, hdefs1⟩ := scan_sim n replaced l hinv t hs d o ho1 ho10 nb hnb
          hnp [0, 1, 2] (by decide) stP [] st [] (st1P, defsP) hst List.Forall₂.nil hsc
        have hlen : (if d = true then nb.Right else nb.Left).length = 3 := by
          cases d
          · exact hL
          · exact hR
        rw [← list_three _ none hlen] at hr1
        obtain ⟨r, hr, hrs⟩ := walk_sim n replaced l hinv t hs fuel (defsP ++ restP)
          (r1.2 ++ rest) st1P r1.1 rP (List.rel_append hdefs1 hrest) hst1 hw
        refine ⟨r, ?_, hrs⟩
        unfold iterStack
        rw [hsrc, hr1]
        exact hr

theorem walkW_mono : ∀ (fuel : Nat) (stack : List (Int × Bool)) (st r : List Int × List Int),
    walkW fuel stack st = some r → walkW (fuel + 1) stack st = some r
  | fuel, [], st, r, h => by
    have h1 : walkW fuel [] st = some st := by cases fuel <;> rfl
    rw [h1] at h
    rw [← h]
    rfl
  | 0, _ :: _, _, _, h => by cases h
  | fuel + 1, (o, dir) :: rest, st, r, h => by
    unfold walkW at h ⊢
    cases hsc : scanW dir o [0, 1, 2] st [] with
    | none =>
      rw [hsc] at h
      cases h
    | some rs =>
      rw [hsc] at h
      exact walkW_mono fuel _ _ r h

theorem walkW_ge (f : Nat) (stack : List (Int × Bool)) (st r : List Int × List Int)
    (h : walkW f stack st = some r) : ∀ fuel, f ≤ fuel → walkW fuel stack st = some r := by
  intro fuel hle
  induction fuel with
  | zero =>
    have : f = 0 := by omega
    rw [← this]
    exact h
  | succ m ih =>
    by_cases hm : f ≤ m
    · exact walkW_mono m stack st r (ih hm)
    · have : f = m + 1 := by omega
      rw [← this]
      exact h

/-- The walk on the first two columns, from each position of the first column to the right
and from each position of the second column to the left, with ten calls: it returns the
positions 1 to 10, each once. -/
theorem walkW_base :
    (∀ o ∈ ([1, 2, 3, 4, 5] : List Int),
      (walkW 10 [(o, true)] ([o], [o])).map
        (fun r => r.1.insertionSort (fun a b => a ≤ b)) =
        some [1, 2, 3, 4, 5, 6, 7, 8, 9, 10]) ∧
    (∀ o ∈ ([6, 7, 8, 9, 10] : List Int),
      (walkW 10 [(o, false)] ([o], [o])).map
        (fun r => r.1.insertionSort (fun a b => a ≤ b)) =
        some [1, 2, 3, 4, 5, 6, 7, 8, 9, 10]) := by
  decide

/-- `GetNeighbours` inside a window of two columns that starts after `5 * t` positions: from
the position `o + 5 * t` with `o` in the first column to the right, or with `o` in the second
column to the left. -/
theorem GetNeighbours_window (n : Nat) (replaced : List Int) (l : Lattice)
    (hinv : LInv n (3 * n) replaced l.Blocks) (t : Nat) (hs : 5 * t + 10 ≤ n) (dir : Bool)
    (o : Int) (ho : if dir = true then 1 ≤ o ∧ o ≤ 5 else 6 ≤ o ∧ o ≤ 10)
    (fuel : Nat) (hfuel : 10 ≤ fuel) :
    ∃ ps, GetNeighbours fuel l (o + ((5 * t : Nat) : Int) - 1).toNat dir = some ps ∧
      ps.Perm ((List.range 10).map (fun a => 5 * t + a)) ∧
      ∀ p ∈ ps, ∃ b, l.Blocks[p]? = some b ∧ b.IsParity = false ∧
        b.Position = (p : Int) + 1 := by
  have ho' : 1 ≤ o ∧ o ≤ 10 := by
    cases dir
    · simp only [Bool.false_eq_true, if_false] at ho
      omega
    · simp only [if_true] at ho
      omega
  have hbase : (walkW 10 [(o, dir)] ([o], [o])).map
      (fun r => r.1.insertionSort (fun a b => a ≤ b)) =
      some [1, 2, 3, 4, 5, 6, 7, 8, 9, 10] := by
    cases dir
    · simp only [Bool.false_eq_true, if_false] at ho
      have hm : o ∈ ([6, 7, 8, 9, 10] : List Int) := by
        have : o = 6 ∨ o = 7 ∨ o = 8 ∨ o = 9 ∨ o = 10 := by omega
        rcases this with h | h | h | h | h <;> subst h <;> decide
      exact walkW_base.2 o hm
    · simp only [if_true] at ho
      have hm : o ∈ ([1, 2, 3, 4, 5] : List Int) := by
        have : o = 1 ∨ o = 2 ∨ o = 3 ∨ o = 4 ∨ o = 5 := by omega
        rcases this with h | h | h | h | h <;> subst h <;> decide
      exact walkW_base.1 o hm
  cases hw : walkW 10 [(o, dir)] ([o], [o]) with
  | none =>
    rw [hw] at hbase
    cases hbase
  | some rP =>
    rw [hw] at hbase
    have hsort : rP.1.insertionSort (fun a b => a ≤ b) = [1, 2, 3, 4, 5, 6, 7, 8, 9, 10] :=
      Option.some.inj hbase
    have hperm : rP.1.Perm [1, 2, 3, 4, 5, 6, 7, 8, 9, 10] := by
      rw [← hsort]
      exact (List.perm_insertionSort _ _).symm
    have hwf := walkW_ge 10 _ _ _ hw fuel hfuel
    obtain ⟨db, hdb, hp, hpos, hL, hR, -⟩ :=
      hinv.2.1 (o + ((5 * t : Nat) : Int) - 1).toNat (by omega)
    obtain ⟨r, hr, hrs⟩ := walk_sim n replaced l hinv t hs fuel [(o, dir)]
      [(if dir = true then db.Right else db.Left, dir)] ([o], [o])
      ([(o + ((5 * t : Nat) : Int) - 1).toNat], [db.Position]) rP
      (List.Forall₂.cons ⟨rfl, ho'.1, ho'.2, db, hdb, hp, hL, hR, rfl⟩ List.Forall₂.nil)
      ⟨rfl, by
        show [db.Position] = [o + ((5 * t : Nat) : Int)]
        rw [hpos]
        congr 1
        omega⟩ hwf
    refine ⟨r.1, ?_, ?_, ?_⟩
    · unfold GetNeighbours
      rw [hdb]
      dsimp only
      rw [hr]
    · rw [hrs.1]
      have hmap : (List.range 10).map (fun a => 5 * t + a) =
          ([1, 2, 3, 4, 5, 6, 7, 8, 9, 10] : List Int).map
            (fun o => (o + ((5 * t : Nat) : Int) - 1).toNat) := by
        have h10 : ([1, 2, 3, 4, 5, 6, 7, 8, 9, 10] : List Int) =
            (List.range 10).map (fun a : Nat => (a : Int) + 1) := by decide
        rw [h10, List.map_map]
        apply List.map_congr_left
        intro a _
        show 5 * t + a = ((a : Int) + 1 + ((5 * t : Nat) : Int) - 1).toNat
        omega
      rw [hmap]
      exact hperm.map _
    · intro p hpm
      rw [hrs.1, List.mem_map] at hpm
      obtain ⟨a, ha, rfl⟩ := hpm
      have ha' : a ∈ ([1, 2, 3, 4, 5, 6, 7, 8, 9, 10] : List Int) := hperm.subset ha
      have har : 1 ≤ a ∧ a ≤ 10 := by
        simp only [List.mem_cons, List.mem_singleton, List.not_mem_nil, or_false] at ha'
        omega
      obtain ⟨b, hb, hbp, hbpos, -⟩ :=
        hinv.2.1 (a + ((5 * t : Nat) : Int) - 1).toNat (by omega)
      exact ⟨b, hb, hbp, hbpos⟩

/-- C39: `GetNeighbours` returns two adjacent lattice columns. In the (3, 5, 5) lattice that
`RunInit` builds for `n` data blocks, for the data block at position `i` (pointer `i - 1`) in
column `c = ceil(i / 5)`, with at least ten calls of `iter` allowed: when `5 (c + 1) <= n`,
`GetNeighbours(block, true)` returns the ten data blocks at the positions
`5 (c - 1) + 1 .. 5 (c + 1)` (the pointers `5 (c - 1) .. 5 (c - 1) + 9`), each once; and
when `c >= 2` and `5 c <= n`, `GetNeighbours(block, false)` returns the ten data blocks at
the positions `5 (c - 2) + 1 .. 5 c`, each once. -/
theorem get_neighbours_columns (n : Nat) (m : Int) (sizeList : List ChunkMetadata)
    (hm : m = (n : Int) ∨ (m = 0 ∧ sizeList.length = n)) (hwf : MetaWF n sizeList)
    (fuel : Nat) (hfuel : 10 ≤ fuel) :
    ∃ l', RunInit (NewLattice 3 5 5 m) sizeList = some l' ∧
      ∀ i : Nat, 1 ≤ i → i ≤ n →
        (5 * ((i + 4) / 5 + 1) ≤ n →
          ∃ ps, GetNeighbours fuel l' (i - 1) true = some ps ∧
            ps.Perm ((List.range 10).map (fun a => 5 * ((i + 4) / 5 - 1) + a)) ∧
            ∀ p ∈ ps, ∃ b, l'.Blocks[p]? = some b ∧ b.IsParity = false ∧
              b.Position = (p : Int) + 1) ∧
        (2 ≤ (i + 4) / 5 → 5 * ((i + 4) / 5) ≤ n →
          ∃ ps, GetNeighbours fuel l' (i - 1) false = some ps ∧
            ps.Perm ((List.range 10).map (fun a => 5 * ((i + 4) / 5 - 2) + a)) ∧
            ∀ p ∈ ps, ∃ b, l'.Blocks[p]? = some b ∧ b.IsParity = false ∧
              b.Position = (p : Int) + 1) := by
  obtain ⟨l', replaced, hrun, hinv, -, -, -⟩ := RunInit_spec n m sizeList hm hwf
  refine ⟨l', hrun, ?_⟩
  intro i hi1 hin
  constructor
  · intro hc
    have h := GetNeighbours_window n replaced l' hinv ((i + 4) / 5 - 1) (by omega) true
      ((i : Int) - ((5 * ((i + 4) / 5 - 1) : Nat) : Int))
      (by simp only [if_true]; omega) fuel hfuel
    have hx : ((i : Int) - ((5 * ((i + 4) / 5 - 1) : Nat) : Int) +
        ((5 * ((i + 4) / 5 - 1) : Nat) : Int) - 1).toNat = i - 1 := by omega
    rw [hx] at h
    exact h
  · intro hc2 hc
    have h := GetNeighbours_window n replaced l' hinv ((i + 4) / 5 - 2) (by omega) false
      ((i : Int) - ((5 * ((i + 4) / 5 - 2) : Nat) : Int))
      (by simp only [Bool.false_eq_true, if_false]; omega) fuel hfuel
    have hx : ((i : Int) - ((5 * ((i + 4) / 5 - 2) : Nat) : Int) +
        ((5 * ((i + 4) / 5 - 2) : Nat) : Int) - 1).toNat = i - 1 := by omega
    rw [hx] at h
    exact h

theorem get_neighbours_columns_witness :
    MetaWF 259 [] ∧ 10 ≤ 10 ∧
    ∃ l', RunInit (NewLattice 3 5 5 259) [] = some l' ∧
      (∃ ps, GetNeighbours 10 l' (128 - 1) true = some ps ∧
        ps.Perm [125, 126, 127, 128, 129, 130, 131, 132, 133, 134] ∧
        ∀ p ∈ ps, ∃ b, l'.Blocks[p]? = some b ∧ b.IsParity = false ∧
          b.Position = (p : Int) + 1) ∧
      (∃ ps, GetNeighbours 10 l' (128 - 1) false = some ps ∧
        ps.Perm [120, 121, 122, 123, 124, 125, 126, 127, 128, 129] ∧
        ∀ p ∈ ps, ∃ b, l'.Blocks[p]? = some b ∧ b.IsParity = false ∧
          b.Position = (p : Int) + 1) :=
  have h : MetaWF 259 [] := by
    refine ⟨by decide, ?_, Or.inr ?_⟩
    · intro s hs; cases hs
    · intro s hs; cases hs
  match get_neighbours_columns 259 259 [] (Or.inl rfl) h 10 (by decide) with
  | ⟨l', hrun, hall⟩ =>
    ⟨h, by decide, l', hrun, (hall 128 (by decide) (by decide)).1 (by decide),
      (hall 128 (by decide) (by decide)).2 (by decide) (by decide)⟩

end Snarl
